import Mathlib

/-!
# Range algebra, ESI ranges and RFC 5052 blocking structure of `fec`

A shallow embedding of `fec/util.go` (ranges, range lists, ESI ranges) and
`fec/blocking.go` (blocking structure), followed by the verification of the
properties the specification states about them.

Conventions of the embedding.

* A Go `for` loop over indices `i`, `j` that only move forward is a recursive
  function over the remaining suffixes `rl[i:]`, `ll[j:]`; the loop counter of
  the model (`fuel`) bounds the number of passes, and a loop that runs out of it
  yields `none`, as does a run-time panic.
* `Range` bounds and counts are `int64` in the source.  The model keeps them in
  `Int` and reduces the result of every addition and subtraction by `wrap64`,
  as the machine does: `End + 1` at `End = 2^63 - 1` is `-2^63`.  A property
  stated for all range lists assumes that their bounds are `int64` values
  (`Int64`), which the type of the source guarantees.
* The unsigned fields of the blocking structure are `Nat` with every operation
  reduced modulo its width, exactly as Go does.
* `sort.Slice` is modelled by a stable insertion sort.  Wherever a property is
  proved for all inputs, the list handed to the sort has strictly increasing
  `Start`s (`Canon`, `Mono`), or is a rearrangement of such a list, or holds
  equal `Start`s only in equal ranges (`Dup`, the list `InplaceUnion` builds), so
  the sorted order is forced.  The two exceptions do not depend on the order:
  the two orders of `Union` hand the same list to the sort, and that
  `InplaceUnion` returns holds for any sort that returns.
* The conversions between byte ranges and ESI ranges mix `int64` bounds with
  `uint64` offsets.  There every `int64` expression is reduced by `wrap64`, the
  conversions `int64(x)` and `uint64(x)` are `i64` and `toU64`, and `/`, `%` on
  `int64` are `Int.tdiv`, `Int.tmod`.
* The Go map `ESIRange` is the list of its entries in the order of their first
  write, no key twice.  `for sbn, r := range er` visits the entries in some
  order the language does not fix: the model visits them in list order, and a
  result that is read off a map is proved for every rearrangement of its
  entries.
* A Go `string` or `[]byte` is the list of its bytes, `List Char`; the texts of
  the grammars are ASCII, and a `nil` slice and an empty one are the same list.
  The calls into the standard library (`strconv.ParseInt`, `strconv.ParseUint`,
  the verb `%d`, `strings.Split`, `SplitN`, `Join`, `ReplaceAll`,
  `url.ParseQuery`, `url.QueryUnescape`, the `bufio.Scanner` with its token
  limit of 64 KiB) are functions written after their documented behaviour, and
  each of the four regular expressions of `util.go` is a function that finds
  its leftmost match with greedy repetition.  A parser returns `Parsed`, a
  value or the returned `error`.
-/

namespace Fec

/-! ## The type `int64` -/

/-- The value an `int64` holds when the exact result of an expression is `x`:
`x` modulo `2^64`, read as a signed number. Addition, subtraction and
multiplication commute with the reduction, so an expression of these is reduced
once. -/
def wrap64 (x : Int) : Int := (x + 2 ^ 63) % 2 ^ 64 - 2 ^ 63

/-- Conversion `int64(x)` of a `uint64`. -/
def i64 (x : Nat) : Int := wrap64 x

/-- Conversion `uint64(x)` of an `int64`. -/
def toU64 (x : Int) : Nat := (x % 2 ^ 64).toNat

/-! ## Range (`util.go`, lines 64-103, 160-162) -/

/-- A closed interval of integers, `type Range struct { Start, End int64 }`. The
two fields hold `int64` values, numbers from `-2^63` to `2^63 - 1`. -/
structure Range where
  Start : Int
  End : Int
deriving DecidableEq

/-- The Go type `RangeList []Range`. -/
abbrev RangeList := List Range

namespace Range

/-- `func (r Range) Contains(l Range) bool`. -/
def Contains (r l : Range) : Bool :=
  decide (r.Start ≤ l.Start) && decide (l.End ≤ r.End)

/-- `func (r Range) OverlapsFront(l Range) bool`. -/
def OverlapsFront (r l : Range) : Bool :=
  decide (r.Start ≤ l.Start) && decide (wrap64 (r.End + 1) ≥ l.Start)

/-- `func (r Range) Union(l Range) Range`. -/
def Union (r l : Range) : Range :=
  ⟨min r.Start l.Start, max r.End l.End⟩

/-- `func (r Range) Intersection(l Range) *Range`; `nil` is `none`. -/
def Intersection (r l : Range) : Option Range :=
  if r.Start ≤ l.Start ∧ r.End ≥ l.Start then
    some ⟨l.Start, min l.End r.End⟩
  else if l.Start ≤ r.Start ∧ l.End ≥ r.Start then
    some ⟨r.Start, min l.End r.End⟩
  else none

/-- `func (r Range) Count() int64`. -/
def Count (r : Range) : Int := wrap64 (r.End - r.Start + 1)

end Range

/-! ## flatten (`util.go`, lines 544-556) -/

/-- Insertion of one range into a list sorted by `Start`, before the first
entry whose `Start` is not smaller. -/
def insertByStart (r : Range) : RangeList → RangeList
  | [] => [r]
  | x :: xs => if r.Start ≤ x.Start then r :: x :: xs else x :: insertByStart r xs

/-- The call `sort.Slice(rl, func(i, j) { rl[i].Start < rl[j].Start })`. -/
def sortByStart : RangeList → RangeList
  | [] => []
  | x :: xs => insertByStart x (sortByStart xs)

/-- The loop `for i := len(rl)-1; i > 0; i--` of `flatten`: when pass `i` runs,
`rl[i:]` is the already processed suffix, so the pass compares `rl[i-1]` with
the head of the processed suffix and either merges that head into `rl[i-1]`
(deleting it) or leaves both. -/
def mergeRight : RangeList → RangeList
  | [] => []
  | x :: rest =>
    match mergeRight rest with
    | [] => [x]
    | y :: ys =>
      if y.Start ≤ wrap64 (x.End + 1) then ⟨x.Start, max y.End x.End⟩ :: ys
      else x :: y :: ys

/-- `func flatten(rl RangeList) RangeList`. -/
def flatten (rl : RangeList) : RangeList := mergeRight (sortByStart rl)

/-! ## sort.Search -/

/-- The loop of `sort.Search`: `for i < j { h := (i+j)/2; if !f(h) { i = h+1 }
else { j = h } }`. -/
def searchLoop (f : Nat → Bool) : Nat → Nat → Nat → Nat
  | 0, i, _ => i
  | fuel + 1, i, j =>
    if i < j then
      let h := (i + j) / 2
      if !f h then searchLoop f fuel (h + 1) j else searchLoop f fuel i h
    else i

/-- `sort.Search(n, f)`: binary search for the least index in `[0, n)` at which
`f` holds, `n` when there is none. -/
def sortSearch (n : Nat) (f : Nat → Bool) : Nat := searchLoop f n 0 n

/-- The predicate both searches of `util.go` use,
`func(i int) bool { return rl[i].End+1 >= s }`. -/
def endReaches (rl : RangeList) (s : Int) (i : Nat) : Bool :=
  match rl.get? i with
  | some r => decide (wrap64 (r.End + 1) ≥ s)
  | none => false

namespace RangeList

/-- `func (rl RangeList) Count() int64`: the loop `ret += r.Count()` from
`ret = 0`. -/
def Count (rl : RangeList) : Int := rl.foldl (fun ret r => wrap64 (ret + r.Count)) 0

/-! ## Subtract (`util.go`, lines 273-324) -/

/-- The final `if r1.End >= r1.Start { out = append(out, r1) }` of a pass. -/
def appendNonEmpty (out : RangeList) (r1 : Range) : RangeList :=
  if r1.End ≥ r1.Start then out ++ [r1] else out

mutual

/-- `func (rl RangeList) Subtract(ll RangeList) RangeList`, with the pass budget
made explicit. -/
def SubtractFuel : Nat → RangeList → RangeList → Option RangeList
  | 0, _, _ => none
  | fuel + 1, rl, ll =>
    if ll.isEmpty then some rl
    else (subtractLoop fuel rl ll []).map flatten

/-- The `for` loop of `Subtract`; `rs = rl[i:]`, `ls = ll[j:]`. -/
def subtractLoop : Nat → RangeList → RangeList → RangeList → Option RangeList
  | 0, _, _, _ => none
  | _ + 1, [], _, out => some out
  | fuel + 1, r :: rs, [], out => subtractLoop fuel rs [] (out ++ [r])
  | fuel + 1, r :: rs, l :: ls, out =>
    if r.Contains l then
      let out1 :=
        if wrap64 (l.Start - 1) ≥ r.Start then out ++ [⟨r.Start, wrap64 (l.Start - 1)⟩]
        else out
      if r.End ≥ wrap64 (l.End + 1) then
        match SubtractFuel fuel [⟨wrap64 (l.End + 1), r.End⟩] ls with
        | none => none
        | some sub => subtractLoop fuel rs ls (out1 ++ sub)
      else subtractLoop fuel rs ls out1
    else if l.Contains r then
      subtractLoop fuel rs (l :: ls) (appendNonEmpty out ⟨r.Start, wrap64 (l.Start - 1)⟩)
    else if r.OverlapsFront l then
      subtractLoop fuel rs (l :: ls) (appendNonEmpty out ⟨r.Start, wrap64 (l.Start - 1)⟩)
    else if l.OverlapsFront r then
      subtractLoop fuel rs (l :: ls) (appendNonEmpty out ⟨wrap64 (l.End + 1), r.End⟩)
    else if r.End < l.Start then
      subtractLoop fuel rs (l :: ls) (appendNonEmpty out r)
    else if r.Start > l.End then
      subtractLoop fuel (r :: rs) ls out
    else
      subtractLoop fuel (r :: rs) (l :: ls)
        (appendNonEmpty out ⟨r.Start, wrap64 (l.Start - 1)⟩)

end

/-- `rl.Subtract(ll)`. Every pass of the loop and every nested call uses one unit
of the budget, and `2 * (len(rl) + len(ll)) + 2` units are enough for all of
them. -/
def Subtract (rl ll : RangeList) : Option RangeList :=
  SubtractFuel (2 * (rl.length + ll.length) + 2) rl ll

/-! ## Intersection (`util.go`, lines 326-371) -/

/-- The `for` loop of `Intersection`; `rs = rl[i:]`, `ls = ll[j:]`, and `out` is
flattened at the end of every pass. -/
def intersectionLoop : Nat → RangeList → RangeList → RangeList → Option RangeList
  | 0, _, _, _ => none
  | _ + 1, [], _, out => some out
  | _ + 1, _ :: _, [], out => some out
  | fuel + 1, r :: rs, l :: ls, out =>
    if r.Contains l then
      intersectionLoop fuel (r :: rs) ls (flatten (out ++ [l]))
    else if l.Contains r then
      intersectionLoop fuel rs (l :: ls) (flatten (out ++ [r]))
    else if r.OverlapsFront l then
      match r.Intersection l with
      | some x => intersectionLoop fuel rs (l :: ls) (flatten (out ++ [x]))
      | none => intersectionLoop fuel rs (l :: ls) (flatten out)
    else if l.OverlapsFront r then
      match r.Intersection l with
      | some x => intersectionLoop fuel (r :: rs) ls (flatten (out ++ [x]))
      | none => intersectionLoop fuel (r :: rs) ls (flatten out)
    else if r.End < l.Start then
      intersectionLoop fuel rs (l :: ls) (flatten out)
    else
      intersectionLoop fuel (r :: rs) ls (flatten out)

/-- The index at which the sweep of `Intersection` starts: the result of the
binary search, stepped back by one when it is `len(rl)`. -/
def intersectionStart (rl : RangeList) (s : Int) : Nat :=
  let i := sortSearch rl.length (endReaches rl s)
  if i = rl.length then i - 1 else i

/-- `func (rl RangeList) Intersection(ll RangeList) RangeList`. A pass advances
`i` or `j`, so `len(rl) + len(ll) + 1` passes are enough. -/
def Intersection (rl ll : RangeList) : Option RangeList :=
  match ll with
  | [] => some []
  | l0 :: _ =>
    if rl.isEmpty then some []
    else
      intersectionLoop (rl.length + ll.length + 1)
        (rl.drop (intersectionStart rl l0.Start)) ll []

/-! ## Union (`util.go`, lines 439-509) -/

/-- The tail of a pass of `Union`: merge `toAdd` into the last entry of `out`
when that entry overlaps its front, else append it when its `End` is not
negative. -/
def absorb (out : RangeList) (toAdd : Range) : RangeList :=
  match out.getLast? with
  | some last =>
    if last.OverlapsFront toAdd then out.dropLast ++ [last.Union toAdd]
    else if toAdd.End ≥ 0 then out ++ [toAdd] else out
  | none => if toAdd.End ≥ 0 then out ++ [toAdd] else out

/-- The `for` loop of `Union`; `rs = rl[i:]`, `ls = ll[j:]`. When `i == len(rl)`
the entry `rl[i-1]` is the last one of `rl` (`rlLast`), and likewise `llLast`.
The result is `out` as it stands at the `break`. -/
def unionLoop (rlLast llLast : Range) :
    Nat → RangeList → RangeList → RangeList → Range → Option RangeList
  | 0, _, _, _, _ => none
  | _ + 1, [], [], out, _ => some out
  | _ + 1, [], l :: ls, out, _ =>
    if rlLast.End ≤ l.End ∨ rlLast.Count = 0 then some (out ++ l :: ls) else some out
  | _ + 1, r :: rs, [], out, _ =>
    if llLast.End ≤ r.End ∨ llLast.Count = 0 then some (out ++ r :: rs) else some out
  | fuel + 1, r :: rs, l :: ls, out, toAdd =>
    if r.Start > r.End then
      unionLoop rlLast llLast fuel rs (l :: ls) (absorb out toAdd) toAdd
    else if l.Start > l.End then
      unionLoop rlLast llLast fuel (r :: rs) ls (absorb out toAdd) toAdd
    else if r.Contains l then
      unionLoop rlLast llLast fuel (r :: rs) ls (absorb out toAdd) toAdd
    else if l.Contains r then
      unionLoop rlLast llLast fuel rs (l :: ls) (absorb out toAdd) toAdd
    else if r.OverlapsFront l || l.OverlapsFront r then
      unionLoop rlLast llLast fuel rs ls (absorb out (r.Union l)) (r.Union l)
    else if r.End ≤ l.Start then
      unionLoop rlLast llLast fuel rs (l :: ls) (absorb out r) r
    else
      unionLoop rlLast llLast fuel (r :: rs) ls (absorb out l) l

/-- `func (rl RangeList) Union(ll RangeList) RangeList`. A pass advances `i` or
`j`, so `len(rl) + len(ll) + 1` passes are enough. -/
def Union (rl ll : RangeList) : Option RangeList :=
  match ll.getLast?, rl.getLast? with
  | none, _ => some rl
  | some _, none => some ll
  | some llLast, some rlLast =>
    (unionLoop rlLast llLast (rl.length + ll.length + 1) rl ll [] ⟨0, -1⟩).map flatten

/-! ## InplaceUnion (`util.go`, lines 372-437) -/

/-- The first half of a pass of `InplaceUnion`, the `if j < len(ll) ... else
i++`. The state is the list `*rl`, the index `i`, the suffix `ll[j:]` and the
counter `n`; reading `(*rl)[i]` out of bounds is `none`. -/
def inplaceStep (rl : RangeList) (i : Nat) (ls : RangeList) (n : Nat) :
    Option (RangeList × Nat × RangeList × Nat) :=
  match ls with
  | [] => some (rl, i + 1, [], n)
  | l :: ls' =>
    match rl.get? i with
    | none => none
    | some r =>
      if r.Contains l then some (rl, i, ls', n)
      else if r.OverlapsFront l then some (rl.set i ⟨r.Start, l.End⟩, i, ls', n)
      else if l.Contains r then some (rl.set i ⟨l.Start, l.End⟩, i + 1, l :: ls', n)
      else if l.OverlapsFront r then some (rl.set i ⟨l.Start, r.End⟩, i, ls', n)
      else if r.End ≤ l.Start then some (rl, i + 1, l :: ls', n)
      else if l.End ≤ r.Start then
        some ((rl.take (i + 1) ++ rl.drop i).set i l, i + 1, ls', n + 1)
      else some (rl, i, l :: ls', n)

/-- The second half of a pass: when `(*rl)[i]` touches `(*rl)[i-1]`, merge it
into its predecessor, delete it and step `i` back. -/
def inplaceMerge (rl : RangeList) (i : Nat) : RangeList × Nat :=
  if rl.length > 1 ∧ i > 0 ∧ i < rl.length then
    match rl.get? i, rl.get? (i - 1) with
    | some cur, some prev =>
      if cur.Start ≤ wrap64 (prev.End + 1) then
        let rl1 := if cur.End > prev.End then rl.set (i - 1) ⟨prev.Start, cur.End⟩ else rl
        (rl1.take i ++ rl1.drop (i + 1), i - 1)
      else (rl, i)
    | _, _ => (rl, i)
  else (rl, i)

/-- The block under `if i == len(*rl)`, which ends the loop: the rest of `ll` is
appended when its first entry ends at or after the last entry of `*rl`. -/
def inplaceFinish (rl : RangeList) (ls : RangeList) (n : Nat) : Option (RangeList × Nat) :=
  match ls with
  | [] => some (rl, n)
  | l :: ls' =>
    match rl.getLast? with
    | none => none
    | some last =>
      if last.End ≤ l.End then
        if l.Start ≤ wrap64 (last.End + 1) then
          some ((rl.dropLast ++ [⟨last.Start, l.End⟩]) ++ ls', n + ls'.length)
        else some (rl ++ l :: ls', n + (l :: ls').length)
      else some (rl, n)

/-- The `for` loop of `InplaceUnion`. -/
def inplaceUnionLoop : Nat → RangeList → Nat → RangeList → Nat → Option (RangeList × Nat)
  | 0, _, _, _, _ => none
  | fuel + 1, rl, i, ls, n =>
    match inplaceStep rl i ls n with
    | none => none
    | some (rl1, i1, ls1, n1) =>
      let (rl2, i2) := inplaceMerge rl1 i1
      if i2 = rl2.length then inplaceFinish rl2 ls1 n1
      else inplaceUnionLoop fuel rl2 i2 ls1 n1

/-- `func (rl *RangeList) InplaceUnion(ll RangeList) int`: the new value of `*rl`
and the returned count. The pass budget is `2 * (len(rl) + len(ll)) + 2`. -/
def InplaceUnion (rl ll : RangeList) : Option (RangeList × Nat) :=
  match ll with
  | [] => some (rl, 0)
  | l0 :: _ =>
    if rl.isEmpty then some (ll, ll.length)
    else
      let i := sortSearch rl.length (endReaches rl l0.Start)
      let i := if i > 0 then i - 1 else i
      match inplaceUnionLoop (2 * (rl.length + ll.length) + 2) rl i ll 0 with
      | none => none
      | some (rl1, n) => some (flatten rl1, n)

end RangeList

/-! ## Blocking structure (`blocking.go`) -/

/-- Conversion to `uint32`. -/
def u32 (x : Nat) : Nat := x % 2 ^ 32

/-- Conversion to `uint64`. -/
def u64 (x : Nat) : Nat := x % 2 ^ 64

/-- Addition of two `uint32`. -/
def add32 (a b : Nat) : Nat := (a + b) % 2 ^ 32

/-- Subtraction of two `uint32`, wrapping below zero. -/
def sub32 (a b : Nat) : Nat := (a + (2 ^ 32 - b % 2 ^ 32)) % 2 ^ 32

/-- Addition of two `uint64`. -/
def add64 (a b : Nat) : Nat := (a + b) % 2 ^ 64

/-- Subtraction of two `uint64`, wrapping below zero. -/
def sub64 (a b : Nat) : Nat := (a + (2 ^ 64 - b % 2 ^ 64)) % 2 ^ 64

/-- Multiplication of two `uint64`. -/
def mul64 (a b : Nat) : Nat := (a * b) % 2 ^ 64

/-- The Go type `BlockingStructure`; the atomic fields are plain values, the
model being sequential. `N`, `I`, `A`, `ASmall`, `MaxSbLen`, `MaxNumEs`,
`NumEsPerGroup` are `uint32`, `ESLen` is `uint16`, `T` and `TransferLen` are
`uint64`. -/
structure BlockingStructure where
  N : Nat
  I : Nat
  A : Nat
  ASmall : Nat
  ESLen : Nat
  T : Nat
  TransferLen : Nat
  MaxSbLen : Nat
  MaxNumEs : Nat
  NumEsPerGroup : Nat
deriving DecidableEq

/-- The errors `UpdateBlockingStructure5052` and `recompute` build with
`fmt.Errorf`, one constructor per message. -/
inductive BSError where
  | nilBlockingStructure
  | lengthZero
  | maxSourceBlockLenZero
  | encodingSymbolLenZero
  | numEsPerGroupZero
  | numEsPerGroupTooLarge (g b : Nat)
  | transferLenZero
deriving DecidableEq

/-- How a call ends: with a value, with a returned `error`, or with a run-time
panic (an integer division by zero). -/
inductive Outcome (α : Type) where
  | ok (a : α)
  | error (e : BSError)
  | panic
deriving DecidableEq

namespace BlockingStructure

/-- The zero value `BlockingStructure{}`. -/
def zero : BlockingStructure := ⟨0, 0, 0, 0, 0, 0, 0, 0, 0, 0⟩

/-- `func (bs *BlockingStructure) recompute() error`, returning the structure as
the call leaves it. -/
def recompute (bs : BlockingStructure) : Outcome BlockingStructure :=
  if bs.MaxSbLen = 0 then .error .maxSourceBlockLenZero
  else if bs.ESLen = 0 then .error .encodingSymbolLenZero
  else if bs.NumEsPerGroup = 0 then .error .numEsPerGroupZero
  else if bs.NumEsPerGroup > bs.MaxSbLen then
    .error (.numEsPerGroupTooLarge bs.NumEsPerGroup bs.MaxSbLen)
  else
    let T := sub64 (add64 bs.TransferLen bs.ESLen) 1 / bs.ESLen
    let N := u32 (sub64 (add64 T bs.MaxSbLen) 1 / bs.MaxSbLen)
    if bs.TransferLen = 0 then .error .transferLenZero
    else if bs.ESLen > 1 then
      if N = 0 then .panic
      else
        let ASmall := u32 (T / N)
        let I := u32 (T % N)
        let A := if I > 0 then add32 ASmall 1 else ASmall
        .ok { bs with T := T, N := N, A := A, ASmall := ASmall, I := I }
    else
      .ok { bs with T := T, N := N, A := bs.MaxSbLen, ASmall := bs.MaxSbLen }

/-- `func UpdateBlockingStructure5052(bs, transferObjLen, maxSourceBlockLen,
encodingSymbolLen, numEsPerGroup, stream) error`; a `nil` pointer is `none`. -/
def UpdateBlockingStructure5052 (bs : Option BlockingStructure)
    (transferObjLen maxSourceBlockLen encodingSymbolLen numEsPerGroup : Nat)
    (stream : Bool) : Outcome BlockingStructure :=
  match bs with
  | none => .error .nilBlockingStructure
  | some bs =>
    if transferObjLen = 0 then .error .lengthZero
    else
      let bs := { bs with ESLen := encodingSymbolLen, MaxSbLen := maxSourceBlockLen,
                          NumEsPerGroup := numEsPerGroup }
      let bs := if bs.MaxNumEs = 0 then { bs with MaxNumEs := maxSourceBlockLen } else bs
      let bs := { bs with ASmall := maxSourceBlockLen, A := maxSourceBlockLen,
                          TransferLen := transferObjLen }
      if !stream then recompute bs
      else if bs.ESLen = 0 then .panic
      else
        let T := sub64 (add64 bs.TransferLen bs.ESLen) 1 / bs.ESLen
        if bs.MaxSbLen = 0 then .panic
        else
          let N := u32 (sub64 (add64 T bs.MaxSbLen) 1 / bs.MaxSbLen)
          .ok { bs with T := T, N := N, I := N }

/-- `func NewBlockingStructure5052(transferObjLen, maxSourceBlockLen,
encodingSymbolLen, numEsPerGroup, stream) (*BlockingStructure, error)`. -/
def NewBlockingStructure5052
    (transferObjLen maxSourceBlockLen encodingSymbolLen numEsPerGroup : Nat)
    (stream : Bool) : Outcome BlockingStructure :=
  UpdateBlockingStructure5052 (some zero) transferObjLen maxSourceBlockLen
    encodingSymbolLen numEsPerGroup stream

/-- `func (bs *BlockingStructure) UpdateLength(length uint64, stream bool) error`. -/
def UpdateLength (bs : BlockingStructure) (length : Nat) (stream : Bool) :
    Outcome BlockingStructure :=
  UpdateBlockingStructure5052 (some bs) length bs.MaxSbLen bs.ESLen bs.NumEsPerGroup stream

/-- `func (bs *BlockingStructure) SrcOffset(sbn uint32) uint64`. -/
def SrcOffset (bs : BlockingStructure) (sbn : Nat) : Nat :=
  if sbn ≥ bs.N then bs.TransferLen
  else if sbn < bs.I then mul64 (mul64 bs.ESLen bs.A) sbn
  else mul64 bs.ESLen (add64 (mul64 bs.I bs.A) (mul64 (sub32 sbn bs.I) bs.ASmall))

/-- `func (bs *BlockingStructure) NumSrcSym(sbn uint32) uint32`; `none` is the
panic of a division by `ESLen = 0`. -/
def NumSrcSym (bs : BlockingStructure) (sbn : Nat) : Option Nat :=
  if sbn ≥ bs.N then some 0
  else
    let num := if sbn < bs.I then bs.A else bs.ASmall
    if sbn = sub32 bs.N 1 then
      let offset := bs.SrcOffset sbn
      let endOff := add64 offset (mul64 bs.ESLen num)
      if endOff > bs.TransferLen then
        if bs.ESLen = 0 then none
        else some (sub32 (add32 (u32 (sub64 bs.TransferLen offset)) bs.ESLen) 1 / bs.ESLen)
      else some num
    else some num

/-- `func (bs *BlockingStructure) RprBlockSize() uint64`. -/
def RprBlockSize (bs : BlockingStructure) : Nat :=
  mul64 (sub64 bs.MaxNumEs bs.MaxSbLen) bs.ESLen

/-- `func (bs *BlockingStructure) RprOffset(sbn uint32) uint64`. -/
def RprOffset (bs : BlockingStructure) (sbn : Nat) : Nat :=
  mul64 bs.RprBlockSize (if sbn > bs.N then bs.N else sbn)

/-- `func (bs *BlockingStructure) SourceSBN(offset uint64) uint32`; `none` is the
panic of a division by zero. -/
def SourceSBN (bs : BlockingStructure) (offset : Nat) : Option Nat :=
  if bs.ESLen = 0 then none
  else
    let sym := offset / bs.ESLen
    let largeBlocksize := mul64 bs.A bs.I
    let sbn : Option Nat :=
      if sym < largeBlocksize then
        if bs.A = 0 then none else some (sym / bs.A)
      else if bs.ASmall = 0 then none
      else some (add64 (sub64 sym largeBlocksize / bs.ASmall) bs.I)
    match sbn with
    | none => none
    | some sbn => if sbn < bs.N then some (u32 sbn) else some (sub32 bs.N 1)

/-- `func (bs *BlockingStructure) RepairSBN(offset uint64) uint32`; `none` is the
panic of a division by zero. -/
def RepairSBN (bs : BlockingStructure) (offset : Nat) : Option Nat :=
  if bs.RprBlockSize = 0 then none else some (u32 (offset / bs.RprBlockSize))

/-- `func (bs *BlockingStructure) SrcBlockSize(sbn uint32) uint64`. -/
def SrcBlockSize (bs : BlockingStructure) (sbn : Nat) : Nat :=
  if sbn = sub32 bs.N 1 then sub64 bs.TransferLen (bs.SrcOffset sbn)
  else if sbn < bs.I then mul64 bs.ESLen bs.A
  else if sbn < sub32 bs.N 1 then mul64 bs.ESLen bs.ASmall
  else 0

end BlockingStructure

namespace RangeList

/-! ## Contains (`util.go`, lines 511-527) -/

/-- The `for` loop of `RangeList.Contains`; `rs = rl[i:]`, `os = ol[j:]`. A pass
in which `rl[i]` contains `ol[j]` steps `j` and retries the same `rl[i]`, any
other pass steps `i`. The value is the final test `j == len(ol)`. -/
def containsLoop : Nat → RangeList → RangeList → Option Bool
  | 0, _, _ => none
  | _ + 1, _, [] => some true
  | _ + 1, [], _ :: _ => some false
  | fuel + 1, r :: rs, o :: os =>
    if r.Contains o then containsLoop fuel (r :: rs) os
    else containsLoop fuel rs (o :: os)

/-- `func (rl RangeList) Contains(ol RangeList) bool`. A pass advances `i` or
`j`, so `len(rl) + len(ol) + 1` passes are enough. -/
def Contains (rl ol : RangeList) : Option Bool :=
  match ol with
  | [] => some true
  | o0 :: _ =>
    containsLoop (rl.length + ol.length + 1)
      (rl.drop (sortSearch rl.length (endReaches rl o0.Start))) ol

end RangeList

/-! ## Missing (`util.go`, lines 909-934) -/

/-- The `else if` chain in the body of the loop of `Missing` for the entry `h`,
giving the new `ret` and `cur`. -/
def missingStep (h : Range) (cur : Int) (ret : RangeList) : RangeList × Int :=
  if cur < h.Start then (ret ++ [⟨cur, wrap64 (h.Start - 1)⟩], wrap64 (h.End + 1))
  else if cur ≤ h.End then (ret, wrap64 (h.End + 1))
  else (ret, cur)

/-- The loop `for i := 0; i < len(has); i++` of `Missing` over `has[i:]`; the
value is `ret` and `cur` as the loop leaves them. -/
def missingLoop (stop : Int) : RangeList → Int → RangeList → RangeList × Int
  | [], cur, ret => (ret, cur)
  | h :: hs, cur, ret =>
    if h.Start > stop then (ret, cur)
    else if cur > h.End then missingLoop stop hs cur ret
    else
      if (missingStep h cur ret).2 > stop then missingStep h cur ret
      else missingLoop stop hs (missingStep h cur ret).2 (missingStep h cur ret).1

/-- `func Missing(has RangeList, start int64, end int64) RangeList`. -/
def Missing (has : RangeList) (start stop : Int) : RangeList :=
  if start > stop ∨ stop < 0 then []
  else
    if (missingLoop stop has start []).2 ≤ stop then
      (missingLoop stop has start []).1 ++ [⟨(missingLoop stop has start []).2, stop⟩]
    else (missingLoop stop has start []).1

/-! ## ESIRange (`util.go`, lines 558-686, 812-849) -/

/-- The write `m[k] = v` on the entries of a map: the value of an entry with key
`k` is replaced, a new key is added at the end. -/
def setEntry : List (Nat × RangeList) → Nat → RangeList → List (Nat × RangeList)
  | [], k, v => [(k, v)]
  | (k1, v1) :: rest, k, v =>
    if k1 = k then (k, v) :: rest else (k1, v1) :: setEntry rest k v

/-- The Go type `ESIRange map[uint32]RangeList`, as the list of its entries. Go
leaves the order in which `range` visits a map open; the model visits the
entries in the order of the list. -/
structure ESIRange where
  entries : List (Nat × RangeList)
deriving DecidableEq

/-- The errors the conversions build with `fmt.Errorf`. -/
inductive ESIError where
  | invalidBlockingStructure
  | notSorted
deriving DecidableEq

/-- How a conversion ends: with a value, with a returned `error`, or without
returning (a run-time panic, or a loop that never ends). -/
inductive Conv (α : Type) where
  | ok (a : α)
  | error (e : ESIError)
  | stuck
deriving DecidableEq

namespace ESIRange

/-- The value `make(ESIRange)`. -/
def empty : ESIRange := ⟨[]⟩

/-- The two-valued read `v, ok := er[sbn]`. -/
def find (er : ESIRange) (sbn : Nat) : Option RangeList := er.entries.lookup sbn

/-- The read `er[sbn]`; a key that is absent reads as the `nil` list. -/
def get (er : ESIRange) (sbn : Nat) : RangeList := (er.find sbn).getD []

/-- The write `er[sbn] = v`. -/
def set (er : ESIRange) (sbn : Nat) (v : RangeList) : ESIRange :=
  ⟨setEntry er.entries sbn v⟩

end ESIRange

/-- The inner loop of `GetMissingESIs`, `for i := r.Start; i <= r.End &&
remainingMissing > 0; i++`, with `hi = r.End`; the value is `remainingRanges`
and `remainingMissing` as the loop leaves them. At `i = r.End = 2^63 - 1` the
step `i++` wraps and the loop goes on from `-2^63`. -/
def takeLoop (hi : Int) : Nat → Int → Int → RangeList → Option (RangeList × Int)
  | 0, _, _, _ => none
  | fuel + 1, i, remaining, out =>
    if i ≤ hi ∧ remaining > 0 then
      if wrap64 (remaining - 1) = 0 then some (out ++ [⟨i, i⟩], wrap64 (remaining - 1))
      else takeLoop hi fuel (wrap64 (i + 1)) (wrap64 (remaining - 1)) (out ++ [⟨i, i⟩])
    else some (out, remaining)

/-- The loop `for _, r := range missingRanges` of `GetMissingESIs`. Every pass
of the inner loop lowers `remainingMissing`, which is positive while the loop
runs, so `remainingMissing + 1` passes are enough. -/
def takeRanges : RangeList → Int → RangeList → Option RangeList
  | [], _, out => some out
  | r :: rs, remaining, out =>
    match takeLoop r.End (remaining.toNat + 1) r.Start remaining out with
    | none => none
    | some (out1, remaining1) =>
      if remaining1 = 0 then some out1 else takeRanges rs remaining1 out1

/-- The body of the loop of `GetMissingESIs` for one key: `none` is a panic,
`some none` leaves `result` without the key, `some (some v)` is
`result[sbn] = v`. `esiPerBlock` is `int64` of a `uint32`, so `esiPerBlock - 1`
is at least -1 and exact. -/
def missingForBlock (bs : BlockingStructure) (sbn : Nat)
    (missingRanges repairableRanges : RangeList) : Option (Option RangeList) :=
  let missingCount := missingRanges.Count
  let repairableCount := repairableRanges.Count
  match bs.NumSrcSym sbn with
  | none => none
  | some n =>
    let esiPerBlock : Int := n
    if missingCount = esiPerBlock ∧ repairableCount = 0 then
      some (some [⟨0, esiPerBlock - 1⟩])
    else if missingCount > repairableCount then
      match takeRanges missingRanges (wrap64 (missingCount - repairableCount)) [] with
      | none => none
      | some remainingRanges => some (some (flatten remainingRanges))
    else some none

/-- The loop `for sbn, missingRanges := range SrcSymMissing` of
`GetMissingESIs`. -/
def missingLoopESI (RprSymHas : ESIRange) (bs : BlockingStructure) :
    List (Nat × RangeList) → ESIRange → Option ESIRange
  | [], result => some result
  | (sbn, missingRanges) :: rest, result =>
    match missingForBlock bs sbn missingRanges (RprSymHas.get sbn) with
    | none => none
    | some none => missingLoopESI RprSymHas bs rest result
    | some (some v) => missingLoopESI RprSymHas bs rest (result.set sbn v)

/-- `func GetMissingESIs(SrcSymMissing, RprSymHas ESIRange, bs *BlockingStructure)
ESIRange`; `none` is a panic. -/
def GetMissingESIs (SrcSymMissing RprSymHas : ESIRange) (bs : BlockingStructure) :
    Option ESIRange :=
  missingLoopESI RprSymHas bs SrcSymMissing.entries ESIRange.empty

/-- The body of the loop `for sbn := sbnStart; sbn <= sbnEnd; sbn++` of
`ESIRangeFromRangeList`: the range appended to `er[sbn]`; `none` is a panic. -/
def esiPiece (bs : BlockingStructure) (source inclusive : Bool) (start stop : Int)
    (sbn : Nat) : Option Range :=
  let sbnRangeStart := if source then bs.SrcOffset sbn else bs.RprOffset sbn
  let sbnRangeEnd :=
    if source then sub64 (bs.SrcOffset (add32 sbn 1)) 1
    else sub64 (bs.RprOffset (add32 sbn 1)) 1
  let esiStartOffset := wrap64 (max start (i64 sbnRangeStart) - i64 sbnRangeStart)
  let esiStart := esiStartOffset.tdiv bs.ESLen
  let esiEndOffset := wrap64 (min stop (i64 sbnRangeEnd) - i64 sbnRangeStart)
  let rangeLen := wrap64 (esiEndOffset - esiStartOffset + 1)
  let esiCount := rangeLen.tdiv bs.ESLen
  let esiEnd := wrap64 (esiStart + esiCount - 1)
  let esiEnd :=
    if rangeLen.tmod bs.ESLen ≠ 0 ∧ inclusive then wrap64 (esiEnd + 1) else esiEnd
  if source then some ⟨esiStart, esiEnd⟩
  else
    match bs.NumSrcSym sbn with
    | none => none
    | some numSrcSym => some ⟨wrap64 (esiStart + numSrcSym), wrap64 (esiEnd + numSrcSym)⟩

/-- The loop `for sbn := sbnStart; sbn <= sbnEnd; sbn++` of
`ESIRangeFromRangeList`, `sbn` being a `uint32`. -/
def blockLoop (bs : BlockingStructure) (source inclusive : Bool) (start stop : Int)
    (sbnEnd : Nat) : Nat → Nat → ESIRange → Option ESIRange
  | 0, _, _ => none
  | fuel + 1, sbn, er =>
    if sbn ≤ sbnEnd then
      match esiPiece bs source inclusive start stop sbn with
      | none => none
      | some p =>
        blockLoop bs source inclusive start stop sbnEnd fuel (add32 sbn 1)
          (er.set sbn (er.get sbn ++ [p]))
    else some er

/-- The loop `for _, r := range rl` of `ESIRangeFromRangeList`. The inner loop
ends after `sbnEnd - sbnStart + 1` passes, unless `sbnEnd` is `2^32 - 1`: then
`sbn++` wraps to zero and the loop never ends. -/
def rangesLoop (bs : BlockingStructure) (source inclusive : Bool) :
    RangeList → ESIRange → Conv ESIRange
  | [], er => .ok er
  | r :: rest, er =>
    if r.Start > r.End then .error .notSorted
    else
      let sbnStart :=
        if source then bs.SourceSBN (toU64 r.Start) else bs.RepairSBN (toU64 r.Start)
      let sbnEnd :=
        if source then bs.SourceSBN (toU64 r.End) else bs.RepairSBN (toU64 r.End)
      match sbnStart, sbnEnd with
      | some s, some e =>
        match blockLoop bs source inclusive r.Start r.End e (e - s + 2) s er with
        | none => .stuck
        | some er1 => rangesLoop bs source inclusive rest er1
      | _, _ => .stuck

/-- `func ESIRangeFromRangeList(bs *BlockingStructure, rl RangeList, source,
inclusive bool) (ESIRange, error)`; a `nil` pointer is `none`. -/
def ESIRangeFromRangeList (bs : Option BlockingStructure) (rl : RangeList)
    (source inclusive : Bool) : Conv ESIRange :=
  match bs with
  | none => .error .invalidBlockingStructure
  | some bs =>
    if bs.ESLen = 0 then .error .invalidBlockingStructure
    else
      match rangesLoop bs source inclusive rl ESIRange.empty with
      | .ok er => .ok ⟨er.entries.map (fun kv => (kv.1, flatten kv.2))⟩
      | .error e => .error e
      | .stuck => .stuck

/-- The body of the loop `for i := range r` of `ToRangeList` for the ESI range
`x`: `rl` with the byte range of `x` appended, or `rl` itself on `continue`. -/
def appendESI (bs : BlockingStructure) (source : Bool) (offset k : Int)
    (rl : RangeList) (x : Range) : RangeList :=
  let esiStart := x.Start
  let esiEnd := wrap64 (x.End + 1)
  let esiStart1 :=
    if source then esiStart
    else if wrap64 (esiStart - k) < 0 then 0 else wrap64 (esiStart - k)
  let esiEnd1 := if source then esiEnd else wrap64 (esiEnd - k)
  if !source ∧ esiEnd1 < 0 then rl
  else
    rl ++ [⟨wrap64 (offset + esiStart1 * bs.ESLen),
            wrap64 (offset + esiEnd1 * bs.ESLen - 1)⟩]

/-- The body of the loop `for sbn, r := range er` of `ToRangeList`; `none` is a
panic. -/
def appendBlock (bs : BlockingStructure) (source : Bool) (rl : RangeList)
    (sbn : Nat) (r : RangeList) : Option RangeList :=
  let offset := if source then i64 (bs.SrcOffset sbn) else i64 (bs.RprOffset sbn)
  let blockSize :=
    if source then i64 (bs.SrcBlockSize sbn)
    else wrap64 (((sub32 bs.MaxNumEs bs.MaxSbLen : Nat) : Int) * bs.ESLen)
  match bs.NumSrcSym sbn with
  | none => none
  | some k =>
    if r.length > 0 then some (r.foldl (appendESI bs source offset k) rl)
    else some (rl ++ [⟨offset, wrap64 (offset + blockSize - 1)⟩])

/-- The loop `for sbn, r := range er` of `ToRangeList`. -/
def collectBlocks (bs : BlockingStructure) (source : Bool) :
    List (Nat × RangeList) → RangeList → Option RangeList
  | [], rl => some rl
  | (sbn, r) :: rest, rl =>
    match appendBlock bs source rl sbn r with
    | none => none
    | some rl1 => collectBlocks bs source rest rl1

/-- `func (er ESIRange) ToRangeList(bs *BlockingStructure, source bool)
RangeList`; `none` is a panic. -/
def ESIRange.ToRangeList (er : ESIRange) (bs : BlockingStructure) (source : Bool) :
    Option RangeList :=
  (collectBlocks bs source er.entries []).map flatten

/-! ## The scenario of `TestESIRangeFromRangeList` (`util_test.go`, lines 173-294) -/

/-- The structure `bsR` of the test: `N = 7509`, `I = 7506`, `A = 10`,
`ESLen = 1430`, `TransferLen = 107374182`, `MaxSbLen = 10`, `MaxNumEs = 12`,
`NumEsPerGroup = 1`. `ASmall` and `T` are parameters. -/
def e4Structure (aSmall t : Nat) : BlockingStructure :=
  ⟨7509, 7506, 10, aSmall, 1430, t, 107374182, 10, 12, 1⟩

/-- The byte ranges `missing` of the test. -/
def e4Missing : RangeList :=
  [⟨0, 1429⟩, ⟨1430, 2859⟩, ⟨2860, 4290⟩, ⟨10010, 11940⟩, ⟨14300, 15729⟩,
   ⟨28600, 42900⟩, ⟨42901, 45000⟩, ⟨45001, 59300⟩, ⟨75000, 89300⟩, ⟨100000, 114300⟩,
   ⟨114301, 128699⟩, ⟨128700, 137279⟩, ⟨140140, 141569⟩]

/-- The byte ranges `hasR` of the test. -/
def e4RepairHas : RangeList :=
  [⟨0, 2858⟩, ⟨2860, 4289⟩, ⟨5720, 11439⟩, ⟨12870, 15729⟩, ⟨18590, 27169⟩,
   ⟨30030, 31459⟩]

/-- The map `expectedSrcSymMissing` of the test. -/
def e4SrcSymMissing : ESIRange :=
  ⟨[(0, [⟨0, 3⟩, ⟨7, 8⟩]), (1, [⟨0, 0⟩]), (2, [⟨0, 9⟩]), (3, [⟨0, 9⟩]), (4, [⟨0, 1⟩]),
    (5, [⟨2, 9⟩]), (6, [⟨0, 2⟩, ⟨9, 9⟩]), (7, [⟨0, 9⟩]), (8, [⟨0, 9⟩]),
    (9, [⟨0, 5⟩, ⟨8, 8⟩])]⟩

/-- The map `expectedRprSymHas` of the test. -/
def e4RprSymHas : ESIRange :=
  ⟨[(0, [⟨10, 10⟩]), (1, [⟨10, 10⟩]), (2, [⟨10, 11⟩]), (3, [⟨10, 11⟩]),
    (4, [⟨11, 11⟩]), (5, [⟨10, 10⟩]), (6, [⟨11, 11⟩]), (7, [⟨10, 11⟩]),
    (8, [⟨10, 11⟩]), (9, [⟨10, 10⟩]), (10, [⟨11, 11⟩])]⟩

/-- The map `expectedMissingESIs` of the test. -/
def e4MissingESIs : ESIRange :=
  ⟨[(0, [⟨0, 3⟩, ⟨7, 7⟩]), (2, [⟨0, 7⟩]), (3, [⟨0, 7⟩]), (4, [⟨0, 0⟩]), (5, [⟨2, 8⟩]),
    (6, [⟨0, 2⟩]), (7, [⟨0, 7⟩]), (8, [⟨0, 7⟩]), (9, [⟨0, 5⟩])]⟩

/-- The byte ranges `expectedResMissing` of the test. -/
def e4Expected : RangeList :=
  [⟨0, 5719⟩, ⟨10010, 11439⟩, ⟨28600, 40039⟩, ⟨42900, 54339⟩, ⟨57200, 58629⟩,
   ⟨74360, 84369⟩, ⟨85800, 90089⟩, ⟨100100, 111539⟩, ⟨114400, 125839⟩,
   ⟨128700, 137279⟩]

/-! ## ESRangeListForSBNFromRangeList (`util.go`, lines 563-595) -/

/-- The errors `ESRangeListForSBNFromRangeList` builds with `fmt.Errorf`. -/
inductive ProjectionError where
  | nilBlockingStructure
  | notSorted
deriving DecidableEq

/-- Conversion `uint32(x)` of an `int64`. -/
def toU32 (x : Int) : Nat := (x % 2 ^ 32).toNat

/-- The body of the loop `for _, r := range sbnOffsetHas` of
`ESRangeListForSBNFromRangeList` after the test for the error: the new value of
`ret`; `none` is a panic (division by `ESLen = 0`). -/
def projectRange (bs : BlockingStructure) (curNumSym : Nat) (sbnOffset : Int)
    (ret : RangeList) (r : Range) : Option RangeList :=
  if bs.ESLen = 0 then none
  else
    let symStartOffset := wrap64 (r.Start - sbnOffset)
    let esiStart := toU32 symStartOffset / bs.ESLen
    let esiStart := if symStartOffset.tmod bs.ESLen ≠ 0 then add32 esiStart 1 else esiStart
    let symEndOffset := wrap64 (r.End - sbnOffset)
    let esiEnd := toU32 (wrap64 (symEndOffset + 1)) / bs.ESLen
    let esiEnd :=
      if (wrap64 (symEndOffset + 1)).tmod bs.ESLen ≠ 0 ∧
          r.End ≠ wrap64 (i64 bs.TransferLen - 1) then sub32 esiEnd 1
      else esiEnd
    let esiEnd :=
      if add32 esiStart (sub32 esiStart esiEnd) > curNumSym then sub32 curNumSym 1
      else esiEnd
    if esiEnd < esiStart then some ret
    else (RangeList.InplaceUnion ret [⟨esiStart, esiEnd⟩]).map Prod.fst

/-- The loop `for _, r := range sbnOffsetHas`: the returned list and the
returned error, if any; `none` is a panic. -/
def projectLoop (bs : BlockingStructure) (curNumSym : Nat) (sbnOffset : Int) :
    RangeList → RangeList → Option (RangeList × Option ProjectionError)
  | [], ret => some (ret, none)
  | r :: rest, ret =>
    if sbnOffset ≥ r.Start ∨ r.Start > r.End then some (ret, some .notSorted)
    else
      match projectRange bs curNumSym sbnOffset ret r with
      | none => none
      | some ret1 => projectLoop bs curNumSym sbnOffset rest ret1

/-- `func ESRangeListForSBNFromRangeList(bs *BlockingStructure, curSBN uint32,
rl RangeList) (RangeList, error)`: the returned list and the returned error,
if any; a `nil` pointer is `none`, the result `none` is a panic. -/
def ESRangeListForSBNFromRangeList (bs : Option BlockingStructure) (curSBN : Nat)
    (rl : RangeList) : Option (RangeList × Option ProjectionError) :=
  match bs with
  | none => some ([], some .nilBlockingStructure)
  | some bs =>
    match bs.NumSrcSym curSBN with
    | none => none
    | some curNumSym =>
      let sbnOffset := i64 (bs.SrcOffset curSBN)
      let bSize := i64 (bs.SrcBlockSize curSBN)
      match RangeList.Intersection rl [⟨sbnOffset, wrap64 (sbnOffset + bSize - 1)⟩] with
      | none => none
      | some sbnOffsetHas => projectLoop bs curNumSym sbnOffset sbnOffsetHas []

/-! ## Text: the library calls of the parsers and emitters

A Go `string` or `[]byte` is the list of its bytes, written as `List Char`;
every text the model handles is ASCII. A `nil` slice and an empty slice are the
same list. -/

/-- The two errors of `strconv`: `ErrSyntax` and `ErrRange`. -/
inductive NumError where
  | invalidSyntax
  | outOfRange
deriving DecidableEq

/-- The value of the decimal digit `c`, `c - '0'`. -/
def digitVal (c : Char) : Nat := c.toNat - 48

/-- The decimal digit of value `d`. -/
def digitChar (d : Nat) : Char :=
  match d with
  | 0 => '0'
  | 1 => '1'
  | 2 => '2'
  | 3 => '3'
  | 4 => '4'
  | 5 => '5'
  | 6 => '6'
  | 7 => '7'
  | 8 => '8'
  | _ => '9'

/-- The loop `for _, c := range []byte(s)` of `strconv.ParseUint` in base 10:
`n` is the value read so far, `maxVal` is `2^bitSize - 1`. A byte that is not a
decimal digit ends the call with `ErrSyntax`; a value that reaches
`cutoff = MaxUint64/10 + 1` before the next digit, or exceeds `maxVal` with it,
ends it with `maxVal` and `ErrRange`. -/
def parseUintLoop (maxVal : Nat) : List Char → Nat → Nat × Option NumError
  | [], n => (n, none)
  | c :: cs, n =>
    if c.isDigit then
      if n ≥ (2 ^ 64 - 1) / 10 + 1 then (maxVal, some .outOfRange)
      else
        let n10 := mul64 n 10
        let n1 := add64 n10 (digitVal c)
        if n1 < n10 ∨ n1 > maxVal then (maxVal, some .outOfRange)
        else parseUintLoop maxVal cs n1
    else (0, some .invalidSyntax)

/-- `strconv.ParseUint(s, 10, bitSize)`: the returned value and error. -/
def ParseUint (s : List Char) (bitSize : Nat) : Nat × Option NumError :=
  if s = [] then (0, some .invalidSyntax)
  else parseUintLoop (2 ^ bitSize - 1) s 0

/-- `strconv.ParseInt(s, 10, 64)`: the returned value and error. -/
def ParseInt (s : List Char) : Int × Option NumError :=
  match s with
  | [] => (0, some .invalidSyntax)
  | c :: cs =>
    let neg := decide (c = '-')
    let digits := if c = '+' ∨ c = '-' then cs else c :: cs
    match ParseUint digits 64 with
    | (_, some .invalidSyntax) => (0, some .invalidSyntax)
    | (un, _) =>
      if !neg ∧ un ≥ 2 ^ 63 then (2 ^ 63 - 1, some .outOfRange)
      else if neg ∧ un > 2 ^ 63 then (-2 ^ 63, some .outOfRange)
      else if neg then (wrap64 (-(i64 un)), none)
      else (i64 un, none)

/-- The digits of `n`, least significant first, put in front of `acc` most
significant first; `fuel` bounds their number. -/
def decimalLoop : Nat → Nat → List Char → List Char
  | 0, _, acc => acc
  | fuel + 1, n, acc =>
    if n < 10 then digitChar n :: acc
    else decimalLoop fuel (n / 10) (digitChar (n % 10) :: acc)

/-- The verb `%d` of `fmt.Sprintf` on an unsigned integer: its decimal digits,
`0` as `"0"`. -/
def formatNat (n : Nat) : List Char := decimalLoop (n + 1) n []

/-- The verb `%d` of `fmt.Sprintf` on a signed integer. -/
def formatInt (x : Int) : List Char :=
  if x < 0 then '-' :: formatNat x.natAbs else formatNat x.toNat

/-- `strings.Split(s, sep)` for a separator of one byte: the pieces between the
separators, `[""]` for the empty string. -/
def splitAll (sep : Char) : List Char → List (List Char)
  | [] => [[]]
  | c :: cs =>
    if c = sep then [] :: splitAll sep cs
    else
      match splitAll sep cs with
      | p :: ps => (c :: p) :: ps
      | [] => [[c]]

/-- `strings.SplitN(s, sep, 2)` for a separator of one byte: `s` cut at the
first separator, or `[s]` when there is none. -/
def splitFirst (sep : Char) : List Char → List (List Char)
  | [] => [[]]
  | c :: cs =>
    if c = sep then [[], cs]
    else
      match splitFirst sep cs with
      | p :: ps => (c :: p) :: ps
      | [] => [[c]]

/-- `strings.Join(elems, sep)`. -/
def joinWith (sep : List Char) : List (List Char) → List Char
  | [] => []
  | [p] => p
  | p :: q :: ps => p ++ sep ++ joinWith sep (q :: ps)

/-- `strings.ReplaceAll(s, old, new)` for `old` of one byte. -/
def replaceChar (old : Char) (new : List Char) : List Char → List Char
  | [] => []
  | c :: cs => if c = old then new ++ replaceChar old new cs else c :: replaceChar old new cs

/-- The longest run of decimal digits at the head of a text, and the rest: what
`\d*` and, after a first digit, `\d+` match. -/
def spanDigits : List Char → List Char × List Char
  | [] => ([], [])
  | c :: cs =>
    if c.isDigit then ((c :: (spanDigits cs).1), (spanDigits cs).2)
    else ([], c :: cs)

/-! ## Range and RangeList as text (`util.go`, lines 105-150, 204-246, 715-746) -/

/-- The errors of the parsers: an error of `strconv`, the two messages built
with `fmt.Errorf` ("invalid content range", "esirange parse error: sbn is not
an unsigned int"), `bufio.ErrTooLong` of the scanner, and the two errors of
`url.ParseQuery` (a semicolon in the query, a malformed `%` escape). -/
inductive TextError where
  | number (e : NumError)
  | invalidContentRange
  | sbnNotUnsigned
  | tokenTooLong
  | invalidSemicolon
  | invalidEscape
deriving DecidableEq

/-- How a parser ends: with a value or with a returned `error`. -/
inductive Parsed (α : Type) where
  | ok (a : α)
  | error (e : TextError)
deriving DecidableEq

/-- `rQuery.FindStringSubmatch(s)` for `rQuery = (\d+)(-?)(\d*)`: the three
groups of the leftmost match, which starts at the first digit of `s`; `none`
when `s` has no digit. -/
def rQueryMatch : List Char → Option (List Char × List Char × List Char)
  | [] => none
  | c :: cs =>
    if c.isDigit then
      match (spanDigits (c :: cs)).2 with
      | '-' :: rest => some ((spanDigits (c :: cs)).1, ['-'], (spanDigits rest).1)
      | rest => some ((spanDigits (c :: cs)).1, [], (spanDigits rest).1)
    else rQueryMatch cs

/-- `func parseLimits(limits []string) (int64, int64, error)` on the groups
`limits[1]`, `limits[2]`, `limits[3]`. The error of the second `ParseInt` is
overwritten by the `nil` of the `return`. -/
def parseLimits (g1 g2 g3 : List Char) : Int × Int × Option NumError :=
  match ParseInt g1 with
  | (_, some e) => (0, 0, some e)
  | (rangeStart, none) =>
    let rangeEnd := if g2 = ['-'] then -1 else rangeStart
    let rangeEnd := if g3 ≠ [] then (ParseInt g3).1 else rangeEnd
    (rangeStart, rangeEnd, none)

/-- `func (r *Range) UnmarshalText(text []byte) (err error)` on `r = Range{}`:
the new value of `r` and the error. -/
def Range.UnmarshalText (text : List Char) : Range × Option NumError :=
  match rQueryMatch text with
  | some (g1, g2, g3) =>
    match parseLimits g1 g2 g3 with
    | (s, e, err) => (⟨s, e⟩, err)
  | none => (⟨0, 0⟩, none)

/-- `func (r Range) String() string`. -/
def Range.String (r : Range) : List Char :=
  if r.Start = r.End then formatInt r.Start
  else if r.End = -1 then formatInt r.Start ++ ['-']
  else formatInt r.Start ++ ['-'] ++ formatInt r.End

/-- `func (rl RangeList) String() string`: the texts of the ranges, a comma
between two of them. -/
def RangeList.String (rl : RangeList) : List Char :=
  joinWith [','] (rl.map Range.String)

/-- The tokens a `bufio.Scanner` with the split function `scanComma` delivers:
the pieces between the commas, without a last piece that is empty. A token
needs fewer than 65536 bytes (the scanner's buffer); at a longer one the scan
stops with `bufio.ErrTooLong`, reported here by `true`. -/
def scanTokens (text : List Char) : List (List Char) × Bool :=
  let pieces := splitAll ',' text
  let pieces := if pieces.getLast? = some [] then pieces.dropLast else pieces
  let short := pieces.takeWhile (fun p => decide (p.length < 65536))
  (short, decide (short.length < pieces.length))

/-- The loop `for s.Scan()` of `RangeList.UnmarshalText`: the list with the
parsed ranges appended, or the error of the first token that fails. -/
def appendTokens : List (List Char) → RangeList → Parsed RangeList
  | [], rl => .ok rl
  | t :: ts, rl =>
    match Range.UnmarshalText t with
    | (_, some e) => .error (.number e)
    | (r, none) => appendTokens ts (rl ++ [r])

/-- `func (rl *RangeList) UnmarshalText(text []byte) error`: the new value of
`*rl`, or the error. -/
def RangeList.UnmarshalText (rl : RangeList) (text : List Char) : Parsed RangeList :=
  match appendTokens (scanTokens text).1 rl with
  | .error e => .error e
  | .ok rl1 =>
    if (scanTokens text).2 then .error .tokenTooLong
    else .ok (flatten rl1)

/-! ## ParseContentRange (`util.go`, lines 164-202) -/

/-- `contentRangeRegex.FindStringSubmatch(s)` for
`contentRangeRegex = (\d+|\*)(-\d*)?(\/\d*)?`: the three groups of the leftmost
match, which starts at the first digit or `*` of `s`; a group that takes no
part is empty; `none` when `s` has neither a digit nor a `*`. -/
def contentRangeMatch : List Char → Option (List Char × List Char × List Char)
  | [] => none
  | c :: cs =>
    if c.isDigit ∨ c = '*' then
      let g1 := if c.isDigit then (spanDigits (c :: cs)).1 else ['*']
      let r1 := if c.isDigit then (spanDigits (c :: cs)).2 else cs
      let g2 :=
        match r1 with
        | '-' :: r => '-' :: (spanDigits r).1
        | _ => []
      let r2 :=
        match r1 with
        | '-' :: r => (spanDigits r).2
        | _ => r1
      let g3 :=
        match r2 with
        | '/' :: r => '/' :: (spanDigits r).1
        | _ => []
      some (g1, g2, g3)
    else contentRangeMatch cs

/-- The body of the loop `for _, limitS := range allLimits` of
`ParseContentRange`: the new values of `ret` and `length`, or the error. -/
def contentRangeStep (ret : RangeList) (length : Int) (limitS : List Char) :
    Parsed (RangeList × Int) :=
  match contentRangeMatch limitS with
  | none => .error .invalidContentRange
  | some (g1, g2, g3) =>
    match (if g1 ≠ ['*'] then ParseInt g1 else (0, none)) with
    | (_, some e) => .error (.number e)
    | (start, none) =>
      match (if g2.length > 1 then ParseInt (g2.drop 1) else (-1, none)) with
      | (_, some e) => .error (.number e)
      | (stop, none) =>
        match (if length = -1 ∧ g3.length > 1 ∧ g3.drop 1 ≠ ['*'] then ParseInt (g3.drop 1)
               else (length, none)) with
        | (_, some e) => .error (.number e)
        | (length1, none) =>
          if (start > 0 ∨ stop > 0) ∧
              (ret.length = 0 ∨
                ((ret.getLast?.map Range.End).getD 0 < start ∧
                 (ret.getLast?.map Range.End).getD 0 ≠ -1)) then
            .ok (ret ++ [⟨start, stop⟩], length1)
          else .ok (ret, length1)

/-- The loop `for _, limitS := range allLimits` of `ParseContentRange`. -/
def contentRangeLoop : List (List Char) → RangeList → Int → Parsed (RangeList × Int)
  | [], ret, length => .ok (ret, length)
  | limitS :: rest, ret, length =>
    match contentRangeStep ret length limitS with
    | .error e => .error e
    | .ok (ret1, length1) => contentRangeLoop rest ret1 length1

/-- `func ParseContentRange(contentRange string) (RangeList, int64, error)`. -/
def ParseContentRange (contentRange : List Char) : Parsed (RangeList × Int) :=
  contentRangeLoop (splitAll ',' contentRange) [] (-1)

/-! ## ESIRange as text (`util.go`, lines 748-810, 859-862) -/

/-- The loop `for i := uint32(sbn); i <= uint32(sbnEnd); i++` of
`ESIRange.UnmarshalText`, which writes `(*er)[i] = RangeList{}`; `none` when the
passes run out, as they do for `sbnEnd = 2^32 - 1`, where `i++` wraps to zero
and the loop never ends. -/
def fillLoop (sbnEnd : Nat) : Nat → Nat → ESIRange → Option ESIRange
  | 0, _, _ => none
  | fuel + 1, i, er =>
    if i ≤ sbnEnd then fillLoop sbnEnd fuel (add32 i 1) (er.set i [])
    else some er

/-- The body of the loop `for _, s := range strings.Split(...)` of
`ESIRange.UnmarshalText`: the new map, or the error; `none` when the inner loop
never ends. -/
def unmarshalEntry (er : ESIRange) (s : List Char) : Option (Parsed ESIRange) :=
  let partsSub := splitFirst '-' s
  match ParseUint (partsSub.headD []) 32 with
  | (sbn, err) =>
    if err = none ∧ partsSub.length = 2 then
      match ParseUint (partsSub.getD 1 []) 32 with
      | (sbnEnd, none) =>
        (fillLoop (u32 sbnEnd) (u32 sbnEnd - u32 sbn + 2) (u32 sbn) er).map .ok
      | (_, some _) => some (.ok er)
    else
      let parts := splitFirst ':' s
      match ParseUint (parts.headD []) 32 with
      | (_, some _) => some (.error .sbnNotUnsigned)
      | (sbn1, none) =>
        if parts.length = 1 ∨ (parts.getD 1 []).length = 0 then
          some (.ok (er.set (u32 sbn1) []))
        else
          match RangeList.UnmarshalText [] (parts.getD 1 []) with
          | .error e => some (.error e)
          | .ok rl => some (.ok (er.set (u32 sbn1) rl))

/-- The loop `for _, s := range strings.Split(string(text), ";")`. -/
def unmarshalEntries : List (List Char) → ESIRange → Option (Parsed ESIRange)
  | [], er => some (.ok er)
  | s :: rest, er =>
    match unmarshalEntry er s with
    | none => none
    | some (.error e) => some (.error e)
    | some (.ok er1) => unmarshalEntries rest er1

/-- `func (er *ESIRange) UnmarshalText(text []byte) error`: the new value of the
map, or the error; `none` when the call never returns. -/
def ESIRange.UnmarshalText (er : ESIRange) (text : List Char) : Option (Parsed ESIRange) :=
  unmarshalEntries (splitAll ';' text) er

/-- The loop `for i, sbn := range keys` of `MarshalText`: `prev` is `keys[i-1]`
(`none` for `i = 0`), the list holds `keys[i:]`, `s` is the text so far. -/
def marshalLoop (er : ESIRange) : List Nat → Option Nat → Nat → List Char → List Char
  | [], _, _, s => s
  | sbn :: rest, prev, sbnRangeStart, s =>
    if sbnRangeStart < sbn ∧ prev.isSome ∧ (er.get (prev.getD 0)).length = 0 ∧
        ((rest ≠ [] ∧ (er.get (rest.headD 0)).length > 0) ∨
         (rest = [] ∧ (er.get sbn).length = 0)) then
      marshalLoop er rest (some sbn) (2 ^ 32 - 1)
        (s ++ ';' :: formatNat sbnRangeStart ++ '-' :: formatNat sbn)
    else if (er.get sbn).length > 0 then
      if (er.get sbn).length > 1 ∨
          ((er.get sbn).length = 1 ∧
            (((er.get sbn).head?.map Range.Start).getD 0 ≠ 0 ∨
             ((er.get sbn).head?.map Range.End).getD 0 ≠ -1)) then
        marshalLoop er rest (some sbn) (add32 sbn 1)
          (s ++ ';' :: formatNat sbn ++ ':' :: RangeList.String (er.get sbn))
      else marshalLoop er rest (some sbn) sbnRangeStart (s ++ ';' :: formatNat sbn)
    else if rest = [] then
      marshalLoop er rest (some sbn) sbnRangeStart (s ++ ';' :: formatNat sbn)
    else marshalLoop er rest (some sbn) sbnRangeStart s

/-- `func (er ESIRange) MarshalText() (s []byte, err error)`; the error is always
`nil`. The keys are visited in ascending order (`sort.Slice`). -/
def ESIRange.MarshalText (er : ESIRange) : List Char :=
  if er.entries.length = 0 then []
  else
    let keys := (er.entries.map Prod.fst).insertionSort (fun a b => a ≤ b)
    match marshalLoop er keys none (keys.headD 0) [] with
    | ';' :: s => s
    | s => s

/-- `func (er ESIRange) String() string`. -/
def ESIRange.String (er : ESIRange) : List Char := er.MarshalText

/-! ## The MBMS query (`util.go`, lines 688-709, 850-857) -/

/-- The text `s` without the leading text `p`, when `s` starts with `p`. -/
def afterLead : List Char → List Char → Option (List Char)
  | [], s => some s
  | _ :: _, [] => none
  | p :: ps, c :: cs => if p = c then afterLead ps cs else none

/-- A match of `esiRange = (%3[Bb]|;)(ESI|esi)=` at the head of `s`: the text
after the match. -/
def esiMarkAt (s : List Char) : Option (List Char) :=
  match (afterLead "%3B".toList s).orElse (fun _ =>
        (afterLead "%3b".toList s).orElse (fun _ => afterLead [';'] s)) with
  | none => none
  | some r =>
    match (afterLead "ESI".toList r).orElse (fun _ => afterLead "esi".toList r) with
    | none => none
    | some r1 => afterLead ['='] r1

/-- `esiRange.ReplaceAllLiteralString(s, ":")`: every match, found from left to
right, is replaced by a colon; `skip` bytes at the head belong to the match
just replaced. -/
def replaceEsiMarks : Nat → List Char → List Char
  | _, [] => []
  | skip + 1, _ :: cs => replaceEsiMarks skip cs
  | 0, c :: cs =>
    match esiMarkAt (c :: cs) with
    | some rest => ':' :: replaceEsiMarks (cs.length - rest.length) cs
    | none => c :: replaceEsiMarks 0 cs

/-- `plusRange.FindAllStringSubmatchIndex(s, -1)` for
`plusRange = ([\d]+)[+]([\d]+)`: for every match, found from left to right, the
indices `i[2]`, `i[3]`, `i[4]`, `i[5]` of its two groups. `pos` is the index of
the head of the list in `s`; `skip` bytes at the head belong to the match just
found. -/
def plusMatches : Nat → Nat → List Char → List (Nat × Nat × Nat × Nat)
  | _, _, [] => []
  | skip + 1, pos, _ :: cs => plusMatches skip (pos + 1) cs
  | 0, pos, c :: cs =>
    if c.isDigit then
      match (spanDigits (c :: cs)).2 with
      | '+' :: r =>
        if (spanDigits r).1 ≠ [] then
          (pos, pos + (spanDigits (c :: cs)).1.length,
           pos + (spanDigits (c :: cs)).1.length + 1,
           pos + (spanDigits (c :: cs)).1.length + 1 + (spanDigits r).1.length) ::
            plusMatches ((spanDigits (c :: cs)).1.length + (spanDigits r).1.length)
              (pos + 1) cs
        else plusMatches 0 (pos + 1) cs
      | _ => plusMatches 0 (pos + 1) cs
    else plusMatches 0 (pos + 1) cs

/-- The slice `s[a:b]`. -/
def slice (s : List Char) (a b : Int) : List Char := (s.drop a.toNat).take (b.toNat - a.toNat)

/-- The loop `for _, i := range idx` of `NewESIRangeFromMBMSQuery`, which
rewrites `a+n` into `a-(a+n)`: the state is the text `s` and `offset`. -/
def rewritePlus : List (Nat × Nat × Nat × Nat) → List Char → Int → List Char
  | [], s, _ => s
  | (i2, i3, i4, i5) :: rest, s, offset =>
    let start := (ParseUint (slice s (i2 + offset) (i3 + offset)) 32).1
    let number := (ParseUint (slice s (i4 + offset) (i5 + offset)) 32).1
    let stop := '-' :: formatNat (add64 start number)
    rewritePlus rest
      (slice s 0 (i3 + offset) ++ stop ++ s.drop (i5 + offset).toNat)
      (offset + stop.length - (i5 - i3))

/-- The value of a hexadecimal digit (`ishex`, `unhex` of `net/url`). -/
def hexVal (c : Char) : Option Nat :=
  if '0' ≤ c ∧ c ≤ '9' then some (c.toNat - 48)
  else if 'a' ≤ c ∧ c ≤ 'f' then some (c.toNat - 97 + 10)
  else if 'A' ≤ c ∧ c ≤ 'F' then some (c.toNat - 65 + 10)
  else none

/-- `url.QueryUnescape(s)`: `%XX` becomes the byte `XX`, `+` becomes a space;
`none` is the error of a `%` that is not followed by two hexadecimal digits. -/
def QueryUnescape : List Char → Option (List Char)
  | [] => some []
  | '%' :: a :: b :: rest =>
    match hexVal a, hexVal b with
    | some x, some y => (QueryUnescape rest).map (fun t => Char.ofNat (16 * x + y) :: t)
    | _, _ => none
  | '%' :: _ => none
  | '+' :: rest => (QueryUnescape rest).map (fun t => ' ' :: t)
  | c :: rest => (QueryUnescape rest).map (fun t => c :: t)

/-- The loop of `url.ParseQuery` over the pieces between the `&`: the pairs of
key and value in the order they are added, and the error to return. A piece
with a semicolon sets the error; an empty piece is skipped; a piece is cut at
its first `=` and both halves are unescaped. -/
def parseQueryLoop : List (List Char) → List (List Char × List Char) → Option TextError →
    List (List Char × List Char) × Option TextError
  | [], m, err => (m, err)
  | piece :: rest, m, err =>
    if ';' ∈ piece then parseQueryLoop rest m (some .invalidSemicolon)
    else if piece = [] then parseQueryLoop rest m err
    else
      let kv := splitFirst '=' piece
      match QueryUnescape (kv.headD []), QueryUnescape (kv.getD 1 []) with
      | some key, some value => parseQueryLoop rest (m ++ [(key, value)]) err
      | _, _ => parseQueryLoop rest m (if err = none then some .invalidEscape else err)

/-- `url.ParseQuery(query)`. -/
def ParseQuery (query : List Char) : List (List Char × List Char) × Option TextError :=
  parseQueryLoop (splitAll '&' query) [] none

/-- The values `params[key]` of a parsed query. -/
def queryValues (m : List (List Char × List Char)) (key : List Char) : List (List Char) :=
  (m.filter (fun kv => decide (kv.1 = key))).map Prod.snd

/-- `func NewESIRangeFromMBMSQuery(query string) (ESIRange, error)`; `none` when
the call never returns. -/
def NewESIRangeFromMBMSQuery (query : List Char) : Option (Parsed ESIRange) :=
  let s := replaceEsiMarks 0 query
  let s := rewritePlus (plusMatches 0 0 s) s 0
  match ParseQuery s with
  | (_, some e) => some (.error e)
  | (params, none) =>
    ESIRange.UnmarshalText ⟨[]⟩
      (joinWith [';'] (queryValues params "SourceSBN".toList))

/-- `func (er ESIRange) ToMBMSRawQuery() string`. -/
def ESIRange.ToMBMSRawQuery (er : ESIRange) : List Char :=
  let s := replaceChar ';' "&SourceSBN=".toList er.String
  let s := replaceChar ':' "%3bESI=".toList s
  if s.length > 0 then "SourceSBN=".toList ++ s else s

/-! ## The scenarios of `TestESI` and `TestMBMS` (`util_test.go`, lines 375-484) -/

/-- The map `expect` of `TestESI`. -/
def e6Map : ESIRange :=
  ⟨[(0, []), (1, []), (2, [⟨3, 3⟩]), (4, [⟨5, 9⟩, ⟨11, 14⟩]), (5, []), (6, []),
    (7, [⟨0, 1⟩]), (8, []), (9, []), (10, [])]⟩

/-- The map the query of scenario E5 stands for. -/
def e5Map : ESIRange :=
  ⟨[(12, []), (13, []), (14, []), (15, []), (16, []), (17, []), (18, []), (19, []),
    (28, [⟨23, 59⟩]), (30, [⟨101, 101⟩])]⟩

/-! ## Vocabulary of the specification -/

/-- The integer `x` lies in some range of `rl`. -/
def Covers (rl : RangeList) (x : Int) : Prop :=
  ∃ r ∈ rl, r.Start ≤ x ∧ x ≤ r.End

instance (rl : RangeList) (x : Int) : Decidable (Covers rl x) :=
  inferInstanceAs (Decidable (∃ r ∈ rl, r.Start ≤ x ∧ x ≤ r.End))

/-- Canonical form of a range list: every range has `Start <= End`, the list is
sorted ascending by `Start`, and consecutive ranges `a`, `b` satisfy
`b.Start > a.End + 1` (disjoint and not adjacent). -/
def Canonical : RangeList → Prop
  | [] => True
  | [a] => a.Start ≤ a.End
  | a :: b :: rest =>
    a.Start ≤ a.End ∧ a.Start ≤ b.Start ∧ b.Start > a.End + 1 ∧ Canonical (b :: rest)

/-- Canonical form is decidable. -/
def Canonical.dec : (rl : RangeList) → Decidable (Canonical rl)
  | [] => isTrue trivial
  | [a] => inferInstanceAs (Decidable (a.Start ≤ a.End))
  | a :: b :: rest =>
    have : Decidable (Canonical (b :: rest)) := Canonical.dec (b :: rest)
    inferInstanceAs (Decidable (a.Start ≤ a.End ∧ a.Start ≤ b.Start ∧
      b.Start > a.End + 1 ∧ Canonical (b :: rest)))

instance (rl : RangeList) : Decidable (Canonical rl) := Canonical.dec rl

/-- The bounds of the ranges of `rl` are `int64` values, as the type of the
source has it. -/
def Int64 (rl : RangeList) : Prop :=
  ∀ r ∈ rl, (-2 ^ 63 ≤ r.Start ∧ r.Start < 2 ^ 63) ∧ (-2 ^ 63 ≤ r.End ∧ r.End < 2 ^ 63)

instance (rl : RangeList) : Decidable (Int64 rl) :=
  inferInstanceAs (Decidable (∀ r ∈ rl,
    (-2 ^ 63 ≤ r.Start ∧ r.Start < 2 ^ 63) ∧ (-2 ^ 63 ≤ r.End ∧ r.End < 2 ^ 63)))

/-- Ceiling of `a / b` for `b > 0`. -/
def ceilDiv (a b : Nat) : Nat := (a + b - 1) / b

namespace BlockingStructure

/-- Number of source symbols the layout gives block `sbn`: `A` for the first `I`
blocks, `ASmall` after them. -/
def blockSyms (bs : BlockingStructure) (sbn : Nat) : Nat :=
  if sbn < bs.I then bs.A else bs.ASmall

/-- Number of source symbols in the blocks before block `sbn`. -/
def symOff (bs : BlockingStructure) (sbn : Nat) : Nat :=
  if sbn < bs.I then bs.A * sbn else bs.I * bs.A + (sbn - bs.I) * bs.ASmall

/-- What `NewBlockingStructure5052` guarantees of the structure it returns when
`N` is the exact block count: positive sizes within their widths, and a last
block that starts before the last symbol and reaches it. -/
structure Regular (bs : BlockingStructure) : Prop where
  es_pos : 0 < bs.ESLen
  es_lt : bs.ESLen < 2 ^ 16
  len_lt : bs.TransferLen < 2 ^ 64
  a_pos : 0 < bs.A
  as_pos : 0 < bs.ASmall
  a_lt : bs.A < 2 ^ 32
  as_lt : bs.ASmall < 2 ^ 32
  i_le : bs.I ≤ bs.N
  n_lt : bs.N < 2 ^ 32
  last_lt : 0 < bs.N → symOff bs (bs.N - 1) < bs.T
  last_ge : 0 < bs.N → bs.T ≤ symOff bs (bs.N - 1) + blockSyms bs (bs.N - 1)
  len_gt : 0 < bs.N → bs.ESLen * (bs.T - 1) < bs.TransferLen
  len_le : 0 < bs.N → bs.TransferLen ≤ bs.ESLen * bs.T

end BlockingStructure

/-! ## Invariants used in the proofs -/

open RangeList

/-! ### The loops over the unbounded integers

The functions of the range algebra once more, with every `wrap64` left out:
what the loops compute when no `End + 1`, `Start - 1` or count leaves `int64`.
They are the reference the loops of the source are compared with (the lemmas
`*_exact`); the properties of canonical lists are proved on them first. -/

namespace Range

/-- `OverlapsFront` with the exact `End + 1`. -/
def OverlapsFrontZ (r l : Range) : Bool :=
  decide (r.Start ≤ l.Start) && decide (r.End + 1 ≥ l.Start)

/-- `Count` with the exact difference. -/
def CountZ (r : Range) : Int := r.End - r.Start + 1

end Range

/-- The loop of `flatten` with the exact `End + 1`. -/
def mergeRightZ : RangeList → RangeList
  | [] => []
  | x :: rest =>
    match mergeRightZ rest with
    | [] => [x]
    | y :: ys =>
      if y.Start ≤ x.End + 1 then ⟨x.Start, max y.End x.End⟩ :: ys
      else x :: y :: ys

/-- `flatten` with the exact `End + 1`. -/
def flattenZ (rl : RangeList) : RangeList := mergeRightZ (sortByStart rl)

/-- The predicate of the searches with the exact `End + 1`. -/
def endReachesZ (rl : RangeList) (s : Int) (i : Nat) : Bool :=
  match rl.get? i with
  | some r => decide (r.End + 1 ≥ s)
  | none => false

namespace RangeList

/-- The number of integers in the ranges of a list, as an exact sum. -/
def CountZ (rl : RangeList) : Int := (rl.map Range.CountZ).sum

mutual

/-- `SubtractFuel` with exact bounds. -/
def SubtractFuelZ : Nat → RangeList → RangeList → Option RangeList
  | 0, _, _ => none
  | fuel + 1, rl, ll =>
    if ll.isEmpty then some rl
    else (subtractLoopZ fuel rl ll []).map flattenZ

/-- `subtractLoop` with exact bounds. -/
def subtractLoopZ : Nat → RangeList → RangeList → RangeList → Option RangeList
  | 0, _, _, _ => none
  | _ + 1, [], _, out => some out
  | fuel + 1, r :: rs, [], out => subtractLoopZ fuel rs [] (out ++ [r])
  | fuel + 1, r :: rs, l :: ls, out =>
    if r.Contains l then
      let out1 := if l.Start - 1 ≥ r.Start then out ++ [⟨r.Start, l.Start - 1⟩] else out
      if r.End ≥ l.End + 1 then
        match SubtractFuelZ fuel [⟨l.End + 1, r.End⟩] ls with
        | none => none
        | some sub => subtractLoopZ fuel rs ls (out1 ++ sub)
      else subtractLoopZ fuel rs ls out1
    else if l.Contains r then
      subtractLoopZ fuel rs (l :: ls) (appendNonEmpty out ⟨r.Start, l.Start - 1⟩)
    else if r.OverlapsFrontZ l then
      subtractLoopZ fuel rs (l :: ls) (appendNonEmpty out ⟨r.Start, l.Start - 1⟩)
    else if l.OverlapsFrontZ r then
      subtractLoopZ fuel rs (l :: ls) (appendNonEmpty out ⟨l.End + 1, r.End⟩)
    else if r.End < l.Start then
      subtractLoopZ fuel rs (l :: ls) (appendNonEmpty out r)
    else if r.Start > l.End then
      subtractLoopZ fuel (r :: rs) ls out
    else
      subtractLoopZ fuel (r :: rs) (l :: ls) (appendNonEmpty out ⟨r.Start, l.Start - 1⟩)

end

/-- `Subtract` with exact bounds. -/
def SubtractZ (rl ll : RangeList) : Option RangeList :=
  SubtractFuelZ (2 * (rl.length + ll.length) + 2) rl ll

/-- `intersectionLoop` over `OverlapsFrontZ` and `flattenZ`. -/
def intersectionLoopZ : Nat → RangeList → RangeList → RangeList → Option RangeList
  | 0, _, _, _ => none
  | _ + 1, [], _, out => some out
  | _ + 1, _ :: _, [], out => some out
  | fuel + 1, r :: rs, l :: ls, out =>
    if r.Contains l then
      intersectionLoopZ fuel (r :: rs) ls (flattenZ (out ++ [l]))
    else if l.Contains r then
      intersectionLoopZ fuel rs (l :: ls) (flattenZ (out ++ [r]))
    else if r.OverlapsFrontZ l then
      match r.Intersection l with
      | some x => intersectionLoopZ fuel rs (l :: ls) (flattenZ (out ++ [x]))
      | none => intersectionLoopZ fuel rs (l :: ls) (flattenZ out)
    else if l.OverlapsFrontZ r then
      match r.Intersection l with
      | some x => intersectionLoopZ fuel (r :: rs) ls (flattenZ (out ++ [x]))
      | none => intersectionLoopZ fuel (r :: rs) ls (flattenZ out)
    else if r.End < l.Start then
      intersectionLoopZ fuel rs (l :: ls) (flattenZ out)
    else
      intersectionLoopZ fuel (r :: rs) ls (flattenZ out)

/-- `intersectionStart` over `endReachesZ`. -/
def intersectionStartZ (rl : RangeList) (s : Int) : Nat :=
  let i := sortSearch rl.length (endReachesZ rl s)
  if i = rl.length then i - 1 else i

/-- `Intersection` with the exact `End + 1`. -/
def IntersectionZ (rl ll : RangeList) : Option RangeList :=
  match ll with
  | [] => some []
  | l0 :: _ =>
    if rl.isEmpty then some []
    else
      intersectionLoopZ (rl.length + ll.length + 1)
        (rl.drop (intersectionStartZ rl l0.Start)) ll []

/-- `absorb` over `OverlapsFrontZ`. -/
def absorbZ (out : RangeList) (toAdd : Range) : RangeList :=
  match out.getLast? with
  | some last =>
    if last.OverlapsFrontZ toAdd then out.dropLast ++ [last.Union toAdd]
    else if toAdd.End ≥ 0 then out ++ [toAdd] else out
  | none => if toAdd.End ≥ 0 then out ++ [toAdd] else out

/-- `unionLoop` over `OverlapsFrontZ`, `absorbZ` and the exact count. -/
def unionLoopZ (rlLast llLast : Range) :
    Nat → RangeList → RangeList → RangeList → Range → Option RangeList
  | 0, _, _, _, _ => none
  | _ + 1, [], [], out, _ => some out
  | _ + 1, [], l :: ls, out, _ =>
    if rlLast.End ≤ l.End ∨ rlLast.CountZ = 0 then some (out ++ l :: ls) else some out
  | _ + 1, r :: rs, [], out, _ =>
    if llLast.End ≤ r.End ∨ llLast.CountZ = 0 then some (out ++ r :: rs) else some out
  | fuel + 1, r :: rs, l :: ls, out, toAdd =>
    if r.Start > r.End then
      unionLoopZ rlLast llLast fuel rs (l :: ls) (absorbZ out toAdd) toAdd
    else if l.Start > l.End then
      unionLoopZ rlLast llLast fuel (r :: rs) ls (absorbZ out toAdd) toAdd
    else if r.Contains l then
      unionLoopZ rlLast llLast fuel (r :: rs) ls (absorbZ out toAdd) toAdd
    else if l.Contains r then
      unionLoopZ rlLast llLast fuel rs (l :: ls) (absorbZ out toAdd) toAdd
    else if r.OverlapsFrontZ l || l.OverlapsFrontZ r then
      unionLoopZ rlLast llLast fuel rs ls (absorbZ out (r.Union l)) (r.Union l)
    else if r.End ≤ l.Start then
      unionLoopZ rlLast llLast fuel rs (l :: ls) (absorbZ out r) r
    else
      unionLoopZ rlLast llLast fuel (r :: rs) ls (absorbZ out l) l

/-- `Union` with the exact `End + 1` and count. -/
def UnionZ (rl ll : RangeList) : Option RangeList :=
  match ll.getLast?, rl.getLast? with
  | none, _ => some rl
  | some _, none => some ll
  | some llLast, some rlLast =>
    (unionLoopZ rlLast llLast (rl.length + ll.length + 1) rl ll [] ⟨0, -1⟩).map flattenZ

/-- `inplaceStep` over `OverlapsFrontZ`. -/
def inplaceStepZ (rl : RangeList) (i : Nat) (ls : RangeList) (n : Nat) :
    Option (RangeList × Nat × RangeList × Nat) :=
  match ls with
  | [] => some (rl, i + 1, [], n)
  | l :: ls' =>
    match rl.get? i with
    | none => none
    | some r =>
      if r.Contains l then some (rl, i, ls', n)
      else if r.OverlapsFrontZ l then some (rl.set i ⟨r.Start, l.End⟩, i, ls', n)
      else if l.Contains r then some (rl.set i ⟨l.Start, l.End⟩, i + 1, l :: ls', n)
      else if l.OverlapsFrontZ r then some (rl.set i ⟨l.Start, r.End⟩, i, ls', n)
      else if r.End ≤ l.Start then some (rl, i + 1, l :: ls', n)
      else if l.End ≤ r.Start then
        some ((rl.take (i + 1) ++ rl.drop i).set i l, i + 1, ls', n + 1)
      else some (rl, i, l :: ls', n)

/-- `inplaceMerge` with the exact `End + 1`. -/
def inplaceMergeZ (rl : RangeList) (i : Nat) : RangeList × Nat :=
  if rl.length > 1 ∧ i > 0 ∧ i < rl.length then
    match rl.get? i, rl.get? (i - 1) with
    | some cur, some prev =>
      if cur.Start ≤ prev.End + 1 then
        let rl1 := if cur.End > prev.End then rl.set (i - 1) ⟨prev.Start, cur.End⟩ else rl
        (rl1.take i ++ rl1.drop (i + 1), i - 1)
      else (rl, i)
    | _, _ => (rl, i)
  else (rl, i)

/-- `inplaceFinish` with the exact `End + 1`. -/
def inplaceFinishZ (rl : RangeList) (ls : RangeList) (n : Nat) : Option (RangeList × Nat) :=
  match ls with
  | [] => some (rl, n)
  | l :: ls' =>
    match rl.getLast? with
    | none => none
    | some last =>
      if last.End ≤ l.End then
        if l.Start ≤ last.End + 1 then
          some ((rl.dropLast ++ [⟨last.Start, l.End⟩]) ++ ls', n + ls'.length)
        else some (rl ++ l :: ls', n + (l :: ls').length)
      else some (rl, n)

/-- `inplaceUnionLoop` over the three functions above. -/
def inplaceUnionLoopZ : Nat → RangeList → Nat → RangeList → Nat → Option (RangeList × Nat)
  | 0, _, _, _, _ => none
  | fuel + 1, rl, i, ls, n =>
    match inplaceStepZ rl i ls n with
    | none => none
    | some (rl1, i1, ls1, n1) =>
      let (rl2, i2) := inplaceMergeZ rl1 i1
      if i2 = rl2.length then inplaceFinishZ rl2 ls1 n1
      else inplaceUnionLoopZ fuel rl2 i2 ls1 n1

/-- `InplaceUnion` with the exact `End + 1`. -/
def InplaceUnionZ (rl ll : RangeList) : Option (RangeList × Nat) :=
  match ll with
  | [] => some (rl, 0)
  | l0 :: _ =>
    if rl.isEmpty then some (ll, ll.length)
    else
      let i := sortSearch rl.length (endReachesZ rl l0.Start)
      let i := if i > 0 then i - 1 else i
      match inplaceUnionLoopZ (2 * (rl.length + ll.length) + 2) rl i ll 0 with
      | none => none
      | some (rl1, n) => some (flattenZ rl1, n)

/-- `Contains` over `endReachesZ`. -/
def ContainsZ (rl ol : RangeList) : Option Bool :=
  match ol with
  | [] => some true
  | o0 :: _ =>
    containsLoop (rl.length + ol.length + 1)
      (rl.drop (sortSearch rl.length (endReachesZ rl o0.Start))) ol

end RangeList

/-- `missingStep` with the exact `Start - 1` and `End + 1`. -/
def missingStepZ (h : Range) (cur : Int) (ret : RangeList) : RangeList × Int :=
  if cur < h.Start then (ret ++ [⟨cur, h.Start - 1⟩], h.End + 1)
  else if cur ≤ h.End then (ret, h.End + 1)
  else (ret, cur)

/-- `missingLoop` over `missingStepZ`. -/
def missingLoopZ (stop : Int) : RangeList → Int → RangeList → RangeList × Int
  | [], cur, ret => (ret, cur)
  | h :: hs, cur, ret =>
    if h.Start > stop then (ret, cur)
    else if cur > h.End then missingLoopZ stop hs cur ret
    else
      if (missingStepZ h cur ret).2 > stop then missingStepZ h cur ret
      else missingLoopZ stop hs (missingStepZ h cur ret).2 (missingStepZ h cur ret).1

/-- `Missing` with the exact `Start - 1` and `End + 1`. -/
def MissingZ (has : RangeList) (start stop : Int) : RangeList :=
  if start > stop ∨ stop < 0 then []
  else
    if (missingLoopZ stop has start []).2 ≤ stop then
      (missingLoopZ stop has start []).1 ++ [⟨(missingLoopZ stop has start []).2, stop⟩]
    else (missingLoopZ stop has start []).1

/-- Working form of canonicity: non-empty ranges, every earlier range ends more
than one before every later range starts. -/
def Canon (rl : RangeList) : Prop :=
  (∀ r ∈ rl, r.Start ≤ r.End) ∧ rl.Pairwise (fun a b => a.End + 1 < b.Start)

/-- Every range of `ls` lies inside a range of `rs` or is separated from it by
a gap: the situation in which `ls` was cut out of `rs`. -/
def Sep (rs ls : RangeList) : Prop :=
  ∀ r ∈ rs, ∀ l ∈ ls,
    (r.Start ≤ l.Start ∧ l.End ≤ r.End) ∨ l.End + 1 < r.Start ∨ r.End + 1 < l.Start

/-- Every range of `res` lies inside a range of `rs`. -/
def Within (res rs : RangeList) : Prop :=
  ∀ o ∈ res, ∃ r ∈ rs, r.Start ≤ o.Start ∧ o.End ≤ r.End

/-- What one call of `Subtract` with budget `fuel` achieves. -/
def SubtractOk (fuel : Nat) : Prop :=
  ∀ rl ll : RangeList, Canon rl → Canon ll → 2 * (rl.length + ll.length) + 2 ≤ fuel →
    ∃ res, SubtractFuelZ fuel rl ll = some res ∧ Canon res ∧ Within res rl ∧
      (Sep rl ll → ∀ x, Covers res x ↔ Covers rl x ∧ ¬ Covers ll x)

/-- What the loop of `Subtract` with budget `fuel` achieves from a state in
which `out` is canonical and ends before the ranges still to be read. -/
def SubtractLoopOk (fuel : Nat) : Prop :=
  ∀ rs ls out : RangeList, Canon rs → Canon ls → Canon out →
    (∀ o ∈ out, ∀ r ∈ rs, o.End + 1 < r.Start) →
    2 * (rs.length + ls.length) + 1 ≤ fuel →
    ∃ res, subtractLoopZ fuel rs ls out = some res ∧ Canon res ∧
      (∀ o ∈ res, o ∈ out ∨ ∃ r ∈ rs, r.Start ≤ o.Start ∧ o.End ≤ r.End) ∧
      (Sep rs ls → ∀ x, Covers res x ↔ Covers out x ∨ (Covers rs x ∧ ¬ Covers ls x))

/-- Non-empty ranges whose `Start`s strictly increase and whose `End`s do not
decrease. -/
def Mono (rl : RangeList) : Prop :=
  (∀ r ∈ rl, r.Start ≤ r.End) ∧
  rl.Pairwise (fun a b => a.Start < b.Start ∧ a.End ≤ b.End)

/-- The state of the loop of `Union` on canonical inputs: `out` is canonical,
starts before everything still to be read, ends no later than what was read,
and already holds `toAdd`. -/
structure UnionInv (rlLast llLast : Range) (rs ls out : RangeList) (toAdd : Range) :
    Prop where
  rs_canon : Canon rs
  ls_canon : Canon ls
  out_canon : Canon out
  out_lt_rs : ∀ o ∈ out, ∀ r ∈ rs, o.Start < r.Start
  out_lt_ls : ∀ o ∈ out, ∀ l ∈ ls, o.Start < l.Start
  stale : absorbZ out toAdd = out
  end_rl : ∀ o ∈ out, o.End ≤ rlLast.End ∨ ∀ l ∈ ls, o.End ≤ l.End
  end_ll : ∀ o ∈ out, o.End ≤ llLast.End ∨ ∀ r ∈ rs, o.End ≤ r.End
  rs_le : ∀ r ∈ rs, r.End ≤ rlLast.End
  ls_le : ∀ l ∈ ls, l.End ≤ llLast.End
  rl_ne : rlLast.Start ≤ rlLast.End
  ll_ne : llLast.Start ≤ llLast.End

/-- The inputs of `Union` share no integer and have no negative bound; `rlLast`
and `llLast` are the last ranges of the two lists. -/
structure UnionDisj (rlLast llLast : Range) (rs ls : RangeList) : Prop where
  disj : ∀ r ∈ rs, ∀ l ∈ ls, r.End < l.Start ∨ l.End < r.Start
  rs_nonneg : ∀ r ∈ rs, 0 ≤ r.Start
  ls_nonneg : ∀ l ∈ ls, 0 ≤ l.Start
  rl_last : rs ≠ [] → rlLast ∈ rs
  ll_last : ls ≠ [] → llLast ∈ ls
  rl_done : rs = [] → ∀ l ∈ ls, rlLast.End ≤ l.End
  ll_done : ls = [] → ∀ r ∈ rs, llLast.End ≤ r.End

/-- The ranges `[i,i], [i+1,i+1], ...`, `k` of them. -/
def singles (i : Int) : Nat → RangeList
  | 0 => []
  | k + 1 => ⟨i, i⟩ :: singles (i + 1) k

/-- The first `n` integers of the ranges of a list, one range for each. -/
def firstN : RangeList → Nat → RangeList
  | [], _ => []
  | r :: rs, n =>
    if n ≤ (r.End + 1 - r.Start).toNat then singles r.Start n
    else singles r.Start (r.End + 1 - r.Start).toNat ++
      firstN rs (n - (r.End + 1 - r.Start).toNat)

/-- Non-empty ranges, each ending before the next one starts; two of them may
touch. -/
def Apart (rl : RangeList) : Prop :=
  (∀ r ∈ rl, r.Start ≤ r.End) ∧ rl.Pairwise (fun a b => a.End < b.Start)

/-- The byte ranges one entry of an `ESIRange` adds to the list in
`ToRangeList`. -/
def blockBytes (bs : BlockingStructure) (source : Bool) (e : Nat × RangeList) :
    RangeList :=
  (appendBlock bs source [] e.1 e.2).getD []

/-- The entry `GetMissingESIs` writes for one entry of `SrcSymMissing`, if it
writes one. -/
def missingEntry (rpr : ESIRange) (bs : BlockingStructure) (e : Nat × RangeList) :
    Option (Nat × RangeList) :=
  match missingForBlock bs e.1 e.2 (rpr.get e.1) with
  | some (some v) => some (e.1, v)
  | _ => none

/-- The structure `bs` with other values in the fields `ASmall` and `T`. -/
def withSmall (bs : BlockingStructure) (a t : Nat) : BlockingStructure :=
  { bs with ASmall := a, T := t }

/-- The conversion of the byte range `r` stays within the blocks of `A`
symbols: both ends fall before symbol `A * I`, and the block of the end is
followed by another block of `A` symbols. -/
def largeOnly (bs : BlockingStructure) (source : Bool) (r : Range) : Bool :=
  if source then
    decide (toU64 r.Start / bs.ESLen < mul64 bs.A bs.I) &&
    decide (toU64 r.End / bs.ESLen < mul64 bs.A bs.I) &&
    (bs.SourceSBN (toU64 r.End)).all (fun e => decide (e + 1 < bs.I))
  else (bs.RepairSBN (toU64 r.End)).all (fun e => decide (e + 1 < bs.I))

/-- The write `er[sbn] = append(er[sbn], p)` for the pair `kp = (sbn, p)`. -/
def pushPiece (er : ESIRange) (kp : Nat × Range) : ESIRange :=
  er.set kp.1 (er.get kp.1 ++ [kp.2])

/-- The writes `er[sbn] = append(er[sbn], p)` for a list of pairs, in order. -/
def pushAll (er : ESIRange) (ps : List (Nat × Range)) : ESIRange :=
  ps.foldl pushPiece er

/-- The entries of a map spread out: each range with the key of its list. -/
def keyed (l : List (Nat × RangeList)) : List (Nat × Range) :=
  l.flatMap (fun e => e.2.map (fun p => (e.1, p)))

/-- The range the loop of `ESIRangeFromRangeList` appends for block `sbn` when
`source` is set. -/
def pieceAt (bs : BlockingStructure) (inclusive : Bool) (start stop : Int)
    (sbn : Nat) : Range :=
  (esiPiece bs true inclusive start stop sbn).getD ⟨0, -1⟩

/-- The pairs `(sbn, range)` the loop of `ESIRangeFromRangeList` appends for
the byte range `r` when `source` is set. -/
def piecesOf (bs : BlockingStructure) (inclusive : Bool) (r : Range) :
    List (Nat × Range) :=
  match bs.SourceSBN (toU64 r.Start), bs.SourceSBN (toU64 r.End) with
  | some s, some e =>
    (List.range' s (e + 1 - s)).map (fun j => (j, pieceAt bs inclusive r.Start r.End j))
  | _, _ => []

/-- The byte range `ToRangeList` computes, with `source` set, for the ESI range
`kp.2` of block `kp.1`. -/
def byteImage (bs : BlockingStructure) (kp : Nat × Range) : Range :=
  ⟨wrap64 (i64 (bs.SrcOffset kp.1) + kp.2.Start * bs.ESLen),
   wrap64 (i64 (bs.SrcOffset kp.1) + wrap64 (kp.2.End + 1) * bs.ESLen - 1)⟩

/-- The structures the conversion of source ranges is proved for: built as
`NewBlockingStructure5052` builds them, with at least one block and at most
`2^63` bytes. -/
structure SourceOk (bs : BlockingStructure) : Prop where
  reg : BlockingStructure.Regular bs
  n_pos : 0 < bs.N
  len63 : bs.TransferLen ≤ 2 ^ 63

/-- The byte range `r` lies in the object and starts and ends on symbol
boundaries. -/
def Aligned (bs : BlockingStructure) (r : Range) : Prop :=
  0 ≤ r.Start ∧ r.Start ≤ r.End ∧ r.End < bs.TransferLen ∧
  (bs.ESLen : Int) ∣ r.Start ∧ (bs.ESLen : Int) ∣ r.End + 1

/-- The part of the byte range `[a, b]` inside block `j`. -/
def clip (bs : BlockingStructure) (a b : Int) (j : Nat) : Range :=
  ⟨max a (bs.SrcOffset j), min b ((bs.SrcOffset (j + 1) : Int) - 1)⟩

/-- What is known of an entry `x = (sbn, esis)` made for the byte range `r`:
block `sbn` meets `r`, the ESI range is not empty, and it stands for the part
of `r` inside the block. -/
def PieceOf (bs : BlockingStructure) (r : Range) (x : Nat × Range) : Prop :=
  x.1 < bs.N ∧ (bs.SrcOffset x.1 : Int) ≤ r.End ∧ r.Start < (bs.SrcOffset (x.1 + 1) : Int) ∧
  x.2.Start ≤ x.2.End ∧ byteImage bs x = clip bs r.Start r.End x.1 ∧
  (bs.SrcOffset x.1 : Int) + x.2.Start * bs.ESLen = max r.Start (bs.SrcOffset x.1) ∧
  (bs.SrcOffset x.1 : Int) + (x.2.End + 1) * bs.ESLen
    = min r.End ((bs.SrcOffset (x.1 + 1) : Int) - 1) + 1

/-- The order of the entries made for a canonical list: byte ranges one after
the other, and ESI ranges of one block more than one apart. -/
def Ordered (bs : BlockingStructure) (x y : Nat × Range) : Prop :=
  (byteImage bs x).End < (byteImage bs y).Start ∧ (x.1 = y.1 → x.2.End + 1 < y.2.Start)

/-- The number a text of decimal digits stands for, read from the value `a`
on: each digit multiplies by ten and adds itself. -/
def digitsValue (cs : List Char) (a : Nat) : Nat :=
  cs.foldl (fun n c => n * 10 + digitVal c) a

/-- A text of decimal digits only. -/
def AllDigits (cs : List Char) : Prop := ∀ c ∈ cs, c.isDigit = true

/-- The text `s-e` of a range in a `Content-Range` value. -/
def pairText (r : Range) : List Char := formatInt r.Start ++ '-' :: formatInt r.End

/-- The `Content-Range` value `bytes=s_1-e_1,...,s_n-e_n` followed by `suffix`. -/
def contentRangeText (rl : RangeList) (suffix : List Char) : List Char :=
  "bytes=".toList ++ joinWith [','] (rl.map pairText) ++ suffix

/-- The third group of `contentRangeRegex` on the text that follows the range:
a slash and the digits after it. -/
def slashGroup (suffix : List Char) : List Char :=
  match suffix with
  | '/' :: r => '/' :: (spanDigits r).1
  | _ => []

/-- The length `ParseContentRange` reads from the third group when none was
read before. -/
def lengthOf (g3 : List Char) : Int × Option NumError :=
  if (-1 : Int) = -1 ∧ g3.length > 1 ∧ g3.drop 1 ≠ ['*'] then ParseInt (g3.drop 1)
  else (-1, none)

/-- Non-empty ranges in which a later range either repeats an earlier one or
starts more than one after its end: a canonical list in which a range may stand
more than once. -/
def Dup (rl : RangeList) : Prop :=
  (∀ r ∈ rl, r.Start ≤ r.End) ∧ rl.Pairwise (fun a b => a = b ∨ a.End + 1 < b.Start)

/-- Non-empty ranges whose `Start`s and `End`s do not decrease, two equal
`Start`s allowed. -/
def WMono (rl : RangeList) : Prop :=
  (∀ r ∈ rl, r.Start ≤ r.End) ∧
  rl.Pairwise (fun a b => a.Start ≤ b.Start ∧ a.End ≤ b.End)

/-- The state of the loop of `InplaceUnion` on canonical inputs, at the start of
a pass: `*rl` is `done ++ cur :: rest` with `i = len(done)`, and `other` is
`ll[j:]`. `done` is finished, `cur` starts after it and before `rest`, which is
still as it was in `*rl`; a range of `done` that is not clear of `other` is the
range of `other` itself, written there one pass earlier. -/
structure InplaceInv (done : RangeList) (cur : Range) (rest other : RangeList) : Prop where
  done_dup : Dup done
  cur_ne : cur.Start ≤ cur.End
  rest_canon : Canon rest
  other_canon : Canon other
  done_lt : ∀ p ∈ done, p.End + 1 < cur.Start
  rest_gt : ∀ s ∈ rest, cur.Start < s.Start
  done_other : ∀ p ∈ done, ∀ l ∈ other, p = l ∨ p.End + 1 < l.Start

/-- What the loop of `InplaceUnion` with budget `fuel` achieves from a state of
the kind `InplaceInv` describes: it ends, with a list that is canonical up to
repeated ranges and covers what the state covered. -/
def InplaceLoopOk (fuel : Nat) : Prop :=
  ∀ (P : RangeList) (cur : Range) (S ls : RangeList) (n : Nat),
    InplaceInv P cur S ls → 2 * ls.length + S.length + 1 ≤ fuel →
    ∃ res m, inplaceUnionLoopZ fuel (P ++ cur :: S) P.length ls n = some (res, m) ∧
      Dup res ∧ ∀ x, Covers res x ↔ Covers (P ++ cur :: S) x ∨ Covers ls x

/-- No `End + 1` that `flatten` computes on the sorted list leaves `int64`: every
range that has a successor ends below `2^63 - 1`, and not below `-2^63 - 1`. -/
def NoWrap : RangeList → Prop
  | [] => True
  | [_] => True
  | a :: b :: rest => (-2 ^ 63 ≤ a.End + 1 ∧ a.End + 1 < 2 ^ 63) ∧ NoWrap (b :: rest)

/-- Ranges with `int64` bounds whose `End`s lie below `c`: `Bounded (2^63)` is
`Int64`, and on `Bounded (2^63 - 1)` no `End + 1` wraps. -/
def Bounded (c : Int) (rl : RangeList) : Prop :=
  ∀ r ∈ rl, (-2 ^ 63 ≤ r.Start ∧ r.Start < 2 ^ 63) ∧ (-2 ^ 63 ≤ r.End ∧ r.End < c)

/-- The end `e` of something already added lies more than one below the unread
rest of one of the two lists. -/
def Ahead (e : Int) (rs ls : RangeList) : Prop :=
  -2 ^ 63 ≤ e ∧ ((∀ r ∈ rs, e + 1 < r.Start) ∨ (∀ l ∈ ls, e + 1 < l.Start))

/-- What both orders of `Union` keep true of the loop: the unread rests are
canonical `int64` lists, `rlLast` and `llLast` are the last ranges of the two
lists, a range that heads both has `End >= 0`, and what was added ends before
the unread rest of one of the lists. -/
structure UnionSwap (rlLast llLast : Range) (rs ls out : RangeList) (toAdd : Range) :
    Prop where
  rs_canon : Canon rs
  ls_canon : Canon ls
  rs64 : Int64 rs
  ls64 : Int64 ls
  rs_le : ∀ r ∈ rs, r.End ≤ rlLast.End
  ls_le : ∀ l ∈ ls, l.End ≤ llLast.End
  rl_last : rs ≠ [] → rlLast ∈ rs
  ll_last : ls ≠ [] → llLast ∈ ls
  shared : ∀ x ∈ rs, x ∈ ls → 0 ≤ x.End
  gap : ∀ o ∈ out, Ahead o.End rs ls
  add : (out = [] ∧ toAdd.End < 0) ∨ Ahead toAdd.End rs ls

/-- The range `(-2^63, 2^63 - 1)`, whose `Count()` wraps to zero. -/
def Range.Full (r : Range) : Prop := r.Start = -2 ^ 63 ∧ r.End = 2 ^ 63 - 1

/-- The list has been read to its end, its last range `last` ends at
`2^63 - 1`, and no range of the unread rest `other` of the other list does. -/
def ReadToMax (last : Range) (rest other : RangeList) : Prop :=
  rest = [] ∧ last.End = 2 ^ 63 - 1 ∧ ∀ x ∈ other, x.End < 2 ^ 63 - 1

/-- What the loop of `Union` keeps true of `int64` lists of which at most one
has a range that ends at `2^63 - 1`: no `End + 1` it computes wraps. -/
structure UnionEdge (rlLast llLast : Range) (rs ls out : RangeList) : Prop where
  rs64 : Int64 rs
  ls64 : Int64 ls
  out64 : Int64 out
  rl64 : Int64 [rlLast]
  ll64 : Int64 [llLast]
  one_max : (∀ r ∈ rs, r.End < 2 ^ 63 - 1) ∨ (∀ l ∈ ls, l.End < 2 ^ 63 - 1)
  out_max : ∀ o ∈ out, o.End = 2 ^ 63 - 1 →
    ReadToMax rlLast rs ls ∨ ReadToMax llLast ls rs
  rl_full : rlLast ∈ rs ∨ ¬ rlLast.Full
  ll_full : llLast ∈ ls ∨ ¬ llLast.Full

/-! ## Subtract, Union and InplaceUnion on concrete canonical lists -/

/-- C1 (fails on the code): for the canonical lists `self = [(1,2)]` and
`other = [(0,0),(2,2)]`, `Subtract` returns `[(1,2)]`, which still covers the
integer 2 although 2 lies in a range of `other`. -/
theorem subtract_keeps_subtracted_integer :
    Canonical [⟨1, 2⟩] ∧ Canonical [⟨0, 0⟩, ⟨2, 2⟩] ∧
    RangeList.Subtract [⟨1, 2⟩] [⟨0, 0⟩, ⟨2, 2⟩] = some [⟨1, 2⟩] ∧
    Covers [⟨1, 2⟩] 2 ∧ Covers [⟨0, 0⟩, ⟨2, 2⟩] 2 := by
  decide

/-- C2 (fails on the code): for the canonical lists `self = [(0,0),(2,2),(4,4)]`
and `other = [(1,3)]`, `Union` returns `[(0,3)]`, which does not cover the
integer 4 of `self`. -/
theorem union_loses_integer_of_self :
    Canonical [⟨0, 0⟩, ⟨2, 2⟩, ⟨4, 4⟩] ∧ Canonical [⟨1, 3⟩] ∧
    RangeList.Union [⟨0, 0⟩, ⟨2, 2⟩, ⟨4, 4⟩] [⟨1, 3⟩] = some [⟨0, 3⟩] ∧
    Covers [⟨0, 0⟩, ⟨2, 2⟩, ⟨4, 4⟩] 4 ∧ ¬ Covers [⟨0, 3⟩] 4 := by
  decide

/-- C5 (fails on the code): for `a = [(0,0),(2,2),(4,4)]` and `b = [(1,3)]`,
`a.InplaceUnion(b)` leaves `[(0,4)]` in `a` while `a.Union(b)` returns
`[(0,3)]`. -/
theorem inplaceUnion_differs_from_union :
    Canonical [⟨0, 0⟩, ⟨2, 2⟩, ⟨4, 4⟩] ∧ Canonical [⟨1, 3⟩] ∧
    (RangeList.InplaceUnion [⟨0, 0⟩, ⟨2, 2⟩, ⟨4, 4⟩] [⟨1, 3⟩]).map Prod.fst
      = some [⟨0, 4⟩] ∧
    RangeList.Union [⟨0, 0⟩, ⟨2, 2⟩, ⟨4, 4⟩] [⟨1, 3⟩] = some [⟨0, 3⟩] := by
  decide

/-! ## The range algebra over the integers, on canonical lists -/

theorem canon_nil : Canon [] := ⟨by simp, List.Pairwise.nil⟩

theorem canon_cons {a : Range} {rl : RangeList} :
    Canon (a :: rl) ↔ a.Start ≤ a.End ∧ (∀ x ∈ rl, a.End + 1 < x.Start) ∧ Canon rl := by
  unfold Canon
  simp only [List.mem_cons, forall_eq_or_imp, List.pairwise_cons]
  tauto

theorem canon_singleton {a : Range} : Canon [a] ↔ a.Start ≤ a.End := by
  rw [canon_cons]
  simp [canon_nil]

theorem canon_append {xs ys : RangeList} :
    Canon (xs ++ ys) ↔ Canon xs ∧ Canon ys ∧ ∀ x ∈ xs, ∀ y ∈ ys, x.End + 1 < y.Start := by
  unfold Canon
  simp only [List.mem_append, List.pairwise_append]
  constructor
  · rintro ⟨h1, h2, h3, h4⟩
    exact ⟨⟨fun r hr => h1 r (Or.inl hr), h2⟩, ⟨fun r hr => h1 r (Or.inr hr), h3⟩, h4⟩
  · rintro ⟨⟨h1, h2⟩, ⟨h3, h4⟩, h5⟩
    exact ⟨fun r hr => hr.elim (h1 r) (h3 r), h2, h4, h5⟩

theorem canonical_iff_canon (rl : RangeList) : Canonical rl ↔ Canon rl := by
  induction rl with
  | nil => simp [Canonical, canon_nil]
  | cons a rest ih =>
    cases rest with
    | nil => simp [Canonical, canon_singleton]
    | cons b rest =>
      simp only [Canonical]
      rw [ih]
      constructor
      · rintro ⟨h1, h2, h3, h4⟩
        have h5 := canon_cons.mp h4
        refine canon_cons.mpr ⟨h1, ?_, h4⟩
        intro x hx
        rcases List.mem_cons.mp hx with rfl | hx
        · omega
        · have := h5.2.1 x hx; omega
      · intro h
        obtain ⟨h1, h2, h3⟩ := canon_cons.mp h
        have := h2 b (List.mem_cons_self _ _)
        have := (canon_cons.mp h3).1
        exact ⟨h1, by omega, by omega, h3⟩

theorem covers_nil (x : Int) : ¬ Covers [] x := by
  simp [Covers]

theorem covers_cons {a : Range} {rl : RangeList} {x : Int} :
    Covers (a :: rl) x ↔ (a.Start ≤ x ∧ x ≤ a.End) ∨ Covers rl x := by
  simp [Covers]

theorem covers_append {xs ys : RangeList} {x : Int} :
    Covers (xs ++ ys) x ↔ Covers xs x ∨ Covers ys x := by
  simp only [Covers, List.mem_append]
  constructor
  · rintro ⟨r, hr | hr, h⟩
    · exact Or.inl ⟨r, hr, h⟩
    · exact Or.inr ⟨r, hr, h⟩
  · rintro (⟨r, hr, h⟩ | ⟨r, hr, h⟩)
    · exact ⟨r, Or.inl hr, h⟩
    · exact ⟨r, Or.inr hr, h⟩

theorem covers_singleton {a : Range} {x : Int} :
    Covers [a] x ↔ a.Start ≤ x ∧ x ≤ a.End := by
  simp [Covers]

theorem covers_gt {rl : RangeList} {b x : Int} (h : ∀ y ∈ rl, b < y.Start)
    (hx : Covers rl x) : b < x := by
  obtain ⟨r, hr, h1, _⟩ := hx
  have := h r hr
  omega

theorem covers_le_end {rl : RangeList} {b x : Int} (h : ∀ y ∈ rl, y.End ≤ b)
    (hx : Covers rl x) : x ≤ b := by
  obtain ⟨r, hr, _, h1⟩ := hx
  have := h r hr
  omega

/-! ### flattenZ leaves a canonical list unchanged -/

theorem insertByStart_of_le (x : Range) (rl : RangeList)
    (h : ∀ y ∈ rl, x.Start ≤ y.Start) : insertByStart x rl = x :: rl := by
  cases rl with
  | nil => rfl
  | cons y ys =>
    unfold insertByStart
    rw [if_pos (h y (List.mem_cons_self _ _))]

theorem sortByStart_of_sorted (rl : RangeList)
    (h : rl.Pairwise (fun a b => a.Start ≤ b.Start)) : sortByStart rl = rl := by
  induction rl with
  | nil => rfl
  | cons x xs ih =>
    rw [List.pairwise_cons] at h
    unfold sortByStart
    rw [ih h.2, insertByStart_of_le x xs h.1]

theorem Canon.sorted {rl : RangeList} (h : Canon rl) :
    rl.Pairwise (fun a b => a.Start ≤ b.Start) := by
  induction rl with
  | nil => exact List.Pairwise.nil
  | cons x xs ih =>
    rw [canon_cons] at h
    rw [List.pairwise_cons]
    refine ⟨fun y hy => ?_, ih h.2.2⟩
    have := h.2.1 y hy
    omega

theorem mergeRightZ_canon (rl : RangeList) (h : Canon rl) : mergeRightZ rl = rl := by
  induction rl with
  | nil => rfl
  | cons x xs ih =>
    rw [canon_cons] at h
    unfold mergeRightZ
    rw [ih h.2.2]
    cases xs with
    | nil => rfl
    | cons y ys =>
      have := h.2.1 y (List.mem_cons_self _ _)
      simp only
      rw [if_neg (by omega)]

theorem flattenZ_canon (rl : RangeList) (h : Canon rl) : flattenZ rl = rl := by
  unfold flattenZ
  rw [sortByStart_of_sorted rl h.sorted, mergeRightZ_canon rl h]

/-! ### The predicates of `Range` as propositions -/

theorem contains_iff (r l : Range) :
    r.Contains l = true ↔ r.Start ≤ l.Start ∧ l.End ≤ r.End := by
  simp [Range.Contains]

theorem overlapsFrontZ_iff (r l : Range) :
    r.OverlapsFrontZ l = true ↔ r.Start ≤ l.Start ∧ l.Start ≤ r.End + 1 := by
  simp [Range.OverlapsFrontZ]

/-! ### Intersection -/

theorem range_inter_some {r l p : Range} (h : r.Intersection l = some p) :
    p.Start = max r.Start l.Start ∧ p.End = min l.End r.End ∧
    (r.Start ≤ l.Start ∧ l.Start ≤ r.End ∨ l.Start ≤ r.Start ∧ r.Start ≤ l.End) := by
  unfold Range.Intersection at h
  split at h
  · rename_i h1
    cases h
    refine ⟨?_, rfl, ?_⟩ <;> (try simp only) <;> omega
  · split at h
    · rename_i h1 h2
      cases h
      refine ⟨?_, rfl, ?_⟩ <;> (try simp only) <;> omega
    · cases h

theorem range_inter_none {r l : Range} (h : r.Intersection l = none) :
    r.End < l.Start ∨ l.End < r.Start := by
  unfold Range.Intersection at h
  split at h
  · cases h
  · split at h
    · cases h
    · omega

theorem intersectionLoopZ_spec (fuel : Nat) :
    ∀ (rs ls out : RangeList), rs.length + ls.length < fuel →
      Canon rs → Canon ls → Canon out →
      (∀ o ∈ out, ∀ r ∈ rs, ∀ l ∈ ls, o.End + 1 < r.Start ∨ o.End + 1 < l.Start) →
      ∃ res, intersectionLoopZ fuel rs ls out = some res ∧ Canon res ∧
        ∀ x, Covers res x ↔ Covers out x ∨ (Covers rs x ∧ Covers ls x) := by
  induction fuel with
  | zero => intro rs ls out h; omega
  | succ n ih =>
    intro rs ls out hfuel hrs hls hout hinv
    cases rs with
    | nil =>
      refine ⟨out, by simp [intersectionLoopZ], hout, fun x => ?_⟩
      simp [covers_nil]
    | cons r rs =>
      cases ls with
      | nil =>
        refine ⟨out, by simp [intersectionLoopZ], hout, fun x => ?_⟩
        simp [covers_nil]
      | cons l ls =>
        obtain ⟨hr, hrgap, hrs'⟩ := canon_cons.mp hrs
        obtain ⟨hl, hlgap, hls'⟩ := canon_cons.mp hls
        have hhead := fun o ho => hinv o ho r (List.mem_cons_self _ _) l (List.mem_cons_self _ _)
        simp only [List.length_cons] at hfuel
        -- appending a piece `p` that starts after the heads keeps `out` canonical
        have happ : ∀ p : Range, p.Start ≤ p.End → r.Start ≤ p.Start → l.Start ≤ p.Start →
            Canon (out ++ [p]) := by
          intro p hp h1 h2
          rw [canon_append, canon_singleton]
          refine ⟨hout, hp, fun o ho y hy => ?_⟩
          rw [List.mem_singleton] at hy; subst hy
          have := hhead o ho; omega
        -- the invariant after `i++`
        have hinvR : ∀ out' : RangeList, (∀ o ∈ out', o ∈ out ∨ o.End ≤ r.End) →
            ∀ o ∈ out', ∀ r' ∈ rs, ∀ l' ∈ l :: ls, o.End + 1 < r'.Start ∨ o.End + 1 < l'.Start := by
          intro out' h o ho r' hr' l' hl'
          rcases h o ho with h | h
          · exact hinv o h r' (List.mem_cons_of_mem _ hr') l' hl'
          · have := hrgap r' hr'; left; omega
        -- the invariant after `j++`
        have hinvL : ∀ out' : RangeList, (∀ o ∈ out', o ∈ out ∨ o.End ≤ l.End) →
            ∀ o ∈ out', ∀ r' ∈ r :: rs, ∀ l' ∈ ls, o.End + 1 < r'.Start ∨ o.End + 1 < l'.Start := by
          intro out' h o ho r' hr' l' hl'
          rcases h o ho with h | h
          · exact hinv o h r' hr' l' (List.mem_cons_of_mem _ hl')
          · have := hlgap l' hl'; right; omega
        have hsnoc : ∀ (p : Range) (b : Int), p.End ≤ b →
            ∀ o ∈ out ++ [p], o ∈ out ∨ o.End ≤ b := by
          intro p b hp o ho
          rcases List.mem_append.mp ho with ho | ho
          · exact Or.inl ho
          · rw [List.mem_singleton] at ho; subst ho; exact Or.inr hp
        have hself : ∀ (b : Int), ∀ o ∈ out, o ∈ out ∨ o.End ≤ b := fun _ _ ho => Or.inl ho
        unfold intersectionLoopZ
        by_cases h1 : r.Contains l = true
        · -- `ll[j]` lies inside `rl[i]`
          rw [if_pos h1]
          rw [contains_iff] at h1
          have hc := happ l hl h1.1 (le_refl _)
          rw [flattenZ_canon _ hc]
          obtain ⟨res, hres, hcan, hcov⟩ := ih (r :: rs) ls (out ++ [l])
            (by simp only [List.length_cons]; omega) hrs hls' hc
            (hinvL _ (hsnoc l l.End (le_refl _)))
          refine ⟨res, hres, hcan, fun x => ?_⟩
          rw [hcov, covers_append, covers_singleton, covers_cons, covers_cons]
          have g1 : Covers rs x → r.End + 1 < x := covers_gt hrgap
          have g2 : Covers ls x → l.End + 1 < x := covers_gt hlgap
          by_cases hcr : Covers rs x <;> by_cases hcl : Covers ls x <;>
            by_cases hco : Covers out x <;>
            simp only [hcr, hcl, hco, true_and, false_and, and_true, and_false, or_true,
              or_false, true_or, false_or, true_implies, false_implies, false_iff, iff_false,
              true_iff, iff_true] at g1 g2 ⊢ <;> omega
        rw [if_neg h1]
        rw [contains_iff] at h1
        by_cases h2 : l.Contains r = true
        · -- `rl[i]` lies inside `ll[j]`
          rw [if_pos h2]
          rw [contains_iff] at h2
          have hc := happ r hr (le_refl _) h2.1
          rw [flattenZ_canon _ hc]
          obtain ⟨res, hres, hcan, hcov⟩ := ih rs (l :: ls) (out ++ [r])
            (by simp only [List.length_cons]; omega) hrs' hls hc
            (hinvR _ (hsnoc r r.End (le_refl _)))
          refine ⟨res, hres, hcan, fun x => ?_⟩
          rw [hcov, covers_append, covers_singleton, covers_cons, covers_cons]
          have g1 : Covers rs x → r.End + 1 < x := covers_gt hrgap
          have g2 : Covers ls x → l.End + 1 < x := covers_gt hlgap
          by_cases hcr : Covers rs x <;> by_cases hcl : Covers ls x <;>
            by_cases hco : Covers out x <;>
            simp only [hcr, hcl, hco, true_and, false_and, and_true, and_false, or_true,
              or_false, true_or, false_or, true_implies, false_implies, false_iff, iff_false,
              true_iff, iff_true] at g1 g2 ⊢ <;> omega
        rw [if_neg h2]
        rw [contains_iff] at h2
        by_cases h3 : r.OverlapsFrontZ l = true
        · -- `rl[i]` starts first and `ll[j]` runs past its end
          rw [if_pos h3]
          rw [overlapsFrontZ_iff] at h3
          cases hI : r.Intersection l with
          | some p =>
            obtain ⟨hp1, hp2, hp3⟩ := range_inter_some hI
            simp only
            have hc := happ p (by omega) (by omega) (by omega)
            rw [flattenZ_canon _ hc]
            obtain ⟨res, hres, hcan, hcov⟩ := ih rs (l :: ls) (out ++ [p])
              (by simp only [List.length_cons]; omega) hrs' hls hc
              (hinvR _ (hsnoc p r.End (by omega)))
            refine ⟨res, hres, hcan, fun x => ?_⟩
            rw [hcov, covers_append, covers_singleton, covers_cons, covers_cons]
            have g1 : Covers rs x → r.End + 1 < x := covers_gt hrgap
            have g2 : Covers ls x → l.End + 1 < x := covers_gt hlgap
            by_cases hcr : Covers rs x <;> by_cases hcl : Covers ls x <;>
              by_cases hco : Covers out x <;>
              simp only [hcr, hcl, hco, true_and, false_and, and_true, and_false, or_true,
                or_false, true_or, false_or, true_implies, false_implies, false_iff, iff_false,
              true_iff, iff_true] at g1 g2 ⊢ <;> omega
          | none =>
            have hp := range_inter_none hI
            simp only
            rw [flattenZ_canon _ hout]
            obtain ⟨res, hres, hcan, hcov⟩ := ih rs (l :: ls) out
              (by simp only [List.length_cons]; omega) hrs' hls hout
              (hinvR _ (hself r.End))
            refine ⟨res, hres, hcan, fun x => ?_⟩
            rw [hcov, covers_cons, covers_cons]
            have g1 : Covers rs x → r.End + 1 < x := covers_gt hrgap
            have g2 : Covers ls x → l.End + 1 < x := covers_gt hlgap
            by_cases hcr : Covers rs x <;> by_cases hcl : Covers ls x <;>
              by_cases hco : Covers out x <;>
              simp only [hcr, hcl, hco, true_and, false_and, and_true, and_false, or_true,
                or_false, true_or, false_or, true_implies, false_implies, false_iff, iff_false,
              true_iff, iff_true] at g1 g2 ⊢ <;> omega
        rw [if_neg h3]
        rw [overlapsFrontZ_iff] at h3
        by_cases h4 : l.OverlapsFrontZ r = true
        · -- `ll[j]` starts first and `rl[i]` runs past its end
          rw [if_pos h4]
          rw [overlapsFrontZ_iff] at h4
          cases hI : r.Intersection l with
          | some p =>
            obtain ⟨hp1, hp2, hp3⟩ := range_inter_some hI
            simp only
            have hc := happ p (by omega) (by omega) (by omega)
            rw [flattenZ_canon _ hc]
            obtain ⟨res, hres, hcan, hcov⟩ := ih (r :: rs) ls (out ++ [p])
              (by simp only [List.length_cons]; omega) hrs hls' hc
              (hinvL _ (hsnoc p l.End (by omega)))
            refine ⟨res, hres, hcan, fun x => ?_⟩
            rw [hcov, covers_append, covers_singleton, covers_cons, covers_cons]
            have g1 : Covers rs x → r.End + 1 < x := covers_gt hrgap
            have g2 : Covers ls x → l.End + 1 < x := covers_gt hlgap
            by_cases hcr : Covers rs x <;> by_cases hcl : Covers ls x <;>
              by_cases hco : Covers out x <;>
              simp only [hcr, hcl, hco, true_and, false_and, and_true, and_false, or_true,
                or_false, true_or, false_or, true_implies, false_implies, false_iff, iff_false,
              true_iff, iff_true] at g1 g2 ⊢ <;> omega
          | none =>
            have hp := range_inter_none hI
            simp only
            rw [flattenZ_canon _ hout]
            obtain ⟨res, hres, hcan, hcov⟩ := ih (r :: rs) ls out
              (by simp only [List.length_cons]; omega) hrs hls' hout
              (hinvL _ (hself l.End))
            refine ⟨res, hres, hcan, fun x => ?_⟩
            rw [hcov, covers_cons, covers_cons]
            have g1 : Covers rs x → r.End + 1 < x := covers_gt hrgap
            have g2 : Covers ls x → l.End + 1 < x := covers_gt hlgap
            by_cases hcr : Covers rs x <;> by_cases hcl : Covers ls x <;>
              by_cases hco : Covers out x <;>
              simp only [hcr, hcl, hco, true_and, false_and, and_true, and_false, or_true,
                or_false, true_or, false_or, true_implies, false_implies, false_iff, iff_false,
              true_iff, iff_true] at g1 g2 ⊢ <;> omega
        rw [if_neg h4]
        rw [overlapsFrontZ_iff] at h4
        rw [flattenZ_canon _ hout]
        by_cases h5 : r.End < l.Start
        · -- `rl[i]` ends before `ll[j]` starts
          rw [if_pos h5]
          obtain ⟨res, hres, hcan, hcov⟩ := ih rs (l :: ls) out
            (by simp only [List.length_cons]; omega) hrs' hls hout
            (hinvR _ (hself r.End))
          refine ⟨res, hres, hcan, fun x => ?_⟩
          rw [hcov, covers_cons, covers_cons]
          have g1 : Covers rs x → r.End + 1 < x := covers_gt hrgap
          have g2 : Covers ls x → l.End + 1 < x := covers_gt hlgap
          by_cases hcr : Covers rs x <;> by_cases hcl : Covers ls x <;>
            by_cases hco : Covers out x <;>
            simp only [hcr, hcl, hco, true_and, false_and, and_true, and_false, or_true,
              or_false, true_or, false_or, true_implies, false_implies, false_iff, iff_false,
              true_iff, iff_true] at g1 g2 ⊢ <;> omega
        · -- `ll[j]` ends before `rl[i]` starts
          rw [if_neg h5]
          obtain ⟨res, hres, hcan, hcov⟩ := ih (r :: rs) ls out
            (by simp only [List.length_cons]; omega) hrs hls' hout
            (hinvL _ (hself l.End))
          refine ⟨res, hres, hcan, fun x => ?_⟩
          rw [hcov, covers_cons, covers_cons]
          have g1 : Covers rs x → r.End + 1 < x := covers_gt hrgap
          have g2 : Covers ls x → l.End + 1 < x := covers_gt hlgap
          by_cases hcr : Covers rs x <;> by_cases hcl : Covers ls x <;>
            by_cases hco : Covers out x <;>
            simp only [hcr, hcl, hco, true_and, false_and, and_true, and_false, or_true,
              or_false, true_or, false_or, true_implies, false_implies, false_iff, iff_false,
              true_iff, iff_true] at g1 g2 ⊢ <;> omega

/-! ### The binary search -/

theorem searchLoop_false (f : Nat → Bool) (n : Nat)
    (hmono : ∀ a b, a ≤ b → b < n → f a = true → f b = true) :
    ∀ fuel i j, j ≤ n → (∀ k, k < i → f k = false) →
      ∀ k, k < searchLoop f fuel i j → f k = false := by
  intro fuel
  induction fuel with
  | zero => intro i j _ h k hk; exact h k hk
  | succ m ih =>
    intro i j hj h k hk
    unfold searchLoop at hk
    by_cases hij : i < j
    · rw [if_pos hij] at hk
      simp only at hk
      have hlt : (i + j) / 2 < j := by omega
      cases hf : f ((i + j) / 2) with
      | false =>
        rw [hf] at hk
        simp only [Bool.not_false, if_true] at hk
        refine ih ((i + j) / 2 + 1) j hj ?_ k hk
        intro k' hk'
        cases hfk : f k' with
        | false => rfl
        | true =>
          have := hmono k' ((i + j) / 2) (by omega) (by omega) hfk
          rw [hf] at this
          cases this
      | true =>
        rw [hf] at hk
        simp only [Bool.not_true] at hk
        exact ih i ((i + j) / 2) (by omega) h k hk
    · rw [if_neg hij] at hk
      exact h k hk

theorem endReachesZ_cons_succ (a : Range) (rl : RangeList) (s : Int) (k : Nat) :
    endReachesZ (a :: rl) s (k + 1) = endReachesZ rl s k := by
  simp [endReachesZ]

theorem endReachesZ_of_all (rl : RangeList) (s : Int) (h : ∀ y ∈ rl, s ≤ y.End + 1) :
    ∀ k, k < rl.length → endReachesZ rl s k = true := by
  induction rl with
  | nil => intro k hk; simp at hk
  | cons a rest ih =>
    intro k hk
    cases k with
    | zero =>
      have := h a (List.mem_cons_self _ _)
      simp [endReachesZ]; omega
    | succ k =>
      rw [endReachesZ_cons_succ]
      exact ih (fun y hy => h y (List.mem_cons_of_mem _ hy)) k
        (by simp only [List.length_cons] at hk; omega)

theorem endReachesZ_mono (rl : RangeList) (s : Int) (hrl : Canon rl) :
    ∀ a b, a ≤ b → b < rl.length → endReachesZ rl s a = true → endReachesZ rl s b = true := by
  induction rl with
  | nil => intro a b _ hb; simp at hb
  | cons x rest ih =>
    obtain ⟨hx, hgap, hrest⟩ := canon_cons.mp hrl
    intro a b hab hb ha
    cases b with
    | zero =>
      have : a = 0 := by omega
      subst this; exact ha
    | succ b =>
      simp only [List.length_cons] at hb
      rw [endReachesZ_cons_succ]
      cases a with
      | zero =>
        have h0 : s ≤ x.End + 1 := by
          simpa [endReachesZ] using ha
        refine endReachesZ_of_all rest s (fun y hy => ?_) b (by omega)
        have := hgap y hy
        have := hrest.1 y hy
        omega
      | succ a =>
        rw [endReachesZ_cons_succ] at ha
        exact ih hrest a b (by omega) (by omega) ha

theorem take_end_lt (rl : RangeList) (s : Int) :
    ∀ i, (∀ k, k < i → endReachesZ rl s k = false) → ∀ r ∈ rl.take i, r.End + 1 < s := by
  induction rl with
  | nil => intro i _ r hr; simp at hr
  | cons a rest ih =>
    intro i h r hr
    cases i with
    | zero => simp at hr
    | succ i =>
      rw [List.take_succ_cons, List.mem_cons] at hr
      rcases hr with rfl | hr
      · have := h 0 (by omega)
        simpa [endReachesZ] using this
      · refine ih i (fun k hk => ?_) r hr
        have := h (k + 1) (by omega)
        rwa [endReachesZ_cons_succ] at this

theorem intersectionStartZ_skips (rl : RangeList) (s : Int) (hrl : Canon rl) :
    ∀ r ∈ rl.take (intersectionStartZ rl s), r.End + 1 < s := by
  have hs := searchLoop_false (endReachesZ rl s) rl.length (endReachesZ_mono rl s hrl)
    rl.length 0 rl.length (le_refl _) (fun k hk => by omega)
  apply take_end_lt
  intro k hk
  apply hs
  unfold intersectionStartZ at hk
  unfold sortSearch at hk
  simp only at hk
  split at hk <;> omega

theorem canon_drop (rl : RangeList) (i : Nat) (h : Canon rl) : Canon (rl.drop i) :=
  ⟨fun r hr => h.1 r (List.mem_of_mem_drop hr), h.2.sublist (List.drop_sublist i rl)⟩

theorem covers_take_or_drop (rl : RangeList) (i : Nat) (x : Int) :
    Covers rl x ↔ Covers (rl.take i) x ∨ Covers (rl.drop i) x := by
  rw [← covers_append, List.take_append_drop]

/-- The sweep of `Intersection`, started where the source starts it, returns a
canonical list covering exactly the common integers. -/
theorem intersectionZ_spec (rl ll : RangeList) (hrl : Canon rl) (hll : Canon ll) :
    ∃ res, RangeList.IntersectionZ rl ll = some res ∧ Canon res ∧
      ∀ x, Covers res x ↔ Covers rl x ∧ Covers ll x := by
  cases ll with
  | nil => exact ⟨[], rfl, canon_nil, fun x => by simp [covers_nil]⟩
  | cons l0 ls =>
    cases rl with
    | nil => exact ⟨[], rfl, canon_nil, fun x => by simp [covers_nil]⟩
    | cons r0 rs =>
      unfold RangeList.IntersectionZ
      simp only [List.isEmpty_cons, Bool.false_eq_true, if_false]
      have hskip := intersectionStartZ_skips (r0 :: rs) l0.Start hrl
      obtain ⟨res, hres, hcan, hcov⟩ := intersectionLoopZ_spec
        ((r0 :: rs).length + (l0 :: ls).length + 1)
        ((r0 :: rs).drop (intersectionStartZ (r0 :: rs) l0.Start)) (l0 :: ls) []
        (by have := List.length_drop (intersectionStartZ (r0 :: rs) l0.Start) (r0 :: rs); omega)
        (canon_drop _ _ hrl) hll canon_nil (by simp)
      refine ⟨res, hres, hcan, fun x => ?_⟩
      rw [hcov, covers_take_or_drop (r0 :: rs) (intersectionStartZ (r0 :: rs) l0.Start) x]
      obtain ⟨hl0, hlgap, -⟩ := canon_cons.mp hll
      have g1 : Covers ((r0 :: rs).take (intersectionStartZ (r0 :: rs) l0.Start)) x →
          x + 1 < l0.Start := by
        rintro ⟨r, hr, -, h2⟩
        have := hskip r hr
        omega
      have g2 : Covers (l0 :: ls) x → l0.Start ≤ x := by
        rw [covers_cons]
        rintro (h | h)
        · exact h.1
        · have := covers_gt hlgap h; omega
      have g3 : ¬ Covers [] x := covers_nil x
      constructor
      · rintro (h | ⟨h1, h2⟩)
        · exact absurd h g3
        · exact ⟨Or.inr h1, h2⟩
      · rintro ⟨h1 | h1, h2⟩
        · have := g1 h1; have := g2 h2; omega
        · exact Or.inr ⟨h1, h2⟩

/-! ### Subtract -/

theorem sep_tail_left {r : Range} {rs ls : RangeList} (h : Sep (r :: rs) ls) : Sep rs ls :=
  fun r' hr' l hl => h r' (List.mem_cons_of_mem _ hr') l hl

theorem sep_tail_right {l : Range} {rs ls : RangeList} (h : Sep rs (l :: ls)) : Sep rs ls :=
  fun r hr l' hl' => h r hr l' (List.mem_cons_of_mem _ hl')

theorem subtractFuelZ_step (n : Nat) (hloop : SubtractLoopOk n) : SubtractOk (n + 1) := by
  intro rl ll hrl hll hfuel
  unfold SubtractFuelZ
  cases ll with
  | nil =>
    refine ⟨rl, by simp, hrl, fun o ho => ⟨o, ho, le_refl _, le_refl _⟩, fun _ x => ?_⟩
    simp [covers_nil]
  | cons l ls =>
    simp only [List.isEmpty_cons, Bool.false_eq_true, if_false]
    obtain ⟨res, hres, hcan, hin, hcov⟩ := hloop rl (l :: ls) [] hrl hll canon_nil
      (by simp) (by omega)
    refine ⟨res, by rw [hres, Option.map_some', flattenZ_canon _ hcan], hcan, ?_, ?_⟩
    · intro o ho
      rcases hin o ho with h | h
      · simp at h
      · exact h
    · intro hsep x
      rw [hcov hsep x]
      simp [covers_nil]

theorem appendNonEmpty_eq (out : RangeList) (p : Range) :
    appendNonEmpty out p = if p.Start ≤ p.End then out ++ [p] else out := by
  unfold appendNonEmpty
  simp only [ge_iff_le]

theorem canon_snoc {out : RangeList} {p : Range} (hout : Canon out)
    (hp : p.Start ≤ p.End) (h : ∀ o ∈ out, o.End + 1 < p.Start) : Canon (out ++ [p]) := by
  rw [canon_append, canon_singleton]
  refine ⟨hout, hp, fun o ho y hy => ?_⟩
  rw [List.mem_singleton] at hy; subst hy
  exact h o ho

theorem appendNonEmpty_facts {out : RangeList} {p : Range} (hout : Canon out)
    (h : ∀ o ∈ out, o.End + 1 < p.Start) :
    Canon (appendNonEmpty out p) ∧
    (∀ o ∈ appendNonEmpty out p, o ∈ out ∨ (o = p ∧ p.Start ≤ p.End)) ∧
    ∀ x, Covers (appendNonEmpty out p) x ↔ Covers out x ∨ (p.Start ≤ x ∧ x ≤ p.End) := by
  rw [appendNonEmpty_eq]
  by_cases hp : p.Start ≤ p.End
  · rw [if_pos hp]
    refine ⟨canon_snoc hout hp h, fun o ho => ?_, fun x => ?_⟩
    · rcases List.mem_append.mp ho with ho | ho
      · exact Or.inl ho
      · rw [List.mem_singleton] at ho; exact Or.inr ⟨ho, hp⟩
    · rw [covers_append, covers_singleton]
  · rw [if_neg hp]
    refine ⟨hout, fun o ho => Or.inl ho, fun x => ?_⟩
    constructor
    · exact Or.inl
    · rintro (h | h)
      · exact h
      · omega

theorem subtractLoopZ_step (n : Nat) (hsub : SubtractOk n) (hloop : SubtractLoopOk n) :
    SubtractLoopOk (n + 1) := by
  intro rs ls out hrs hls hout hinv hfuel
  cases rs with
  | nil =>
    refine ⟨out, by simp [subtractLoopZ], hout, fun o ho => Or.inl ho, fun _ x => ?_⟩
    simp [covers_nil]
  | cons r rs =>
    obtain ⟨hr, hrgap, hrs'⟩ := canon_cons.mp hrs
    have hhead := fun o ho => hinv o ho r (List.mem_cons_self _ _)
    -- after `i++`, with every new entry of `out` inside `rl[i]`
    have hnext : ∀ out' : RangeList, (∀ o ∈ out', o ∈ out ∨ o.End ≤ r.End) →
        ∀ o ∈ out', ∀ r' ∈ rs, o.End + 1 < r'.Start := by
      intro out' h o ho r' hr'
      rcases h o ho with h | h
      · exact hinv o h r' (List.mem_cons_of_mem _ hr')
      · have := hrgap r' hr'; omega
    cases ls with
    | nil =>
      simp only [List.length_cons, List.length_nil] at hfuel
      unfold subtractLoopZ
      have hc : Canon (out ++ [r]) := canon_snoc hout hr hhead
      obtain ⟨res, hres, hcan, hin, hcov⟩ := hloop rs [] (out ++ [r]) hrs' canon_nil hc
        (hnext _ (by
          intro o ho
          rcases List.mem_append.mp ho with ho | ho
          · exact Or.inl ho
          · rw [List.mem_singleton] at ho; subst ho; exact Or.inr (le_refl _)))
        (by simp only [List.length_nil]; omega)
      refine ⟨res, hres, hcan, ?_, fun _ x => ?_⟩
      · intro o ho
        rcases hin o ho with h | ⟨r', hr', h⟩
        · rcases List.mem_append.mp h with h | h
          · exact Or.inl h
          · rw [List.mem_singleton] at h; subst h
            exact Or.inr ⟨o, List.mem_cons_self _ _, le_refl _, le_refl _⟩
        · exact Or.inr ⟨r', List.mem_cons_of_mem _ hr', h⟩
      · rw [hcov (fun _ _ _ hl => by simp at hl) x, covers_append, covers_singleton,
          covers_cons]
        simp only [covers_nil, not_false_eq_true, and_true]
        tauto
    | cons l ls =>
      obtain ⟨hl, hlgap, hls'⟩ := canon_cons.mp hls
      simp only [List.length_cons] at hfuel
      have g1 : ∀ x, Covers rs x → r.End + 1 < x := fun x => covers_gt hrgap
      have g2 : ∀ x, Covers ls x → l.End + 1 < x := fun x => covers_gt hlgap
      have hsepHead : Sep (r :: rs) (l :: ls) →
          (r.Start ≤ l.Start ∧ l.End ≤ r.End) ∨ l.End + 1 < r.Start ∨ r.End + 1 < l.Start :=
        fun h => h r (List.mem_cons_self _ _) l (List.mem_cons_self _ _)
      -- the pass ends with `i++` and `out'`, whose new entries lie inside `rl[i]`
      have hadvance : ∀ out' : RangeList, Canon out' →
          (∀ o ∈ out', o ∈ out ∨ (r.Start ≤ o.Start ∧ o.End ≤ r.End)) →
          (Sep (r :: rs) (l :: ls) → ∀ x, Covers out' x ↔
            Covers out x ∨ (r.Start ≤ x ∧ x ≤ r.End ∧ ¬ (l.Start ≤ x ∧ x ≤ l.End) ∧
              ¬ Covers ls x)) →
          ∃ res, subtractLoopZ n rs (l :: ls) out' = some res ∧ Canon res ∧
            (∀ o ∈ res, o ∈ out ∨ ∃ r' ∈ r :: rs, r'.Start ≤ o.Start ∧ o.End ≤ r'.End) ∧
            (Sep (r :: rs) (l :: ls) → ∀ x, Covers res x ↔
              Covers out x ∨ (Covers (r :: rs) x ∧ ¬ Covers (l :: ls) x)) := by
        intro out' hc hin' hcov'
        obtain ⟨res, hres, hcan, hin, hcov⟩ := hloop rs (l :: ls) out' hrs' hls hc
          (hnext _ (fun o ho => (hin' o ho).imp id (fun h => h.2)))
          (by simp only [List.length_cons]; omega)
        refine ⟨res, hres, hcan, ?_, ?_⟩
        · intro o ho
          rcases hin o ho with h | ⟨r', hr', h⟩
          · rcases hin' o h with h | h
            · exact Or.inl h
            · exact Or.inr ⟨r, List.mem_cons_self _ _, h⟩
          · exact Or.inr ⟨r', List.mem_cons_of_mem _ hr', h⟩
        · intro hsep x
          rw [hcov (sep_tail_left hsep) x, hcov' hsep x]
          simp only [covers_cons]
          have g1x := g1 x
          have g2x := g2 x
          have hh := hsepHead hsep
          by_cases hcr : Covers rs x <;> by_cases hcl : Covers ls x <;>
            by_cases hco : Covers out x <;>
            simp only [hcr, hcl, hco, true_and, false_and, and_true, and_false, or_true,
              or_false, true_or, false_or, true_implies, false_implies, false_iff, iff_false,
              true_iff, iff_true, not_true_eq_false, not_false_eq_true] at g1x g2x ⊢ <;> omega
      unfold subtractLoopZ
      by_cases h1 : r.Contains l = true
      · -- `ll[j]` lies inside `rl[i]`
        rw [if_pos h1]
        rw [contains_iff] at h1
        obtain ⟨hc1, hin1, hcov1⟩ := appendNonEmpty_facts (p := ⟨r.Start, l.Start - 1⟩)
          hout hhead
        have e1 : (if l.Start - 1 ≥ r.Start then out ++ [⟨r.Start, l.Start - 1⟩] else out)
            = appendNonEmpty out ⟨r.Start, l.Start - 1⟩ := rfl
        simp only [e1]
        have hin1' : ∀ o ∈ appendNonEmpty out ⟨r.Start, l.Start - 1⟩,
            o ∈ out ∨ (r.Start ≤ o.Start ∧ o.End ≤ r.End ∧ o.End + 1 ≤ l.Start) := by
          intro o ho
          rcases hin1 o ho with h | ⟨rfl, h⟩
          · exact Or.inl h
          · simp only at h ⊢; omega
        by_cases h7 : r.End ≥ l.End + 1
        · rw [if_pos h7]
          obtain ⟨sub, hsubeq, hsubc, hsubin, hsubcov⟩ := hsub [⟨l.End + 1, r.End⟩] ls
            (canon_singleton.mpr (by simp only; omega)) hls'
            (by simp only [List.length_cons, List.length_nil]; omega)
          rw [hsubeq]
          simp only
          have hsubin' : ∀ o ∈ sub, l.End + 1 ≤ o.Start ∧ o.End ≤ r.End := by
            intro o ho
            obtain ⟨q, hq, h⟩ := hsubin o ho
            rw [List.mem_singleton] at hq; subst hq
            simpa using h
          have hc : Canon (appendNonEmpty out ⟨r.Start, l.Start - 1⟩ ++ sub) := by
            rw [canon_append]
            refine ⟨hc1, hsubc, fun a ha b hb => ?_⟩
            have hb' := hsubin' b hb
            rcases hin1' a ha with h | h
            · have := hhead a h; omega
            · omega
          obtain ⟨res, hres, hcan, hin, hcov⟩ := hloop rs ls _ hrs' hls' hc
            (hnext _ (fun o ho => by
              rcases List.mem_append.mp ho with ho | ho
              · exact (hin1' o ho).imp id (fun h => h.2.1)
              · exact Or.inr (hsubin' o ho).2))
            (by omega)
          refine ⟨res, hres, hcan, ?_, ?_⟩
          · intro o ho
            rcases hin o ho with h | ⟨r', hr', h⟩
            · rcases List.mem_append.mp h with h | h
              · rcases hin1' o h with h | h
                · exact Or.inl h
                · exact Or.inr ⟨r, List.mem_cons_self _ _, h.1, h.2.1⟩
              · have := hsubin' o h
                exact Or.inr ⟨r, List.mem_cons_self _ _, by omega, by omega⟩
            · exact Or.inr ⟨r', List.mem_cons_of_mem _ hr', h⟩
          · intro hsep x
            have hsep' : Sep [⟨l.End + 1, r.End⟩] ls := by
              intro q hq l' hl'
              rw [List.mem_singleton] at hq; subst hq
              have := hsep r (List.mem_cons_self _ _) l' (List.mem_cons_of_mem _ hl')
              have := hlgap l' hl'
              simp only
              omega
            rw [hcov (sep_tail_right (sep_tail_left hsep)) x, covers_append, hcov1 x,
              hsubcov hsep' x, covers_singleton]
            simp only [covers_cons]
            have g1x := g1 x
            have g2x := g2 x
            by_cases hcr : Covers rs x <;> by_cases hcl : Covers ls x <;>
              by_cases hco : Covers out x <;>
              simp only [hcr, hcl, hco, true_and, false_and, and_true, and_false, or_true,
                or_false, true_or, false_or, true_implies, false_implies, false_iff,
                iff_false, true_iff, iff_true, not_true_eq_false, not_false_eq_true]
                at g1x g2x ⊢ <;> omega
        · rw [if_neg h7]
          obtain ⟨res, hres, hcan, hin, hcov⟩ := hloop rs ls _ hrs' hls' hc1
            (hnext _ (fun o ho => (hin1' o ho).imp id (fun h => h.2.1)))
            (by omega)
          refine ⟨res, hres, hcan, ?_, ?_⟩
          · intro o ho
            rcases hin o ho with h | ⟨r', hr', h⟩
            · rcases hin1' o h with h | h
              · exact Or.inl h
              · exact Or.inr ⟨r, List.mem_cons_self _ _, h.1, h.2.1⟩
            · exact Or.inr ⟨r', List.mem_cons_of_mem _ hr', h⟩
          · intro hsep x
            rw [hcov (sep_tail_right (sep_tail_left hsep)) x, hcov1 x]
            simp only [covers_cons]
            have g1x := g1 x
            have g2x := g2 x
            by_cases hcr : Covers rs x <;> by_cases hcl : Covers ls x <;>
              by_cases hco : Covers out x <;>
              simp only [hcr, hcl, hco, true_and, false_and, and_true, and_false, or_true,
                or_false, true_or, false_or, true_implies, false_implies, false_iff,
                iff_false, true_iff, iff_true, not_true_eq_false, not_false_eq_true]
                at g1x g2x ⊢ <;> omega
      rw [if_neg h1]
      rw [contains_iff] at h1
      by_cases h2 : l.Contains r = true
      · -- `rl[i]` lies inside `ll[j]`: nothing of it is left
        rw [if_pos h2]
        rw [contains_iff] at h2
        obtain ⟨hc, hin', hcov'⟩ := appendNonEmpty_facts (p := ⟨r.Start, l.Start - 1⟩)
          hout hhead
        refine hadvance _ hc (fun o ho => ?_) (fun hsep x => ?_)
        · rcases hin' o ho with h | ⟨rfl, h⟩
          · exact Or.inl h
          · simp only at h ⊢; omega
        · rw [hcov' x]
          have hh := hsepHead hsep
          simp only
          by_cases hcl : Covers ls x <;> by_cases hco : Covers out x <;>
            simp only [hcl, hco, true_and, false_and, and_true, and_false, or_true,
              or_false, true_or, false_or, true_implies, false_implies, false_iff, iff_false,
              true_iff, iff_true, not_true_eq_false, not_false_eq_true] <;> omega
      rw [if_neg h2]
      rw [contains_iff] at h2
      by_cases h3 : r.OverlapsFrontZ l = true
      · -- `rl[i]` starts first: its part before `ll[j]` is kept
        rw [if_pos h3]
        rw [overlapsFrontZ_iff] at h3
        obtain ⟨hc, hin', hcov'⟩ := appendNonEmpty_facts (p := ⟨r.Start, l.Start - 1⟩)
          hout hhead
        refine hadvance _ hc (fun o ho => ?_) (fun hsep x => ?_)
        · rcases hin' o ho with h | ⟨rfl, h⟩
          · exact Or.inl h
          · simp only at h ⊢; omega
        · have hh := hsepHead hsep
          omega
      rw [if_neg h3]
      rw [overlapsFrontZ_iff] at h3
      by_cases h4 : l.OverlapsFrontZ r = true
      · -- `ll[j]` starts first: the part of `rl[i]` after it is kept
        rw [if_pos h4]
        rw [overlapsFrontZ_iff] at h4
        obtain ⟨hc, hin', hcov'⟩ := appendNonEmpty_facts (p := ⟨l.End + 1, r.End⟩)
          hout (fun o ho => by have := hhead o ho; simp only; omega)
        refine hadvance _ hc (fun o ho => ?_) (fun hsep x => ?_)
        · rcases hin' o ho with h | ⟨rfl, h⟩
          · exact Or.inl h
          · simp only at h ⊢; omega
        · have hh := hsepHead hsep
          omega
      rw [if_neg h4]
      rw [overlapsFrontZ_iff] at h4
      by_cases h5 : r.End < l.Start
      · -- `rl[i]` ends before `ll[j]` starts: it is kept whole
        rw [if_pos h5]
        obtain ⟨hc, hin', hcov'⟩ := appendNonEmpty_facts (p := r) hout hhead
        refine hadvance _ hc (fun o ho => ?_) (fun hsep x => ?_)
        · rcases hin' o ho with h | ⟨rfl, h⟩
          · exact Or.inl h
          · exact Or.inr ⟨le_refl _, le_refl _⟩
        · rw [hcov' x]
          have g2x := g2 x
          by_cases hcl : Covers ls x <;> by_cases hco : Covers out x <;>
            simp only [hcl, hco, true_and, false_and, and_true, and_false, or_true,
              or_false, true_or, false_or, true_implies, false_implies, false_iff, iff_false,
              true_iff, iff_true, not_true_eq_false, not_false_eq_true] at g2x ⊢ <;> omega
      rw [if_neg h5]
      by_cases h6 : r.Start > l.End
      · -- `ll[j]` ends before `rl[i]` starts: `j++`
        rw [if_pos h6]
        obtain ⟨res, hres, hcan, hin, hcov⟩ := hloop (r :: rs) ls out hrs hls' hout hinv
          (by simp only [List.length_cons]; omega)
        refine ⟨res, hres, hcan, hin, fun hsep x => ?_⟩
        rw [hcov (sep_tail_right hsep) x, covers_cons, covers_cons]
        have g1x := g1 x
        have g2x := g2 x
        by_cases hcr : Covers rs x <;> by_cases hcl : Covers ls x <;>
          by_cases hco : Covers out x <;>
          simp only [hcr, hcl, hco, true_and, false_and, and_true, and_false, or_true,
            or_false, true_or, false_or, true_implies, false_implies, false_iff, iff_false,
            true_iff, iff_true, not_true_eq_false, not_false_eq_true] at g1x g2x ⊢ <;> omega
      · -- no other position of two ranges exists
        exfalso
        omega

theorem subtractZ_ok : ∀ fuel, SubtractOk fuel ∧ SubtractLoopOk fuel := by
  intro fuel
  induction fuel with
  | zero =>
    constructor
    · intro rl ll _ _ h; omega
    · intro rs ls out _ _ _ _ h; omega
  | succ n ih =>
    exact ⟨subtractFuelZ_step n ih.2, subtractLoopZ_step n ih.1 ih.2⟩

/-- `Subtract` on canonical lists returns a canonical list of pieces of `rl`;
when every range of `ll` lies inside a range of `rl` or apart from it, the
result covers exactly the integers of `rl` that are not in `ll`. -/
theorem subtractZ_spec (rl ll : RangeList) (hrl : Canon rl) (hll : Canon ll) :
    ∃ res, RangeList.SubtractZ rl ll = some res ∧ Canon res ∧ Within res rl ∧
      (Sep rl ll → ∀ x, Covers res x ↔ Covers rl x ∧ ¬ Covers ll x) :=
  (subtractZ_ok _).1 rl ll hrl hll (le_refl _)

/-! ### flattenZ on lists whose bounds both grow -/

theorem Canon.mono {rl : RangeList} (h : Canon rl) : Mono rl := by
  refine ⟨h.1, ?_⟩
  induction rl with
  | nil => exact List.Pairwise.nil
  | cons x xs ih =>
    obtain ⟨hx, hgap, hxs⟩ := canon_cons.mp h
    rw [List.pairwise_cons]
    refine ⟨fun y hy => ?_, ih hxs⟩
    have := hgap y hy
    have := hxs.1 y hy
    omega

theorem mono_cons {a : Range} {rl : RangeList} :
    Mono (a :: rl) ↔ a.Start ≤ a.End ∧
      (∀ x ∈ rl, a.Start < x.Start ∧ a.End ≤ x.End) ∧ Mono rl := by
  unfold Mono
  simp only [List.mem_cons, forall_eq_or_imp, List.pairwise_cons]
  tauto

theorem mergeRightZ_mono (rl : RangeList) (h : Mono rl) :
    Canon (mergeRightZ rl) ∧ (∀ t, Covers (mergeRightZ rl) t ↔ Covers rl t) ∧
    (∀ x rest, rl = x :: rest →
      ∃ y ys, mergeRightZ rl = y :: ys ∧ y.Start = x.Start ∧ x.End ≤ y.End) := by
  induction rl with
  | nil =>
    exact ⟨canon_nil, fun t => Iff.rfl, fun x rest h => by cases h⟩
  | cons x rest ih =>
    obtain ⟨hx, hle, hrest⟩ := mono_cons.mp h
    obtain ⟨hc, hcov, hhead⟩ := ih hrest
    cases rest with
    | nil =>
      refine ⟨canon_singleton.mpr hx, fun t => Iff.rfl, fun x' rest' h' => ?_⟩
      cases h'
      exact ⟨x, [], rfl, rfl, le_refl _⟩
    | cons z zs =>
      obtain ⟨y, ys, hy, hys, hye⟩ := hhead z zs rfl
      have hz := hle z (List.mem_cons_self _ _)
      rw [hy] at hc hcov
      obtain ⟨hyne, hygap, hysc⟩ := canon_cons.mp hc
      unfold mergeRightZ
      rw [hy]
      simp only
      by_cases hm : y.Start ≤ x.End + 1
      · rw [if_pos hm]
        refine ⟨?_, fun t => ?_, fun x' rest' h' => ?_⟩
        · refine canon_cons.mpr ⟨by simp only; omega, fun w hw => ?_, hysc⟩
          have := hygap w hw
          simp only
          omega
        · rw [@covers_cons _ ys t, @covers_cons x (z :: zs) t, ← hcov t, @covers_cons y ys t]
          simp only
          by_cases hcy : Covers ys t
          · simp only [hcy, or_true]
          · simp only [hcy, or_false]; omega
        · cases h'
          exact ⟨_, ys, rfl, rfl, by simp only; omega⟩
      · rw [if_neg hm]
        refine ⟨?_, fun t => ?_, fun x' rest' h' => ?_⟩
        · refine canon_cons.mpr ⟨hx, fun w hw => ?_, hc⟩
          rcases List.mem_cons.mp hw with rfl | hw
          · omega
          · have := hygap w hw; omega
        · rw [@covers_cons x (y :: ys) t, @covers_cons x (z :: zs) t, hcov t]
        · cases h'
          exact ⟨x, y :: ys, rfl, rfl, le_refl _⟩

theorem flattenZ_mono (rl : RangeList) (h : Mono rl) :
    Canon (flattenZ rl) ∧ ∀ t, Covers (flattenZ rl) t ↔ Covers rl t := by
  unfold flattenZ
  rw [sortByStart_of_sorted rl (h.2.imp (fun h => le_of_lt h.1))]
  exact ⟨(mergeRightZ_mono rl h).1, (mergeRightZ_mono rl h).2.1⟩

theorem mono_append {xs ys : RangeList} :
    Mono (xs ++ ys) ↔ Mono xs ∧ Mono ys ∧
      ∀ x ∈ xs, ∀ y ∈ ys, x.Start < y.Start ∧ x.End ≤ y.End := by
  unfold Mono
  simp only [List.mem_append, List.pairwise_append]
  constructor
  · rintro ⟨h1, h2, h3, h4⟩
    exact ⟨⟨fun r hr => h1 r (Or.inl hr), h2⟩, ⟨fun r hr => h1 r (Or.inr hr), h3⟩, h4⟩
  · rintro ⟨⟨h1, h2⟩, ⟨h3, h4⟩, h5⟩
    exact ⟨fun r hr => hr.elim (h1 r) (h3 r), h2, h4, h5⟩

/-! ### Union -/

theorem absorbZ_nil (t : Range) :
    absorbZ [] t = if t.End ≥ 0 then [t] else [] := by
  simp [absorbZ]

theorem absorbZ_concat (init : RangeList) (last t : Range) :
    absorbZ (init ++ [last]) t =
      if last.OverlapsFrontZ t then init ++ [last.Union t]
      else if t.End ≥ 0 then init ++ [last] ++ [t] else init ++ [last] := by
  simp [absorbZ]

theorem range_union_self (t : Range) : t.Union t = t := by
  cases t
  simp [Range.Union]

/-- The tail of a pass of `Union`, for a non-empty `toAdd` that starts at or
after every entry of `out`. -/
theorem absorbZ_facts {out : RangeList} {t : Range} (hout : Canon out)
    (ht : t.Start ≤ t.End) (hstart : ∀ o ∈ out, o.Start ≤ t.Start) :
    Canon (absorbZ out t) ∧ absorbZ (absorbZ out t) t = absorbZ out t ∧
    (∀ o' ∈ absorbZ out t, o' ∈ out ∨
      (o'.Start ≤ t.Start ∧ (o'.End = t.End ∨ ∃ o ∈ out, o'.End = o.End))) ∧
    (0 ≤ t.End → ∀ x, Covers (absorbZ out t) x ↔ Covers out x ∨ (t.Start ≤ x ∧ x ≤ t.End)) := by
  rcases List.eq_nil_or_concat out with rfl | ⟨init, last, hcat⟩
  · rw [absorbZ_nil]
    by_cases h0 : t.End ≥ 0
    · rw [if_pos h0]
      refine ⟨canon_singleton.mpr ht, ?_, ?_, ?_⟩
      · have := absorbZ_concat [] t t
        simp only [List.nil_append] at this
        rw [this, range_union_self]
        have hov : t.OverlapsFrontZ t = true := by rw [overlapsFrontZ_iff]; omega
        rw [if_pos hov]
      · intro o' ho'
        rw [List.mem_singleton] at ho'; subst ho'
        exact Or.inr ⟨le_refl _, Or.inl rfl⟩
      · intro _ x
        rw [covers_singleton]
        simp [covers_nil]
    · rw [if_neg h0]
      refine ⟨canon_nil, ?_, ?_, ?_⟩
      · rw [absorbZ_nil, if_neg h0]
      · intro o' ho'; simp at ho'
      · intro h; omega
  · rw [List.concat_eq_append] at hcat
    subst hcat
    obtain ⟨hci, hcl, hgap⟩ := canon_append.mp hout
    have hlast := canon_singleton.mp hcl
    have hls := hstart last (by simp)
    rw [absorbZ_concat]
    by_cases hov : last.OverlapsFrontZ t = true
    · rw [if_pos hov]
      rw [overlapsFrontZ_iff] at hov
      have hU : last.Union t = ⟨last.Start, max last.End t.End⟩ := by
        unfold Range.Union
        rw [min_eq_left hov.1]
      rw [hU]
      refine ⟨?_, ?_, ?_, ?_⟩
      · rw [canon_append, canon_singleton]
        refine ⟨hci, by simp only; omega, fun a ha b hb => ?_⟩
        rw [List.mem_singleton] at hb; subst hb
        exact hgap a ha last (List.mem_singleton_self _)
      · rw [absorbZ_concat]
        have hov' : Range.OverlapsFrontZ ⟨last.Start, max last.End t.End⟩ t = true := by
          rw [overlapsFrontZ_iff]; simp only; omega
        rw [if_pos hov']
        have : Range.Union ⟨last.Start, max last.End t.End⟩ t
            = ⟨last.Start, max last.End t.End⟩ := by
          unfold Range.Union
          simp only
          rw [min_eq_left hov.1, max_eq_left (le_max_right _ _)]
        rw [this]
      · intro o' ho'
        rcases List.mem_append.mp ho' with h | h
        · exact Or.inl (List.mem_append_left _ h)
        · rw [List.mem_singleton] at h; subst h
          right
          refine ⟨hov.1, ?_⟩
          simp only
          rcases le_total last.End t.End with h | h
          · left; exact max_eq_right h
          · right; exact ⟨last, by simp, max_eq_left h⟩
      · intro _ x
        rw [covers_append, covers_append, covers_singleton, covers_singleton]
        simp only
        by_cases hci' : Covers init x
        · simp only [hci', true_or]
        · simp only [hci', false_or]; omega
    · rw [if_neg hov]
      rw [overlapsFrontZ_iff] at hov
      by_cases h0 : t.End ≥ 0
      · rw [if_pos h0]
        refine ⟨?_, ?_, ?_, ?_⟩
        · refine canon_snoc hout ht (fun o ho => ?_)
          rcases List.mem_append.mp ho with h | h
          · have := hgap o h last (List.mem_singleton_self _); omega
          · rw [List.mem_singleton] at h; subst h; omega
        · rw [absorbZ_concat, range_union_self]
          have hov' : t.OverlapsFrontZ t = true := by rw [overlapsFrontZ_iff]; omega
          rw [if_pos hov']
        · intro o' ho'
          rcases List.mem_append.mp ho' with h | h
          · exact Or.inl h
          · rw [List.mem_singleton] at h; subst h
            exact Or.inr ⟨le_refl _, Or.inl rfl⟩
        · intro _ x
          rw [covers_append, covers_singleton]
      · rw [if_neg h0]
        refine ⟨hout, ?_, fun o' ho' => Or.inl ho', fun h => by omega⟩
        rw [absorbZ_concat, if_neg (by rw [overlapsFrontZ_iff]; exact hov), if_neg h0]

theorem UnionInv.stale_step {rlLast llLast : Range} {rs ls out rs2 ls2 : RangeList}
    {toAdd : Range} (h : UnionInv rlLast llLast rs ls out toAdd)
    (hrs2 : Canon rs2) (hls2 : Canon ls2)
    (hsub1 : ∀ x ∈ rs2, x ∈ rs) (hsub2 : ∀ x ∈ ls2, x ∈ ls) :
    UnionInv rlLast llLast rs2 ls2 (absorbZ out toAdd) toAdd := by
  rw [h.stale]
  exact {
    rs_canon := hrs2
    ls_canon := hls2
    out_canon := h.out_canon
    out_lt_rs := fun o ho r hr => h.out_lt_rs o ho r (hsub1 r hr)
    out_lt_ls := fun o ho l hl => h.out_lt_ls o ho l (hsub2 l hl)
    stale := h.stale
    end_rl := fun o ho => (h.end_rl o ho).imp id (fun h' l hl => h' l (hsub2 l hl))
    end_ll := fun o ho => (h.end_ll o ho).imp id (fun h' r hr => h' r (hsub1 r hr))
    rs_le := fun r hr => h.rs_le r (hsub1 r hr)
    ls_le := fun l hl => h.ls_le l (hsub2 l hl)
    rl_ne := h.rl_ne
    ll_ne := h.ll_ne }

theorem UnionInv.fresh_step {rlLast llLast : Range} {rs ls out rs2 ls2 : RangeList}
    {toAdd t : Range} (h : UnionInv rlLast llLast rs ls out toAdd)
    (hrs2 : Canon rs2) (hls2 : Canon ls2)
    (hsub1 : ∀ x ∈ rs2, x ∈ rs) (hsub2 : ∀ x ∈ ls2, x ∈ ls)
    (ht : t.Start ≤ t.End) (hstart : ∀ o ∈ out, o.Start ≤ t.Start)
    (h1 : ∀ r ∈ rs2, t.Start < r.Start) (h2 : ∀ l ∈ ls2, t.Start < l.Start)
    (h3 : t.End ≤ rlLast.End ∨ ∀ l ∈ ls2, t.End ≤ l.End)
    (h4 : t.End ≤ llLast.End ∨ ∀ r ∈ rs2, t.End ≤ r.End) :
    UnionInv rlLast llLast rs2 ls2 (absorbZ out t) t := by
  obtain ⟨hc, hst, hmem, -⟩ := absorbZ_facts h.out_canon ht hstart
  exact {
    rs_canon := hrs2
    ls_canon := hls2
    out_canon := hc
    out_lt_rs := fun o ho r hr => by
      rcases hmem o ho with ho | ⟨ho, -⟩
      · exact h.out_lt_rs o ho r (hsub1 r hr)
      · have := h1 r hr; omega
    out_lt_ls := fun o ho l hl => by
      rcases hmem o ho with ho | ⟨ho, -⟩
      · exact h.out_lt_ls o ho l (hsub2 l hl)
      · have := h2 l hl; omega
    stale := hst
    end_rl := fun o ho => by
      rcases hmem o ho with ho | ⟨-, ho | ⟨o', ho', he⟩⟩
      · exact (h.end_rl o ho).imp id (fun h' l hl => h' l (hsub2 l hl))
      · rw [ho]; exact h3
      · rw [he]; exact (h.end_rl o' ho').imp id (fun h' l hl => h' l (hsub2 l hl))
    end_ll := fun o ho => by
      rcases hmem o ho with ho | ⟨-, ho | ⟨o', ho', he⟩⟩
      · exact (h.end_ll o ho).imp id (fun h' r hr => h' r (hsub1 r hr))
      · rw [ho]; exact h4
      · rw [he]; exact (h.end_ll o' ho').imp id (fun h' r hr => h' r (hsub1 r hr))
    rs_le := fun r hr => h.rs_le r (hsub1 r hr)
    ls_le := fun l hl => h.ls_le l (hsub2 l hl)
    rl_ne := h.rl_ne
    ll_ne := h.ll_ne }

theorem last_mem_tail {z r : Range} {rs : RangeList} (hc : Canon (r :: rs))
    (hle : ∀ x ∈ r :: rs, x.End ≤ z.End) (hz : z ∈ r :: rs) (hne : rs ≠ []) : z ∈ rs := by
  rcases List.mem_cons.mp hz with rfl | h
  · obtain ⟨y, ys, rfl⟩ := List.exists_cons_of_ne_nil hne
    obtain ⟨-, hgap, hrest⟩ := canon_cons.mp hc
    have h1 := hgap y (List.mem_cons_self _ _)
    have h2 := hrest.1 y (List.mem_cons_self _ _)
    have h3 := hle y (List.mem_cons_of_mem _ (List.mem_cons_self _ _))
    omega
  · exact h

theorem head_end_le {l : Range} {ls : RangeList} (hc : Canon (l :: ls)) :
    ∀ y ∈ l :: ls, l.End ≤ y.End := by
  intro y hy
  obtain ⟨-, hgap, hrest⟩ := canon_cons.mp hc
  rcases List.mem_cons.mp hy with rfl | hy
  · exact le_refl _
  · have := hgap y hy
    have := hrest.1 y hy
    omega

theorem unionLoopZ_spec (rlLast llLast : Range) (fuel : Nat) :
    ∀ (rs ls out : RangeList) (toAdd : Range), rs.length + ls.length < fuel →
      UnionInv rlLast llLast rs ls out toAdd →
      ∃ res, unionLoopZ rlLast llLast fuel rs ls out toAdd = some res ∧ Mono res ∧
        (UnionDisj rlLast llLast rs ls →
          ∀ x, Covers res x ↔ Covers out x ∨ Covers rs x ∨ Covers ls x) := by
  induction fuel with
  | zero => intro rs ls out toAdd h; omega
  | succ n ih =>
    intro rs ls out toAdd hfuel inv
    have hcr : ¬ rlLast.CountZ = 0 := by
      have := inv.rl_ne; unfold Range.CountZ; omega
    have hcl : ¬ llLast.CountZ = 0 := by
      have := inv.ll_ne; unfold Range.CountZ; omega
    cases rs with
    | nil =>
      cases ls with
      | nil =>
        refine ⟨out, by simp [unionLoopZ], inv.out_canon.mono, fun _ x => ?_⟩
        simp [covers_nil]
      | cons l ls =>
        unfold unionLoopZ
        by_cases hle : rlLast.End ≤ l.End
        · rw [if_pos (Or.inl hle)]
          refine ⟨_, rfl, ?_, fun _ x => ?_⟩
          · rw [mono_append]
            refine ⟨inv.out_canon.mono, inv.ls_canon.mono, fun o ho y hy => ?_⟩
            have h1 := inv.out_lt_ls o ho y hy
            have h2 := head_end_le inv.ls_canon y hy
            rcases inv.end_rl o ho with h | h
            · exact ⟨by omega, by omega⟩
            · have := h y hy; exact ⟨by omega, by omega⟩
          · rw [covers_append]
            simp [covers_nil]
        · rw [if_neg (by rintro (h | h); exact hle h; exact hcr h)]
          refine ⟨_, rfl, inv.out_canon.mono, fun hd x => ?_⟩
          exact absurd (hd.rl_done rfl l (List.mem_cons_self _ _)) hle
    | cons r rs =>
      obtain ⟨hr, hrgap, hrs'⟩ := canon_cons.mp inv.rs_canon
      cases ls with
      | nil =>
        unfold unionLoopZ
        by_cases hle : llLast.End ≤ r.End
        · rw [if_pos (Or.inl hle)]
          refine ⟨_, rfl, ?_, fun _ x => ?_⟩
          · rw [mono_append]
            refine ⟨inv.out_canon.mono, inv.rs_canon.mono, fun o ho y hy => ?_⟩
            have h1 := inv.out_lt_rs o ho y hy
            have h2 := head_end_le inv.rs_canon y hy
            rcases inv.end_ll o ho with h | h
            · exact ⟨by omega, by omega⟩
            · have := h y hy; exact ⟨by omega, by omega⟩
          · rw [covers_append]
            simp [covers_nil]
        · rw [if_neg (by rintro (h | h); exact hle h; exact hcl h)]
          refine ⟨_, rfl, inv.out_canon.mono, fun hd x => ?_⟩
          exact absurd (hd.ll_done rfl r (List.mem_cons_self _ _)) hle
      | cons l ls =>
        obtain ⟨hl, hlgap, hls'⟩ := canon_cons.mp inv.ls_canon
        simp only [List.length_cons] at hfuel
        have hor := fun o ho => inv.out_lt_rs o ho r (List.mem_cons_self _ _)
        have hol := fun o ho => inv.out_lt_ls o ho l (List.mem_cons_self _ _)
        have hrle := inv.rs_le r (List.mem_cons_self _ _)
        have hlle := inv.ls_le l (List.mem_cons_self _ _)
        have subR : ∀ x ∈ rs, x ∈ r :: rs := fun x hx => List.mem_cons_of_mem _ hx
        have subL : ∀ x ∈ ls, x ∈ l :: ls := fun x hx => List.mem_cons_of_mem _ hx
        have idR : ∀ x ∈ r :: rs, x ∈ r :: rs := fun x hx => hx
        have idL : ∀ x ∈ l :: ls, x ∈ l :: ls := fun x hx => hx
        unfold unionLoopZ
        rw [if_neg (by omega), if_neg (by omega)]
        by_cases h3 : r.Contains l = true
        · -- `ll[j]` lies inside `rl[i]`: `j++`, nothing new to add
          rw [if_pos h3]
          rw [contains_iff] at h3
          obtain ⟨res, hres, hmono, -⟩ := ih (r :: rs) ls _ toAdd
            (by simp only [List.length_cons]; omega)
            (inv.stale_step inv.rs_canon hls' idR subL)
          refine ⟨res, hres, hmono, fun hd x => ?_⟩
          have := hd.disj r (List.mem_cons_self _ _) l (List.mem_cons_self _ _)
          omega
        rw [if_neg h3]
        rw [contains_iff] at h3
        by_cases h4 : l.Contains r = true
        · -- `rl[i]` lies inside `ll[j]`: `i++`, nothing new to add
          rw [if_pos h4]
          rw [contains_iff] at h4
          obtain ⟨res, hres, hmono, -⟩ := ih rs (l :: ls) _ toAdd
            (by simp only [List.length_cons]; omega)
            (inv.stale_step hrs' inv.ls_canon subR idL)
          refine ⟨res, hres, hmono, fun hd x => ?_⟩
          have := hd.disj r (List.mem_cons_self _ _) l (List.mem_cons_self _ _)
          omega
        rw [if_neg h4]
        rw [contains_iff] at h4
        by_cases h5 : (r.OverlapsFrontZ l || l.OverlapsFrontZ r) = true
        · -- the two ranges touch: their union is added, `i++` and `j++`
          rw [if_pos h5]
          rw [Bool.or_eq_true, overlapsFrontZ_iff, overlapsFrontZ_iff] at h5
          have hts : (r.Union l).Start = min r.Start l.Start := rfl
          have hte : (r.Union l).End = max r.End l.End := rfl
          have inv' := inv.fresh_step (t := r.Union l) hrs' hls' subR subL
            (by rw [hts, hte]; omega)
            (fun o ho => by have := hor o ho; have := hol o ho; rw [hts]; omega)
            (fun r' hr' => by have := hrgap r' hr'; rw [hts]; omega)
            (fun l' hl' => by have := hlgap l' hl'; rw [hts]; omega)
            (by
              rw [hte]
              rcases le_total l.End r.End with h | h
              · left; rw [max_eq_left h]; exact hrle
              · right; intro l' hl'
                have := head_end_le inv.ls_canon l' (subL l' hl')
                rw [max_eq_right h]; exact this)
            (by
              rw [hte]
              rcases le_total l.End r.End with h | h
              · right; intro r' hr'
                have := head_end_le inv.rs_canon r' (subR r' hr')
                rw [max_eq_left h]; exact this
              · left; rw [max_eq_right h]; exact hlle)
          obtain ⟨res, hres, hmono, hcov⟩ := ih rs ls _ _ (by omega) inv'
          refine ⟨res, hres, hmono, fun hd x => ?_⟩
          have hdj := hd.disj r (List.mem_cons_self _ _) l (List.mem_cons_self _ _)
          have hr0 := hd.rs_nonneg r (List.mem_cons_self _ _)
          have hl0 := hd.ls_nonneg l (List.mem_cons_self _ _)
          have hd' : UnionDisj rlLast llLast rs ls := {
            disj := fun r' hr' l' hl' => hd.disj r' (subR r' hr') l' (subL l' hl')
            rs_nonneg := fun r' hr' => hd.rs_nonneg r' (subR r' hr')
            ls_nonneg := fun l' hl' => hd.ls_nonneg l' (subL l' hl')
            rl_last := fun hne =>
              last_mem_tail inv.rs_canon inv.rs_le (hd.rl_last (by simp)) hne
            ll_last := fun hne =>
              last_mem_tail inv.ls_canon inv.ls_le (hd.ll_last (by simp)) hne
            rl_done := fun he l' hl' => by
              subst he
              have hz := hd.rl_last (by simp)
              rw [List.mem_singleton] at hz
              have := hd.disj r (List.mem_cons_self _ _) l' (subL l' hl')
              have := hlgap l' hl'
              have := hls'.1 l' hl'
              rw [hz]; omega
            ll_done := fun he r' hr' => by
              subst he
              have hz := hd.ll_last (by simp)
              rw [List.mem_singleton] at hz
              have := hd.disj r' (subR r' hr') l (List.mem_cons_self _ _)
              have := hrgap r' hr'
              have := hrs'.1 r' hr'
              rw [hz]; omega }
          obtain ⟨-, -, -, hacov⟩ := absorbZ_facts (t := r.Union l) inv.out_canon
            (by rw [hts, hte]; omega)
            (fun o ho => by have := hor o ho; have := hol o ho; rw [hts]; omega)
          rw [hcov hd' x, hacov (by rw [hte]; omega) x, hts, hte, covers_cons, covers_cons]
          by_cases hcrs : Covers rs x <;> by_cases hcls : Covers ls x <;>
            by_cases hco : Covers out x <;>
            simp only [hcrs, hcls, hco, true_and, false_and, and_true, and_false, or_true,
              or_false, true_or, false_or, iff_self, false_iff, iff_false,
              true_iff, iff_true]
          omega
        rw [if_neg h5]
        rw [Bool.or_eq_true, overlapsFrontZ_iff, overlapsFrontZ_iff] at h5
        by_cases h6 : r.End ≤ l.Start
        · -- `rl[i]` comes first: it is added, `i++`
          rw [if_pos h6]
          have inv' := inv.fresh_step (t := r) hrs' inv.ls_canon subR idL hr
            (fun o ho => by have := hor o ho; omega)
            (fun r' hr' => by have := hrgap r' hr'; omega)
            (fun l' hl' => by
              rcases List.mem_cons.mp hl' with rfl | hl'
              · omega
              · have := hlgap l' hl'; omega)
            (Or.inl hrle)
            (Or.inr (fun r' hr' => head_end_le inv.rs_canon r' (subR r' hr')))
          obtain ⟨res, hres, hmono, hcov⟩ := ih rs (l :: ls) _ _
            (by simp only [List.length_cons]; omega) inv'
          refine ⟨res, hres, hmono, fun hd x => ?_⟩
          have hr0 := hd.rs_nonneg r (List.mem_cons_self _ _)
          have hd' : UnionDisj rlLast llLast rs (l :: ls) := {
            disj := fun r' hr' l' hl' => hd.disj r' (subR r' hr') l' hl'
            rs_nonneg := fun r' hr' => hd.rs_nonneg r' (subR r' hr')
            ls_nonneg := hd.ls_nonneg
            rl_last := fun hne =>
              last_mem_tail inv.rs_canon inv.rs_le (hd.rl_last (by simp)) hne
            ll_last := hd.ll_last
            rl_done := fun he l' hl' => by
              subst he
              have hz := hd.rl_last (by simp)
              rw [List.mem_singleton] at hz
              have := head_end_le inv.ls_canon l' hl'
              rw [hz]; omega
            ll_done := fun he => by simp at he }
          obtain ⟨-, -, -, hacov⟩ := absorbZ_facts (t := r) inv.out_canon hr
            (fun o ho => by have := hor o ho; omega)
          rw [hcov hd' x, hacov (by omega) x, @covers_cons r rs x]
          simp only [or_assoc]
        · -- `ll[j]` comes first: it is added, `j++`
          rw [if_neg h6]
          have inv' := inv.fresh_step (t := l) inv.rs_canon hls' idR subL hl
            (fun o ho => by have := hol o ho; omega)
            (fun r' hr' => by
              rcases List.mem_cons.mp hr' with rfl | hr'
              · omega
              · have := hrgap r' hr'; omega)
            (fun l' hl' => by have := hlgap l' hl'; omega)
            (Or.inr (fun l' hl' => head_end_le inv.ls_canon l' (subL l' hl')))
            (Or.inl hlle)
          obtain ⟨res, hres, hmono, hcov⟩ := ih (r :: rs) ls _ _
            (by simp only [List.length_cons]; omega) inv'
          refine ⟨res, hres, hmono, fun hd x => ?_⟩
          have hl0 := hd.ls_nonneg l (List.mem_cons_self _ _)
          have hd' : UnionDisj rlLast llLast (r :: rs) ls := {
            disj := fun r' hr' l' hl' => hd.disj r' hr' l' (subL l' hl')
            rs_nonneg := hd.rs_nonneg
            ls_nonneg := fun l' hl' => hd.ls_nonneg l' (subL l' hl')
            rl_last := hd.rl_last
            ll_last := fun hne =>
              last_mem_tail inv.ls_canon inv.ls_le (hd.ll_last (by simp)) hne
            rl_done := fun he => by simp at he
            ll_done := fun he r' hr' => by
              subst he
              have hz := hd.ll_last (by simp)
              rw [List.mem_singleton] at hz
              have := head_end_le inv.rs_canon r' hr'
              rw [hz]; omega }
          obtain ⟨-, -, -, hacov⟩ := absorbZ_facts (t := l) inv.out_canon hl
            (fun o ho => by have := hol o ho; omega)
          rw [hcov hd' x, hacov (by omega) x, @covers_cons l ls x]
          simp only [or_assoc, or_left_comm]

theorem canon_getLast_le {init : RangeList} {z : Range} (h : Canon (init ++ [z])) :
    z.Start ≤ z.End ∧ ∀ r ∈ init ++ [z], r.End ≤ z.End := by
  obtain ⟨-, hz, hgap⟩ := canon_append.mp h
  have hz' := canon_singleton.mp hz
  refine ⟨hz', fun r hr => ?_⟩
  rcases List.mem_append.mp hr with hr | hr
  · have := hgap r hr z (List.mem_singleton_self _); omega
  · rw [List.mem_singleton] at hr; subst hr; exact le_refl _

/-- `Union` on canonical lists returns a canonical list; when the two lists
share no integer and have no negative bound, it covers exactly their union. -/
theorem unionZ_spec (rl ll : RangeList) (hrl : Canon rl) (hll : Canon ll) :
    ∃ res, RangeList.UnionZ rl ll = some res ∧ Canon res ∧
      ((∀ r ∈ rl, ∀ l ∈ ll, r.End < l.Start ∨ l.End < r.Start) →
        (∀ r ∈ rl, 0 ≤ r.Start) → (∀ l ∈ ll, 0 ≤ l.Start) →
        ∀ x, Covers res x ↔ Covers rl x ∨ Covers ll x) := by
  rcases List.eq_nil_or_concat ll with rfl | ⟨li, llLast, hl⟩
  · exact ⟨rl, by simp [RangeList.UnionZ], hrl, fun _ _ _ x => by simp [covers_nil]⟩
  rw [List.concat_eq_append] at hl
  rcases List.eq_nil_or_concat rl with rfl | ⟨ri, rlLast, hr⟩
  · refine ⟨ll, ?_, hll, fun _ _ _ x => by simp [covers_nil]⟩
    subst hl
    simp [RangeList.UnionZ]
  rw [List.concat_eq_append] at hr
  have hgl : ll.getLast? = some llLast := by subst hl; simp
  have hgr : rl.getLast? = some rlLast := by subst hr; simp
  have hlast_l : llLast.Start ≤ llLast.End ∧ ∀ r ∈ ll, r.End ≤ llLast.End := by
    subst hl; exact canon_getLast_le hll
  have hlast_r : rlLast.Start ≤ rlLast.End ∧ ∀ r ∈ rl, r.End ≤ rlLast.End := by
    subst hr; exact canon_getLast_le hrl
  have hmem_l : llLast ∈ ll := by subst hl; simp
  have hmem_r : rlLast ∈ rl := by subst hr; simp
  have inv : UnionInv rlLast llLast rl ll [] ⟨0, -1⟩ := {
    rs_canon := hrl
    ls_canon := hll
    out_canon := canon_nil
    out_lt_rs := fun o ho => by simp at ho
    out_lt_ls := fun o ho => by simp at ho
    stale := by rw [absorbZ_nil]; simp
    end_rl := fun o ho => by simp at ho
    end_ll := fun o ho => by simp at ho
    rs_le := hlast_r.2
    ls_le := hlast_l.2
    rl_ne := hlast_r.1
    ll_ne := hlast_l.1 }
  obtain ⟨res, hres, hmono, hcov⟩ := unionLoopZ_spec rlLast llLast
    (rl.length + ll.length + 1) rl ll [] ⟨0, -1⟩ (by omega) inv
  obtain ⟨hfc, hfcov⟩ := flattenZ_mono res hmono
  refine ⟨flattenZ res, ?_, hfc, fun hd h1 h2 x => ?_⟩
  · unfold RangeList.UnionZ
    rw [hgl, hgr]
    simp only
    rw [hres, Option.map_some']
  · have hd' : UnionDisj rlLast llLast rl ll := {
      disj := hd
      rs_nonneg := h1
      ls_nonneg := h2
      rl_last := fun _ => hmem_r
      ll_last := fun _ => hmem_l
      rl_done := fun he => by subst he; simp at hmem_r
      ll_done := fun he => by subst he; simp at hmem_l }
    rw [hfcov x, hcov hd' x]
    simp [covers_nil]

/-! ### Canonical lists are determined by the integers they cover -/

theorem canon_sep {rl : RangeList} (h : Canon rl) :
    ∀ a ∈ rl, ∀ b ∈ rl, a = b ∨ a.End + 1 < b.Start ∨ b.End + 1 < a.Start := by
  induction rl with
  | nil => intro a ha; simp at ha
  | cons x xs ih =>
    obtain ⟨-, hgap, hxs⟩ := canon_cons.mp h
    intro a ha b hb
    rcases List.mem_cons.mp ha with ha' | ha' <;>
      rcases List.mem_cons.mp hb with hb' | hb'
    · exact Or.inl (ha'.trans hb'.symm)
    · rw [ha']; exact Or.inr (Or.inl (hgap b hb'))
    · rw [hb']; exact Or.inr (Or.inr (hgap a ha'))
    · exact ih hxs a ha' b hb'

theorem sep_of_covers {rl sub : RangeList} (hrl : Canon rl) (hsub : Canon sub)
    (h : ∀ x, Covers sub x → Covers rl x) : Sep rl sub := by
  intro r hr l hl
  have hlne := hsub.1 l hl
  obtain ⟨r0, hr0, h1, h2⟩ := h l.Start ⟨l, hl, le_refl _, hlne⟩
  have hend : l.End ≤ r0.End := by
    by_contra hcon
    obtain ⟨r1, hr1, h3, h4⟩ := h (r0.End + 1) ⟨l, hl, by omega, by omega⟩
    rcases canon_sep hrl r0 hr0 r1 hr1 with rfl | h5 | h5 <;> omega
  rcases canon_sep hrl r hr r0 hr0 with rfl | h5 | h5
  · exact Or.inl ⟨h1, hend⟩
  · exact Or.inr (Or.inr (by omega))
  · exact Or.inr (Or.inl (by omega))

theorem canon_ext : ∀ (a b : RangeList), Canon a → Canon b →
    (∀ x, Covers a x ↔ Covers b x) → a = b := by
  intro a
  induction a with
  | nil =>
    intro b _ hb h
    cases b with
    | nil => rfl
    | cons y ys =>
      have hy := (canon_cons.mp hb).1
      exact absurd ((h y.Start).mpr ⟨y, List.mem_cons_self _ _, le_refl _, hy⟩)
        (covers_nil _)
  | cons x xs ih =>
    intro b ha hb h
    obtain ⟨hx, hxgap, hxs⟩ := canon_cons.mp ha
    cases b with
    | nil =>
      exact absurd ((h x.Start).mp ⟨x, List.mem_cons_self _ _, le_refl _, hx⟩)
        (covers_nil _)
    | cons y ys =>
      obtain ⟨hy, hygap, hys⟩ := canon_cons.mp hb
      have gx : ∀ t, Covers xs t → x.End + 1 < t := fun t => covers_gt hxgap
      have gy : ∀ t, Covers ys t → y.End + 1 < t := fun t => covers_gt hygap
      have hcx : ∀ t, (x.Start ≤ t ∧ t ≤ x.End) ∨ Covers xs t ↔
          (y.Start ≤ t ∧ t ≤ y.End) ∨ Covers ys t := by
        intro t
        rw [← covers_cons, ← covers_cons]
        exact h t
      have hs1 : y.Start ≤ x.Start := by
        rcases (hcx x.Start).mp (Or.inl ⟨le_refl _, hx⟩) with h1 | h1
        · exact h1.1
        · have := gy _ h1; omega
      have hs2 : x.Start ≤ y.Start := by
        rcases (hcx y.Start).mpr (Or.inl ⟨le_refl _, hy⟩) with h1 | h1
        · exact h1.1
        · have := gx _ h1; omega
      have he1 : y.End ≤ x.End := by
        by_contra hcon
        rcases (hcx (x.End + 1)).mpr (Or.inl ⟨by omega, by omega⟩) with h1 | h1
        · omega
        · have := gx _ h1; omega
      have he2 : x.End ≤ y.End := by
        by_contra hcon
        rcases (hcx (y.End + 1)).mp (Or.inl ⟨by omega, by omega⟩) with h1 | h1
        · omega
        · have := gy _ h1; omega
      have hxy : x = y := by
        cases x; cases y
        simp only [Range.mk.injEq]
        simp only at hs1 hs2 he1 he2
        exact ⟨by omega, by omega⟩
      subst hxy
      congr 1
      apply ih ys hxs hys
      intro t
      have h1 := hcx t
      have h2 := gx t
      have h3 := gy t
      constructor
      · intro ht
        rcases h1.mp (Or.inr ht) with h4 | h4
        · have := h2 ht; omega
        · exact h4
      · intro ht
        rcases h1.mpr (Or.inr ht) with h4 | h4
        · have := h3 ht; omega
        · exact h4

open BlockingStructure

theorem sub64_add64_one (a b : Nat) (h : 0 < a + b) :
    sub64 (add64 a b) 1 = (a + b - 1) % 2 ^ 64 := by
  unfold sub64 add64; omega

theorem ceilDiv_mul_ge (a b : Nat) (hb : 0 < b) : a ≤ ceilDiv a b * b := by
  unfold ceilDiv
  have h1 := Nat.div_add_mod (a + b - 1) b
  have h2 := Nat.mod_lt (a + b - 1) hb
  have h3 : b * ((a + b - 1) / b) = (a + b - 1) / b * b := Nat.mul_comm _ _
  omega

theorem ceilDiv_pos (a b : Nat) (ha : 0 < a) (hb : 0 < b) : 0 < ceilDiv a b := by
  unfold ceilDiv
  exact Nat.div_pos (by omega) hb

theorem ceilDiv_le_self (a b : Nat) (hb : 0 < b) : ceilDiv a b ≤ a := by
  unfold ceilDiv
  rcases Nat.eq_zero_or_pos a with h | h
  · subst h
    simp
    exact Nat.div_eq_of_lt (by omega)
  · apply Nat.div_le_of_le_mul
    obtain ⟨a', rfl⟩ : ∃ a', a = a' + 1 := ⟨a - 1, by omega⟩
    obtain ⟨b', rfl⟩ : ∃ b', b = b' + 1 := ⟨b - 1, by omega⟩
    have : (b' + 1) * (a' + 1) = b' * a' + b' + a' + 1 := by ring
    omega

theorem ceilDiv_eq (t n : Nat) (hn : 0 < n) :
    ceilDiv t n = if 0 < t % n then t / n + 1 else t / n := by
  unfold ceilDiv
  have h1 := Nat.div_add_mod t n
  have h2 := Nat.mod_lt t hn
  split
  · have : t + n - 1 = (t % n - 1) + n * (t / n + 1) := by
      rw [Nat.mul_add]; omega
    rw [this, Nat.add_mul_div_left _ _ hn, Nat.div_eq_of_lt (by omega)]
    omega
  · have h0 : t % n = 0 := by omega
    have : t + n - 1 = (n - 1) + n * (t / n) := by omega
    rw [this, Nat.add_mul_div_left _ _ hn, Nat.div_eq_of_lt (by omega)]
    omega

theorem ceilDiv_mul_le (a b : Nat) : ceilDiv a b * b ≤ a + b - 1 := by
  unfold ceilDiv
  exact Nat.div_mul_le_self _ _

theorem ceilDiv_lt_two_pow (L E : Nat) (hE : 1 < E) (hLE : L + E ≤ 2 ^ 64) :
    ceilDiv L E < 2 ^ 63 := by
  have h1 := ceilDiv_mul_le L E
  have h2 : ceilDiv L E * 2 ≤ ceilDiv L E * E := Nat.mul_le_mul_left _ hE
  omega

/-- Arithmetic of the partition of `T` symbols into `N = ceil(T/B)` blocks. -/
theorem block_arith (T B : Nat) (hT : 0 < T) (hB : 0 < B) :
    0 < ceilDiv T B ∧ ceilDiv T B ≤ T ∧ T / ceilDiv T B ≤ B ∧
    (0 < T % ceilDiv T B → T / ceilDiv T B + 1 ≤ B) ∧ 0 < T / ceilDiv T B := by
  have hNpos : 0 < ceilDiv T B := ceilDiv_pos _ _ hT hB
  have hNle : ceilDiv T B ≤ T := ceilDiv_le_self T B hB
  have hTNB : T ≤ ceilDiv T B * B := ceilDiv_mul_ge T B hB
  generalize ceilDiv T B = N at *
  have hq : T / N ≤ B := Nat.div_le_of_le_mul hTNB
  have hdm := Nat.div_add_mod T N
  refine ⟨hNpos, hNle, hq, ?_, Nat.div_pos hNle hNpos⟩
  intro hpos
  by_contra hcon
  have h1 : T / N = B := by omega
  rw [h1] at hdm
  omega

/-- C7: for `L > 0`, `B > 0`, `0 < G <= B`: when `E > 1`, `ceil(ceil(L/E)/B) <
2^32` and `L + E` does not overflow 64 bits, `NewBlockingStructure5052(L, B, E,
G, false)` succeeds with `T = ceil(L/E)`, `N = ceil(T/B)`, `ASmall =
floor(T/N)`, `I = T mod N` and `A = ceil(T/N)`, which is `ASmall + 1` when
`I > 0` and `ASmall` otherwise; when `E = 1` it succeeds with `A = ASmall = B`. -/
theorem new_nonstream_parameters (L B E G : Nat)
    (hL64 : L < 2 ^ 64) (hB32 : B < 2 ^ 32) (hG32 : G < 2 ^ 32)
    (hL : 0 < L) (hB : 0 < B) (hG : 0 < G) (hGB : G ≤ B) :
    (1 < E → ceilDiv (ceilDiv L E) B < 2 ^ 32 → L + E < 2 ^ 64 →
      ∃ bs, NewBlockingStructure5052 L B E G false = .ok bs ∧
        bs.T = ceilDiv L E ∧ bs.N = ceilDiv bs.T B ∧
        bs.ASmall = bs.T / bs.N ∧ bs.I = bs.T % bs.N ∧
        bs.A = ceilDiv bs.T bs.N ∧
        bs.A = if 0 < bs.I then bs.ASmall + 1 else bs.ASmall) ∧
    (E = 1 →
      ∃ bs, NewBlockingStructure5052 L B E G false = .ok bs ∧
        bs.A = B ∧ bs.ASmall = B) := by
  constructor
  · intro hE hN hLE
    have hE0 : 0 < E := by omega
    have hT : sub64 (add64 L E) 1 / E = ceilDiv L E := by
      rw [sub64_add64_one _ _ (by omega), Nat.mod_eq_of_lt (by omega)]; rfl
    have hTpos : 0 < ceilDiv L E := ceilDiv_pos L E hL hE0
    have hT63 := ceilDiv_lt_two_pow L E hE (by omega)
    have hNN : u32 (sub64 (add64 (ceilDiv L E) B) 1 / B) = ceilDiv (ceilDiv L E) B := by
      rw [sub64_add64_one _ _ (by omega), Nat.mod_eq_of_lt (by omega)]
      exact Nat.mod_eq_of_lt hN
    obtain ⟨hNpos, hNle, hq, hq1, -⟩ := block_arith (ceilDiv L E) B hTpos hB
    obtain ⟨T, hTdef⟩ : ∃ T, T = ceilDiv L E := ⟨_, rfl⟩
    rw [← hTdef] at hT hTpos hT63 hNN hNpos hNle hq hq1 hN
    obtain ⟨N, hNdef⟩ : ∃ N, N = ceilDiv T B := ⟨_, rfl⟩
    rw [← hNdef] at hNN hNpos hNle hq hq1 hN
    have hmod : T % N < N := Nat.mod_lt _ hNpos
    have hAS : u32 (T / N) = T / N := Nat.mod_eq_of_lt (by omega)
    have hI : u32 (T % N) = T % N := Nat.mod_eq_of_lt (by omega)
    refine ⟨⟨N, T % N, if 0 < T % N then T / N + 1 else T / N, T / N, E, T, L, B, B, G⟩,
      ?_, hTdef, hNdef, rfl, rfl, ?_, rfl⟩
    · simp only [NewBlockingStructure5052, UpdateBlockingStructure5052, recompute, zero]
      have hL' : L ≠ 0 := by omega
      have hB' : B ≠ 0 := by omega
      have hG' : G ≠ 0 := by omega
      have hE' : E ≠ 0 := by omega
      have hN' : N ≠ 0 := by omega
      simp [hL', hB', hG', hE', hT, hNN, hAS, hI, Nat.not_lt.mpr hGB, hE, hN']
      split
      · rename_i hpos
        have := hq1 hpos
        unfold add32
        exact Nat.mod_eq_of_lt (by omega)
      · rfl
    · exact (ceilDiv_eq T N hNpos).symm ▸ rfl
  · rintro rfl
    refine ⟨⟨u32 (sub64 (add64 (sub64 (add64 L 1) 1 / 1) B) 1 / B), 0, B, B, 1,
      sub64 (add64 L 1) 1 / 1, L, B, B, G⟩, ?_, rfl, rfl⟩
    simp only [NewBlockingStructure5052, UpdateBlockingStructure5052, recompute, zero]
    have hL' : L ≠ 0 := by omega
    have hB' : B ≠ 0 := by omega
    have hG' : G ≠ 0 := by omega
    simp [hL', hB', hG', Nat.not_lt.mpr hGB]

/-- C7, at the 107374182-byte object with `E = 1430`, `B = 10`, and at a 5-byte
object with `E = 1`, `B = 2`. -/
theorem new_nonstream_parameters_witness :
    (∃ bs, NewBlockingStructure5052 107374182 10 1430 1 false = .ok bs ∧
        bs.T = ceilDiv 107374182 1430 ∧ bs.N = ceilDiv bs.T 10 ∧
        bs.ASmall = bs.T / bs.N ∧ bs.I = bs.T % bs.N ∧
        bs.A = ceilDiv bs.T bs.N ∧
        bs.A = if 0 < bs.I then bs.ASmall + 1 else bs.ASmall) ∧
    (∃ bs, NewBlockingStructure5052 5 2 1 1 false = .ok bs ∧
        bs.A = 2 ∧ bs.ASmall = 2) :=
  ⟨(new_nonstream_parameters 107374182 10 1430 1 (by decide) (by decide) (by decide)
      (by decide) (by decide) (by decide) (by decide)).1 (by decide) (by decide) (by decide),
   (new_nonstream_parameters 5 2 1 1 (by decide) (by decide) (by decide)
      (by decide) (by decide) (by decide) (by decide)).2 rfl⟩

namespace BlockingStructure

theorem symOff_succ (bs : BlockingStructure) (sbn : Nat) :
    symOff bs (sbn + 1) = symOff bs sbn + blockSyms bs sbn := by
  unfold symOff blockSyms
  by_cases h1 : sbn + 1 < bs.I
  · have h2 : sbn < bs.I := by omega
    simp only [h1, h2, if_true]
    ring
  · by_cases h2 : sbn < bs.I
    · have h3 : sbn + 1 = bs.I := by omega
      simp only [h1, h2, if_true, if_false]
      rw [← h3]
      simp
      ring
    · simp only [h1, h2, if_false]
      have : sbn + 1 - bs.I = (sbn - bs.I) + 1 := by omega
      rw [this]
      ring

theorem symOff_mono (bs : BlockingStructure) {a b : Nat} (h : a ≤ b) :
    symOff bs a ≤ symOff bs b := by
  induction b with
  | zero => have : a = 0 := by omega
            subst this; exact Nat.le_refl _
  | succ n ih =>
    rcases Nat.eq_or_lt_of_le h with h1 | h1
    · rw [h1]
    · have := ih (by omega)
      rw [symOff_succ]
      omega

theorem Regular.symOff_lt {bs : BlockingStructure} (hr : Regular bs) {sbn : Nat}
    (h : sbn < bs.N) : symOff bs sbn < bs.T := by
  have h1 := symOff_mono bs (show sbn ≤ bs.N - 1 by omega)
  have h2 := hr.last_lt (by omega)
  omega

theorem Regular.mul_symOff_lt {bs : BlockingStructure} (hr : Regular bs) {sbn : Nat}
    (h : sbn < bs.N) : bs.ESLen * symOff bs sbn < bs.TransferLen := by
  have h1 := hr.symOff_lt h
  have h2 := hr.len_gt (by omega)
  have h3 : bs.ESLen * symOff bs sbn ≤ bs.ESLen * (bs.T - 1) :=
    Nat.mul_le_mul_left _ (by omega)
  omega

theorem Regular.srcOffset_eq {bs : BlockingStructure} (hr : Regular bs) {sbn : Nat}
    (h : sbn < bs.N) : bs.SrcOffset sbn = bs.ESLen * symOff bs sbn := by
  have hlt := hr.mul_symOff_lt h
  have hL := hr.len_lt
  unfold SrcOffset
  rw [if_neg (by omega)]
  unfold symOff at hlt ⊢
  by_cases h1 : sbn < bs.I
  · simp only [h1, if_true] at hlt ⊢
    unfold mul64
    have h2 : bs.ESLen * bs.A < 2 ^ 64 := by
      have := hr.es_lt; have := hr.a_lt
      calc bs.ESLen * bs.A < 2 ^ 16 * 2 ^ 32 := Nat.mul_lt_mul'' hr.es_lt hr.a_lt
        _ < 2 ^ 64 := by norm_num
    rw [Nat.mod_eq_of_lt h2, Nat.mul_assoc]
    exact Nat.mod_eq_of_lt (by omega)
  · simp only [h1, if_false] at hlt ⊢
    have hs : sub32 sbn bs.I = sbn - bs.I := by
      have := hr.n_lt
      unfold sub32
      rw [Nat.mod_eq_of_lt (show bs.I < 2 ^ 32 by omega)]
      omega
    have hIA : bs.I * bs.A < 2 ^ 64 := by
      have hi : bs.I < 2 ^ 32 := by have := hr.n_lt; have := hr.i_le; omega
      calc bs.I * bs.A < 2 ^ 32 * 2 ^ 32 := Nat.mul_lt_mul'' hi hr.a_lt
        _ = 2 ^ 64 := by norm_num
    have hSA : (sbn - bs.I) * bs.ASmall < 2 ^ 64 := by
      have hi : sbn - bs.I < 2 ^ 32 := by have := hr.n_lt; omega
      calc (sbn - bs.I) * bs.ASmall < 2 ^ 32 * 2 ^ 32 := Nat.mul_lt_mul'' hi hr.as_lt
        _ = 2 ^ 64 := by norm_num
    have hsum : bs.I * bs.A + (sbn - bs.I) * bs.ASmall < 2 ^ 64 := by
      have h5 : 1 * (bs.I * bs.A + (sbn - bs.I) * bs.ASmall)
          ≤ bs.ESLen * (bs.I * bs.A + (sbn - bs.I) * bs.ASmall) :=
        Nat.mul_le_mul_right _ hr.es_pos
      omega
    unfold mul64 add64
    rw [hs, Nat.mod_eq_of_lt hIA, Nat.mod_eq_of_lt hSA, Nat.mod_eq_of_lt hsum]
    exact Nat.mod_eq_of_lt (by omega)

theorem Regular.sourceSBN_srcOffset {bs : BlockingStructure} (hr : Regular bs) {sbn : Nat}
    (h : sbn < bs.N) : bs.SourceSBN (bs.SrcOffset sbn) = some sbn := by
  rw [hr.srcOffset_eq h]
  have hE := hr.es_pos
  have hA := hr.a_pos
  have hAS := hr.as_pos
  have hi : bs.I < 2 ^ 32 := by have := hr.n_lt; have := hr.i_le; omega
  have hAI : mul64 bs.A bs.I = bs.A * bs.I := by
    unfold mul64
    apply Nat.mod_eq_of_lt
    calc bs.A * bs.I < 2 ^ 32 * 2 ^ 32 := Nat.mul_lt_mul'' hr.a_lt hi
      _ = 2 ^ 64 := by norm_num
  unfold SourceSBN
  rw [if_neg (by omega), Nat.mul_div_cancel_left _ hE, hAI]
  unfold symOff
  by_cases h1 : sbn < bs.I
  · have h2 : bs.A * sbn < bs.A * bs.I := Nat.mul_lt_mul_of_pos_left h1 hA
    simp only [h1, if_true, h2, if_neg (show ¬ bs.A = 0 by omega),
      Nat.mul_div_cancel_left _ hA, h]
    have := hr.n_lt
    simp only [u32, Nat.mod_eq_of_lt (show sbn < 2 ^ 32 by omega)]
  · have h2 : ¬ (bs.I * bs.A + (sbn - bs.I) * bs.ASmall < bs.A * bs.I) := by
      rw [Nat.mul_comm bs.I bs.A]; omega
    have h3 : sub64 (bs.I * bs.A + (sbn - bs.I) * bs.ASmall) (bs.A * bs.I)
        = (sbn - bs.I) * bs.ASmall := by
      have hIA : bs.A * bs.I < 2 ^ 64 := by
        calc bs.A * bs.I < 2 ^ 32 * 2 ^ 32 := Nat.mul_lt_mul'' hr.a_lt hi
          _ = 2 ^ 64 := by norm_num
      have hSA : (sbn - bs.I) * bs.ASmall < 2 ^ 64 := by
        have hi : sbn - bs.I < 2 ^ 32 := by have := hr.n_lt; omega
        calc (sbn - bs.I) * bs.ASmall < 2 ^ 32 * 2 ^ 32 := Nat.mul_lt_mul'' hi hr.as_lt
          _ = 2 ^ 64 := by norm_num
      unfold sub64
      rw [Nat.mul_comm bs.I bs.A, Nat.mod_eq_of_lt hIA]
      omega
    have h4 : add64 (sbn - bs.I) bs.I = sbn := by
      have := hr.n_lt
      unfold add64
      omega
    simp only [h1, if_false, h2, h3, if_neg (show ¬ bs.ASmall = 0 by omega),
      Nat.mul_div_cancel _ hAS, h4, h, if_true]
    have := hr.n_lt
    simp only [u32, Nat.mod_eq_of_lt (show sbn < 2 ^ 32 by omega)]

/-- The wrapped ceiling `(L + E - 1) / E` of the source is the exact one unless
`L + E - 1` overflows, in which case it is zero. -/
theorem wrapped_ceil (L E : Nat) (hL : 0 < L) (hL64 : L < 2 ^ 64) (hE : 0 < E) :
    (L + E ≤ 2 ^ 64 ∧ sub64 (add64 L E) 1 / E = ceilDiv L E) ∨
    (2 ^ 64 < L + E ∧ sub64 (add64 L E) 1 / E = 0) := by
  rw [sub64_add64_one _ _ (by omega)]
  by_cases h : L + E ≤ 2 ^ 64
  · left
    refine ⟨h, ?_⟩
    rw [Nat.mod_eq_of_lt (by omega)]; rfl
  · right
    refine ⟨by omega, ?_⟩
    apply Nat.div_eq_of_lt
    omega

/-- With `ceil(T/B)` below `2^32` the stored block count is exact. -/
theorem wrapped_count (T B : Nat) (hB : 0 < B) (hB32 : B < 2 ^ 32)
    (hN : ceilDiv T B < 2 ^ 32) :
    u32 (sub64 (add64 T B) 1 / B) = ceilDiv T B := by
  have h1 : T + B - 1 < 2 ^ 32 * B := by
    unfold ceilDiv at hN
    exact (Nat.div_lt_iff_lt_mul hB).mp hN
  have h2 : 2 ^ 32 * B ≤ 2 ^ 32 * 2 ^ 32 := Nat.mul_le_mul_left _ (by omega)
  have h3 : (2:Nat) ^ 32 * 2 ^ 32 = 2 ^ 64 := by norm_num
  rw [sub64_add64_one _ _ (by omega), Nat.mod_eq_of_lt (by omega)]
  exact Nat.mod_eq_of_lt hN

theorem ceilDiv_zero (B : Nat) (hB : 0 < B) : ceilDiv 0 B = 0 := by
  unfold ceilDiv
  exact Nat.div_eq_of_lt (by omega)

/-- A layout with `N = ceil(T/B)` blocks of `B` symbols each. -/
theorem uniform_layout (T B N : Nat) (hB : 0 < B) (hN : N = ceilDiv T B) (hpos : 0 < N) :
    (N - 1) * B < T ∧ T ≤ (N - 1) * B + B := by
  have h1 := ceilDiv_mul_ge T B hB
  have h2 := ceilDiv_mul_le T B
  rw [← hN] at h1 h2
  obtain ⟨k, rfl⟩ : ∃ k, N = k + 1 := ⟨N - 1, by omega⟩
  have h3 : (k + 1) * B = k * B + B := by ring
  have hT : 0 < T := by
    rcases Nat.eq_zero_or_pos T with h | h
    · rw [h, ceilDiv_zero B hB] at hN; omega
    · exact h
  simp only [Nat.add_sub_cancel]
  omega

theorem new_stream_ok {L B E G : Nat} {bs : BlockingStructure}
    (h : NewBlockingStructure5052 L B E G true = .ok bs) :
    L ≠ 0 ∧ E ≠ 0 ∧ B ≠ 0 ∧
    bs = ⟨u32 (sub64 (add64 (sub64 (add64 L E) 1 / E) B) 1 / B),
          u32 (sub64 (add64 (sub64 (add64 L E) 1 / E) B) 1 / B),
          B, B, E, sub64 (add64 L E) 1 / E, L, B, B, G⟩ := by
  simp only [NewBlockingStructure5052, UpdateBlockingStructure5052, zero] at h
  by_cases hL : L = 0
  · simp [hL] at h
  by_cases hE : E = 0
  · simp [hL, hE] at h
  by_cases hB : B = 0
  · simp [hL, hE, hB] at h
  simp [hL, hE, hB] at h
  exact ⟨hL, hE, hB, h.symm⟩

theorem new_nonstream_ok {L B E G : Nat} {bs : BlockingStructure}
    (h : NewBlockingStructure5052 L B E G false = .ok bs) :
    L ≠ 0 ∧ E ≠ 0 ∧ B ≠ 0 ∧ G ≠ 0 ∧ G ≤ B ∧
    ((E = 1 ∧ bs = ⟨u32 (sub64 (add64 (sub64 (add64 L E) 1 / E) B) 1 / B),
          0, B, B, E, sub64 (add64 L E) 1 / E, L, B, B, G⟩) ∨
     (1 < E ∧ u32 (sub64 (add64 (sub64 (add64 L E) 1 / E) B) 1 / B) ≠ 0 ∧
       bs = ⟨u32 (sub64 (add64 (sub64 (add64 L E) 1 / E) B) 1 / B),
          u32 (sub64 (add64 L E) 1 / E % u32 (sub64 (add64 (sub64 (add64 L E) 1 / E) B) 1 / B)),
          (if 0 < u32 (sub64 (add64 L E) 1 / E %
                u32 (sub64 (add64 (sub64 (add64 L E) 1 / E) B) 1 / B))
            then add32 (u32 (sub64 (add64 L E) 1 / E /
                u32 (sub64 (add64 (sub64 (add64 L E) 1 / E) B) 1 / B))) 1
            else u32 (sub64 (add64 L E) 1 / E /
                u32 (sub64 (add64 (sub64 (add64 L E) 1 / E) B) 1 / B))),
          u32 (sub64 (add64 L E) 1 / E /
                u32 (sub64 (add64 (sub64 (add64 L E) 1 / E) B) 1 / B)),
          E, sub64 (add64 L E) 1 / E, L, B, B, G⟩)) := by
  simp only [NewBlockingStructure5052, UpdateBlockingStructure5052, recompute, zero] at h
  by_cases hL : L = 0
  · simp [hL] at h
  by_cases hB : B = 0
  · simp [hL, hB] at h
  by_cases hE : E = 0
  · simp [hL, hE, hB] at h
  by_cases hG : G = 0
  · simp [hL, hE, hB, hG] at h
  by_cases hGB : B < G
  · simp [hL, hE, hB, hG, hGB] at h
  refine ⟨hL, hE, hB, hG, by omega, ?_⟩
  by_cases hE1 : 1 < E
  · right
    by_cases hN : u32 (sub64 (add64 (sub64 (add64 L E) 1 / E) B) 1 / B) = 0
    · simp [hL, hE, hB, hG, hGB, hE1, hN] at h
    · simp [hL, hE, hB, hG, hGB, hE1, hN] at h
      exact ⟨hE1, hN, h.symm⟩
  · left
    have : E = 1 := by omega
    subst this
    simp [hL, hB, hG, hGB] at h
    exact ⟨rfl, by rw [← h]; simp⟩

theorem regular_of_uniform (N I E T L B G MaxNumEs : Nat)
    (hE : 0 < E) (hE16 : E < 2 ^ 16) (hL : 0 < L) (hL64 : L < 2 ^ 64)
    (hB : 0 < B) (hB32 : B < 2 ^ 32)
    (hT : (L + E ≤ 2 ^ 64 ∧ T = ceilDiv L E) ∨ (2 ^ 64 < L + E ∧ T = 0))
    (hN : N = ceilDiv T B) (hN32 : N < 2 ^ 32) (hI : I = 0 ∨ I = N) :
    Regular ⟨N, I, B, B, E, T, L, B, MaxNumEs, G⟩ ∧ (L + E ≤ 2 ^ 64 → 0 < N) := by
  have hTpos : 0 < N → 0 < T := by
    intro hpos
    rcases Nat.eq_zero_or_pos T with h | h
    · rw [h, ceilDiv_zero B hB] at hN; omega
    · exact h
  have hTc : 0 < N → T = ceilDiv L E := by
    intro hpos
    rcases hT with ⟨_, h⟩ | ⟨_, h⟩
    · exact h
    · have := hTpos hpos; omega
  have hsym : ∀ k, symOff ⟨N, I, B, B, E, T, L, B, MaxNumEs, G⟩ k = k * B := by
    intro k
    unfold symOff
    simp only
    split
    · exact Nat.mul_comm _ _
    · rename_i hk
      have hle : I ≤ k := by omega
      obtain ⟨d, rfl⟩ : ∃ d, k = I + d := ⟨k - I, by omega⟩
      simp only [Nat.add_sub_cancel_left]
      ring
  have hblk : ∀ k, blockSyms ⟨N, I, B, B, E, T, L, B, MaxNumEs, G⟩ k = B := by
    intro k; unfold blockSyms; simp
  constructor
  · refine ⟨hE, hE16, hL64, hB, hB, hB32, hB32, ?_, hN32, ?_, ?_, ?_, ?_⟩
    · rcases hI with h | h <;> simp [h]
    · intro hpos
      rw [hsym]
      exact (uniform_layout T B N hB hN hpos).1
    · intro hpos
      rw [hsym, hblk]
      exact (uniform_layout T B N hB hN hpos).2
    · intro hpos
      simp only at hpos ⊢
      have h1 := hTc hpos
      have h2 := ceilDiv_mul_le L E
      rw [← h1] at h2
      have h3 := hTpos hpos
      obtain ⟨t, rfl⟩ : ∃ t, T = t + 1 := ⟨T - 1, by omega⟩
      simp only [Nat.add_sub_cancel]
      have h4 : (t + 1) * E = E * t + E := by ring
      omega
    · intro hpos
      simp only at hpos ⊢
      have h1 := hTc hpos
      have h2 := ceilDiv_mul_ge L E hE
      rw [← h1] at h2
      rw [Nat.mul_comm]; exact h2
  · intro hno
    rcases hT with ⟨_, h⟩ | ⟨h, _⟩
    · rw [hN]
      exact ceilDiv_pos _ _ (by rw [h]; exact ceilDiv_pos _ _ hL hE) hB
    · omega

theorem asym_last (N q r : Nat) (hr : r < N) :
    r * (if 0 < r then q + 1 else q) + (N - 1 - r) * q + q = N * q + r := by
  obtain ⟨d, rfl⟩ : ∃ d, N = r + 1 + d := ⟨N - 1 - r, by omega⟩
  have h1 : r + 1 + d - 1 - r = d := by omega
  rw [h1]
  split
  · ring
  · rename_i h0
    have h3 : r = 0 := by omega
    subst h3
    ring

theorem regular_of_asymmetric (N E T L B G MaxNumEs : Nat)
    (hE : 1 < E) (hE16 : E < 2 ^ 16) (hL : 0 < L) (hL64 : L < 2 ^ 64)
    (hB : 0 < B) (hB32 : B < 2 ^ 32)
    (hT : T = ceilDiv L E) (hN : N = ceilDiv T B) (hN32 : N < 2 ^ 32) :
    Regular ⟨N, T % N, if 0 < T % N then T / N + 1 else T / N, T / N, E, T, L, B,
      MaxNumEs, G⟩ ∧
    symOff ⟨N, T % N, if 0 < T % N then T / N + 1 else T / N, T / N, E, T, L, B,
      MaxNumEs, G⟩ (N - 1) +
    blockSyms ⟨N, T % N, if 0 < T % N then T / N + 1 else T / N, T / N, E, T, L, B,
      MaxNumEs, G⟩ (N - 1) = T := by
  have hTpos : 0 < T := by rw [hT]; exact ceilDiv_pos _ _ hL (by omega)
  obtain ⟨hNpos, hNle, hq, hq1, hqpos⟩ := block_arith T B hTpos hB
  rw [← hN] at hNpos hNle hq hq1 hqpos
  have hmod : T % N < N := Nat.mod_lt _ hNpos
  have hdm := Nat.div_add_mod T N
  have hA : (if 0 < T % N then T / N + 1 else T / N) < 2 ^ 32 := by
    split
    · rename_i h; have := hq1 h; omega
    · omega
  have hlast : symOff ⟨N, T % N, if 0 < T % N then T / N + 1 else T / N, T / N, E, T, L, B,
      MaxNumEs, G⟩ (N - 1) + T / N = T := by
    unfold symOff
    simp only
    rw [if_neg (by omega), asym_last N (T / N) (T % N) hmod]
    exact hdm
  have hb : blockSyms ⟨N, T % N, if 0 < T % N then T / N + 1 else T / N, T / N, E, T, L, B,
      MaxNumEs, G⟩ (N - 1) = T / N := by
    unfold blockSyms; simp only; rw [if_neg (by omega)]
  refine ⟨⟨?_, ?_, ?_, ?_, ?_, ?_, ?_, ?_, ?_, ?_, ?_, ?_, ?_⟩, by rw [hb]; exact hlast⟩
  · simp only; omega
  · exact hE16
  · exact hL64
  · simp only; split <;> omega
  · exact hqpos
  · exact hA
  · simp only; omega
  · simp only; omega
  · exact hN32
  · intro _
    simp only at hlast ⊢
    omega
  · intro _
    rw [hb]
    simp only at hlast ⊢
    omega
  · intro _
    simp only
    have h2 := ceilDiv_mul_le L E
    rw [← hT] at h2
    obtain ⟨t, rfl⟩ : ∃ t, T = t + 1 := ⟨T - 1, by omega⟩
    simp only [Nat.add_sub_cancel]
    have h4 : (t + 1) * E = E * t + E := by ring
    omega
  · intro _
    simp only
    have h2 := ceilDiv_mul_ge L E (by omega)
    rw [← hT] at h2
    rw [Nat.mul_comm]; exact h2

/-- Every structure `NewBlockingStructure5052` returns with an exact block count
is regular; it keeps the arguments, and it has at least one block unless
`L + E - 1` overflowed in stream mode. -/
theorem new_ok_regular {L B E G : Nat} {stream : Bool} {bs : BlockingStructure}
    (hL64 : L < 2 ^ 64) (hB32 : B < 2 ^ 32) (hE16 : E < 2 ^ 16)
    (h : NewBlockingStructure5052 L B E G stream = .ok bs)
    (hN : ceilDiv bs.T B < 2 ^ 32) :
    Regular bs ∧ bs.TransferLen = L ∧ bs.ESLen = E ∧ bs.MaxSbLen = B ∧
    ((stream = false ∨ L + E ≤ 2 ^ 64) → 0 < bs.N) ∧
    (stream = false → bs.I < bs.N ∧
      bs.ESLen * (symOff bs (bs.N - 1) + blockSyms bs (bs.N - 1)) < 2 ^ 64) := by
  cases stream with
  | true =>
    obtain ⟨hL, hE, hB, rfl⟩ := new_stream_ok h
    simp only at hN
    have hT := wrapped_ceil L E (by omega) hL64 (by omega)
    rw [wrapped_count _ B (by omega) hB32 hN]
    have hT' : (L + E ≤ 2 ^ 64 ∧ sub64 (add64 L E) 1 / E = ceilDiv L E) ∨
        (2 ^ 64 < L + E ∧ sub64 (add64 L E) 1 / E = 0) := hT
    obtain ⟨hr, hpos⟩ := regular_of_uniform (ceilDiv (sub64 (add64 L E) 1 / E) B)
      (ceilDiv (sub64 (add64 L E) 1 / E) B) E (sub64 (add64 L E) 1 / E) L B G B
      (by omega) hE16 (by omega) hL64 (by omega) hB32 hT' rfl hN (Or.inr rfl)
    refine ⟨hr, rfl, rfl, rfl, ?_, by simp⟩
    intro hh
    rcases hh with hh | hh
    · simp at hh
    · exact hpos hh
  | false =>
    obtain ⟨hL, hE, hB, hG, hGB, h1 | h1⟩ := new_nonstream_ok h
    · obtain ⟨rfl, rfl⟩ := h1
      simp only at hN
      have hT := wrapped_ceil L 1 (by omega) hL64 (by omega)
      rw [wrapped_count _ B (by omega) hB32 hN]
      obtain ⟨hr, hpos⟩ := regular_of_uniform (ceilDiv (sub64 (add64 L 1) 1 / 1) B)
        0 1 (sub64 (add64 L 1) 1 / 1) L B G B
        (by omega) hE16 (by omega) hL64 (by omega) hB32 hT rfl hN (Or.inl rfl)
      have hp : 0 < ceilDiv (sub64 (add64 L 1) 1 / 1) B := hpos (by omega)
      refine ⟨hr, rfl, rfl, rfl, fun _ => hp, fun _ => ⟨hp, ?_⟩⟩
      simp only [symOff, blockSyms, Nat.not_lt_zero, if_false, Nat.zero_mul, Nat.zero_add,
        Nat.sub_zero, Nat.one_mul]
      have hb : (ceilDiv (sub64 (add64 L 1) 1 / 1) B - 1) * B + B
          = ceilDiv (sub64 (add64 L 1) 1 / 1) B * B := by
        obtain ⟨k, hk⟩ : ∃ k, ceilDiv (sub64 (add64 L 1) 1 / 1) B = k + 1 :=
          ⟨ceilDiv (sub64 (add64 L 1) 1 / 1) B - 1, by omega⟩
        rw [hk]; simp only [Nat.add_sub_cancel]; ring
      rw [hb]
      calc ceilDiv (sub64 (add64 L 1) 1 / 1) B * B < 2 ^ 32 * 2 ^ 32 :=
            Nat.mul_lt_mul'' hN hB32
        _ = 2 ^ 64 := by norm_num
    · obtain ⟨hE1, hN0, rfl⟩ := h1
      simp only at hN
      have hT := wrapped_ceil L E (by omega) hL64 (by omega)
      have hNe := wrapped_count _ B (by omega) hB32 hN
      rw [hNe] at hN0 ⊢
      rcases hT with ⟨hno, hT⟩ | ⟨hov, hT⟩
      · rw [hT] at hN hN0 ⊢
        have hTpos : 0 < ceilDiv L E := ceilDiv_pos _ _ (by omega) (by omega)
        obtain ⟨hNpos, hNle, hq, hq1, hqpos⟩ := block_arith (ceilDiv L E) B hTpos (by omega)
        have hmod : ceilDiv L E % ceilDiv (ceilDiv L E) B < ceilDiv (ceilDiv L E) B :=
          Nat.mod_lt _ hNpos
        have e1 : u32 (ceilDiv L E / ceilDiv (ceilDiv L E) B)
            = ceilDiv L E / ceilDiv (ceilDiv L E) B := Nat.mod_eq_of_lt (by omega)
        have e2 : u32 (ceilDiv L E % ceilDiv (ceilDiv L E) B)
            = ceilDiv L E % ceilDiv (ceilDiv L E) B := Nat.mod_eq_of_lt (by omega)
        have e3 : (if 0 < ceilDiv L E % ceilDiv (ceilDiv L E) B
              then add32 (ceilDiv L E / ceilDiv (ceilDiv L E) B) 1
              else ceilDiv L E / ceilDiv (ceilDiv L E) B)
            = (if 0 < ceilDiv L E % ceilDiv (ceilDiv L E) B
              then ceilDiv L E / ceilDiv (ceilDiv L E) B + 1
              else ceilDiv L E / ceilDiv (ceilDiv L E) B) := by
          split
          · rename_i hp
            have := hq1 hp
            unfold add32
            exact Nat.mod_eq_of_lt (by omega)
          · rfl
        rw [e1, e2, e3]
        obtain ⟨hr, hlast⟩ := regular_of_asymmetric (ceilDiv (ceilDiv L E) B) E (ceilDiv L E)
          L B G B hE1 hE16 (by omega) hL64 (by omega) hB32 rfl rfl hN
        refine ⟨hr, rfl, rfl, rfl, fun _ => hNpos, fun _ => ⟨hmod, ?_⟩⟩
        rw [hlast]
        have h2 := ceilDiv_mul_le L E
        simp only
        rw [Nat.mul_comm]
        omega
      · rw [hT, ceilDiv_zero B (by omega)] at hN0
        exact absurd rfl hN0

theorem Regular.srcBlockSize_inner {bs : BlockingStructure} (hr : Regular bs) {sbn : Nat}
    (h : sbn + 1 < bs.N) : bs.SrcBlockSize sbn = bs.ESLen * blockSyms bs sbn := by
  have hn := hr.n_lt
  have hs : sub32 bs.N 1 = bs.N - 1 := by unfold sub32; omega
  have hEA : bs.ESLen * bs.A < 2 ^ 64 := by
    calc bs.ESLen * bs.A < 2 ^ 16 * 2 ^ 32 := Nat.mul_lt_mul'' hr.es_lt hr.a_lt
      _ < 2 ^ 64 := by norm_num
  have hEAS : bs.ESLen * bs.ASmall < 2 ^ 64 := by
    calc bs.ESLen * bs.ASmall < 2 ^ 16 * 2 ^ 32 := Nat.mul_lt_mul'' hr.es_lt hr.as_lt
      _ < 2 ^ 64 := by norm_num
  unfold SrcBlockSize blockSyms
  rw [hs, if_neg (by omega)]
  by_cases h1 : sbn < bs.I
  · simp only [h1, if_true]
    exact Nat.mod_eq_of_lt hEA
  · simp only [h1, if_false]
    rw [if_pos (by omega)]
    exact Nat.mod_eq_of_lt hEAS

theorem Regular.srcBlockSize_last {bs : BlockingStructure} (hr : Regular bs)
    (h : 0 < bs.N) :
    bs.SrcBlockSize (bs.N - 1) = bs.TransferLen - bs.ESLen * symOff bs (bs.N - 1) := by
  have hn := hr.n_lt
  have hs : sub32 bs.N 1 = bs.N - 1 := by unfold sub32; omega
  have hlt := hr.mul_symOff_lt (show bs.N - 1 < bs.N by omega)
  have hL := hr.len_lt
  unfold SrcBlockSize
  rw [hs, if_pos rfl, hr.srcOffset_eq (by omega)]
  unfold sub64
  omega

theorem symOff_zero (bs : BlockingStructure) : symOff bs 0 = 0 := by
  unfold symOff
  split
  · simp
  · rename_i h
    have h0 : bs.I = 0 := by omega
    simp [h0]

theorem sum_blockSyms (bs : BlockingStructure) (m : Nat) :
    ∑ k ∈ Finset.range m, bs.ESLen * blockSyms bs k = bs.ESLen * symOff bs m := by
  induction m with
  | zero => simp [symOff_zero]
  | succ n ih => rw [Finset.sum_range_succ, ih, symOff_succ, Nat.mul_add]

theorem Regular.sum_srcBlockSize {bs : BlockingStructure} (hr : Regular bs)
    (h : 0 < bs.N) :
    ∑ sbn ∈ Finset.range bs.N, bs.SrcBlockSize sbn = bs.TransferLen := by
  obtain ⟨m, hm⟩ : ∃ m, bs.N = m + 1 := ⟨bs.N - 1, by omega⟩
  have hlast := hr.srcBlockSize_last h
  have hlt := hr.mul_symOff_lt (show bs.N - 1 < bs.N by omega)
  rw [hm] at hlast hlt ⊢
  simp only [Nat.add_sub_cancel] at hlast hlt
  rw [Finset.sum_range_succ, hlast]
  have hinner : ∑ k ∈ Finset.range m, bs.SrcBlockSize k
      = ∑ k ∈ Finset.range m, bs.ESLen * blockSyms bs k := by
    apply Finset.sum_congr rfl
    intro k hk
    rw [Finset.mem_range] at hk
    exact hr.srcBlockSize_inner (by omega)
  rw [hinner, sum_blockSyms]
  omega

end BlockingStructure

/-- C9: for every structure `NewBlockingStructure5052` returns, in stream mode or
not, whose block count `ceil(T/B)` is below `2^32`, and every `sbn < N`:
`SourceSBN(SrcOffset(sbn))` returns `sbn`. -/
theorem sourceSBN_srcOffset_roundtrip (L B E G : Nat) (stream : Bool)
    (bs : BlockingStructure)
    (hL64 : L < 2 ^ 64) (hB32 : B < 2 ^ 32) (hE16 : E < 2 ^ 16)
    (hnew : NewBlockingStructure5052 L B E G stream = .ok bs)
    (hN : ceilDiv bs.T B < 2 ^ 32) (sbn : Nat) (hs : sbn < bs.N) :
    bs.SourceSBN (bs.SrcOffset sbn) = some sbn :=
  (new_ok_regular hL64 hB32 hE16 hnew hN).1.sourceSBN_srcOffset hs

/-- C9, at the structure of the 107374182-byte object (`E = 1430`, `B = 10`) and
its last block. -/
theorem sourceSBN_srcOffset_roundtrip_witness :
    SourceSBN ⟨7509, 7506, 10, 9, 1430, 75087, 107374182, 10, 10, 1⟩
      (SrcOffset ⟨7509, 7506, 10, 9, 1430, 75087, 107374182, 10, 10, 1⟩ 7508)
      = some 7508 :=
  sourceSBN_srcOffset_roundtrip 107374182 10 1430 1 false
    ⟨7509, 7506, 10, 9, 1430, 75087, 107374182, 10, 10, 1⟩
    (by decide) (by decide) (by decide) (by decide) (by decide) 7508 (by decide)

/-- C8 (fails as stated): in stream mode, with `L = 2^64 - 1`, `E = 2` and
`B = 2^32 - 1`, the sum `L + E - 1` wraps to zero, the structure is returned
with `T = 0` and `N = 0`, and the empty sum of block sizes is not `TransferLen`. -/
theorem srcBlockSize_sum_overflow :
    ∃ bs, NewBlockingStructure5052 (2 ^ 64 - 1) (2 ^ 32 - 1) 2 1 true = .ok bs ∧
      ceilDiv bs.T (2 ^ 32 - 1) < 2 ^ 32 ∧
      ceilDiv (ceilDiv (2 ^ 64 - 1) 2) (2 ^ 32 - 1) < 2 ^ 32 ∧
      ∑ sbn ∈ Finset.range bs.N, bs.SrcBlockSize sbn ≠ bs.TransferLen :=
  ⟨⟨0, 0, 2 ^ 32 - 1, 2 ^ 32 - 1, 2, 0, 2 ^ 64 - 1, 2 ^ 32 - 1, 2 ^ 32 - 1, 1⟩,
    by decide, by decide, by decide, by simp⟩

/-- C8 (amended): for every structure `NewBlockingStructure5052` returns, in
stream mode or not, with `L + E <= 2^64` (the sum `L + E - 1` does not wrap) and
`ceil(T/B) < 2^32`, the sum of `SrcBlockSize(sbn)` over `sbn` in `[0, N)` is
`TransferLen`. -/
theorem srcBlockSize_sum (L B E G : Nat) (stream : Bool) (bs : BlockingStructure)
    (hL64 : L < 2 ^ 64) (hB32 : B < 2 ^ 32) (hE16 : E < 2 ^ 16)
    (hnew : NewBlockingStructure5052 L B E G stream = .ok bs)
    (hN : ceilDiv bs.T B < 2 ^ 32) (hno : L + E ≤ 2 ^ 64) :
    ∑ sbn ∈ Finset.range bs.N, bs.SrcBlockSize sbn = bs.TransferLen :=
  let h := new_ok_regular hL64 hB32 hE16 hnew hN
  h.1.sum_srcBlockSize (h.2.2.2.2.1 (Or.inr hno))

/-- C8 (amended), at a 10-byte object in stream mode with `E = 2`, `B = 2`:
three blocks of 4, 4 and 2 bytes. -/
theorem srcBlockSize_sum_witness :
    ∑ sbn ∈ Finset.range 3,
      SrcBlockSize ⟨3, 3, 2, 2, 2, 5, 10, 2, 2, 1⟩ sbn = 10 :=
  srcBlockSize_sum 10 2 2 1 true ⟨3, 3, 2, 2, 2, 5, 10, 2, 2, 1⟩
    (by decide) (by decide) (by decide) (by decide) (by decide) (by decide)

namespace BlockingStructure

theorem sub32_add32_one (a b : Nat) (h : 0 < a + b) :
    sub32 (add32 a b) 1 = (a + b - 1) % 2 ^ 32 := by
  unfold sub32 add32; omega

theorem ceilDiv_mul_left (e n : Nat) (he : 0 < e) : ceilDiv (e * n) e = n := by
  unfold ceilDiv
  have : e * n + e - 1 = (e - 1) + e * n := by omega
  rw [this, Nat.add_mul_div_left _ _ he, Nat.div_eq_of_lt (by omega)]
  omega

theorem numSrcSym_beyond (bs : BlockingStructure) {sbn : Nat} (h : bs.N ≤ sbn) :
    bs.NumSrcSym sbn = some 0 := by
  unfold NumSrcSym
  rw [if_pos h]

theorem Regular.numSrcSym_inner {bs : BlockingStructure} (hr : Regular bs) {sbn : Nat}
    (h : sbn + 1 < bs.N) : bs.NumSrcSym sbn = some (blockSyms bs sbn) := by
  have hn := hr.n_lt
  have hs : sub32 bs.N 1 = bs.N - 1 := by unfold sub32; omega
  unfold NumSrcSym blockSyms
  rw [if_neg (by omega), hs]
  simp only
  rw [if_neg (by omega)]

theorem Regular.numSrcSym_last {bs : BlockingStructure} (hr : Regular bs)
    (h : 0 < bs.N)
    (hend : bs.ESLen * (symOff bs (bs.N - 1) + blockSyms bs (bs.N - 1)) < 2 ^ 64)
    (hclip : bs.SrcOffset (bs.N - 1) + bs.ESLen * blockSyms bs (bs.N - 1) > bs.TransferLen →
      bs.SrcBlockSize (bs.N - 1) + bs.ESLen - 1 < 2 ^ 32) :
    bs.NumSrcSym (bs.N - 1) = some (ceilDiv (bs.SrcBlockSize (bs.N - 1)) bs.ESLen) := by
  have hn := hr.n_lt
  have hE := hr.es_pos
  have hs : sub32 bs.N 1 = bs.N - 1 := by unfold sub32; omega
  have hoff := hr.srcOffset_eq (show bs.N - 1 < bs.N by omega)
  have hsz := hr.srcBlockSize_last h
  have hlt := hr.mul_symOff_lt (show bs.N - 1 < bs.N by omega)
  have hL := hr.len_lt
  have hge := hr.last_ge h
  have hle := hr.len_le h
  have hmul : bs.ESLen * (symOff bs (bs.N - 1) + blockSyms bs (bs.N - 1))
      = bs.ESLen * symOff bs (bs.N - 1) + bs.ESLen * blockSyms bs (bs.N - 1) := Nat.mul_add _ _ _
  have hT : bs.ESLen * bs.T
      ≤ bs.ESLen * (symOff bs (bs.N - 1) + blockSyms bs (bs.N - 1)) :=
    Nat.mul_le_mul_left _ hge
  have hblk : (if bs.N - 1 < bs.I then bs.A else bs.ASmall) = blockSyms bs (bs.N - 1) := rfl
  have hend' : add64 (bs.ESLen * symOff bs (bs.N - 1))
      (mul64 bs.ESLen (blockSyms bs (bs.N - 1)))
      = bs.ESLen * symOff bs (bs.N - 1) + bs.ESLen * blockSyms bs (bs.N - 1) := by
    have h1 : bs.ESLen * blockSyms bs (bs.N - 1) < 2 ^ 64 := by omega
    unfold add64 mul64
    rw [Nat.mod_eq_of_lt h1]
    exact Nat.mod_eq_of_lt (by omega)
  unfold NumSrcSym
  rw [if_neg (by omega), hs]
  simp only [if_true, hblk, hoff, hend']
  rw [hoff] at hclip
  by_cases hc : bs.ESLen * symOff bs (bs.N - 1) + bs.ESLen * blockSyms bs (bs.N - 1)
      > bs.TransferLen
  · rw [if_pos hc, if_neg (by omega)]
    have h32 := hclip hc
    have hsub : sub64 bs.TransferLen (bs.ESLen * symOff bs (bs.N - 1))
        = bs.SrcBlockSize (bs.N - 1) := by
      rw [hsz]; unfold sub64; omega
    rw [hsub, sub32_add32_one _ _ (by unfold u32; omega)]
    have hu : u32 (bs.SrcBlockSize (bs.N - 1)) = bs.SrcBlockSize (bs.N - 1) :=
      Nat.mod_eq_of_lt (by omega)
    rw [hu, Nat.mod_eq_of_lt h32]
    rfl
  · rw [if_neg hc]
    have heq : bs.SrcBlockSize (bs.N - 1) = bs.ESLen * blockSyms bs (bs.N - 1) := by
      rw [hsz]; omega
    rw [heq, ceilDiv_mul_left _ _ hE]

end BlockingStructure

/-- C10 (fails as stated): two structures returned with `stream = false` whose
last block has `NumSrcSym` different from `ceil(SrcBlockSize / ESLen)`. In the
first (`L = 2^32 + 1`, `E = 65535`, `B = 65538`, one block) the clipped count
is computed in 32 bits from a byte count that does not fit; in the second
(`L = 2^34 + 2`, `E = 2`, `B = 1`) the block count `2^33 + 1` is stored modulo
`2^32`. -/
theorem numSrcSym_truncated :
    (∃ bs, NewBlockingStructure5052 (2 ^ 32 + 1) 65538 65535 1 false = .ok bs ∧
      bs.N = 1 ∧ bs.NumSrcSym 0 = some 1 ∧
      ceilDiv (bs.SrcBlockSize 0) bs.ESLen = 65538) ∧
    (∃ bs, NewBlockingStructure5052 (2 ^ 34 + 2) 1 2 1 false = .ok bs ∧
      bs.N = 1 ∧ bs.NumSrcSym 0 = some 1 ∧
      ceilDiv (bs.SrcBlockSize 0) bs.ESLen = 2 ^ 33 + 1) :=
  ⟨⟨⟨1, 0, 65538, 65538, 65535, 65538, 2 ^ 32 + 1, 65538, 65538, 1⟩,
      by decide, by decide, by decide, by decide⟩,
   ⟨⟨1, 0, 1, 1, 2, 2 ^ 33 + 1, 2 ^ 34 + 2, 1, 1, 1⟩,
      by decide, by decide, by decide, by decide⟩⟩

/-- C10 (amended): for every structure `NewBlockingStructure5052` returns with
`stream = false` and `ceil(T/B) < 2^32`, such that, whenever the final block is
cut short (`SrcOffset(N-1) + ESLen * ASmall > TransferLen`), its byte count plus
`ESLen - 1` is below `2^32`: `NumSrcSym(sbn)` is 0 for `sbn >= N`, and for
`sbn < N` it is `ceil(SrcBlockSize(sbn) / ESLen)`, which is `A` for `sbn < I`,
`ASmall` for `I <= sbn < N - 1`, and `ceil((TransferLen - SrcOffset(N-1)) /
ESLen)` for the final block. -/
theorem numSrcSym_eq_ceil (L B E G : Nat) (bs : BlockingStructure)
    (hL64 : L < 2 ^ 64) (hB32 : B < 2 ^ 32) (hE16 : E < 2 ^ 16)
    (hnew : NewBlockingStructure5052 L B E G false = .ok bs)
    (hN : ceilDiv bs.T B < 2 ^ 32)
    (hclip : bs.SrcOffset (bs.N - 1) + bs.ESLen * bs.ASmall > bs.TransferLen →
      bs.SrcBlockSize (bs.N - 1) + bs.ESLen - 1 < 2 ^ 32)
    (sbn : Nat) :
    (bs.N ≤ sbn → bs.NumSrcSym sbn = some 0) ∧
    (sbn < bs.N →
      bs.NumSrcSym sbn = some (ceilDiv (bs.SrcBlockSize sbn) bs.ESLen) ∧
      ceilDiv (bs.SrcBlockSize sbn) bs.ESLen =
        if sbn = bs.N - 1 then ceilDiv (bs.TransferLen - bs.SrcOffset (bs.N - 1)) bs.ESLen
        else if sbn < bs.I then bs.A else bs.ASmall) := by
  obtain ⟨hr, -, -, -, hpos, hns⟩ := new_ok_regular hL64 hB32 hE16 hnew hN
  obtain ⟨hI, hend⟩ := hns rfl
  have hNpos := hpos (Or.inl rfl)
  have hblk : blockSyms bs (bs.N - 1) = bs.ASmall := by
    unfold blockSyms; rw [if_neg (by omega)]
  refine ⟨numSrcSym_beyond bs, ?_⟩
  intro hs
  by_cases hlast : sbn = bs.N - 1
  · subst hlast
    rw [hblk] at hend
    refine ⟨hr.numSrcSym_last hNpos (by rw [hblk]; exact hend) (by rw [hblk]; exact hclip), ?_⟩
    rw [if_pos rfl, hr.srcBlockSize_last hNpos, hr.srcOffset_eq (by omega)]
  · have hin : sbn + 1 < bs.N := by omega
    rw [hr.numSrcSym_inner hin, hr.srcBlockSize_inner hin, ceilDiv_mul_left _ _ hr.es_pos,
      if_neg hlast]
    exact ⟨rfl, rfl⟩

/-- C10 (amended), at the structure of the 107374182-byte object (`E = 1430`,
`B = 10`) and its last block, which is cut short to 9 symbols. -/
theorem numSrcSym_eq_ceil_witness :
    NumSrcSym ⟨7509, 7506, 10, 9, 1430, 75087, 107374182, 10, 10, 1⟩ 7508 = some 9 :=
  ((numSrcSym_eq_ceil 107374182 10 1430 1
    ⟨7509, 7506, 10, 9, 1430, 75087, 107374182, 10, 10, 1⟩
    (by decide) (by decide) (by decide) (by decide) (by decide) (by decide) 7508).2
      (by decide)).1

/-! ## Contains and Missing over the integers -/

/-! ### Contains -/

theorem containsLoop_spec (fuel : Nat) :
    ∀ rs os : RangeList, Canon rs → Canon os → rs.length + os.length + 1 ≤ fuel →
      ∃ b, containsLoop fuel rs os = some b ∧ (b = true ↔ Within os rs) := by
  induction fuel with
  | zero => intro rs os _ _ h; omega
  | succ n ih =>
    intro rs os hrs hos hfuel
    cases os with
    | nil =>
      refine ⟨true, by cases rs <;> rfl, ?_⟩
      simp [Within]
    | cons o os =>
      cases rs with
      | nil =>
        refine ⟨false, rfl, ?_⟩
        constructor
        · intro h; cases h
        · intro h
          obtain ⟨y, hy, _⟩ := h o (List.mem_cons_self _ _)
          cases hy
      | cons r rs =>
        obtain ⟨hr, hrgap, hrs'⟩ := canon_cons.mp hrs
        obtain ⟨ho, hogap, hos'⟩ := canon_cons.mp hos
        simp only [List.length_cons] at hfuel
        by_cases hc : r.Contains o = true
        · obtain ⟨b, hb, hiff⟩ := ih (r :: rs) os hrs hos'
            (by simp only [List.length_cons]; omega)
          refine ⟨b, by simp only [containsLoop, hc, if_true]; exact hb, ?_⟩
          rw [hiff]
          rw [contains_iff] at hc
          constructor
          · intro h x hx
            rcases List.mem_cons.mp hx with rfl | hx
            · exact ⟨r, List.mem_cons_self _ _, hc.1, hc.2⟩
            · exact h x hx
          · intro h x hx
            exact h x (List.mem_cons_of_mem _ hx)
        · obtain ⟨b, hb, hiff⟩ := ih rs (o :: os) hrs' hos
            (by simp only [List.length_cons]; omega)
          refine ⟨b, by simp only [containsLoop, hc]; exact hb, ?_⟩
          rw [hiff]
          have hnc : ¬ (r.Start ≤ o.Start ∧ o.End ≤ r.End) := by
            rw [← contains_iff]; exact hc
          constructor
          · intro h x hx
            obtain ⟨y, hy, hy1⟩ := h x hx
            exact ⟨y, List.mem_cons_of_mem _ hy, hy1⟩
          · intro h
            obtain ⟨y0, hy0, hy01, hy02⟩ := h o (List.mem_cons_self _ _)
            have hy0' : y0 ∈ rs := by
              rcases List.mem_cons.mp hy0 with rfl | h'
              · exact absurd ⟨hy01, hy02⟩ hnc
              · exact h'
            have hg := hrgap y0 hy0'
            intro x hx
            obtain ⟨y, hy, hy1, hy2⟩ := h x hx
            rcases List.mem_cons.mp hy with rfl | hy'
            · rcases List.mem_cons.mp hx with rfl | hx'
              · exact absurd ⟨hy1, hy2⟩ hnc
              · have := hogap x hx'
                have := hos'.1 x hx'
                omega
            · exact ⟨y, hy', hy1, hy2⟩

theorem containsZ_spec (rl ol : RangeList) (hrl : Canon rl) (hol : Canon ol) :
    ∃ b, RangeList.ContainsZ rl ol = some b ∧ (b = true ↔ Within ol rl) := by
  cases ol with
  | nil => exact ⟨true, rfl, by simp [Within]⟩
  | cons o0 os =>
    obtain ⟨ho, hogap, hos'⟩ := canon_cons.mp hol
    have hsearch := searchLoop_false (endReachesZ rl o0.Start) rl.length
      (endReachesZ_mono rl o0.Start hrl) rl.length 0 rl.length (le_refl _)
      (fun k hk => by omega)
    have hskip : ∀ r ∈ rl.take (sortSearch rl.length (endReachesZ rl o0.Start)),
        r.End + 1 < o0.Start :=
      take_end_lt rl o0.Start _ (fun k hk => hsearch k hk)
    obtain ⟨b, hb, hiff⟩ := containsLoop_spec (rl.length + (o0 :: os).length + 1)
      (rl.drop (sortSearch rl.length (endReachesZ rl o0.Start))) (o0 :: os)
      (canon_drop rl _ hrl) hol (by simp only [List.length_drop]; omega)
    refine ⟨b, hb, ?_⟩
    rw [hiff]
    constructor
    · intro h x hx
      obtain ⟨y, hy, hy1⟩ := h x hx
      exact ⟨y, List.mem_of_mem_drop hy, hy1⟩
    · intro h x hx
      obtain ⟨y, hy, hy1, hy2⟩ := h x hx
      refine ⟨y, ?_, hy1, hy2⟩
      have hsplit := List.take_append_drop
        (sortSearch rl.length (endReachesZ rl o0.Start)) rl
      rw [← hsplit] at hy
      rcases List.mem_append.mp hy with h1 | h1
      · exfalso
        have := hskip y h1
        have hx0 : o0.Start ≤ x.Start := by
          rcases List.mem_cons.mp hx with rfl | hx'
          · exact le_refl _
          · have := hogap x hx'; omega
        have : x.Start ≤ x.End := hol.1 x hx
        omega
      · exact h1

/-! ### MissingZ -/

/-- The list `MissingZ` returns from the state in which its loop ends. -/
theorem missingLoopZ_spec (stop : Int) :
    ∀ (hs : RangeList) (cur : Int) (ret : RangeList), Canon hs → Canon ret →
      (∀ o ∈ ret, o.End + 1 < cur) → cur ≤ stop →
      Canon (if (missingLoopZ stop hs cur ret).2 ≤ stop
          then (missingLoopZ stop hs cur ret).1 ++ [⟨(missingLoopZ stop hs cur ret).2, stop⟩]
          else (missingLoopZ stop hs cur ret).1) ∧
      ∀ x, Covers (if (missingLoopZ stop hs cur ret).2 ≤ stop
          then (missingLoopZ stop hs cur ret).1 ++ [⟨(missingLoopZ stop hs cur ret).2, stop⟩]
          else (missingLoopZ stop hs cur ret).1) x ↔
        Covers ret x ∨ (cur ≤ x ∧ x ≤ stop ∧ ¬ Covers hs x) := by
  intro hs
  induction hs with
  | nil =>
    intro cur ret _ hret hgap hcur
    simp only [missingLoopZ, hcur, if_true]
    refine ⟨canon_snoc hret hcur hgap, fun x => ?_⟩
    rw [covers_append, covers_singleton]
    simp [covers_nil]
  | cons h hs ih =>
    intro cur ret hhs hret hgap hcur
    obtain ⟨hh, hhgap, hhs'⟩ := canon_cons.mp hhs
    have hnot : ∀ x, Covers hs x → h.End + 1 < x := fun x hx => covers_gt hhgap hx
    by_cases h1 : h.Start > stop
    · simp only [missingLoopZ, h1, if_true, hcur]
      refine ⟨canon_snoc hret hcur hgap, fun x => ?_⟩
      have hn := hnot x
      simp only [covers_append, covers_cons, covers_nil, or_false]
      by_cases hc : Covers hs x <;> by_cases hr : Covers ret x <;>
        simp only [hc, hr, true_and, false_and, and_true, and_false, or_true, or_false,
          true_or, false_or, true_implies, false_implies, false_iff, iff_false, true_iff,
          iff_true, not_true_eq_false, not_false_eq_true] at hn ⊢ <;> omega
    · by_cases h2 : cur > h.End
      · simp only [missingLoopZ, h1, if_false, h2, if_true]
        obtain ⟨ih1, ih2⟩ := ih cur ret hhs' hret hgap hcur
        refine ⟨ih1, fun x => ?_⟩
        have hn := hnot x
        simp only [ih2 x, covers_cons]
        by_cases hc : Covers hs x <;> by_cases hr : Covers ret x <;>
          (simp only [hc, hr, true_and, false_and, and_true, and_false, or_true, or_false,
            true_or, false_or, true_implies, false_implies, false_iff, iff_false, true_iff,
            iff_true, not_true_eq_false, not_false_eq_true] at hn ⊢; try omega)
      · by_cases h3 : cur < h.Start
        · have hstep : missingStepZ h cur ret = (ret ++ [⟨cur, h.Start - 1⟩], h.End + 1) := by
            simp [missingStepZ, h3]
          have hret1 : Canon (ret ++ [⟨cur, h.Start - 1⟩]) :=
            canon_snoc hret (by show cur ≤ h.Start - 1; omega) hgap
          have hgap1 : ∀ o ∈ ret ++ [⟨cur, h.Start - 1⟩], o.End + 1 < h.End + 1 := by
            intro o ho
            rcases List.mem_append.mp ho with ho | ho
            · have := hgap o ho; omega
            · rw [List.mem_singleton] at ho; subst ho
              show h.Start - 1 + 1 < h.End + 1
              omega
          by_cases h4 : h.End + 1 > stop
          · have hn4 : ¬ h.End + 1 ≤ stop := by omega
            simp only [missingLoopZ, h1, if_false, h2, hstep, h4, if_true, hn4]
            refine ⟨hret1, fun x => ?_⟩
            have hn := hnot x
            simp only [covers_append, covers_cons, covers_nil, or_false]
            by_cases hc : Covers hs x <;> by_cases hr : Covers ret x <;>
              simp only [hc, hr, true_and, false_and, and_true, and_false, or_true, or_false,
                true_or, false_or, true_implies, false_implies, false_iff, iff_false,
                true_iff, iff_true, not_true_eq_false, not_false_eq_true] at hn ⊢ <;> omega
          · simp only [missingLoopZ, h1, if_false, h2, hstep, h4]
            obtain ⟨ih1, ih2⟩ := ih (h.End + 1) _ hhs' hret1 hgap1 (by omega)
            refine ⟨ih1, fun x => ?_⟩
            have hn := hnot x
            simp only [ih2 x, covers_append, covers_cons, covers_nil, or_false]
            by_cases hc : Covers hs x <;> by_cases hr : Covers ret x <;>
              simp only [hc, hr, true_and, false_and, and_true, and_false, or_true, or_false,
                true_or, false_or, true_implies, false_implies, false_iff, iff_false,
                true_iff, iff_true, not_true_eq_false, not_false_eq_true] at hn ⊢ <;> omega
        · have hstep : missingStepZ h cur ret = (ret, h.End + 1) := by
            have : cur ≤ h.End := by omega
            simp [missingStepZ, h3, this]
          have hgap1 : ∀ o ∈ ret, o.End + 1 < h.End + 1 := by
            intro o ho
            have := hgap o ho; omega
          by_cases h4 : h.End + 1 > stop
          · have hn4 : ¬ h.End + 1 ≤ stop := by omega
            simp only [missingLoopZ, h1, if_false, h2, hstep, h4, if_true, hn4]
            refine ⟨hret, fun x => ?_⟩
            have hn := hnot x
            simp only [covers_cons]
            by_cases hc : Covers hs x <;> by_cases hr : Covers ret x <;>
              (simp only [hc, hr, true_and, false_and, and_true, and_false, or_true, or_false,
                true_or, false_or, true_implies, false_implies, false_iff, iff_false,
                true_iff, iff_true, not_true_eq_false, not_false_eq_true] at hn ⊢; try omega)
          · simp only [missingLoopZ, h1, if_false, h2, hstep, h4]
            obtain ⟨ih1, ih2⟩ := ih (h.End + 1) _ hhs' hret hgap1 (by omega)
            refine ⟨ih1, fun x => ?_⟩
            have hn := hnot x
            simp only [ih2 x, covers_cons]
            by_cases hc : Covers hs x <;> by_cases hr : Covers ret x <;>
              (simp only [hc, hr, true_and, false_and, and_true, and_false, or_true, or_false,
                true_or, false_or, true_implies, false_implies, false_iff, iff_false,
                true_iff, iff_true, not_true_eq_false, not_false_eq_true] at hn ⊢; try omega)

theorem missingZ_spec (has : RangeList) (start stop : Int) (hc : Canon has)
    (hse : start ≤ stop) (h0 : 0 ≤ stop) :
    Canon (MissingZ has start stop) ∧
      ∀ x, Covers (MissingZ has start stop) x ↔ start ≤ x ∧ x ≤ stop ∧ ¬ Covers has x := by
  have hguard : ¬ (start > stop ∨ stop < 0) := by omega
  obtain ⟨h1, h2⟩ := missingLoopZ_spec stop has start [] hc canon_nil
    (fun o ho => by cases ho) hse
  unfold MissingZ
  simp only [hguard, if_false]
  refine ⟨h1, fun x => ?_⟩
  rw [h2 x]
  simp [covers_nil]

theorem new_nonstream_outcome (L B E G : Nat) :
    (L = 0 → NewBlockingStructure5052 L B E G false = .error .lengthZero) ∧
    (L ≠ 0 → B = 0 →
      NewBlockingStructure5052 L B E G false = .error .maxSourceBlockLenZero) ∧
    (L ≠ 0 → B ≠ 0 → E = 0 →
      NewBlockingStructure5052 L B E G false = .error .encodingSymbolLenZero) ∧
    (L ≠ 0 → B ≠ 0 → E ≠ 0 → G = 0 →
      NewBlockingStructure5052 L B E G false = .error .numEsPerGroupZero) ∧
    (L ≠ 0 → B ≠ 0 → E ≠ 0 → G ≠ 0 → G > B →
      NewBlockingStructure5052 L B E G false = .error (.numEsPerGroupTooLarge G B)) ∧
    (L ≠ 0 → B ≠ 0 → E ≠ 0 → G ≠ 0 → G ≤ B →
      (NewBlockingStructure5052 L B E G false = .panic ∧ 1 < E ∧
        u32 (sub64 (add64 (sub64 (add64 L E) 1 / E) B) 1 / B) = 0) ∨
      (∃ bs, NewBlockingStructure5052 L B E G false = .ok bs ∧ bs.MaxNumEs = B ∧
        (1 < E → u32 (sub64 (add64 (sub64 (add64 L E) 1 / E) B) 1 / B) ≠ 0))) := by
  refine ⟨?_, ?_, ?_, ?_, ?_, ?_⟩
  · intro h
    simp [NewBlockingStructure5052, UpdateBlockingStructure5052, h]
  · intro hL hB
    simp [NewBlockingStructure5052, UpdateBlockingStructure5052, recompute, zero, hL, hB]
  · intro hL hB hE
    simp [NewBlockingStructure5052, UpdateBlockingStructure5052, recompute, zero, hL, hB, hE]
  · intro hL hB hE hG
    simp [NewBlockingStructure5052, UpdateBlockingStructure5052, recompute, zero, hL, hB,
      hE, hG]
  · intro hL hB hE hG hGB
    simp [NewBlockingStructure5052, UpdateBlockingStructure5052, recompute, zero, hL, hB,
      hE, hG, hGB]
  · intro hL hB hE hG hGB
    by_cases hE1 : 1 < E
    · by_cases hN : u32 (sub64 (add64 (sub64 (add64 L E) 1 / E) B) 1 / B) = 0
      · left
        refine ⟨?_, hE1, hN⟩
        simp [NewBlockingStructure5052, UpdateBlockingStructure5052, recompute, zero, hL,
          hB, hE, hG, Nat.not_lt.mpr hGB, hE1, hN]
      · right
        simp [NewBlockingStructure5052, UpdateBlockingStructure5052, recompute, zero, hL,
          hB, hE, hG, Nat.not_lt.mpr hGB, hE1, hN]
    · right
      simp [NewBlockingStructure5052, UpdateBlockingStructure5052, recompute, zero, hL,
        hB, hE, hG, Nat.not_lt.mpr hGB, hE1]

/-- C15 (fails as stated): `L = 2^64 - 1`, `B = 2^32 - 1`, `E = 2`, `G = 1` are
all positive with `G <= B` and `ceil(ceil(L/E)/B) = 2^31 + 1 < 2^32`, yet the
call with `stream = false` returns neither an error nor a structure: the sum
`L + E - 1` wraps, `T` and `N` become zero and `T / N` panics. -/
theorem new_nonstream_panics :
    ceilDiv (ceilDiv (2 ^ 64 - 1) 2) (2 ^ 32 - 1) < 2 ^ 32 ∧
    ¬ ((2 ^ 64 - 1 : Nat) = 0 ∨ (2 ^ 32 - 1 : Nat) = 0 ∨ (2 : Nat) = 0 ∨ (1 : Nat) = 0 ∨
        (1 : Nat) > 2 ^ 32 - 1) ∧
    NewBlockingStructure5052 (2 ^ 64 - 1) (2 ^ 32 - 1) 2 1 false = .panic ∧
    ¬ ∃ bs, NewBlockingStructure5052 (2 ^ 64 - 1) (2 ^ 32 - 1) 2 1 false = .ok bs := by
  have h : NewBlockingStructure5052 (2 ^ 64 - 1) (2 ^ 32 - 1) 2 1 false = .panic := by
    decide
  refine ⟨by decide, by decide, h, ?_⟩
  rintro ⟨bs, hbs⟩
  rw [h] at hbs
  cases hbs

/-- C15 (amended): for all inputs (within their widths) with
`ceil(ceil(L/E)/B) < 2^32` whenever `E > 0` and `B > 0`,
`NewBlockingStructure5052(L, B, E, G, false)` returns an error if and only if
`L = 0` or `B = 0` or `E = 0` or `G = 0` or `G > B`; otherwise, when
`L + E <= 2^64` (the sum `L + E - 1` does not wrap), it returns a structure
whose `MaxNumEs` is `B`. -/
theorem new_nonstream_error_iff (L B E G : Nat)
    (hL64 : L < 2 ^ 64) (hB32 : B < 2 ^ 32) (hE16 : E < 2 ^ 16) (hG32 : G < 2 ^ 32)
    (hN : 0 < E → 0 < B → ceilDiv (ceilDiv L E) B < 2 ^ 32) :
    ((∃ e, NewBlockingStructure5052 L B E G false = .error e) ↔
      (L = 0 ∨ B = 0 ∨ E = 0 ∨ G = 0 ∨ G > B)) ∧
    (¬ (L = 0 ∨ B = 0 ∨ E = 0 ∨ G = 0 ∨ G > B) → L + E ≤ 2 ^ 64 →
      ∃ bs, NewBlockingStructure5052 L B E G false = .ok bs ∧ bs.MaxNumEs = B) := by
  obtain ⟨h1, h2, h3, h4, h5, h6⟩ := new_nonstream_outcome L B E G
  constructor
  · constructor
    · rintro ⟨e, he⟩
      by_contra hcon
      simp only [not_or] at hcon
      obtain ⟨hL, hB, hE, hG, hGB⟩ := hcon
      rcases h6 hL hB hE hG (by omega) with ⟨hp, _⟩ | ⟨bs, hbs, _⟩
      · rw [hp] at he; cases he
      · rw [hbs] at he; cases he
    · intro h
      by_cases hL : L = 0
      · exact ⟨_, h1 hL⟩
      by_cases hB : B = 0
      · exact ⟨_, h2 hL hB⟩
      by_cases hE : E = 0
      · exact ⟨_, h3 hL hB hE⟩
      by_cases hG : G = 0
      · exact ⟨_, h4 hL hB hE hG⟩
      · exact ⟨_, h5 hL hB hE hG (by omega)⟩
  · intro hcon hno
    simp only [not_or] at hcon
    obtain ⟨hL, hB, hE, hG, hGB⟩ := hcon
    rcases h6 hL hB hE hG (by omega) with ⟨_, hE1, hz⟩ | ⟨bs, hbs, hm, _⟩
    · exfalso
      have hE0 : 0 < E := by omega
      have hB0 : 0 < B := by omega
      rcases wrapped_ceil L E (by omega) hL64 hE0 with ⟨_, hT⟩ | ⟨hw, _⟩
      · rw [hT, wrapped_count _ B hB0 hB32 (hN hE0 hB0)] at hz
        have := ceilDiv_pos (ceilDiv L E) B (ceilDiv_pos L E (by omega) hE0) hB0
        omega
      · omega
    · exact ⟨bs, hbs, hm⟩

/-- C15 (amended), at the valid parameters `L = 107374182`, `B = 10`,
`E = 1430`, `G = 1`, and at `G = 11 > B`, where the call returns an error. -/
theorem new_nonstream_error_iff_witness :
    (∃ bs, NewBlockingStructure5052 107374182 10 1430 1 false = .ok bs ∧
      bs.MaxNumEs = 10) ∧
    (∃ e, NewBlockingStructure5052 107374182 10 1430 11 false = .error e) :=
  ⟨(new_nonstream_error_iff 107374182 10 1430 1 (by decide) (by decide) (by decide)
      (by decide) (fun _ _ => by decide)).2 (by decide) (by decide),
   (new_nonstream_error_iff 107374182 10 1430 11 (by decide) (by decide) (by decide)
      (by decide) (fun _ _ => by decide)).1.mpr (by decide)⟩

/-- C16 (fails on the code): with `L = 10` and `stream = true` the call returns
a structure for `G = 0` and for `G = 3 > B = 2`, and panics on the division by
zero for `E = 0` and for `B = 0`; none of the four returns an error. The same
four parameter sets with `stream = false` are rejected by `recompute`. -/
theorem new_stream_skips_validation :
    NewBlockingStructure5052 10 2 2 0 true = .ok ⟨3, 3, 2, 2, 2, 5, 10, 2, 2, 0⟩ ∧
    NewBlockingStructure5052 10 2 2 3 true = .ok ⟨3, 3, 2, 2, 2, 5, 10, 2, 2, 3⟩ ∧
    NewBlockingStructure5052 10 2 0 1 true = .panic ∧
    NewBlockingStructure5052 10 0 2 1 true = .panic ∧
    NewBlockingStructure5052 10 2 2 0 false = .error .numEsPerGroupZero ∧
    NewBlockingStructure5052 10 2 2 3 false = .error (.numEsPerGroupTooLarge 3 2) ∧
    NewBlockingStructure5052 10 2 0 1 false = .error .encodingSymbolLenZero ∧
    NewBlockingStructure5052 10 0 2 1 false = .error .maxSourceBlockLenZero := by
  decide

/-- C17 (fails as stated): the structure built for `L = 107374182`, `B = 10`,
`E = 1430`, `G = 1` without stream mode has `A = 10` and `ASmall = 9`; after
`UpdateLength(107375000, true)` its `ASmall` is `10`. -/
theorem updateLength_changes_aSmall :
    NewBlockingStructure5052 107374182 10 1430 1 false
      = .ok ⟨7509, 7506, 10, 9, 1430, 75087, 107374182, 10, 10, 1⟩ ∧
    UpdateLength ⟨7509, 7506, 10, 9, 1430, 75087, 107374182, 10, 10, 1⟩ 107375000 true
      = .ok ⟨7509, 7509, 10, 10, 1430, 75088, 107375000, 10, 10, 1⟩ ∧
    (10 : Nat) ≠ 9 := by
  decide

/-- C17 (amended): for every structure `bs` that `NewBlockingStructure5052`
returns with `stream = false` and every `length > 0`,
`bs.UpdateLength(length, true)` succeeds and stores `MaxSbLen` in `A` and in
`ASmall`; these are the values `A` and `ASmall` had before the call if and only
if both were `MaxSbLen` before, as they are when `ESLen = 1`. `ESLen`,
`MaxSbLen`, `MaxNumEs` and `NumEsPerGroup` keep their values and `TransferLen`
becomes `length`. -/
theorem updateLength_stream_frame (L B E G : Nat) (bs : BlockingStructure)
    (length : Nat) (hnew : NewBlockingStructure5052 L B E G false = .ok bs)
    (hlen : 0 < length) :
    ∃ bs1, bs.UpdateLength length true = .ok bs1 ∧
      bs1.A = bs.MaxSbLen ∧ bs1.ASmall = bs.MaxSbLen ∧
      ((bs1.A = bs.A ∧ bs1.ASmall = bs.ASmall) ↔
        (bs.A = bs.MaxSbLen ∧ bs.ASmall = bs.MaxSbLen)) ∧
      (bs.ESLen = 1 → bs1.A = bs.A ∧ bs1.ASmall = bs.ASmall) ∧
      bs1.ESLen = bs.ESLen ∧ bs1.MaxSbLen = bs.MaxSbLen ∧
      bs1.MaxNumEs = bs.MaxNumEs ∧ bs1.NumEsPerGroup = bs.NumEsPerGroup ∧
      bs1.TransferLen = length := by
  obtain ⟨hL, hE, hB, hG, hGB, hbs⟩ := new_nonstream_ok hnew
  have hlen' : length ≠ 0 := by omega
  have hfields : bs.ESLen = E ∧ bs.MaxSbLen = B ∧ bs.MaxNumEs = B ∧
      (E = 1 → bs.A = B ∧ bs.ASmall = B) := by
    rcases hbs with ⟨h1, rfl⟩ | ⟨h1, _, rfl⟩
    · exact ⟨rfl, rfl, rfl, fun _ => ⟨rfl, rfl⟩⟩
    · exact ⟨rfl, rfl, rfl, fun h => by omega⟩
  obtain ⟨hfE, hfB, hfM, hf1⟩ := hfields
  have hE' : bs.ESLen ≠ 0 := by rw [hfE]; exact hE
  have hB' : bs.MaxSbLen ≠ 0 := by rw [hfB]; exact hB
  have hM' : bs.MaxNumEs ≠ 0 := by rw [hfM]; exact hB
  refine ⟨⟨u32 (sub64 (add64 (sub64 (add64 length bs.ESLen) 1 / bs.ESLen) bs.MaxSbLen) 1
        / bs.MaxSbLen),
      u32 (sub64 (add64 (sub64 (add64 length bs.ESLen) 1 / bs.ESLen) bs.MaxSbLen) 1
        / bs.MaxSbLen),
      bs.MaxSbLen, bs.MaxSbLen, bs.ESLen, sub64 (add64 length bs.ESLen) 1 / bs.ESLen,
      length, bs.MaxSbLen, bs.MaxNumEs, bs.NumEsPerGroup⟩, ?_, ?_⟩
  · simp [UpdateLength, UpdateBlockingStructure5052, hlen', hE', hB', hM']
  · refine ⟨rfl, rfl, ?_, ?_, rfl, rfl, rfl, rfl, rfl⟩
    · simp only
      constructor
      · rintro ⟨h1, h2⟩; exact ⟨h1.symm, h2.symm⟩
      · rintro ⟨h1, h2⟩; exact ⟨h1.symm, h2.symm⟩
    · intro h1
      simp only
      obtain ⟨h2, h3⟩ := hf1 (by rw [← hfE]; exact h1)
      rw [h2, h3, hfB]
      exact ⟨rfl, rfl⟩

/-- C17 (amended), at the structure of the 107374182-byte object (`E = 1430`,
`B = 10`) growing to 107375000 bytes. -/
theorem updateLength_stream_frame_witness :
    ∃ bs1, UpdateLength ⟨7509, 7506, 10, 9, 1430, 75087, 107374182, 10, 10, 1⟩
        107375000 true = .ok bs1 ∧
      bs1.A = 10 ∧ bs1.ASmall = 10 ∧ bs1.TransferLen = 107375000 := by
  obtain ⟨bs1, h1, h2, h3, _, _, _, _, _, _, h4⟩ :=
    updateLength_stream_frame 107374182 10 1430 1
      ⟨7509, 7506, 10, 9, 1430, 75087, 107374182, 10, 10, 1⟩ 107375000 (by decide)
      (by decide)
  exact ⟨bs1, h1, h2, h3, h4⟩

/-! ## The loops of the source and the loops over the integers -/

theorem wrap64_of_bounds {x : Int} (h1 : -2 ^ 63 ≤ x) (h2 : x < 2 ^ 63) : wrap64 x = x := by
  unfold wrap64
  omega

theorem wrap64_bounds (x : Int) : -2 ^ 63 ≤ wrap64 x ∧ wrap64 x < 2 ^ 63 := by
  unfold wrap64
  omega

theorem int64_of_bounds {rl : RangeList} (hne : ∀ r ∈ rl, r.Start ≤ r.End)
    (hb : ∀ r ∈ rl, -2 ^ 63 ≤ r.Start ∧ r.End < 2 ^ 63) : Int64 rl := by
  intro r hr
  have := hne r hr
  have := hb r hr
  omega

theorem int64_cons {a : Range} {rl : RangeList} :
    Int64 (a :: rl) ↔
      ((-2 ^ 63 ≤ a.Start ∧ a.Start < 2 ^ 63) ∧ (-2 ^ 63 ≤ a.End ∧ a.End < 2 ^ 63)) ∧
        Int64 rl := by
  unfold Int64
  simp only [List.mem_cons, forall_eq_or_imp]

theorem int64_append {xs ys : RangeList} : Int64 (xs ++ ys) ↔ Int64 xs ∧ Int64 ys := by
  unfold Int64
  simp only [List.mem_append]
  constructor
  · intro h
    exact ⟨fun r hr => h r (Or.inl hr), fun r hr => h r (Or.inr hr)⟩
  · rintro ⟨h1, h2⟩ r (hr | hr)
    · exact h1 r hr
    · exact h2 r hr

/-! ### flatten -/

theorem noWrap_cons {a : Range} {rl : RangeList}
    (ha : rl ≠ [] → -2 ^ 63 ≤ a.End + 1 ∧ a.End + 1 < 2 ^ 63) (h : NoWrap rl) :
    NoWrap (a :: rl) := by
  cases rl with
  | nil => trivial
  | cons b rest => exact ⟨ha (by simp), h⟩

theorem noWrap_tail {a : Range} {rl : RangeList} (h : NoWrap (a :: rl)) : NoWrap rl := by
  cases rl with
  | nil => trivial
  | cons b rest => exact h.2

/-- A list whose `End`s all allow the step `End + 1`. -/
theorem noWrap_of_ends (rl : RangeList)
    (h : ∀ r ∈ rl, -2 ^ 63 ≤ r.End + 1 ∧ r.End + 1 < 2 ^ 63) : NoWrap rl := by
  induction rl with
  | nil => trivial
  | cons a rl ih =>
    exact noWrap_cons (fun _ => h a (List.mem_cons_self _ _))
      (ih (fun r hr => h r (List.mem_cons_of_mem _ hr)))

/-- A list of `int64` ranges whose `End`s strictly increase. -/
theorem noWrap_of_increasing (rl : RangeList)
    (hb : ∀ r ∈ rl, -2 ^ 63 ≤ r.End + 1 ∧ r.End < 2 ^ 63)
    (hp : rl.Pairwise (fun a b => a.End < b.End)) : NoWrap rl := by
  induction rl with
  | nil => trivial
  | cons a rl ih =>
    rw [List.pairwise_cons] at hp
    refine noWrap_cons (fun hne => ?_) (ih (fun r hr => hb r (List.mem_cons_of_mem _ hr)) hp.2)
    obtain ⟨b, hb'⟩ := List.exists_mem_of_ne_nil rl hne
    have h1 := hp.1 b hb'
    have h2 := hb b (List.mem_cons_of_mem _ hb')
    have h3 := hb a (List.mem_cons_self _ _)
    omega

theorem Canon.noWrap {rl : RangeList} (h : Canon rl) (h64 : Int64 rl) : NoWrap rl := by
  refine noWrap_of_increasing rl (fun r hr => ?_) ?_
  · have := h64 r hr
    omega
  · refine h.2.imp_of_mem ?_
    intro a b _ hb hab
    have := h.1 b hb
    omega

/-- The loop of `flatten` computes what it computes over the integers when no
`End + 1` wraps. -/
theorem mergeRight_exact (rl : RangeList) (h : NoWrap rl) : mergeRight rl = mergeRightZ rl := by
  induction rl with
  | nil => rfl
  | cons x rest ih =>
    unfold mergeRight mergeRightZ
    rw [ih (noWrap_tail h)]
    cases rest with
    | nil => rfl
    | cons b rest' =>
      have hx : wrap64 (x.End + 1) = x.End + 1 := wrap64_of_bounds h.1.1 h.1.2
      rw [hx]

theorem flatten_exact (rl : RangeList) (h : NoWrap (sortByStart rl)) :
    flatten rl = flattenZ rl := by
  unfold flatten flattenZ
  exact mergeRight_exact _ h

theorem mergeRight_canon (rl : RangeList) (h : Canon rl) (h64 : Int64 rl) :
    mergeRight rl = rl := by
  rw [mergeRight_exact rl (h.noWrap h64), mergeRightZ_canon rl h]

/-- `flatten` leaves a canonical list of `int64` ranges as it is. -/
theorem flatten_canon (rl : RangeList) (h : Canon rl) (h64 : Int64 rl) : flatten rl = rl := by
  unfold flatten
  rw [sortByStart_of_sorted rl h.sorted, mergeRight_canon rl h h64]

/-! ## GetMissingESIs -/

/-- The inner loop ends within its budget and leaves `remainingMissing` an
`int64` value, whatever the range holds. -/
theorem takeLoop_total (hi : Int) (fuel : Nat) :
    ∀ (i remaining : Int) (out : RangeList), remaining.toNat + 1 ≤ fuel →
      ∃ res, takeLoop hi fuel i remaining out = some res := by
  induction fuel with
  | zero => intro i remaining out h; omega
  | succ n ih =>
    intro i remaining out hfuel
    unfold takeLoop
    by_cases hc : i ≤ hi ∧ remaining > 0
    · rw [if_pos hc]
      split
      · exact ⟨_, rfl⟩
      · refine ih _ _ _ ?_
        have : wrap64 (remaining - 1) ≤ remaining - 1 := by
          unfold wrap64
          omega
        omega
    · rw [if_neg hc]
      exact ⟨_, rfl⟩

theorem takeRanges_total :
    ∀ (rs : RangeList) (remaining : Int) (out : RangeList),
      ∃ res, takeRanges rs remaining out = some res := by
  intro rs
  induction rs with
  | nil => intro remaining out; exact ⟨_, rfl⟩
  | cons r rs ih =>
    intro remaining out
    unfold takeRanges
    obtain ⟨⟨out1, rem1⟩, h⟩ := takeLoop_total r.End _ r.Start remaining out (le_refl _)
    rw [h]
    simp only
    split
    · exact ⟨_, rfl⟩
    · exact ih _ _

/-- The inner loop on a range that ends below `2^63 - 1`: it emits the integers
from `i` on, as many as the range has or `remainingMissing` allows. -/
theorem takeLoop_eq (hi : Int) (hhi : hi < 2 ^ 63 - 1) (fuel : Nat) :
    ∀ (i remaining : Int) (out : RangeList), -2 ^ 63 ≤ i → 0 ≤ remaining →
      remaining < 2 ^ 63 → remaining.toNat + 1 ≤ fuel →
      takeLoop hi fuel i remaining out =
        some (out ++ singles i (min (hi + 1 - i).toNat remaining.toNat),
          remaining - (min (hi + 1 - i).toNat remaining.toNat : Nat)) := by
  induction fuel with
  | zero => intro i remaining out _ _ _ h; omega
  | succ n ih =>
    intro i remaining out hi0 h0 h63 hfuel
    unfold takeLoop
    by_cases hc : i ≤ hi ∧ remaining > 0
    · rw [if_pos hc]
      have hw1 : wrap64 (remaining - 1) = remaining - 1 :=
        wrap64_of_bounds (by omega) (by omega)
      have hw2 : wrap64 (i + 1) = i + 1 := wrap64_of_bounds (by omega) (by omega)
      rw [hw1, hw2]
      by_cases h1 : remaining - 1 = 0
      · rw [if_pos h1]
        have hk : min (hi + 1 - i).toNat remaining.toNat = 1 := by omega
        rw [hk]
        simp only [singles, Nat.cast_one]
      · rw [if_neg h1, ih (i + 1) (remaining - 1) _ (by omega) (by omega) (by omega) (by omega)]
        have hk : min (hi + 1 - i).toNat remaining.toNat
            = min (hi + 1 - (i + 1)).toNat (remaining - 1).toNat + 1 := by omega
        rw [hk]
        simp only [singles, List.append_assoc, List.singleton_append, Nat.cast_add,
          Nat.cast_one]
        congr 2
        omega
    · rw [if_neg hc]
      have hk : min (hi + 1 - i).toNat remaining.toNat = 0 := by omega
      rw [hk]
      simp [singles]

theorem takeRanges_eq :
    ∀ (rs : RangeList) (remaining : Int) (out : RangeList), 0 < remaining →
      remaining < 2 ^ 63 → (∀ r ∈ rs, -2 ^ 63 ≤ r.Start ∧ r.End < 2 ^ 63 - 1) →
      takeRanges rs remaining out = some (out ++ firstN rs remaining.toNat) := by
  intro rs
  induction rs with
  | nil => intro remaining out _ _ _; simp [takeRanges, firstN]
  | cons r rs ih =>
    intro remaining out hpos h63 hb
    have hr := hb r (List.mem_cons_self _ _)
    unfold takeRanges
    rw [takeLoop_eq r.End hr.2 _ r.Start remaining out hr.1 (by omega) h63 (le_refl _)]
    simp only
    by_cases hle : remaining.toNat ≤ (r.End + 1 - r.Start).toNat
    · have hk : min (r.End + 1 - r.Start).toNat remaining.toNat = remaining.toNat := by
        omega
      have h0 : remaining - (remaining.toNat : Nat) = 0 := by omega
      rw [hk, if_pos h0]
      simp only [firstN, hle, if_true]
    · have hk : min (r.End + 1 - r.Start).toNat remaining.toNat
          = (r.End + 1 - r.Start).toNat := by omega
      have h0 : ¬ remaining - ((r.End + 1 - r.Start).toNat : Nat) = 0 := by omega
      have h1 : (remaining - ((r.End + 1 - r.Start).toNat : Nat)).toNat
          = remaining.toNat - (r.End + 1 - r.Start).toNat := by omega
      rw [hk, if_neg h0, ih _ _ (by omega) (by omega)
        (fun x hx => hb x (List.mem_cons_of_mem _ hx)), h1]
      simp only [firstN, hle, if_false, List.append_assoc]

/-! ### The ranges `takeRanges` emits -/

theorem countZ_nil : RangeList.CountZ [] = 0 := rfl

theorem countZ_cons (a : Range) (rl : RangeList) :
    RangeList.CountZ (a :: rl) = a.End - a.Start + 1 + RangeList.CountZ rl := by
  simp [RangeList.CountZ, Range.CountZ]

theorem countZ_append (xs ys : RangeList) :
    RangeList.CountZ (xs ++ ys) = RangeList.CountZ xs + RangeList.CountZ ys := by
  simp [RangeList.CountZ]

theorem apart_cons {a : Range} {rl : RangeList} :
    Apart (a :: rl) ↔ a.Start ≤ a.End ∧ (∀ x ∈ rl, a.End < x.Start) ∧ Apart rl := by
  unfold Apart
  simp only [List.mem_cons, forall_eq_or_imp, List.pairwise_cons]
  tauto

theorem apart_append {xs ys : RangeList} :
    Apart (xs ++ ys) ↔ Apart xs ∧ Apart ys ∧ ∀ x ∈ xs, ∀ y ∈ ys, x.End < y.Start := by
  unfold Apart
  simp only [List.mem_append, List.pairwise_append]
  constructor
  · rintro ⟨h1, h2, h3, h4⟩
    exact ⟨⟨fun r hr => h1 r (Or.inl hr), h2⟩, ⟨fun r hr => h1 r (Or.inr hr), h3⟩, h4⟩
  · rintro ⟨⟨h1, h2⟩, ⟨h3, h4⟩, h5⟩
    exact ⟨fun r hr => hr.elim (h1 r) (h3 r), h2, h4, h5⟩

theorem mono_of_apart {rl : RangeList} (h : Apart rl) : Mono rl := by
  induction rl with
  | nil => exact ⟨by simp, List.Pairwise.nil⟩
  | cons a rl ih =>
    obtain ⟨ha, hgap, hrl⟩ := apart_cons.mp h
    refine mono_cons.mpr ⟨ha, fun x hx => ?_, ih hrl⟩
    have := hgap x hx
    have := hrl.1 x hx
    omega

theorem Canon.apart {rl : RangeList} (h : Canon rl) : Apart rl :=
  ⟨h.1, h.2.imp (fun h => by omega)⟩

/-- Merging ranges that only touch keeps the number of integers. -/
theorem mergeRightZ_count (rl : RangeList) (h : Apart rl) :
    RangeList.CountZ (mergeRightZ rl) = RangeList.CountZ rl := by
  induction rl with
  | nil => rfl
  | cons x rest ih =>
    obtain ⟨hx, hgap, hrest⟩ := apart_cons.mp h
    have ih' := ih hrest
    cases rest with
    | nil => rfl
    | cons z zs =>
      obtain ⟨y, ys, hm, hy1, hy2⟩ := (mergeRightZ_mono (z :: zs) (mono_of_apart hrest)).2.2 z zs rfl
      have hz := hgap z (List.mem_cons_self _ _)
      have hzz := hrest.1 z (List.mem_cons_self _ _)
      have hstep : mergeRightZ (x :: z :: zs) =
          if y.Start ≤ x.End + 1 then ⟨x.Start, max y.End x.End⟩ :: ys
          else x :: y :: ys := by
        conv_lhs => unfold mergeRightZ
        rw [hm]
      rw [hstep]
      rw [hm] at ih'
      rw [countZ_cons x (z :: zs), ← ih', countZ_cons y ys]
      split
      · rw [countZ_cons]
        simp only
        omega
      · rw [countZ_cons, countZ_cons]

theorem flattenZ_apart (rl : RangeList) (h : Apart rl) :
    Canon (flattenZ rl) ∧ (∀ t, Covers (flattenZ rl) t ↔ Covers rl t) ∧
      RangeList.CountZ (flattenZ rl) = RangeList.CountZ rl := by
  have hm := flattenZ_mono rl (mono_of_apart h)
  refine ⟨hm.1, hm.2, ?_⟩
  unfold flattenZ
  rw [sortByStart_of_sorted rl ((mono_of_apart h).2.imp (fun h => le_of_lt h.1))]
  exact mergeRightZ_count rl h

theorem covers_singles (i : Int) (k : Nat) (x : Int) :
    Covers (singles i k) x ↔ i ≤ x ∧ x < i + k := by
  induction k generalizing i with
  | zero => simp [singles, covers_nil]
  | succ k ih =>
    simp only [singles, covers_cons, ih, Nat.cast_add, Nat.cast_one]
    omega

theorem countZ_singles (i : Int) (k : Nat) : RangeList.CountZ (singles i k) = k := by
  induction k generalizing i with
  | zero => rfl
  | succ k ih =>
    simp only [singles, countZ_cons, ih, Nat.cast_add, Nat.cast_one]
    omega

theorem mem_singles {i : Int} {k : Nat} {p : Range} (h : p ∈ singles i k) :
    p.Start = p.End ∧ i ≤ p.Start ∧ p.Start < i + k := by
  induction k generalizing i with
  | zero => simp [singles] at h
  | succ k ih =>
    simp only [singles, List.mem_cons] at h
    rcases h with rfl | h
    · refine ⟨rfl, le_refl _, ?_⟩
      show i < i + ((k + 1 : Nat) : Int)
      omega
    · have := ih h
      refine ⟨this.1, by omega, ?_⟩
      show p.Start < i + ((k + 1 : Nat) : Int)
      omega

theorem apart_singles (i : Int) (k : Nat) : Apart (singles i k) := by
  induction k generalizing i with
  | zero => exact ⟨by simp [singles], List.Pairwise.nil⟩
  | succ k ih =>
    refine apart_cons.mpr ⟨le_refl _, fun x hx => ?_, ih (i + 1)⟩
    have := mem_singles hx
    show i < x.Start
    omega

theorem mem_firstN {rs : RangeList} {n : Nat} {p : Range} (h : p ∈ firstN rs n) :
    p.Start = p.End ∧ ∃ r ∈ rs, r.Start ≤ p.Start ∧ p.Start ≤ r.End := by
  induction rs generalizing n with
  | nil => simp [firstN] at h
  | cons r rs ih =>
    unfold firstN at h
    split at h
    · rename_i hle
      have := mem_singles h
      exact ⟨this.1, r, List.mem_cons_self _ _, by omega, by omega⟩
    · rcases List.mem_append.mp h with h | h
      · have := mem_singles h
        exact ⟨this.1, r, List.mem_cons_self _ _, by omega, by omega⟩
      · obtain ⟨h1, y, hy, h2⟩ := ih h
        exact ⟨h1, y, List.mem_cons_of_mem _ hy, h2⟩

/-- What `firstN` takes from a canonical list: ranges that do not overlap, `n`
integers in all, each one of the list and none of them above an integer of the
list that was left out. -/
theorem firstN_spec (rs : RangeList) (hrs : Canon rs) :
    ∀ n : Nat, (n : Int) ≤ RangeList.CountZ rs →
      Apart (firstN rs n) ∧ RangeList.CountZ (firstN rs n) = n ∧
      (∀ x, Covers (firstN rs n) x → Covers rs x) ∧
      (∀ x y, Covers (firstN rs n) x → Covers rs y → y < x → Covers (firstN rs n) y) := by
  induction rs with
  | nil =>
    intro n hn
    rw [countZ_nil] at hn
    have : n = 0 := by omega
    subst this
    exact ⟨⟨by simp [firstN], List.Pairwise.nil⟩, rfl, fun x h => h,
      fun x y h => absurd h (by simp [firstN, covers_nil])⟩
  | cons r rs ih =>
    intro n hn
    obtain ⟨hr, hgap, hrs'⟩ := canon_cons.mp hrs
    rw [countZ_cons] at hn
    have hc : ((r.End + 1 - r.Start).toNat : Int) = r.End + 1 - r.Start := by omega
    unfold firstN
    split
    · rename_i hle
      refine ⟨apart_singles _ _, countZ_singles _ _, fun x hx => ?_, fun x y hx hy hlt => ?_⟩
      · rw [covers_singles] at hx
        exact covers_cons.mpr (Or.inl (by omega))
      · rw [covers_singles] at hx ⊢
        rcases covers_cons.mp hy with h | h
        · omega
        · have := covers_gt hgap h
          omega
    · rename_i hle
      obtain ⟨ih1, ih2, ih3, ih4⟩ := ih hrs' (n - (r.End + 1 - r.Start).toNat) (by omega)
      refine ⟨?_, ?_, fun x hx => ?_, fun x y hx hy hlt => ?_⟩
      · refine apart_append.mpr ⟨apart_singles _ _, ih1, fun a ha b hb => ?_⟩
        have h1 := mem_singles ha
        obtain ⟨h2, y, hy, h3⟩ := mem_firstN hb
        have := hgap y hy
        omega
      · rw [countZ_append, countZ_singles, ih2]
        omega
      · rcases covers_append.mp hx with h | h
        · rw [covers_singles] at h
          exact covers_cons.mpr (Or.inl (by omega))
        · exact covers_cons.mpr (Or.inr (ih3 x h))
      · rcases covers_append.mp hx with h | h
        · rw [covers_singles] at h
          refine covers_append.mpr (Or.inl ?_)
          rw [covers_singles]
          rcases covers_cons.mp hy with h' | h'
          · omega
          · have := covers_gt hgap h'
            omega
        · rcases covers_cons.mp hy with h' | h'
          · refine covers_append.mpr (Or.inl ?_)
            rw [covers_singles]
            omega
          · exact covers_append.mpr (Or.inr (ih4 x y h h' hlt))

/-- A canonical list inside `[lo, hi]` has at most `hi - lo + 1` integers, and
has that many only when it is the one range `[lo, hi]`. -/
theorem countZ_le_of_within (rl : RangeList) (hrl : Canon rl) :
    ∀ lo hi : Int, rl ≠ [] → (∀ r ∈ rl, lo ≤ r.Start ∧ r.End ≤ hi) →
      RangeList.CountZ rl ≤ hi - lo + 1 ∧
      (RangeList.CountZ rl = hi - lo + 1 → rl = [⟨lo, hi⟩]) := by
  induction rl with
  | nil => intro lo hi h; exact absurd rfl h
  | cons a rest ih =>
    intro lo hi _ hin
    obtain ⟨ha, hgap, hrest⟩ := canon_cons.mp hrl
    have ha' := hin a (List.mem_cons_self _ _)
    cases rest with
    | nil =>
      rw [countZ_cons, countZ_nil]
      refine ⟨by omega, fun h => ?_⟩
      have h1 : a.Start = lo := by omega
      have h2 : a.End = hi := by omega
      cases a
      simp only at h1 h2
      rw [h1, h2]
    | cons b rest =>
      have hb := ih hrest (a.End + 2) hi (by simp) (fun r hr => by
        have := hgap r hr
        have := hin r (List.mem_cons_of_mem _ hr)
        omega)
      rw [countZ_cons]
      exact ⟨by omega, fun h => by omega⟩

/-! ### The map built by GetMissingESIs -/

theorem srcOffset_of_esLen_zero (bs : BlockingStructure) (sbn : Nat) (h : bs.ESLen = 0)
    (hs : sbn < bs.N) : bs.SrcOffset sbn = 0 := by
  unfold SrcOffset
  rw [if_neg (by omega)]
  split <;> simp [mul64, h]

/-- `NumSrcSym` never divides by zero: with `ESLen = 0` every offset is zero and
the clipped branch is not taken. -/
theorem numSrcSym_total (bs : BlockingStructure) (sbn : Nat) :
    ∃ n, bs.NumSrcSym sbn = some n := by
  unfold NumSrcSym
  by_cases h1 : sbn ≥ bs.N
  · exact ⟨0, by rw [if_pos h1]⟩
  · rw [if_neg h1]
    simp only
    by_cases h4 : bs.ESLen = 0
    · have h5 := srcOffset_of_esLen_zero bs sbn h4 (by omega)
      have h6 : ¬ add64 0 (mul64 0 (if sbn < bs.I then bs.A else bs.ASmall))
          > bs.TransferLen := by
        simp [add64, mul64]
      rw [h5, h4, if_neg h6]
      split_ifs <;> exact ⟨_, rfl⟩
    · simp only [h4, if_false]
      split_ifs <;> exact ⟨_, rfl⟩

theorem countZ_nonneg {rl : RangeList} (h : Canon rl) : 0 ≤ RangeList.CountZ rl := by
  induction rl with
  | nil => exact le_refl _
  | cons a rl ih =>
    obtain ⟨ha, _, hrl⟩ := canon_cons.mp h
    rw [countZ_cons]
    have := ih hrl
    omega

theorem countZ_pos {rl : RangeList} (h : Canon rl) (hne : rl ≠ []) :
    0 < RangeList.CountZ rl := by
  cases rl with
  | nil => exact absurd rfl hne
  | cons a rl =>
    obtain ⟨ha, _, hrl⟩ := canon_cons.mp h
    rw [countZ_cons]
    have := countZ_nonneg hrl
    omega

/-- The count of the source is the exact count reduced to `int64`. -/
theorem count_eq_wrap (rl : RangeList) : RangeList.Count rl = wrap64 (RangeList.CountZ rl) := by
  have key : ∀ (l : RangeList) (acc : Int),
      l.foldl (fun ret r => wrap64 (ret + r.Count)) (wrap64 acc)
        = wrap64 (acc + RangeList.CountZ l) := by
    intro l
    induction l with
    | nil => intro acc; simp [RangeList.CountZ]
    | cons a l ih =>
      intro acc
      rw [List.foldl_cons]
      have h1 : wrap64 (wrap64 acc + a.Count)
          = wrap64 (acc + (a.End - a.Start + 1)) := by
        unfold Range.Count wrap64
        omega
      rw [h1, ih, countZ_cons]
      congr 1
      omega
  have h0 : wrap64 0 = 0 := by decide
  have := key rl 0
  rw [h0, zero_add] at this
  exact this

theorem count_exact {rl : RangeList} (h0 : 0 ≤ RangeList.CountZ rl)
    (h1 : RangeList.CountZ rl < 2 ^ 63) : RangeList.Count rl = RangeList.CountZ rl := by
  rw [count_eq_wrap]
  exact wrap64_of_bounds (by omega) h1

theorem count_bounds (rl : RangeList) :
    -2 ^ 63 ≤ RangeList.Count rl ∧ RangeList.Count rl < 2 ^ 63 := by
  rw [count_eq_wrap]
  exact wrap64_bounds _

theorem missingForBlock_total (bs : BlockingStructure) (sbn : Nat)
    (missingRanges repairableRanges : RangeList) :
    ∃ o, missingForBlock bs sbn missingRanges repairableRanges = some o := by
  obtain ⟨n, hn⟩ := numSrcSym_total bs sbn
  unfold missingForBlock
  simp only [hn]
  split
  · exact ⟨_, rfl⟩
  · split
    · obtain ⟨res, hres⟩ := takeRanges_total missingRanges
        (wrap64 (missingRanges.Count - repairableRanges.Count)) []
      rw [hres]
      exact ⟨_, rfl⟩
    · exact ⟨_, rfl⟩

theorem lookup_cons_eq (k : Nat) (v : RangeList) (rest : List (Nat × RangeList)) :
    List.lookup k ((k, v) :: rest) = some v := by
  simp [List.lookup]

theorem lookup_cons_ne {k k2 : Nat} (h : k ≠ k2) (v2 : RangeList)
    (rest : List (Nat × RangeList)) :
    List.lookup k ((k2, v2) :: rest) = List.lookup k rest := by
  have hb : (k == k2) = false := by simpa using h
  simp [List.lookup, hb]

theorem lookup_setEntry (l : List (Nat × RangeList)) (k k1 : Nat) (v : RangeList) :
    (setEntry l k v).lookup k1 = if k1 = k then some v else l.lookup k1 := by
  induction l with
  | nil =>
    unfold setEntry
    by_cases h : k1 = k
    · subst h; rw [lookup_cons_eq, if_pos rfl]
    · rw [lookup_cons_ne h, if_neg h]
  | cons e rest ih =>
    obtain ⟨k2, v2⟩ := e
    unfold setEntry
    by_cases h2 : k2 = k
    · subst h2
      rw [if_pos rfl]
      by_cases h : k1 = k2
      · subst h; rw [lookup_cons_eq, if_pos rfl]
      · rw [lookup_cons_ne h, if_neg h, lookup_cons_ne h]
    · rw [if_neg h2]
      by_cases h3 : k1 = k2
      · subst h3
        rw [lookup_cons_eq, if_neg h2, lookup_cons_eq]
      · rw [lookup_cons_ne h3, ih, lookup_cons_ne h3]

theorem find_set (er : ESIRange) (k k1 : Nat) (v : RangeList) :
    (er.set k v).find k1 = if k1 = k then some v else er.find k1 :=
  lookup_setEntry er.entries k k1 v

theorem lookup_none_of_not_mem (l : List (Nat × RangeList)) (k : Nat)
    (h : k ∉ l.map Prod.fst) : l.lookup k = none := by
  induction l with
  | nil => rfl
  | cons e rest ih =>
    obtain ⟨k2, v2⟩ := e
    simp only [List.map_cons, List.mem_cons, not_or] at h
    rw [lookup_cons_ne h.1, ih h.2]

theorem mem_of_lookup (l : List (Nat × RangeList)) (k : Nat) (v : RangeList)
    (h : l.lookup k = some v) : (k, v) ∈ l := by
  induction l with
  | nil => simp [List.lookup] at h
  | cons e rest ih =>
    obtain ⟨k2, v2⟩ := e
    by_cases h2 : k = k2
    · subst h2
      rw [lookup_cons_eq] at h
      cases h
      exact List.mem_cons_self _ _
    · rw [lookup_cons_ne h2] at h
      exact List.mem_cons_of_mem _ (ih h)

/-- The loop of `GetMissingESIs` over a map (no key twice) returns; a key it did
not visit keeps what `result` had, a visited key gets what `missingForBlock`
gives for it. -/
theorem missingLoopESI_spec (rpr : ESIRange) (bs : BlockingStructure) :
    ∀ (entries : List (Nat × RangeList)) (result : ESIRange),
      (entries.map Prod.fst).Nodup →
      ∃ res, missingLoopESI rpr bs entries result = some res ∧
        (∀ k, k ∉ entries.map Prod.fst → res.find k = result.find k) ∧
        (∀ k m, (k, m) ∈ entries →
          (missingForBlock bs k m (rpr.get k) = some none ∧ res.find k = result.find k) ∨
          (∃ v, missingForBlock bs k m (rpr.get k) = some (some v) ∧
            res.find k = some v)) := by
  intro entries
  induction entries with
  | nil =>
    intro result _
    exact ⟨result, rfl, fun _ _ => rfl, fun k m h => by cases h⟩
  | cons e rest ih =>
    obtain ⟨k0, m0⟩ := e
    intro result hnd
    simp only [List.map_cons, List.nodup_cons] at hnd
    obtain ⟨hk0, hnd'⟩ := hnd
    obtain ⟨o, ho⟩ := missingForBlock_total bs k0 m0 (rpr.get k0)
    cases o with
    | none =>
      obtain ⟨res, hres, h1, h2⟩ := ih result hnd'
      refine ⟨res, by simp only [missingLoopESI, ho]; exact hres, fun k hk => ?_,
        fun k m hm => ?_⟩
      · simp only [List.map_cons, List.mem_cons, not_or] at hk
        exact h1 k hk.2
      · rcases List.mem_cons.mp hm with h | h
        · obtain ⟨rfl, rfl⟩ := Prod.mk.inj h
          exact Or.inl ⟨ho, h1 k hk0⟩
        · exact h2 k m h
    | some v =>
      obtain ⟨res, hres, h1, h2⟩ := ih (result.set k0 v) hnd'
      refine ⟨res, by simp only [missingLoopESI, ho]; exact hres, fun k hk => ?_,
        fun k m hm => ?_⟩
      · simp only [List.map_cons, List.mem_cons, not_or] at hk
        rw [h1 k hk.2, find_set, if_neg hk.1]
      · rcases List.mem_cons.mp hm with h | h
        · obtain ⟨rfl, rfl⟩ := Prod.mk.inj h
          exact Or.inr ⟨v, ho, by rw [h1 k hk0, find_set, if_pos rfl]⟩
        · have hk : k ≠ k0 := by
            rintro rfl
            exact hk0 (List.mem_map_of_mem Prod.fst h)
          rcases h2 k m h with ⟨h3, h4⟩ | h3
          · exact Or.inl ⟨h3, by rw [h4, find_set, if_neg hk]⟩
          · exact Or.inr h3

theorem getMissingESIs_spec (src rpr : ESIRange) (bs : BlockingStructure)
    (hnd : (src.entries.map Prod.fst).Nodup) :
    ∃ res, GetMissingESIs src rpr bs = some res ∧
      ∀ k m, src.find k = some m →
        (missingForBlock bs k m (rpr.get k) = some none ∧ res.find k = none) ∨
        (∃ v, missingForBlock bs k m (rpr.get k) = some (some v) ∧
          res.find k = some v) := by
  obtain ⟨res, hres, _, h2⟩ := missingLoopESI_spec rpr bs src.entries ESIRange.empty hnd
  refine ⟨res, hres, fun k m hm => ?_⟩
  rcases h2 k m (mem_of_lookup _ _ _ hm) with ⟨h3, h4⟩ | h3
  · exact Or.inl ⟨h3, by rw [h4]; rfl⟩
  · exact Or.inr h3

/-- What `missingForBlock` gives for a non-empty canonical list of ESIs of the
block. -/
theorem missingForBlock_spec (bs : BlockingStructure) (sbn n : Nat)
    (missing rep : RangeList) (hne : missing ≠ []) (hcan : Canon missing)
    (hn : bs.NumSrcSym sbn = some n) (hn32 : n < 2 ^ 32)
    (hin : ∀ x, Covers missing x → 0 ≤ x ∧ x ≤ (n : Int) - 1)
    (hr : 0 ≤ rep.Count) :
    (missing.Count > rep.Count →
      ∃ out, missingForBlock bs sbn missing rep = some (some out) ∧ Canon out ∧
        out.Count = missing.Count - rep.Count ∧
        (∀ x, Covers out x → Covers missing x) ∧
        (∀ x y, Covers out x → Covers missing y → y < x → Covers out y)) ∧
    (missing.Count ≤ rep.Count → missingForBlock bs sbn missing rep = some none) := by
  have hpos := countZ_pos hcan hne
  have hbound : ∀ r ∈ missing, (0 : Int) ≤ r.Start ∧ r.End ≤ (n : Int) - 1 := by
    intro r hr'
    have h1 := hcan.1 r hr'
    have h2 := hin r.Start ⟨r, hr', le_refl _, h1⟩
    have h3 := hin r.End ⟨r, hr', h1, le_refl _⟩
    omega
  obtain ⟨hle, heq⟩ := countZ_le_of_within missing hcan 0 ((n : Int) - 1) hne hbound
  have hm : missing.Count = missing.CountZ := count_exact (by omega) (by omega)
  rw [hm]
  constructor
  · intro hgt
    unfold missingForBlock
    simp only [hn, hm]
    by_cases h1 : missing.CountZ = (n : Int) ∧ rep.Count = 0
    · rw [if_pos h1]
      have hm1 : missing = [⟨0, (n : Int) - 1⟩] := heq (by omega)
      refine ⟨_, rfl, ?_, ?_, ?_, ?_⟩
      · rw [← hm1]; exact hcan
      · rw [← hm1, hm]; omega
      · intro x hx; rw [hm1]; exact hx
      · intro x y _ hy _; rw [hm1] at hy; exact hy
    · have hw : wrap64 (missing.CountZ - rep.Count) = missing.CountZ - rep.Count :=
        wrap64_of_bounds (by omega) (by omega)
      rw [if_neg h1, if_pos hgt, hw, takeRanges_eq _ _ _ (by omega) (by omega)
        (fun r hr' => by have := hbound r hr'; omega)]
      obtain ⟨f1, f2, f3, f4⟩ := firstN_spec missing hcan
        (missing.CountZ - rep.Count).toNat (by omega)
      obtain ⟨g1, g2, g3⟩ := flattenZ_apart _ f1
      have hfl : flatten (firstN missing (missing.CountZ - rep.Count).toNat)
          = flattenZ (firstN missing (missing.CountZ - rep.Count).toNat) := by
        refine flatten_exact _ ?_
        rw [sortByStart_of_sorted _ ((mono_of_apart f1).2.imp (fun h => le_of_lt h.1))]
        refine noWrap_of_ends _ (fun p hp => ?_)
        obtain ⟨hp1, r, hr', hp2, hp3⟩ := mem_firstN hp
        have := hbound r hr'
        omega
      refine ⟨_, rfl, ?_, ?_, ?_, ?_⟩
      · simpa [hfl] using g1
      · simp only [List.nil_append]
        rw [hfl, count_exact (by rw [g3, f2]; omega) (by rw [g3, f2]; omega), g3, f2]
        omega
      · intro x hx
        simp only [List.nil_append] at hx
        rw [hfl] at hx
        exact f3 x ((g2 x).mp hx)
      · intro x y hx hy hlt
        simp only [List.nil_append] at hx ⊢
        rw [hfl] at hx ⊢
        exact (g2 y).mpr (f4 x y ((g2 x).mp hx) hy hlt)
  · intro hle'
    unfold missingForBlock
    simp only [hn, hm]
    rw [if_neg (by omega), if_neg (by omega)]

/-- C11: for every blocking structure `bs`, every map `srcMissing` (no key
twice) whose entry `missing` for `sbn` is a non-empty canonical list of ESIs in
`[0, NumSrcSym(sbn) - 1]` (so `sbn < N`; `NumSrcSym` is a `uint32`), and every
`rprHas` with `r = rprHas[sbn].Count() >= 0`, with `m = missing.Count()`, both
counts being the `int64` values the code computes:
`GetMissingESIs(srcMissing, rprHas, bs)` returns, and when `m > r` its entry for
`sbn` is a canonical list of `Count` `m - r` whose ESIs are ESIs of `missing`
and which holds, with an ESI, every smaller ESI of `missing` (the `m - r`
smallest); when `m <= r` it has no entry for `sbn`. -/
theorem getMissingESIs_entry (bs : BlockingStructure) (srcMissing rprHas : ESIRange)
    (sbn n : Nat) (missing : RangeList)
    (hkeys : (srcMissing.entries.map Prod.fst).Nodup)
    (hfind : srcMissing.find sbn = some missing)
    (hne : missing ≠ []) (hcan : Canonical missing)
    (hn : bs.NumSrcSym sbn = some n) (hn32 : n < 2 ^ 32)
    (hin : ∀ r ∈ missing, 0 ≤ r.Start ∧ r.End ≤ (n : Int) - 1)
    (hr : 0 ≤ (rprHas.get sbn).Count) :
    ∃ res, GetMissingESIs srcMissing rprHas bs = some res ∧
      (missing.Count > (rprHas.get sbn).Count →
        ∃ out, res.find sbn = some out ∧ Canonical out ∧
          out.Count = missing.Count - (rprHas.get sbn).Count ∧
          (∀ x, Covers out x → Covers missing x) ∧
          (∀ x y, Covers out x → Covers missing y → y < x → Covers out y)) ∧
      (missing.Count ≤ (rprHas.get sbn).Count → res.find sbn = none) := by
  have hc := (canonical_iff_canon _).mp hcan
  have hin' : ∀ x, Covers missing x → 0 ≤ x ∧ x ≤ (n : Int) - 1 := by
    rintro x ⟨r, hr', h1, h2⟩
    have := hin r hr'
    omega
  obtain ⟨res, hres, hall⟩ := getMissingESIs_spec srcMissing rprHas bs hkeys
  obtain ⟨s1, s2⟩ := missingForBlock_spec bs sbn n missing (rprHas.get sbn) hne hc hn
    hn32 hin' hr
  refine ⟨res, hres, fun hgt => ?_, fun hle => ?_⟩
  · obtain ⟨out, ho, h1, h2, h3, h4⟩ := s1 hgt
    rcases hall sbn missing hfind with ⟨h5, _⟩ | ⟨v, h5, h6⟩
    · rw [ho] at h5; cases h5
    · rw [ho] at h5
      cases h5
      exact ⟨out, h6, (canonical_iff_canon _).mpr h1, h2, h3, h4⟩
  · rcases hall sbn missing hfind with ⟨_, h6⟩ | ⟨v, h5, _⟩
    · exact h6
    · rw [s2 hle] at h5; cases h5

/-- C11, at block 0 of the 107374182-byte object (`E = 1430`, 10 symbols) with
`missing = [(0,3),(7,8)]` and one repair symbol `[(10,10)]`: five of the six
missing ESIs remain, `[(0,3),(7,7)]`. -/
theorem getMissingESIs_entry_witness :
    GetMissingESIs ⟨[(0, [⟨0, 3⟩, ⟨7, 8⟩])]⟩ ⟨[(0, [⟨10, 10⟩])]⟩
        ⟨7509, 7506, 10, 9, 1430, 75087, 107374182, 10, 12, 1⟩
      = some ⟨[(0, [⟨0, 3⟩, ⟨7, 7⟩])]⟩ ∧
    ∃ res, GetMissingESIs ⟨[(0, [⟨0, 3⟩, ⟨7, 8⟩])]⟩ ⟨[(0, [⟨10, 10⟩])]⟩
        ⟨7509, 7506, 10, 9, 1430, 75087, 107374182, 10, 12, 1⟩ = some res ∧
      (RangeList.Count [⟨0, 3⟩, ⟨7, 8⟩] >
          (ESIRange.get ⟨[(0, [⟨10, 10⟩])]⟩ 0).Count →
        ∃ out, res.find 0 = some out ∧ Canonical out ∧
          out.Count = RangeList.Count [⟨0, 3⟩, ⟨7, 8⟩] -
            (ESIRange.get ⟨[(0, [⟨10, 10⟩])]⟩ 0).Count ∧
          (∀ x, Covers out x → Covers [⟨0, 3⟩, ⟨7, 8⟩] x) ∧
          (∀ x y, Covers out x → Covers [⟨0, 3⟩, ⟨7, 8⟩] y → y < x → Covers out y)) ∧
      (RangeList.Count [⟨0, 3⟩, ⟨7, 8⟩] ≤ (ESIRange.get ⟨[(0, [⟨10, 10⟩])]⟩ 0).Count →
        res.find 0 = none) :=
  ⟨by decide,
   getMissingESIs_entry ⟨7509, 7506, 10, 9, 1430, 75087, 107374182, 10, 12, 1⟩
     ⟨[(0, [⟨0, 3⟩, ⟨7, 8⟩])]⟩ ⟨[(0, [⟨10, 10⟩])]⟩ 0 10 [⟨0, 3⟩, ⟨7, 8⟩]
     (by decide) (by decide) (by decide) (by decide) (by decide) (by decide) (by decide)
     (by decide)⟩

/-- C12 (fails as stated): for the structure of the 107374182-byte object
(`N = 7509`), `srcMissing = {7509: []}` and an empty `rprHas`, both counts for
the key 7509 are zero, so `rprHas[7509].Count() >= srcMissing[7509].Count()`,
and `NumSrcSym(7509)` is zero as well; the first test of the loop,
`missingCount == esiPerBlock && repairableCount == 0`, holds and the result has
the entry `7509: [(0,-1)]`. -/
theorem getMissingESIs_entry_for_empty_block :
    ESIRange.find ⟨[(7509, [])]⟩ 7509 = some [] ∧
    (ESIRange.get ⟨[]⟩ 7509).Count ≥ RangeList.Count [] ∧
    NumSrcSym ⟨7509, 7506, 10, 9, 1430, 75087, 107374182, 10, 12, 1⟩ 7509 = some 0 ∧
    GetMissingESIs ⟨[(7509, [])]⟩ ⟨[]⟩
        ⟨7509, 7506, 10, 9, 1430, 75087, 107374182, 10, 12, 1⟩
      = some ⟨[(7509, [⟨0, -1⟩])]⟩ ∧
    ESIRange.find ⟨[(7509, [⟨0, -1⟩])]⟩ 7509 ≠ none := by
  decide

/-- C12 (amended): for every `srcMissing` (no key twice), `rprHas` and blocking
structure, and every `sbn` that is a key of `srcMissing` with
`rprHas[sbn].Count() >= srcMissing[sbn].Count()`, unless both counts and
`NumSrcSym(sbn)` are all zero: `GetMissingESIs(srcMissing, rprHas, bs)` returns
a map that has no entry for `sbn`. -/
theorem getMissingESIs_no_entry (bs : BlockingStructure) (srcMissing rprHas : ESIRange)
    (sbn : Nat) (missing : RangeList)
    (hkeys : (srcMissing.entries.map Prod.fst).Nodup)
    (hfind : srcMissing.find sbn = some missing)
    (hge : (rprHas.get sbn).Count ≥ missing.Count)
    (hnz : ¬ (missing.Count = 0 ∧ (rprHas.get sbn).Count = 0 ∧
      bs.NumSrcSym sbn = some 0)) :
    ∃ res, GetMissingESIs srcMissing rprHas bs = some res ∧ res.find sbn = none := by
  obtain ⟨res, hres, hall⟩ := getMissingESIs_spec srcMissing rprHas bs hkeys
  refine ⟨res, hres, ?_⟩
  rcases hall sbn missing hfind with ⟨_, h⟩ | ⟨v, hv, _⟩
  · exact h
  · exfalso
    obtain ⟨n, hn⟩ := numSrcSym_total bs sbn
    unfold missingForBlock at hv
    simp only [hn] at hv
    by_cases h1 : missing.Count = (n : Int) ∧ (rprHas.get sbn).Count = 0
    · apply hnz
      have hn0 : n = 0 := by omega
      subst hn0
      exact ⟨by omega, h1.2, hn⟩
    · rw [if_neg h1, if_neg (by omega)] at hv
      cases hv

/-- C12 (amended), at block 1 of the 107374182-byte object with one missing
source symbol `[(0,0)]` and one repair symbol `[(10,10)]`. -/
theorem getMissingESIs_no_entry_witness :
    ∃ res, GetMissingESIs ⟨[(0, [⟨0, 3⟩, ⟨7, 8⟩]), (1, [⟨0, 0⟩])]⟩
        ⟨[(0, [⟨10, 10⟩]), (1, [⟨10, 10⟩])]⟩
        ⟨7509, 7506, 10, 9, 1430, 75087, 107374182, 10, 12, 1⟩ = some res ∧
      res.find 1 = none :=
  getMissingESIs_no_entry ⟨7509, 7506, 10, 9, 1430, 75087, 107374182, 10, 12, 1⟩
    ⟨[(0, [⟨0, 3⟩, ⟨7, 8⟩]), (1, [⟨0, 0⟩])]⟩ ⟨[(0, [⟨10, 10⟩]), (1, [⟨10, 10⟩])]⟩
    1 [⟨0, 0⟩] (by decide) (by decide) (by decide) (by decide)

/-! ## The order in which a map is visited -/

theorem insertByStart_perm (x : Range) (l : RangeList) :
    (insertByStart x l).Perm (x :: l) := by
  induction l with
  | nil => exact List.Perm.refl _
  | cons y ys ih =>
    unfold insertByStart
    split
    · exact List.Perm.refl _
    · exact ((List.perm_cons y).mpr ih).trans (List.Perm.swap x y ys)

theorem sortByStart_perm (l : RangeList) : (sortByStart l).Perm l := by
  induction l with
  | nil => exact List.Perm.refl _
  | cons x xs ih =>
    unfold sortByStart
    exact (insertByStart_perm x _).trans ((List.perm_cons x).mpr ih)

theorem insertByStart_sorted (x : Range) (l : RangeList)
    (h : l.Pairwise (fun a b => a.Start ≤ b.Start)) :
    (insertByStart x l).Pairwise (fun a b => a.Start ≤ b.Start) := by
  induction l with
  | nil => exact List.pairwise_singleton _ _
  | cons y ys ih =>
    rw [List.pairwise_cons] at h
    unfold insertByStart
    split
    · rename_i hle
      refine List.pairwise_cons.mpr ⟨fun z hz => ?_, List.pairwise_cons.mpr h⟩
      rcases List.mem_cons.mp hz with rfl | hz
      · exact hle
      · exact le_trans hle (h.1 z hz)
    · rename_i hle
      refine List.pairwise_cons.mpr ⟨fun z hz => ?_, ih h.2⟩
      rcases List.mem_cons.mp ((insertByStart_perm x ys).mem_iff.mp hz) with rfl | hz
      · omega
      · exact h.1 z hz

theorem sortByStart_sorted (l : RangeList) :
    (sortByStart l).Pairwise (fun a b => a.Start ≤ b.Start) := by
  induction l with
  | nil => exact List.Pairwise.nil
  | cons x xs ih =>
    unfold sortByStart
    exact insertByStart_sorted x _ ih

/-- Sorting a list whose `Start`s are all different gives the one arrangement
with increasing `Start`s, whatever the order it comes in. -/
theorem sortByStart_eq_of_perm {l l0 : RangeList} (hp : l.Perm l0)
    (hs : l0.Pairwise (fun a b => a.Start < b.Start)) : sortByStart l = l0 := by
  have hp1 : (sortByStart l).Perm l0 := (sortByStart_perm l).trans hp
  have hnd : ((sortByStart l).map Range.Start).Nodup := by
    rw [(hp1.map Range.Start).nodup_iff]
    exact List.pairwise_map.mpr (hs.imp (fun h => ne_of_lt h))
  have hne : (sortByStart l).Pairwise (fun a b => a.Start ≠ b.Start) :=
    List.pairwise_map.mp hnd
  have hlt : (sortByStart l).Pairwise (fun a b => a.Start < b.Start) :=
    ((sortByStart_sorted l).and hne).imp (fun h => lt_of_le_of_ne h.1 h.2)
  haveI : IsAntisymm Range (fun a b => a.Start < b.Start) :=
    ⟨fun a b h1 h2 => absurd h1 (not_lt.mpr (le_of_lt h2))⟩
  exact List.eq_of_perm_of_sorted hp1 hlt hs

theorem flatten_eq_of_perm {l l0 : RangeList} (hp : l.Perm l0)
    (hs : l0.Pairwise (fun a b => a.Start < b.Start)) : flatten l = mergeRight l0 := by
  unfold flatten
  rw [sortByStart_eq_of_perm hp hs]

/-! ### ToRangeList as a flattened concatenation -/

theorem appendESI_append (bs : BlockingStructure) (source : Bool) (offset k : Int)
    (rl : RangeList) (x : Range) :
    appendESI bs source offset k rl x = rl ++ appendESI bs source offset k [] x := by
  unfold appendESI
  simp only
  split_ifs <;> simp

theorem foldl_appendESI (bs : BlockingStructure) (source : Bool) (offset k : Int)
    (r : RangeList) : ∀ rl : RangeList,
    r.foldl (appendESI bs source offset k) rl =
      rl ++ r.foldl (appendESI bs source offset k) [] := by
  induction r with
  | nil => intro rl; simp
  | cons x xs ih =>
    intro rl
    simp only [List.foldl_cons]
    rw [ih (appendESI bs source offset k rl x), ih (appendESI bs source offset k [] x),
      appendESI_append bs source offset k rl x, List.append_assoc]

theorem appendBlock_eq (bs : BlockingStructure) (source : Bool) (rl : RangeList)
    (sbn : Nat) (r : RangeList) :
    appendBlock bs source rl sbn r = some (rl ++ blockBytes bs source (sbn, r)) := by
  obtain ⟨k, hk⟩ := numSrcSym_total bs sbn
  unfold blockBytes appendBlock
  simp only [hk]
  split
  · rw [foldl_appendESI]
    simp
  · simp

theorem collectBlocks_eq (bs : BlockingStructure) (source : Bool) :
    ∀ (entries : List (Nat × RangeList)) (rl : RangeList),
      collectBlocks bs source entries rl =
        some (rl ++ entries.flatMap (blockBytes bs source)) := by
  intro entries
  induction entries with
  | nil => intro rl; simp [collectBlocks]
  | cons e rest ih =>
    obtain ⟨sbn, r⟩ := e
    intro rl
    simp only [collectBlocks, appendBlock_eq, ih, List.flatMap_cons, List.append_assoc]

theorem toRangeList_eq (er : ESIRange) (bs : BlockingStructure) (source : Bool) :
    er.ToRangeList bs source = some (flatten (er.entries.flatMap (blockBytes bs source))) := by
  unfold ESIRange.ToRangeList
  rw [collectBlocks_eq]
  simp

/-- `ToRangeList` does not depend on the order in which the map is visited when
the byte ranges of its entries all start at different offsets. -/
theorem toRangeList_of_perm (er er1 : ESIRange) (bs : BlockingStructure) (source : Bool)
    (l0 : RangeList) (hp : er1.entries.Perm er.entries)
    (hl : (er.entries.flatMap (blockBytes bs source)).Perm l0)
    (hs : l0.Pairwise (fun a b => a.Start < b.Start)) :
    er1.ToRangeList bs source = some (mergeRight l0) := by
  rw [toRangeList_eq, flatten_eq_of_perm ((hp.flatMap_right _).trans hl) hs]

/-! ### GetMissingESIs as a filter -/

theorem setEntry_of_not_mem (l : List (Nat × RangeList)) (k : Nat) (v : RangeList)
    (h : k ∉ l.map Prod.fst) : setEntry l k v = l ++ [(k, v)] := by
  induction l with
  | nil => rfl
  | cons e rest ih =>
    obtain ⟨k2, v2⟩ := e
    simp only [List.map_cons, List.mem_cons, not_or] at h
    unfold setEntry
    rw [if_neg (fun h' => h.1 h'.symm), ih h.2]
    rfl

theorem missingLoopESI_eq (rpr : ESIRange) (bs : BlockingStructure) :
    ∀ (entries : List (Nat × RangeList)) (result : ESIRange),
      (entries.map Prod.fst).Nodup →
      (∀ k ∈ entries.map Prod.fst, k ∉ result.entries.map Prod.fst) →
      missingLoopESI rpr bs entries result =
        some ⟨result.entries ++ entries.filterMap (missingEntry rpr bs)⟩ := by
  intro entries
  induction entries with
  | nil => intro result _ _; simp [missingLoopESI]
  | cons e rest ih =>
    obtain ⟨k0, m0⟩ := e
    intro result hnd hdis
    simp only [List.map_cons, List.nodup_cons] at hnd
    obtain ⟨hk0, hnd'⟩ := hnd
    have hk0r : k0 ∉ result.entries.map Prod.fst :=
      hdis k0 (by simp)
    have hrest : ∀ k ∈ rest.map Prod.fst, k ∉ result.entries.map Prod.fst :=
      fun k hk => hdis k (by simp only [List.map_cons, List.mem_cons]; exact Or.inr hk)
    obtain ⟨o, ho⟩ := missingForBlock_total bs k0 m0 (rpr.get k0)
    cases o with
    | none =>
      have hme : missingEntry rpr bs (k0, m0) = none := by
        simp only [missingEntry, ho]
      simp only [missingLoopESI, ho, List.filterMap_cons, hme]
      exact ih result hnd' hrest
    | some v =>
      have hme : missingEntry rpr bs (k0, m0) = some (k0, v) := by
        simp only [missingEntry, ho]
      simp only [missingLoopESI, ho, List.filterMap_cons, hme]
      rw [ih (result.set k0 v) hnd' ?_]
      · simp only [ESIRange.set, setEntry_of_not_mem _ _ _ hk0r, List.append_assoc,
          List.singleton_append]
      · intro k hk
        simp only [ESIRange.set, setEntry_of_not_mem _ _ _ hk0r, List.map_append,
          List.map_cons, List.map_nil, List.mem_append, List.mem_singleton, not_or]
        refine ⟨hrest k hk, ?_⟩
        rintro rfl
        exact hk0 hk

theorem getMissingESIs_eq (src rpr : ESIRange) (bs : BlockingStructure)
    (hnd : (src.entries.map Prod.fst).Nodup) :
    GetMissingESIs src rpr bs = some ⟨src.entries.filterMap (missingEntry rpr bs)⟩ := by
  unfold GetMissingESIs
  rw [missingLoopESI_eq rpr bs src.entries ESIRange.empty hnd (fun k _ => by simp [ESIRange.empty])]
  simp [ESIRange.empty]

/-! ## Conversions that stay within the blocks of `A` symbols -/

theorem srcOffset_withSmall (bs : BlockingStructure) (a t : Nat) {sbn : Nat}
    (h : sbn < bs.I ∨ bs.N ≤ sbn) :
    (withSmall bs a t).SrcOffset sbn = bs.SrcOffset sbn := by
  unfold SrcOffset withSmall
  simp only
  rcases h with h | h
  · rw [if_pos h, if_pos h]
  · rw [if_pos h, if_pos h]

theorem numSrcSym_withSmall (bs : BlockingStructure) (a t : Nat) {sbn : Nat}
    (h : sbn < bs.I ∨ bs.N ≤ sbn) :
    (withSmall bs a t).NumSrcSym sbn = bs.NumSrcSym sbn := by
  have h1 := srcOffset_withSmall bs a t h
  unfold NumSrcSym
  rw [h1]
  rcases h with h | h
  · simp only [withSmall, h, if_true]
  · have h2 : sbn ≥ bs.N := h
    simp only [withSmall, h2, if_true]

theorem sourceSBN_withSmall (bs : BlockingStructure) (a t : Nat) {off : Nat}
    (h : off / bs.ESLen < mul64 bs.A bs.I) :
    (withSmall bs a t).SourceSBN off = bs.SourceSBN off := by
  unfold SourceSBN
  simp only [withSmall, h, if_true]

theorem srcBlockSize_withSmall (bs : BlockingStructure) (a t : Nat) {sbn : Nat}
    (h : sbn < bs.I) :
    (withSmall bs a t).SrcBlockSize sbn = bs.SrcBlockSize sbn := by
  have h1 := srcOffset_withSmall bs a t (Or.inl h)
  unfold SrcBlockSize
  rw [h1]
  simp only [withSmall, h, if_true]

theorem add32_one_le (sbn : Nat) : add32 sbn 1 ≤ sbn + 1 := by
  unfold add32
  exact Nat.mod_le _ _

theorem esiPiece_withSmall (bs : BlockingStructure) (a t : Nat)
    (source inclusive : Bool) (start stop : Int) {sbn : Nat} (h : sbn + 1 < bs.I) :
    esiPiece (withSmall bs a t) source inclusive start stop sbn =
      esiPiece bs source inclusive start stop sbn := by
  have h1 := srcOffset_withSmall bs a t (Or.inl (show sbn < bs.I by omega))
  have h2 := srcOffset_withSmall bs a t
    (Or.inl (show add32 sbn 1 < bs.I by have := add32_one_le sbn; omega))
  have h3 := numSrcSym_withSmall bs a t (Or.inl (show sbn < bs.I by omega))
  have h4 : ∀ k, (withSmall bs a t).RprOffset k = bs.RprOffset k := fun _ => rfl
  have h5 : (withSmall bs a t).ESLen = bs.ESLen := rfl
  unfold esiPiece
  rw [h1, h2, h3, h4, h4, h5]

theorem blockLoop_withSmall (bs : BlockingStructure) (a t : Nat)
    (source inclusive : Bool) (start stop : Int) {sbnEnd : Nat}
    (h : sbnEnd + 1 < bs.I) :
    ∀ (fuel sbn : Nat) (er : ESIRange),
      blockLoop (withSmall bs a t) source inclusive start stop sbnEnd fuel sbn er =
        blockLoop bs source inclusive start stop sbnEnd fuel sbn er := by
  intro fuel
  induction fuel with
  | zero => intro sbn er; rfl
  | succ n ih =>
    intro sbn er
    unfold blockLoop
    by_cases hs : sbn ≤ sbnEnd
    · rw [if_pos hs, if_pos hs, esiPiece_withSmall bs a t source inclusive start stop
        (show sbn + 1 < bs.I by omega)]
      cases esiPiece bs source inclusive start stop sbn with
      | none => rfl
      | some p => exact ih _ _
    · rw [if_neg hs, if_neg hs]

theorem rangesLoop_withSmall (bs : BlockingStructure) (a t : Nat)
    (source inclusive : Bool) :
    ∀ (rl : RangeList) (er : ESIRange), (∀ r ∈ rl, largeOnly bs source r = true) →
      rangesLoop (withSmall bs a t) source inclusive rl er =
        rangesLoop bs source inclusive rl er := by
  intro rl
  induction rl with
  | nil => intro er _; rfl
  | cons r rest ih =>
    intro er h
    have hr := h r (List.mem_cons_self _ _)
    have hrest : ∀ r ∈ rest, largeOnly bs source r = true :=
      fun x hx => h x (List.mem_cons_of_mem _ hx)
    unfold rangesLoop
    by_cases hse : r.Start > r.End
    · rw [if_pos hse, if_pos hse]
    · rw [if_neg hse, if_neg hse]
      cases source with
      | true =>
        simp only [largeOnly, if_true, Bool.and_eq_true, decide_eq_true_eq] at hr
        obtain ⟨⟨h1, h2⟩, h3⟩ := hr
        simp only [if_true]
        rw [sourceSBN_withSmall bs a t h1, sourceSBN_withSmall bs a t h2]
        cases hs : bs.SourceSBN (toU64 r.Start) with
        | none => rfl
        | some s =>
          cases he : bs.SourceSBN (toU64 r.End) with
          | none => rfl
          | some e =>
            rw [he] at h3
            simp only [Option.all_some, decide_eq_true_eq] at h3
            simp only
            rw [blockLoop_withSmall bs a t true inclusive r.Start r.End h3]
            cases blockLoop bs true inclusive r.Start r.End e (e - s + 2) s er with
            | none => rfl
            | some er1 => exact ih er1 hrest
      | false =>
        simp only [largeOnly, Bool.false_eq_true, if_false] at hr
        have h4 : ∀ x, (withSmall bs a t).RepairSBN x = bs.RepairSBN x := fun _ => rfl
        simp only [Bool.false_eq_true, if_false, h4]
        cases hs : bs.RepairSBN (toU64 r.Start) with
        | none => rfl
        | some s =>
          cases he : bs.RepairSBN (toU64 r.End) with
          | none => rfl
          | some e =>
            rw [he] at hr
            simp only [Option.all_some, decide_eq_true_eq] at hr
            simp only
            rw [blockLoop_withSmall bs a t false inclusive r.Start r.End hr]
            cases blockLoop bs false inclusive r.Start r.End e (e - s + 2) s er with
            | none => rfl
            | some er1 => exact ih er1 hrest

theorem esiRangeFromRangeList_withSmall (bs : BlockingStructure) (a t : Nat)
    (source inclusive : Bool) (rl : RangeList)
    (h : ∀ r ∈ rl, largeOnly bs source r = true) :
    ESIRangeFromRangeList (some (withSmall bs a t)) rl source inclusive =
      ESIRangeFromRangeList (some bs) rl source inclusive := by
  have h5 : (withSmall bs a t).ESLen = bs.ESLen := rfl
  unfold ESIRangeFromRangeList
  simp only [h5, rangesLoop_withSmall bs a t source inclusive rl _ h]

theorem missingEntry_withSmall (rpr : ESIRange) (bs : BlockingStructure) (a t : Nat)
    (e : Nat × RangeList) (h : e.1 < bs.I ∨ bs.N ≤ e.1) :
    missingEntry rpr (withSmall bs a t) e = missingEntry rpr bs e := by
  unfold missingEntry missingForBlock
  rw [numSrcSym_withSmall bs a t h]

theorem blockBytes_withSmall (bs : BlockingStructure) (a t : Nat)
    (e : Nat × RangeList) (h : e.1 < bs.I) :
    blockBytes (withSmall bs a t) true e = blockBytes bs true e := by
  have h1 := srcOffset_withSmall bs a t (Or.inl h)
  have h2 := numSrcSym_withSmall bs a t (Or.inl h)
  have h3 := srcBlockSize_withSmall bs a t h
  have h4 : ∀ (offset k : Int),
      appendESI (withSmall bs a t) true offset k = appendESI bs true offset k :=
    fun _ _ => rfl
  unfold blockBytes appendBlock
  simp only [if_true, h1, h2, h3, h4]

/-! ## The scenario of the repair computation -/

theorem flatMap_congr_mem {α β : Type} (l : List α) (f g : α → List β)
    (h : ∀ e ∈ l, f e = g e) : l.flatMap f = l.flatMap g := by
  induction l with
  | nil => rfl
  | cons x xs ih =>
    rw [List.flatMap_cons, List.flatMap_cons, h x (List.mem_cons_self _ _),
      ih (fun e he => h e (List.mem_cons_of_mem _ he))]

theorem filterMap_congr_mem {α β : Type} (l : List α) (f g : α → Option β)
    (h : ∀ e ∈ l, f e = g e) : l.filterMap f = l.filterMap g := by
  induction l with
  | nil => rfl
  | cons x xs ih =>
    rw [List.filterMap_cons, List.filterMap_cons, h x (List.mem_cons_self _ _),
      ih (fun e he => h e (List.mem_cons_of_mem _ he))]

/-- C13: with the blocking structure `TransferLen = 107374182`, `ESLen = 1430`,
`MaxSbLen = 10`, `NumEsPerGroup = 1`, `MaxNumEs = 12`, `N = 7509`, `I = 7506`,
`A = 10` (whatever `ASmall` and `T` are), the missing byte list `M` and the
repair-available byte list `H` of scenario E4:
`ESIRangeFromRangeList(bs, M, true, true)` and
`ESIRangeFromRangeList(bs, H, false, false)` return the maps the test expects,
`GetMissingESIs` of them returns, and `ToRangeList(bs, true)` of its result is
`[(0,5719),(10010,11439),(28600,40039),(42900,54339),(57200,58629),
(74360,84369),(85800,90089),(100100,111539),(114400,125839),(128700,137279)]`,
in whatever order the two maps are visited. -/
theorem e4_missing_byte_ranges (aSmall t : Nat) :
    ESIRangeFromRangeList (some (e4Structure aSmall t)) e4Missing true true
      = .ok e4SrcSymMissing ∧
    ESIRangeFromRangeList (some (e4Structure aSmall t)) e4RepairHas false false
      = .ok e4RprSymHas ∧
    ∀ S1 : ESIRange, S1.entries.Perm e4SrcSymMissing.entries →
      ∃ G, GetMissingESIs S1 e4RprSymHas (e4Structure aSmall t) = some G ∧
        G.entries.Perm e4MissingESIs.entries ∧
        ∀ G1 : ESIRange, G1.entries.Perm G.entries →
          G1.ToRangeList (e4Structure aSmall t) true = some e4Expected := by
  have hbs : e4Structure aSmall t = withSmall (e4Structure 0 0) aSmall t := rfl
  refine ⟨?_, ?_, fun S1 hp => ?_⟩
  · rw [hbs, esiRangeFromRangeList_withSmall _ _ _ _ _ _ (by decide)]
    decide
  · rw [hbs, esiRangeFromRangeList_withSmall _ _ _ _ _ _ (by decide)]
    decide
  · have hnd : (S1.entries.map Prod.fst).Nodup :=
      ((hp.map Prod.fst).nodup_iff).mpr (by decide)
    have hkeys : ∀ e ∈ S1.entries, e.1 < (e4Structure 0 0).I := by
      intro e he
      have h0 : ∀ e ∈ e4SrcSymMissing.entries, e.1 < (e4Structure 0 0).I := by decide
      exact h0 e (hp.mem_iff.mp he)
    have hG : S1.entries.filterMap (missingEntry e4RprSymHas (e4Structure aSmall t))
        = S1.entries.filterMap (missingEntry e4RprSymHas (e4Structure 0 0)) := by
      rw [hbs]
      exact filterMap_congr_mem _ _ _
        (fun e he => missingEntry_withSmall _ _ _ _ e (Or.inl (hkeys e he)))
    have hG0 : e4SrcSymMissing.entries.filterMap
        (missingEntry e4RprSymHas (e4Structure 0 0)) = e4MissingESIs.entries := by
      decide
    have hGp : (S1.entries.filterMap (missingEntry e4RprSymHas (e4Structure aSmall t))).Perm
        e4MissingESIs.entries := by
      rw [hG, ← hG0]
      exact hp.filterMap _
    refine ⟨_, getMissingESIs_eq S1 e4RprSymHas _ hnd, hGp, fun G1 hp1 => ?_⟩
    have hp2 : G1.entries.Perm e4MissingESIs.entries := hp1.trans hGp
    have hkeys1 : ∀ e ∈ G1.entries, e.1 < (e4Structure 0 0).I := by
      intro e he
      have h0 : ∀ e ∈ e4MissingESIs.entries, e.1 < (e4Structure 0 0).I := by decide
      exact h0 e (hp2.mem_iff.mp he)
    have hfm : G1.entries.flatMap (blockBytes (e4Structure aSmall t) true)
        = G1.entries.flatMap (blockBytes (e4Structure 0 0) true) := by
      rw [hbs]
      exact flatMap_congr_mem _ _ _
        (fun e he => blockBytes_withSmall _ _ _ e (hkeys1 e he))
    rw [toRangeList_eq, hfm,
      flatten_eq_of_perm (hp2.flatMap_right (blockBytes (e4Structure 0 0) true))
        (by decide)]
    decide

/-- C13, at `ASmall = 10`, `T = 75087` (the structure of scenario E3), with both
maps visited in the order of their keys. -/
theorem e4_missing_byte_ranges_witness :
    ∃ G, GetMissingESIs e4SrcSymMissing e4RprSymHas (e4Structure 10 75087) = some G ∧
      G.ToRangeList (e4Structure 10 75087) true = some e4Expected := by
  obtain ⟨G, h1, _, h2⟩ :=
    (e4_missing_byte_ranges 10 75087).2.2 e4SrcSymMissing (List.Perm.refl _)
  exact ⟨G, h1, h2 G (List.Perm.refl _)⟩

/-! ## ESIRangeFromRangeList and ToRangeList on source ranges -/

/-! ### The map as a list of keyed ranges -/

theorem keys_setEntry (l : List (Nat × RangeList)) (k : Nat) (v : RangeList) :
    (setEntry l k v).map Prod.fst =
      if k ∈ l.map Prod.fst then l.map Prod.fst else l.map Prod.fst ++ [k] := by
  induction l with
  | nil => simp [setEntry]
  | cons e rest ih =>
    obtain ⟨k2, v2⟩ := e
    unfold setEntry
    by_cases h : k2 = k
    · subst h
      simp
    · rw [if_neg h]
      simp only [List.map_cons, ih, List.mem_cons]
      have h' : ¬ k = k2 := fun h1 => h h1.symm
      by_cases hm : k ∈ rest.map Prod.fst
      · simp [hm]
      · simp [hm, h']

theorem nodup_setEntry (l : List (Nat × RangeList)) (k : Nat) (v : RangeList)
    (h : (l.map Prod.fst).Nodup) : ((setEntry l k v).map Prod.fst).Nodup := by
  rw [keys_setEntry]
  split
  · exact h
  · rename_i hk
    rw [List.nodup_append]
    refine ⟨h, List.nodup_singleton _, ?_⟩
    intro a ha hb
    rw [List.mem_singleton] at hb
    subst hb
    exact hk ha

theorem nodup_pushAll (ps : List (Nat × Range)) :
    ∀ er : ESIRange, (er.entries.map Prod.fst).Nodup →
      ((pushAll er ps).entries.map Prod.fst).Nodup := by
  induction ps with
  | nil => intro er h; exact h
  | cons x ps ih =>
    intro er h
    exact ih (pushPiece er x) (nodup_setEntry _ _ _ h)

theorem keyed_setEntry (l : List (Nat × RangeList)) (k : Nat) (p : Range) :
    (keyed (setEntry l k ((l.lookup k).getD [] ++ [p]))).Perm (keyed l ++ [(k, p)]) := by
  induction l with
  | nil => simp [setEntry, keyed]
  | cons e rest ih =>
    obtain ⟨k2, v2⟩ := e
    unfold setEntry
    by_cases h : k2 = k
    · subst h
      rw [if_pos rfl, lookup_cons_eq]
      simp only [keyed, List.flatMap_cons, Option.getD_some, List.map_append, List.map_cons,
        List.map_nil, List.append_assoc]
      exact List.Perm.append_left _ List.perm_append_comm
    · rw [if_neg h, lookup_cons_ne (fun h1 => h h1.symm)]
      simp only [keyed, List.flatMap_cons, List.append_assoc]
      exact List.Perm.append_left _ ih

theorem keyed_pushAll (ps : List (Nat × Range)) :
    ∀ er : ESIRange, (keyed (pushAll er ps).entries).Perm (keyed er.entries ++ ps) := by
  induction ps with
  | nil => intro er; simp [pushAll]
  | cons x ps ih =>
    intro er
    obtain ⟨k, p⟩ := x
    have h1 := ih (pushPiece er (k, p))
    have h2 : (keyed (pushPiece er (k, p)).entries).Perm (keyed er.entries ++ [(k, p)]) :=
      keyed_setEntry er.entries k p
    have h3 : pushAll er ((k, p) :: ps) = pushAll (pushPiece er (k, p)) ps := rfl
    rw [h3]
    refine h1.trans ?_
    have h4 := h2.append_right ps
    simpa using h4

theorem find_pushAll (ps : List (Nat × Range)) :
    ∀ (er : ESIRange) (k : Nat),
      (pushAll er ps).find k =
        if ps.filter (fun x => decide (x.1 = k)) = [] then er.find k
        else some (er.get k ++ (ps.filter (fun x => decide (x.1 = k))).map Prod.snd) := by
  induction ps with
  | nil => intro er k; simp [pushAll]
  | cons x ps ih =>
    intro er k
    obtain ⟨k0, p0⟩ := x
    have h3 : pushAll er ((k0, p0) :: ps) = pushAll (pushPiece er (k0, p0)) ps := rfl
    rw [h3, ih]
    have hf : ∀ k1, (pushPiece er (k0, p0)).find k1 =
        if k1 = k0 then some (er.get k0 ++ [p0]) else er.find k1 :=
      fun k1 => find_set er k0 k1 _
    have hg : ∀ k1, (pushPiece er (k0, p0)).get k1 =
        if k1 = k0 then er.get k0 ++ [p0] else er.get k1 := by
      intro k1
      unfold ESIRange.get
      rw [hf]
      split <;> rfl
    rw [hf, hg]
    by_cases hk : k0 = k
    · subst hk
      simp only [List.filter_cons, decide_True, if_true, List.map_cons]
      by_cases hn : ps.filter (fun x => decide (x.1 = k0)) = []
      · simp [hn]
      · simp [hn]
    · have hk' : ¬ k = k0 := fun h => hk h.symm
      simp only [List.filter_cons, hk, decide_False, if_false, hk']
      simp

theorem lookup_of_mem_nodup (l : List (Nat × RangeList)) (k : Nat) (v : RangeList)
    (hnd : (l.map Prod.fst).Nodup) (h : (k, v) ∈ l) : l.lookup k = some v := by
  induction l with
  | nil => cases h
  | cons e rest ih =>
    obtain ⟨k2, v2⟩ := e
    simp only [List.map_cons, List.nodup_cons] at hnd
    rcases List.mem_cons.mp h with h1 | h1
    · obtain ⟨rfl, rfl⟩ := Prod.mk.inj h1
      exact lookup_cons_eq _ _ _
    · have hk : k ≠ k2 := by
        rintro rfl
        exact hnd.1 (List.mem_map_of_mem Prod.fst h1)
      rw [lookup_cons_ne hk]
      exact ih hnd.2 h1

/-- The lists of the map built from the pairs `ps`: the list under a key holds,
in order, the ranges `ps` pairs with that key, and is not empty. -/
theorem mem_pushAll_empty (ps : List (Nat × Range)) (k : Nat) (v : RangeList)
    (h : (k, v) ∈ (pushAll ESIRange.empty ps).entries) :
    v = (ps.filter (fun x => decide (x.1 = k))).map Prod.snd ∧ v ≠ [] := by
  have hnd := nodup_pushAll ps ESIRange.empty (by simp [ESIRange.empty])
  have h1 := lookup_of_mem_nodup _ k v hnd h
  have h2 := find_pushAll ps ESIRange.empty k
  unfold ESIRange.find at h2
  rw [h1] at h2
  by_cases hn : ps.filter (fun x => decide (x.1 = k)) = []
  · rw [if_pos hn] at h2
    simp [ESIRange.empty, List.lookup] at h2
  · rw [if_neg hn] at h2
    have h3 : ESIRange.empty.get k = [] := rfl
    rw [h3, List.nil_append] at h2
    have h4 := Option.some.inj h2
    refine ⟨h4, ?_⟩
    rw [h4]
    simpa using hn

/-! ### The loops of ESIRangeFromRangeList as a list of writes -/

theorem esiPiece_source (bs : BlockingStructure) (inclusive : Bool) (start stop : Int)
    (sbn : Nat) :
    esiPiece bs true inclusive start stop sbn =
      some (pieceAt bs inclusive start stop sbn) := by
  unfold pieceAt esiPiece
  simp

theorem add32_succ {k : Nat} (h : k + 1 < 2 ^ 32) : add32 k 1 = k + 1 := by
  unfold add32
  exact Nat.mod_eq_of_lt h

theorem blockLoop_source (bs : BlockingStructure) (inclusive : Bool) (start stop : Int)
    (sbnEnd : Nat) (hend : sbnEnd + 1 < 2 ^ 32) :
    ∀ (fuel sbn : Nat) (er : ESIRange), sbnEnd + 2 - sbn ≤ fuel → 0 < fuel →
      blockLoop bs true inclusive start stop sbnEnd fuel sbn er =
        some (pushAll er ((List.range' sbn (sbnEnd + 1 - sbn)).map
          (fun j => (j, pieceAt bs inclusive start stop j)))) := by
  intro fuel
  induction fuel with
  | zero => intro sbn er _ h; omega
  | succ n ih =>
    intro sbn er hfuel _
    unfold blockLoop
    by_cases hs : sbn ≤ sbnEnd
    · rw [if_pos hs, esiPiece_source]
      simp only
      rw [add32_succ (by omega), ih (sbn + 1) _ (by omega) (by omega)]
      have h1 : sbnEnd + 1 - sbn = (sbnEnd + 1 - (sbn + 1)) + 1 := by omega
      rw [h1, List.range'_succ]
      rfl
    · rw [if_neg hs]
      have h1 : sbnEnd + 1 - sbn = 0 := by omega
      rw [h1]
      rfl

theorem pushAll_append (er : ESIRange) (ps qs : List (Nat × Range)) :
    pushAll er (ps ++ qs) = pushAll (pushAll er ps) qs := by
  unfold pushAll
  rw [List.foldl_append]

theorem rangesLoop_source (bs : BlockingStructure) (inclusive : Bool) :
    ∀ (rl : RangeList) (er : ESIRange),
      (∀ r ∈ rl, r.Start ≤ r.End ∧ ∃ s e, bs.SourceSBN (toU64 r.Start) = some s ∧
        bs.SourceSBN (toU64 r.End) = some e ∧ e + 1 < 2 ^ 32) →
      rangesLoop bs true inclusive rl er =
        .ok (pushAll er (rl.flatMap (piecesOf bs inclusive))) := by
  intro rl
  induction rl with
  | nil => intro er _; rfl
  | cons r rest ih =>
    intro er h
    obtain ⟨hse, s, e, hs, he, hlt⟩ := h r (List.mem_cons_self _ _)
    have hrest := fun x hx => h x (List.mem_cons_of_mem _ hx)
    unfold rangesLoop
    rw [if_neg (by omega)]
    simp only [if_true, hs, he]
    rw [blockLoop_source bs inclusive r.Start r.End e hlt _ _ _ (by omega) (by omega)]
    simp only
    rw [ih _ hrest, List.flatMap_cons, pushAll_append]
    simp only [piecesOf, hs, he]

/-! ### The block that holds a byte -/

namespace BlockingStructure

theorem srcOffset_beyond (bs : BlockingStructure) {sbn : Nat} (h : bs.N ≤ sbn) :
    bs.SrcOffset sbn = bs.TransferLen := by
  unfold SrcOffset
  rw [if_pos h]

theorem Regular.blockSyms_pos {bs : BlockingStructure} (hr : Regular bs) (sbn : Nat) :
    0 < blockSyms bs sbn := by
  unfold blockSyms
  split
  · exact hr.a_pos
  · exact hr.as_pos

theorem Regular.srcOffset_lt_len {bs : BlockingStructure} (hr : Regular bs) {sbn : Nat}
    (h : sbn < bs.N) : bs.SrcOffset sbn < bs.TransferLen := by
  rw [hr.srcOffset_eq h]
  exact hr.mul_symOff_lt h

theorem Regular.srcOffset_mono {bs : BlockingStructure} (hr : Regular bs) {j k : Nat}
    (hjk : j ≤ k) : bs.SrcOffset j ≤ bs.SrcOffset k := by
  by_cases hk : k < bs.N
  · rw [hr.srcOffset_eq hk, hr.srcOffset_eq (show j < bs.N by omega)]
    exact Nat.mul_le_mul_left _ (symOff_mono bs hjk)
  · rw [srcOffset_beyond bs (show bs.N ≤ k by omega)]
    by_cases hj : j < bs.N
    · exact le_of_lt (hr.srcOffset_lt_len hj)
    · rw [srcOffset_beyond bs (show bs.N ≤ j by omega)]

theorem Regular.srcOffset_succ_gt {bs : BlockingStructure} (hr : Regular bs) {k : Nat}
    (h : k < bs.N) : bs.SrcOffset k < bs.SrcOffset (k + 1) := by
  by_cases hk : k + 1 < bs.N
  · rw [hr.srcOffset_eq hk, hr.srcOffset_eq h, symOff_succ]
    have := hr.blockSyms_pos k
    have := hr.es_pos
    rw [Nat.mul_add]
    have : 0 < bs.ESLen * blockSyms bs k := Nat.mul_pos hr.es_pos (hr.blockSyms_pos k)
    omega
  · rw [srcOffset_beyond bs (show bs.N ≤ k + 1 by omega)]
    exact hr.srcOffset_lt_len h

theorem Regular.srcOffset_dvd {bs : BlockingStructure} (hr : Regular bs) {k : Nat}
    (h : k < bs.N) : bs.ESLen ∣ bs.SrcOffset k := by
  rw [hr.srcOffset_eq h]
  exact Dvd.intro _ rfl

/-- `SourceSBN` maps a byte of the object to the block whose span holds it. -/
theorem Regular.sourceSBN_block {bs : BlockingStructure} (hr : Regular bs)
    (hN : 0 < bs.N) {off : Nat} (hoff : off < bs.TransferLen) :
    ∃ k, k < bs.N ∧ bs.SourceSBN off = some k ∧ bs.SrcOffset k ≤ off ∧
      off < bs.SrcOffset (k + 1) := by
  have hE := hr.es_pos
  have hA := hr.a_pos
  have hAS := hr.as_pos
  have hL := hr.len_lt
  have hNlt := hr.n_lt
  have hi : bs.I < 2 ^ 32 := by have := hr.i_le; omega
  have hAI : mul64 bs.A bs.I = bs.A * bs.I := by
    unfold mul64
    apply Nat.mod_eq_of_lt
    calc bs.A * bs.I < 2 ^ 32 * 2 ^ 32 := Nat.mul_lt_mul'' hr.a_lt hi
      _ = 2 ^ 64 := by norm_num
  have hsym : bs.ESLen * (off / bs.ESLen) ≤ off := Nat.mul_div_le off bs.ESLen
  have hsym2 : off < bs.ESLen * (off / bs.ESLen + 1) := Nat.lt_mul_div_succ off hE
  have hsymle : off / bs.ESLen ≤ off := Nat.div_le_self _ _
  -- the block `k` found holds symbol `off / ESLen`
  have key : ∀ k, k < bs.N → symOff bs k ≤ off / bs.ESLen →
      (k + 1 < bs.N → off / bs.ESLen < symOff bs (k + 1)) →
      bs.SrcOffset k ≤ off ∧ off < bs.SrcOffset (k + 1) := by
    intro k hk h1 h2
    constructor
    · rw [hr.srcOffset_eq hk]
      exact le_trans (Nat.mul_le_mul_left _ h1) hsym
    · by_cases hk1 : k + 1 < bs.N
      · rw [hr.srcOffset_eq hk1]
        have := h2 hk1
        exact lt_of_lt_of_le hsym2 (Nat.mul_le_mul_left _ (by omega))
      · rw [srcOffset_beyond bs (show bs.N ≤ k + 1 by omega)]
        exact hoff
  unfold SourceSBN
  rw [if_neg (by omega)]
  simp only [hAI]
  generalize off / bs.ESLen = sym at *
  by_cases hlarge : sym < bs.A * bs.I
  · have hk : sym / bs.A < bs.I := Nat.div_lt_of_lt_mul hlarge
    have hd1 : bs.A * (sym / bs.A) ≤ sym := Nat.mul_div_le _ _
    have hd2 := Nat.lt_mul_div_succ sym hA
    rw [Nat.mul_add] at hd2
    generalize sym / bs.A = k at *
    have hkN : k < bs.N := by have := hr.i_le; omega
    refine ⟨k, hkN, ?_, ?_⟩
    · simp only [hlarge, if_true, if_neg (show ¬ bs.A = 0 by omega), hkN]
      simp only [u32, Nat.mod_eq_of_lt (show k < 2 ^ 32 by omega)]
    · apply key _ hkN
      · unfold symOff
        rw [if_pos hk]
        exact hd1
      · intro _
        rw [symOff_succ]
        unfold symOff blockSyms
        rw [if_pos hk, if_pos hk]
        omega
  · have hge : bs.A * bs.I ≤ sym := by omega
    have hIle : bs.I ≤ bs.A * bs.I := Nat.le_mul_of_pos_left _ hA
    have hsub : sub64 sym (bs.A * bs.I) = sym - bs.A * bs.I := by
      unfold sub64
      rw [Nat.mod_eq_of_lt (show bs.A * bs.I < 2 ^ 64 by omega)]
      omega
    have hq : (sym - bs.A * bs.I) / bs.ASmall ≤ sym - bs.A * bs.I := Nat.div_le_self _ _
    have hq1 : bs.ASmall * ((sym - bs.A * bs.I) / bs.ASmall) ≤ sym - bs.A * bs.I :=
      Nat.mul_div_le _ _
    have hq2 := Nat.lt_mul_div_succ (sym - bs.A * bs.I) hAS
    rw [Nat.mul_add] at hq2
    simp only [hlarge, if_false, if_neg (show ¬ bs.ASmall = 0 by omega), hsub]
    generalize (sym - bs.A * bs.I) / bs.ASmall = q at *
    have hadd : add64 q bs.I = q + bs.I := by
      unfold add64
      exact Nat.mod_eq_of_lt (by omega)
    have hsymk : symOff bs (q + bs.I) = bs.A * bs.I + bs.ASmall * q := by
      unfold symOff
      rw [if_neg (by omega), Nat.add_sub_cancel, Nat.mul_comm bs.I bs.A,
        Nat.mul_comm q bs.ASmall]
    rw [hadd]
    by_cases hkN : q + bs.I < bs.N
    · refine ⟨q + bs.I, hkN, ?_, ?_⟩
      · simp only [hkN, if_true]
        simp only [u32, Nat.mod_eq_of_lt (show q + bs.I < 2 ^ 32 by omega)]
      · apply key _ hkN
        · rw [hsymk]
          omega
        · intro _
          rw [symOff_succ, hsymk]
          unfold blockSyms
          rw [if_neg (by omega)]
          omega
    · have hs32 : sub32 bs.N 1 = bs.N - 1 := by
        unfold sub32
        omega
      refine ⟨bs.N - 1, by omega, ?_, ?_⟩
      · simp only [hkN, if_false, hs32]
      · apply key _ (by omega)
        · have h1 := symOff_mono bs (show bs.N - 1 ≤ q + bs.I by omega)
          rw [hsymk] at h1
          omega
        · intro h; omega

end BlockingStructure

/-! ### The ESI range of a block and its byte range -/

theorem i64_of_lt {n : Nat} (h : n < 2 ^ 63) : i64 n = (n : Int) := by
  unfold i64
  exact wrap64_of_bounds (by omega) (by omega)

theorem toU64_of_nonneg {x : Int} (h0 : 0 ≤ x) (h1 : x < 2 ^ 64) : toU64 x = x.toNat := by
  unfold toU64
  rw [Int.emod_eq_of_lt h0 h1]

/-- The ESI range computed for a block: when the part of `[a, b]` inside the
block `[lo, hi]` starts `u` symbols and ends `w` symbols after `lo`, the range
is `[u, w - 1]`. -/
theorem pieceAt_eq (bs : BlockingStructure) (inclusive : Bool) (a b : Int) (k : Nat)
    (lo hi u w : Int)
    (hlo : i64 (bs.SrcOffset k) = lo)
    (hhi : i64 (sub64 (bs.SrcOffset (add32 k 1)) 1) = hi)
    (hE : 0 < bs.ESLen)
    (hu : max a lo - lo = bs.ESLen * u) (hw : min b hi - lo + 1 = bs.ESLen * w)
    (h0 : 0 ≤ u) (huw : u < w) (hb : (bs.ESLen : Int) * w < 2 ^ 63) :
    pieceAt bs inclusive a b k = ⟨u, w - 1⟩ := by
  have hEi : (0 : Int) < bs.ESLen := by exact_mod_cast hE
  have hEne : (bs.ESLen : Int) ≠ 0 := by omega
  have hEu : (bs.ESLen : Int) * u ≤ bs.ESLen * w :=
    Int.mul_le_mul_of_nonneg_left (le_of_lt huw) (le_of_lt hEi)
  have hEu0 : 0 ≤ (bs.ESLen : Int) * u := Int.mul_nonneg (le_of_lt hEi) h0
  have hw1 : w ≤ (bs.ESLen : Int) * w := by
    have := Int.mul_le_mul_of_nonneg_right (show (1 : Int) ≤ bs.ESLen by omega)
      (show 0 ≤ w by omega)
    omega
  have e1 : wrap64 (max a lo - lo) = bs.ESLen * u := by
    rw [hu]; exact wrap64_of_bounds (by omega) (by omega)
  have e2 : wrap64 (min b hi - lo) = bs.ESLen * w - 1 := by
    have : min b hi - lo = bs.ESLen * w - 1 := by omega
    rw [this]; exact wrap64_of_bounds (by omega) (by omega)
  have e3 : wrap64 ((bs.ESLen : Int) * w - 1 - bs.ESLen * u + 1) = bs.ESLen * (w - u) := by
    have : (bs.ESLen : Int) * w - 1 - bs.ESLen * u + 1 = bs.ESLen * (w - u) := by ring
    rw [this]
    have h3 : (bs.ESLen : Int) * (w - u) = bs.ESLen * w - bs.ESLen * u := by ring
    exact wrap64_of_bounds (by omega) (by omega)
  have e4 : ((bs.ESLen : Int) * u).tdiv bs.ESLen = u := Int.mul_tdiv_cancel_left _ hEne
  have e5 : ((bs.ESLen : Int) * (w - u)).tdiv bs.ESLen = w - u :=
    Int.mul_tdiv_cancel_left _ hEne
  have e6 : ((bs.ESLen : Int) * (w - u)).tmod bs.ESLen = 0 := Int.mul_tmod_right _ _
  have e7 : wrap64 (u + (w - u) - 1) = w - 1 := by
    have : u + (w - u) - 1 = w - 1 := by ring
    rw [this]; exact wrap64_of_bounds (by omega) (by omega)
  unfold pieceAt esiPiece
  simp only [if_true, hlo, hhi, e1, e2, e3, e4, e5, e6, e7, ne_eq, not_true_eq_false,
    false_and, if_false, Option.getD_some]

/-- The byte range `ToRangeList` computes for the ESI range `[u, w - 1]` of a
block that starts at byte `lo`. -/
theorem byteImage_eq (bs : BlockingStructure) (k : Nat) (lo u w : Int)
    (hlo : i64 (bs.SrcOffset k) = lo) (hE : 0 < bs.ESLen) (hlo0 : 0 ≤ lo)
    (h0 : 0 ≤ u) (huw : u < w) (hw : w < 2 ^ 63) (hb : lo + w * bs.ESLen ≤ 2 ^ 63) :
    byteImage bs (k, ⟨u, w - 1⟩) = ⟨lo + u * bs.ESLen, lo + w * bs.ESLen - 1⟩ := by
  have hEi : (0 : Int) < bs.ESLen := by exact_mod_cast hE
  have hEu : u * (bs.ESLen : Int) + bs.ESLen ≤ w * bs.ESLen := by
    have := Int.mul_le_mul_of_nonneg_right (show u + 1 ≤ w by omega) (le_of_lt hEi)
    rw [Int.add_mul, Int.one_mul] at this
    exact this
  have hEu0 : 0 ≤ u * (bs.ESLen : Int) := Int.mul_nonneg h0 (le_of_lt hEi)
  have e1 : wrap64 (w - 1 + 1) = w := by
    have : w - 1 + 1 = w := by ring
    rw [this]; exact wrap64_of_bounds (by omega) (by omega)
  show (⟨wrap64 (i64 (bs.SrcOffset k) + u * bs.ESLen),
      wrap64 (i64 (bs.SrcOffset k) + wrap64 (w - 1 + 1) * bs.ESLen - 1)⟩ : Range) = _
  rw [hlo, e1, wrap64_of_bounds (by omega) (by omega),
    wrap64_of_bounds (by omega) (by omega)]

/-! ### The pieces of one byte range -/

theorem BlockingStructure.Regular.block_bytes_le {bs : BlockingStructure}
    (hr : Regular bs) {j : Nat} (h : j < bs.N) :
    bs.SrcOffset (j + 1) ≤ bs.SrcOffset j + bs.ESLen * blockSyms bs j := by
  rw [hr.srcOffset_eq h]
  by_cases hj : j + 1 < bs.N
  · rw [hr.srcOffset_eq hj, symOff_succ, Nat.mul_add]
  · rw [srcOffset_beyond bs (show bs.N ≤ j + 1 by omega)]
    have hj' : j = bs.N - 1 := by omega
    have h1 := hr.len_le (by omega)
    have h2 := hr.last_ge (by omega)
    rw [← hj'] at h2
    have h3 := Nat.mul_le_mul_left bs.ESLen h2
    rw [Nat.mul_add] at h3
    omega

theorem BlockingStructure.Regular.blockSyms_lt {bs : BlockingStructure}
    (hr : Regular bs) (j : Nat) : blockSyms bs j < 2 ^ 32 := by
  unfold blockSyms
  split
  · exact hr.a_lt
  · exact hr.as_lt

theorem sub64_one {a : Nat} (h1 : 0 < a) (h2 : a < 2 ^ 64) : sub64 a 1 = a - 1 := by
  unfold sub64
  omega

/-- The range appended for block `j` and its byte range: the part of `[a, b]`
inside the block. -/
theorem piece_facts {bs : BlockingStructure} (hs : SourceOk bs) (inclusive : Bool)
    {a b : Int} {j : Nat} (ha0 : 0 ≤ a) (hab : a ≤ b) (hbL : b < bs.TransferLen)
    (hda : (bs.ESLen : Int) ∣ a) (hdb : (bs.ESLen : Int) ∣ b + 1)
    (hj : j < bs.N) (h1 : (bs.SrcOffset j : Int) ≤ b)
    (h2 : a < (bs.SrcOffset (j + 1) : Int)) :
    ∃ u w : Int, pieceAt bs inclusive a b j = ⟨u, w - 1⟩ ∧ u < w ∧
      byteImage bs (j, ⟨u, w - 1⟩) = clip bs a b j ∧
      (bs.SrcOffset j : Int) + u * bs.ESLen = max a (bs.SrcOffset j) ∧
      (bs.SrcOffset j : Int) + w * bs.ESLen
        = min b ((bs.SrcOffset (j + 1) : Int) - 1) + 1 := by
  have hr := hs.reg
  have hE := hr.es_pos
  have hEi : (0 : Int) < bs.ESLen := by exact_mod_cast hE
  have hlt := hr.srcOffset_succ_gt hj
  have hle : bs.SrcOffset (j + 1) ≤ bs.TransferLen := by
    have := hr.srcOffset_mono (show j + 1 ≤ bs.N by omega)
    rw [srcOffset_beyond bs (le_refl _)] at this
    exact this
  have hL63 := hs.len63
  have hNlt := hr.n_lt
  have hbytes := hr.block_bytes_le hj
  have hsyms := hr.blockSyms_lt j
  have hEs := hr.es_lt
  have h48 : bs.ESLen * blockSyms bs j < 2 ^ 48 := by
    calc bs.ESLen * blockSyms bs j < 2 ^ 16 * 2 ^ 32 := Nat.mul_lt_mul'' hEs hsyms
      _ = 2 ^ 48 := by norm_num
  obtain ⟨σ, hσ⟩ := hr.srcOffset_dvd hj
  obtain ⟨α, hα⟩ := hda
  obtain ⟨β, hβ⟩ := hdb
  have hσi : (bs.SrcOffset j : Int) = bs.ESLen * σ := by exact_mod_cast hσ
  obtain ⟨u, hu⟩ : ∃ u : Int, max a (bs.SrcOffset j) - bs.SrcOffset j = bs.ESLen * u := by
    rcases le_total a (bs.SrcOffset j : Int) with h | h
    · exact ⟨0, by rw [max_eq_right h]; ring⟩
    · refine ⟨α - σ, ?_⟩
      rw [max_eq_left h, Int.mul_sub, ← hα, ← hσi]
  obtain ⟨w, hw⟩ : ∃ w : Int,
      min b ((bs.SrcOffset (j + 1) : Int) - 1) - bs.SrcOffset j + 1 = bs.ESLen * w := by
    rcases le_or_lt b ((bs.SrcOffset (j + 1) : Int) - 1) with h | h
    · refine ⟨β - σ, ?_⟩
      rw [min_eq_left h, Int.mul_sub, ← hβ, ← hσi]
      ring
    · have hj1 : j + 1 < bs.N := by
        by_contra hcon
        rw [srcOffset_beyond bs (show bs.N ≤ j + 1 by omega)] at h
        omega
      obtain ⟨σ1, hσ1⟩ := hr.srcOffset_dvd hj1
      have hσ1i : (bs.SrcOffset (j + 1) : Int) = bs.ESLen * σ1 := by exact_mod_cast hσ1
      refine ⟨σ1 - σ, ?_⟩
      rw [min_eq_right (le_of_lt h), Int.mul_sub, ← hσ1i, ← hσi]
      ring
  have hltI : (bs.SrcOffset j : Int) < bs.SrcOffset (j + 1) := by exact_mod_cast hlt
  have hleI : (bs.SrcOffset (j + 1) : Int) ≤ bs.TransferLen := by exact_mod_cast hle
  have hbytesI : (bs.SrcOffset (j + 1) : Int)
      ≤ bs.SrcOffset j + ((bs.ESLen * blockSyms bs j : Nat) : Int) := by
    exact_mod_cast hbytes
  have h48I : ((bs.ESLen * blockSyms bs j : Nat) : Int) < 2 ^ 48 := by exact_mod_cast h48
  have hL63I : (bs.TransferLen : Int) ≤ 2 ^ 63 := by exact_mod_cast hL63
  have hu0 : 0 ≤ u := by
    have h3 : (bs.ESLen : Int) * 0 ≤ bs.ESLen * u := by
      rw [← hu, Int.mul_zero]
      omega
    exact le_of_mul_le_mul_left h3 hEi
  have huw : u < w := by
    have h3 : (bs.ESLen : Int) * u < bs.ESLen * w := by
      rw [← hu, ← hw]
      omega
    exact lt_of_mul_lt_mul_left h3 (le_of_lt hEi)
  have hww : w ≤ (bs.ESLen : Int) * w := by
    have := Int.mul_le_mul_of_nonneg_right (show (1 : Int) ≤ bs.ESLen by omega)
      (show 0 ≤ w by omega)
    omega
  have hEw : (bs.ESLen : Int) * w < 2 ^ 63 := by
    rw [← hw]
    omega
  have hlo63 : bs.SrcOffset j < 2 ^ 63 := by omega
  have hpos : 1 ≤ bs.SrcOffset (j + 1) := by omega
  have hhi64 : bs.SrcOffset (j + 1) < 2 ^ 64 := by omega
  have hhi63 : bs.SrcOffset (j + 1) - 1 < 2 ^ 63 := by omega
  have hj32 : j + 1 < 2 ^ 32 := by omega
  have hlo0 : (0 : Int) ≤ bs.SrcOffset j := by omega
  have hw63 : w < 2 ^ 63 := by omega
  have hb63 : (bs.SrcOffset j : Int) + w * bs.ESLen ≤ 2 ^ 63 := by
    rw [Int.mul_comm]
    omega
  have hlo : i64 (bs.SrcOffset j) = (bs.SrcOffset j : Int) := i64_of_lt hlo63
  have hadd : add32 j 1 = j + 1 := add32_succ hj32
  have hsub : sub64 (bs.SrcOffset (j + 1)) 1 = bs.SrcOffset (j + 1) - 1 :=
    sub64_one hpos hhi64
  have hhi : i64 (sub64 (bs.SrcOffset (add32 j 1)) 1) = (bs.SrcOffset (j + 1) : Int) - 1 := by
    rw [hadd, hsub, i64_of_lt hhi63, Nat.cast_sub hpos, Nat.cast_one]
  refine ⟨u, w, pieceAt_eq bs inclusive a b j _ _ u w hlo hhi hE hu hw hu0 huw hEw, huw, ?_,
    ?_, ?_⟩
  · rw [byteImage_eq bs j _ u w hlo hE hlo0 hu0 huw hw63 hb63]
    unfold clip
    rw [Int.mul_comm u, Int.mul_comm w, ← hu, ← hw]
    refine congrArg₂ Range.mk ?_ ?_
    · ring
    · ring
  · rw [Int.mul_comm, ← hu]; ring
  · rw [Int.mul_comm, ← hw]; ring

/-! ### ToRangeList on source symbols -/

theorem appendESI_source (bs : BlockingStructure) (offset k : Int) (rl : RangeList)
    (x : Range) :
    appendESI bs true offset k rl x =
      rl ++ [⟨wrap64 (offset + x.Start * bs.ESLen),
              wrap64 (offset + wrap64 (x.End + 1) * bs.ESLen - 1)⟩] := by
  unfold appendESI
  simp

theorem foldl_appendESI_source (bs : BlockingStructure) (offset k : Int) (r : RangeList) :
    r.foldl (appendESI bs true offset k) [] =
      r.map (fun x => (⟨wrap64 (offset + x.Start * bs.ESLen),
              wrap64 (offset + wrap64 (x.End + 1) * bs.ESLen - 1)⟩ : Range)) := by
  induction r with
  | nil => rfl
  | cons x xs ih =>
    rw [List.foldl_cons, foldl_appendESI, ih, appendESI_source]
    rfl

theorem blockBytes_source (bs : BlockingStructure) (k : Nat) (v : RangeList) (hv : v ≠ []) :
    blockBytes bs true (k, v) = v.map (fun p => byteImage bs (k, p)) := by
  obtain ⟨n, hn⟩ := numSrcSym_total bs k
  have hlen : v.length > 0 := List.length_pos.mpr hv
  unfold blockBytes appendBlock
  simp only [hn, if_pos hlen, if_true, Option.getD_some]
  rw [foldl_appendESI_source]
  rfl

theorem flatMap_blockBytes_source (bs : BlockingStructure) (l : List (Nat × RangeList))
    (h : ∀ e ∈ l, e.2 ≠ []) :
    l.flatMap (blockBytes bs true) = (keyed l).map (byteImage bs) := by
  induction l with
  | nil => rfl
  | cons e rest ih =>
    obtain ⟨k, v⟩ := e
    unfold keyed at ih ⊢
    rw [List.flatMap_cons, List.flatMap_cons, List.map_append,
      blockBytes_source bs k v (h (k, v) (List.mem_cons_self _ _)),
      ih (fun e he => h e (List.mem_cons_of_mem _ he)), List.map_map]
    rfl

/-! ### The blocks of one byte range -/

theorem range_blocks {bs : BlockingStructure} (hs : SourceOk bs) {r : Range}
    (hal : Aligned bs r) :
    ∃ k1 k2, bs.SourceSBN (toU64 r.Start) = some k1 ∧ bs.SourceSBN (toU64 r.End) = some k2 ∧
      k1 ≤ k2 ∧ k2 < bs.N ∧
      (bs.SrcOffset k1 : Int) ≤ r.Start ∧ r.Start < (bs.SrcOffset (k1 + 1) : Int) ∧
      (bs.SrcOffset k2 : Int) ≤ r.End ∧ r.End < (bs.SrcOffset (k2 + 1) : Int) := by
  obtain ⟨h0, hab, hbL, -, -⟩ := hal
  have hL63 := hs.len63
  have ha64 : r.Start < 2 ^ 64 := by omega
  have hb64 : r.End < 2 ^ 64 := by omega
  have haL : r.Start.toNat < bs.TransferLen := by omega
  have hbL1 : r.End.toNat < bs.TransferLen := by omega
  obtain ⟨k1, hk1, hs1, hlo1, hhi1⟩ := hs.reg.sourceSBN_block hs.n_pos haL
  obtain ⟨k2, hk2, hs2, hlo2, hhi2⟩ := hs.reg.sourceSBN_block hs.n_pos hbL1
  have hle : k1 ≤ k2 := by
    by_contra hcon
    have := hs.reg.srcOffset_mono (show k2 + 1 ≤ k1 by omega)
    omega
  refine ⟨k1, k2, ?_, ?_, hle, hk2, by omega, by omega, by omega, by omega⟩
  · rw [toU64_of_nonneg h0 ha64]
    exact hs1
  · rw [toU64_of_nonneg (by omega) hb64]
    exact hs2

theorem piecesOf_eq {bs : BlockingStructure} (hs : SourceOk bs) (inclusive : Bool)
    {r : Range} (hal : Aligned bs r) :
    ∃ k1 k2, k1 ≤ k2 ∧ k2 < bs.N ∧
      (bs.SrcOffset k1 : Int) ≤ r.Start ∧ r.Start < (bs.SrcOffset (k1 + 1) : Int) ∧
      (bs.SrcOffset k2 : Int) ≤ r.End ∧ r.End < (bs.SrcOffset (k2 + 1) : Int) ∧
      piecesOf bs inclusive r = (List.range' k1 (k2 + 1 - k1)).map
        (fun j => (j, pieceAt bs inclusive r.Start r.End j)) := by
  obtain ⟨k1, k2, h1, h2, hle, hk2, ha1, ha2, hb1, hb2⟩ := range_blocks hs hal
  refine ⟨k1, k2, hle, hk2, ha1, ha2, hb1, hb2, ?_⟩
  unfold piecesOf
  rw [h1, h2]

/-- Block `j` between the blocks of the two ends of `r`: its entry. -/
theorem pieceAt_facts {bs : BlockingStructure} (hs : SourceOk bs) (inclusive : Bool)
    {r : Range} (hal : Aligned bs r) {k1 k2 j : Nat} (hk2 : k2 < bs.N)
    (ha2 : r.Start < (bs.SrcOffset (k1 + 1) : Int)) (hb1 : (bs.SrcOffset k2 : Int) ≤ r.End)
    (hj1 : k1 ≤ j) (hj2 : j ≤ k2) :
    PieceOf bs r (j, pieceAt bs inclusive r.Start r.End j) := by
  obtain ⟨h0, hab, hbL, hda, hdb⟩ := hal
  have m1 := hs.reg.srcOffset_mono hj2
  have m2 := hs.reg.srcOffset_mono (show k1 + 1 ≤ j + 1 by omega)
  have hjN : j < bs.N := by omega
  have g1 : (bs.SrcOffset j : Int) ≤ r.End := by omega
  have g2 : r.Start < (bs.SrcOffset (j + 1) : Int) := by omega
  obtain ⟨u, w, hp, huw, himg, e1, e2⟩ :=
    piece_facts hs inclusive h0 hab hbL hda hdb hjN g1 g2
  rw [hp]
  refine ⟨hjN, g1, g2, ?_, himg, e1, ?_⟩
  · show u ≤ w - 1
    omega
  · show (bs.SrcOffset j : Int) + (w - 1 + 1) * bs.ESLen = _
    rw [← e2]
    ring

theorem piecesOf_facts {bs : BlockingStructure} (hs : SourceOk bs) (inclusive : Bool)
    {r : Range} (hal : Aligned bs r) :
    ∀ x ∈ piecesOf bs inclusive r, PieceOf bs r x := by
  obtain ⟨k1, k2, hle, hk2, ha1, ha2, hb1, hb2, heq⟩ := piecesOf_eq hs inclusive hal
  intro x hx
  rw [heq, List.mem_map] at hx
  obtain ⟨j, hj, rfl⟩ := hx
  rw [List.mem_range'_1] at hj
  exact pieceAt_facts hs inclusive hal hk2 ha2 hb1 hj.1 (by omega)

/-- The byte range of an entry lies inside the range it was made for and is
not empty. -/
theorem PieceOf.image {bs : BlockingStructure} {r : Range} {x : Nat × Range}
    (h : PieceOf bs r x) (hs : SourceOk bs) (hab : r.Start ≤ r.End) :
    (byteImage bs x).Start = max r.Start (bs.SrcOffset x.1) ∧
    (byteImage bs x).End = min r.End ((bs.SrcOffset (x.1 + 1) : Int) - 1) ∧
    r.Start ≤ (byteImage bs x).Start ∧ (byteImage bs x).Start ≤ (byteImage bs x).End ∧
    (byteImage bs x).End ≤ r.End := by
  obtain ⟨hN, g1, g2, -, himg, -, -⟩ := h
  have hlt := hs.reg.srcOffset_succ_gt hN
  have hltI : (bs.SrcOffset x.1 : Int) < bs.SrcOffset (x.1 + 1) := by exact_mod_cast hlt
  rw [himg]
  exact ⟨rfl, rfl, le_max_left _ _,
    le_min (max_le hab g1) (max_le (by omega) (by omega)), min_le_left _ _⟩

/-! ### The entries of a canonical list, in order -/

theorem ordered_same_range {bs : BlockingStructure} (hs : SourceOk bs) {r : Range}
    (hab : r.Start ≤ r.End) {x y : Nat × Range} (hx : PieceOf bs r x) (hy : PieceOf bs r y)
    (hlt : x.1 < y.1) : Ordered bs x y := by
  have ix := hx.image hs hab
  have iy := hy.image hs hab
  have m := hs.reg.srcOffset_mono (show x.1 + 1 ≤ y.1 by omega)
  have mI : (bs.SrcOffset (x.1 + 1) : Int) ≤ bs.SrcOffset y.1 := by exact_mod_cast m
  refine ⟨?_, fun h => absurd h (by omega)⟩
  rw [ix.2.1, iy.1]
  exact lt_of_le_of_lt (min_le_right _ _)
    (lt_of_lt_of_le (by omega) (le_max_right _ _))

theorem ordered_next_range {bs : BlockingStructure} (hs : SourceOk bs) {r r1 : Range}
    (hab : r.Start ≤ r.End) (hab1 : r1.Start ≤ r1.End) (hgap : r.End + 1 < r1.Start)
    {x y : Nat × Range} (hx : PieceOf bs r x) (hy : PieceOf bs r1 y) : Ordered bs x y := by
  have ix := hx.image hs hab
  have iy := hy.image hs hab1
  have hEi : (0 : Int) < bs.ESLen := by exact_mod_cast hs.reg.es_pos
  refine ⟨by omega, fun hk => ?_⟩
  obtain ⟨-, -, -, -, -, -, ex⟩ := hx
  obtain ⟨-, -, -, -, -, ey, -⟩ := hy
  rw [← hk] at ey
  have h1 : min r.End ((bs.SrcOffset (x.1 + 1) : Int) - 1) ≤ r.End := min_le_left _ _
  have h2 : r1.Start ≤ max r1.Start (bs.SrcOffset x.1 : Int) := le_max_left _ _
  have h3 : (x.2.End + 1) * (bs.ESLen : Int) < y.2.Start * bs.ESLen := by omega
  exact lt_of_mul_lt_mul_right h3 (le_of_lt hEi)

theorem pieces_same_range {bs : BlockingStructure} (hs : SourceOk bs) (inclusive : Bool)
    {r : Range} (hal : Aligned bs r) : (piecesOf bs inclusive r).Pairwise (Ordered bs) := by
  obtain ⟨k1, k2, hle, hk2, ha1, ha2, hb1, hb2, heq⟩ := piecesOf_eq hs inclusive hal
  rw [heq, List.pairwise_map]
  refine (List.pairwise_lt_range' k1 (k2 + 1 - k1)).imp_of_mem ?_
  intro i j hi hj hij
  rw [List.mem_range'_1] at hi hj
  exact ordered_same_range hs hal.2.1
    (pieceAt_facts hs inclusive hal hk2 ha2 hb1 hi.1 (by omega))
    (pieceAt_facts hs inclusive hal hk2 ha2 hb1 hj.1 (by omega)) hij

theorem pieces_ordered {bs : BlockingStructure} (hs : SourceOk bs) (inclusive : Bool)
    {rl : RangeList} (hcan : Canon rl) (hal : ∀ r ∈ rl, Aligned bs r) :
    (rl.flatMap (piecesOf bs inclusive)).Pairwise (Ordered bs) := by
  rw [List.pairwise_flatMap]
  refine ⟨fun r hr => pieces_same_range hs inclusive (hal r hr), ?_⟩
  refine hcan.2.imp_of_mem ?_
  intro r r1 hr hr1 hgap x hx y hy
  exact ordered_next_range hs (hal r hr).2.1 (hal r1 hr1).2.1 hgap
    (piecesOf_facts hs inclusive (hal r hr) x hx)
    (piecesOf_facts hs inclusive (hal r1 hr1) y hy)

theorem pieces_nonempty {bs : BlockingStructure} (hs : SourceOk bs) (inclusive : Bool)
    {rl : RangeList} (hal : ∀ r ∈ rl, Aligned bs r) :
    ∀ x ∈ rl.flatMap (piecesOf bs inclusive),
      x.2.Start ≤ x.2.End ∧ (byteImage bs x).Start ≤ (byteImage bs x).End := by
  intro x hx
  rw [List.mem_flatMap] at hx
  obtain ⟨r, hr, hxr⟩ := hx
  have hp := piecesOf_facts hs inclusive (hal r hr) x hxr
  exact ⟨hp.2.2.2.1, (hp.image hs (hal r hr).2.1).2.2.2.1⟩

/-- The ESI ranges and the byte ranges of the entries are `int64` values. -/
theorem pieces_int64 {bs : BlockingStructure} (hs : SourceOk bs) (inclusive : Bool)
    {rl : RangeList} (hal : ∀ r ∈ rl, Aligned bs r) :
    ∀ x ∈ rl.flatMap (piecesOf bs inclusive),
      (0 ≤ x.2.Start ∧ x.2.End < 2 ^ 63) ∧
      (0 ≤ (byteImage bs x).Start ∧ (byteImage bs x).End < 2 ^ 63) := by
  intro x hx
  rw [List.mem_flatMap] at hx
  obtain ⟨r, hr, hxr⟩ := hx
  have hp := piecesOf_facts hs inclusive (hal r hr) x hxr
  obtain ⟨h0, hab, hbL, -, -⟩ := hal r hr
  have him := hp.image hs hab
  obtain ⟨-, -, -, -, -, e1, e2⟩ := hp
  have hE : (0 : Int) < bs.ESLen := by exact_mod_cast hs.reg.es_pos
  have hL : (bs.TransferLen : Int) ≤ 2 ^ 63 := by exact_mod_cast hs.len63
  have hoff : (0 : Int) ≤ bs.SrcOffset x.1 := Int.natCast_nonneg _
  have h1 : 0 ≤ x.2.Start * (bs.ESLen : Int) := by
    have := le_max_right r.Start (bs.SrcOffset x.1 : Int)
    omega
  have h2 : (x.2.End + 1) * (bs.ESLen : Int) ≤ 2 ^ 63 := by
    have := min_le_left r.End ((bs.SrcOffset (x.1 + 1) : Int) - 1)
    omega
  refine ⟨⟨?_, ?_⟩, ?_, ?_⟩
  · by_contra hneg
    have : x.2.Start * (bs.ESLen : Int) < 0 :=
      Int.mul_neg_of_neg_of_pos (by omega) hE
    omega
  · by_contra hbig
    have : (2 : Int) ^ 63 + 1 ≤ (x.2.End + 1) * (bs.ESLen : Int) := by
      calc (2 : Int) ^ 63 + 1 ≤ (x.2.End + 1) * 1 := by omega
        _ ≤ (x.2.End + 1) * (bs.ESLen : Int) :=
          Int.mul_le_mul_of_nonneg_left (by omega) (by omega)
    omega
  · omega
  · omega

/-- The byte ranges of the entries cover what the list covers. -/
theorem covers_pieces {bs : BlockingStructure} (hs : SourceOk bs) (inclusive : Bool)
    {rl : RangeList} (hal : ∀ r ∈ rl, Aligned bs r) (t : Int) :
    Covers ((rl.flatMap (piecesOf bs inclusive)).map (byteImage bs)) t ↔ Covers rl t := by
  constructor
  · rintro ⟨q, hq, h1, h2⟩
    rw [List.mem_map] at hq
    obtain ⟨x, hx, rfl⟩ := hq
    rw [List.mem_flatMap] at hx
    obtain ⟨r, hr, hxr⟩ := hx
    have ix := (piecesOf_facts hs inclusive (hal r hr) x hxr).image hs (hal r hr).2.1
    exact ⟨r, hr, by omega, by omega⟩
  · rintro ⟨r, hr, h1, h2⟩
    have har := hal r hr
    obtain ⟨k1, k2, hle, hk2, ha1, ha2, hb1, hb2, heq⟩ := piecesOf_eq hs inclusive har
    obtain ⟨h0, hab, hbL, -, -⟩ := har
    have htL : t.toNat < bs.TransferLen := by omega
    obtain ⟨j, hj, -, hlo, hhi⟩ := hs.reg.sourceSBN_block hs.n_pos htL
    have hj1 : k1 ≤ j := by
      by_contra hcon
      have := hs.reg.srcOffset_mono (show j + 1 ≤ k1 by omega)
      omega
    have hj2 : j ≤ k2 := by
      by_contra hcon
      have := hs.reg.srcOffset_mono (show k2 + 1 ≤ j by omega)
      omega
    have g1 : (bs.SrcOffset j : Int) ≤ t := by omega
    have g2 : t ≤ (bs.SrcOffset (j + 1) : Int) - 1 := by omega
    have hp := pieceAt_facts hs inclusive (hal r hr) hk2 ha2 hb1 hj1 hj2
    have ix := hp.image hs hab
    refine ⟨byteImage bs (j, pieceAt bs inclusive r.Start r.End j), ?_, ?_, ?_⟩
    · rw [List.mem_map]
      refine ⟨_, ?_, rfl⟩
      rw [List.mem_flatMap]
      refine ⟨r, hr, ?_⟩
      rw [heq, List.mem_map]
      exact ⟨j, by rw [List.mem_range'_1]; omega, rfl⟩
    · rw [ix.1]
      exact max_le h1 g1
    · rw [ix.2.1]
      exact le_min h2 g2

/-! ### ESIRangeFromRangeList followed by ToRangeList -/

/-- The lists of the map built from ordered entries are canonical. -/
theorem pushAll_lists_canon {bs : BlockingStructure} {ps : List (Nat × Range)}
    (hp : ps.Pairwise (Ordered bs)) (hne : ∀ x ∈ ps, x.2.Start ≤ x.2.End) :
    ∀ e ∈ (pushAll ESIRange.empty ps).entries, Canon e.2 ∧ e.2 ≠ [] := by
  rintro ⟨k, v⟩ he
  obtain ⟨hv, hnil⟩ := mem_pushAll_empty ps k v he
  refine ⟨⟨?_, ?_⟩, hnil⟩
  · intro r hr
    change r ∈ v at hr
    rw [hv, List.mem_map] at hr
    obtain ⟨x, hx, rfl⟩ := hr
    exact hne x (List.mem_of_mem_filter hx)
  · change v.Pairwise _
    rw [hv, List.pairwise_map]
    refine (hp.filter _).imp_of_mem ?_
    intro a b ha hb hab
    rw [List.mem_filter, decide_eq_true_eq] at ha hb
    exact hab.2 (ha.2.trans hb.2.symm)

theorem esiRangeFromRangeList_source {bs : BlockingStructure} (hs : SourceOk bs)
    (inclusive : Bool) {rl : RangeList} (hcan : Canon rl) (hal : ∀ r ∈ rl, Aligned bs r) :
    ESIRangeFromRangeList (some bs) rl true inclusive =
      .ok (pushAll ESIRange.empty (rl.flatMap (piecesOf bs inclusive))) := by
  have hE : bs.ESLen ≠ 0 := Nat.pos_iff_ne_zero.mp hs.reg.es_pos
  have hN := hs.reg.n_lt
  have hloop := rangesLoop_source bs inclusive rl ESIRange.empty (by
    intro r hr
    obtain ⟨k1, k2, h1, h2, -, hk2, -⟩ := range_blocks hs (hal r hr)
    exact ⟨(hal r hr).2.1, k1, k2, h1, h2, by omega⟩)
  have hcanon := pushAll_lists_canon (pieces_ordered hs inclusive hcan hal)
    (fun x hx => (pieces_nonempty hs inclusive hal x hx).1)
  unfold ESIRangeFromRangeList
  simp only [if_neg hE, hloop]
  have h64 : ∀ e ∈ (pushAll ESIRange.empty (rl.flatMap (piecesOf bs inclusive))).entries,
      Int64 e.2 := by
    rintro ⟨k, v⟩ he
    obtain ⟨hv, -⟩ := mem_pushAll_empty _ k v he
    refine int64_of_bounds (hcanon _ he).1.1 (fun p hp => ?_)
    change p ∈ v at hp
    rw [hv, List.mem_map] at hp
    obtain ⟨x, hx, rfl⟩ := hp
    have := (pieces_int64 hs inclusive hal x (List.mem_of_mem_filter hx)).1
    omega
  have hmap : (pushAll ESIRange.empty (rl.flatMap (piecesOf bs inclusive))).entries.map
      (fun kv => (kv.1, flatten kv.2))
      = (pushAll ESIRange.empty (rl.flatMap (piecesOf bs inclusive))).entries := by
    rw [List.map_congr_left (g := id) (fun e he => by
      rw [flatten_canon e.2 (hcanon e he).1 (h64 e he)]; rfl), List.map_id]
  rw [hmap]

/-- Round trip on source symbols: the conversion succeeds and `ToRangeList`
gives the list back, in whatever order the map is visited. -/
theorem roundtrip_source {bs : BlockingStructure} (hs : SourceOk bs) (inclusive : Bool)
    {rl : RangeList} (hcan : Canon rl) (hal : ∀ r ∈ rl, Aligned bs r) :
    ∃ er, ESIRangeFromRangeList (some bs) rl true inclusive = .ok er ∧
      ∀ er1 : ESIRange, er1.entries.Perm er.entries →
        er1.ToRangeList bs true = some rl := by
  have hord := pieces_ordered hs inclusive hcan hal
  have hne := pieces_nonempty hs inclusive hal
  have hcanon := pushAll_lists_canon hord (fun x hx => (hne x hx).1)
  refine ⟨_, esiRangeFromRangeList_source hs inclusive hcan hal, ?_⟩
  intro er1 hperm
  have hl : ((pushAll ESIRange.empty (rl.flatMap (piecesOf bs inclusive))).entries.flatMap
      (blockBytes bs true)).Perm ((rl.flatMap (piecesOf bs inclusive)).map (byteImage bs)) := by
    rw [flatMap_blockBytes_source bs _ (fun e he => (hcanon e he).2)]
    have := (keyed_pushAll (rl.flatMap (piecesOf bs inclusive)) ESIRange.empty).map
      (byteImage bs)
    simpa [keyed, ESIRange.empty] using this
  have hmono : Mono ((rl.flatMap (piecesOf bs inclusive)).map (byteImage bs)) := by
    refine ⟨?_, ?_⟩
    · intro q hq
      rw [List.mem_map] at hq
      obtain ⟨x, hx, rfl⟩ := hq
      exact (hne x hx).2
    · rw [List.pairwise_map]
      refine hord.imp_of_mem ?_
      intro a b ha hb hab
      have h1 := (hne a ha).2
      have h2 := (hne b hb).2
      have h3 := hab.1
      constructor <;> omega
  rw [toRangeList_of_perm _ er1 bs true _ hperm hl (hmono.2.imp (fun h => h.1))]
  have hnw : NoWrap ((rl.flatMap (piecesOf bs inclusive)).map (byteImage bs)) := by
    refine noWrap_of_increasing _ (fun q hq => ?_) ?_
    · rw [List.mem_map] at hq
      obtain ⟨x, hx, rfl⟩ := hq
      have h1 := (pieces_int64 hs inclusive hal x hx).2
      have h2 := (hne x hx).2
      omega
    · rw [List.pairwise_map]
      refine hord.imp_of_mem ?_
      intro a b _ hb hab
      exact lt_of_lt_of_le hab.1 (hne b hb).2
  rw [mergeRight_exact _ hnw]
  have hm := mergeRightZ_mono _ hmono
  rw [canon_ext _ rl hm.1 hcan
    (fun t => (hm.2.1 t).trans (covers_pieces hs inclusive hal t))]

/-- With `sbnEnd = 2^32 - 1` the test `sbn <= sbnEnd` of the loop over the
blocks holds for every `uint32`: no number of passes ends the loop. -/
theorem blockLoop_endless (bs : BlockingStructure) (inclusive : Bool) (start stop : Int) :
    ∀ (fuel sbn : Nat) (er : ESIRange), sbn < 2 ^ 32 →
      blockLoop bs true inclusive start stop (2 ^ 32 - 1) fuel sbn er = none := by
  intro fuel
  induction fuel with
  | zero => intro sbn er _; rfl
  | succ n ih =>
    intro sbn er h
    unfold blockLoop
    rw [if_pos (by omega), esiPiece_source]
    exact ih _ _ (Nat.mod_lt _ (by norm_num))

/-- C14 (fails as stated), in two ways. (1) `L = 2^32`, `B = 1`, `E = 1`: the
block count `2^32` is stored as `N = 0`, `SourceSBN(0)` is `N - 1 = 2^32 - 1`,
and for `rl = [(0,0)]` the loop `for sbn := sbnStart; sbn <= sbnEnd; sbn++`
never ends. (2) `L = 2^63 + 1`, `B = 2^32 - 1`, `E = 32768`: the last block,
65536, starts at byte 9223231301513904128 and its last byte `2^63` is negative
as an `int64`; for `rl = [(9223231301513904128, 9223231301513936895)]` (its
first symbol) the conversion returns `{65536: [(0, 4294901759)]}`, whose byte
list is `[(9223231301513904128, 2^63 - 1)]`. -/
theorem esi_roundtrip_overflow :
    (∃ bs, NewBlockingStructure5052 (2 ^ 32) 1 1 1 false = .ok bs ∧
      bs.N = 0 ∧ bs.ESLen = 1 ∧ bs.TransferLen = 2 ^ 32 ∧
      Canonical [⟨0, 0⟩] ∧ (0 : Int) ≤ (bs.TransferLen : Int) - 1 ∧
      bs.SourceSBN (toU64 0) = some (2 ^ 32 - 1) ∧
      (∀ (fuel : Nat) (er : ESIRange),
        blockLoop bs true false 0 0 (2 ^ 32 - 1) fuel (2 ^ 32 - 1) er = none) ∧
      ESIRangeFromRangeList (some bs) [⟨0, 0⟩] true false = .stuck) ∧
    (∃ bs, NewBlockingStructure5052 (2 ^ 63 + 1) (2 ^ 32 - 1) 32768 1 false = .ok bs ∧
      bs.N = 65537 ∧ bs.ESLen = 32768 ∧ bs.TransferLen = 2 ^ 63 + 1 ∧
      ceilDiv bs.T (2 ^ 32 - 1) = 65537 ∧
      Canonical [⟨9223231301513904128, 9223231301513936895⟩] ∧
      (9223231301513936895 : Int) ≤ (bs.TransferLen : Int) - 1 ∧
      (bs.ESLen : Int) ∣ 9223231301513904128 ∧
      (bs.ESLen : Int) ∣ 9223231301513936895 + 1 ∧
      ESIRangeFromRangeList (some bs) [⟨9223231301513904128, 9223231301513936895⟩]
          true false = .ok ⟨[(65536, [⟨0, 4294901759⟩])]⟩ ∧
      ESIRange.ToRangeList ⟨[(65536, [⟨0, 4294901759⟩])]⟩ bs true
        = some [⟨9223231301513904128, 2 ^ 63 - 1⟩]) := by
  refine ⟨⟨⟨0, 0, 1, 1, 1, 2 ^ 32, 2 ^ 32, 1, 1, 1⟩, by decide, rfl, rfl, rfl, by decide,
      by decide, by decide, fun fuel er => blockLoop_endless _ _ _ _ fuel _ er (by norm_num), by decide⟩,
    ⟨⟨65537, 0, 4294901761, 4294901761, 32768, 2 ^ 48 + 1, 2 ^ 63 + 1, 2 ^ 32 - 1,
        2 ^ 32 - 1, 1⟩, by decide, rfl, rfl, rfl, by decide, by decide, by decide,
      by decide, by decide, by decide, by decide⟩⟩

/-- C14 (amended): for every structure `NewBlockingStructure5052` returns with
`stream = false`, `ceil(T/B) < 2^32` and `TransferLen <= 2^63`, every canonical
byte range list inside `[0, TransferLen - 1]` whose ranges have `Start` and
`End + 1` multiples of `ESLen`, and both values of `inclusive`:
`ESIRangeFromRangeList(bs, rl, true, inclusive)` returns a map, and
`ToRangeList(bs, true)` of that map is `rl`, in whatever order the map is
visited. -/
theorem esi_roundtrip (L B E G : Nat) (bs : BlockingStructure) (rl : RangeList)
    (inclusive : Bool)
    (hL64 : L < 2 ^ 64) (hB32 : B < 2 ^ 32) (hE16 : E < 2 ^ 16)
    (hnew : NewBlockingStructure5052 L B E G false = .ok bs)
    (hN : ceilDiv bs.T B < 2 ^ 32) (hL63 : bs.TransferLen ≤ 2 ^ 63)
    (hcan : Canonical rl)
    (hin : ∀ r ∈ rl, 0 ≤ r.Start ∧ r.End ≤ (bs.TransferLen : Int) - 1)
    (halign : ∀ r ∈ rl, (bs.ESLen : Int) ∣ r.Start ∧ (bs.ESLen : Int) ∣ r.End + 1) :
    ∃ er, ESIRangeFromRangeList (some bs) rl true inclusive = .ok er ∧
      ∀ er1 : ESIRange, er1.entries.Perm er.entries →
        er1.ToRangeList bs true = some rl := by
  have h := new_ok_regular hL64 hB32 hE16 hnew hN
  have hs : SourceOk bs := ⟨h.1, h.2.2.2.2.1 (Or.inl rfl), hL63⟩
  have hc := (canonical_iff_canon rl).mp hcan
  refine roundtrip_source hs inclusive hc (fun r hr => ?_)
  have h1 := hin r hr
  have h2 := halign r hr
  have h3 := hc.1 r hr
  exact ⟨h1.1, h3, by omega, h2.1, h2.2⟩

/-- C14 (amended), at the 10-byte object with `E = 2`, `B = 2` (blocks of 4, 4
and 2 bytes) and the list `[(0,3),(6,9)]`. -/
theorem esi_roundtrip_witness :
    NewBlockingStructure5052 10 2 2 1 false = .ok ⟨3, 2, 2, 1, 2, 5, 10, 2, 2, 1⟩ ∧
    ∃ er, ESIRangeFromRangeList (some ⟨3, 2, 2, 1, 2, 5, 10, 2, 2, 1⟩) [⟨0, 3⟩, ⟨6, 9⟩]
        true false = .ok er ∧
      ∀ er1 : ESIRange, er1.entries.Perm er.entries →
        er1.ToRangeList ⟨3, 2, 2, 1, 2, 5, 10, 2, 2, 1⟩ true = some [⟨0, 3⟩, ⟨6, 9⟩] :=
  ⟨by decide,
   esi_roundtrip 10 2 2 1 ⟨3, 2, 2, 1, 2, 5, 10, 2, 2, 1⟩ [⟨0, 3⟩, ⟨6, 9⟩] false
    (by decide) (by decide) (by decide) (by decide) (by decide) (by decide) (by decide)
    (by decide) (by decide)⟩

/-! ## The derivation of scenario E3, the per-block projection and `MaxNumEs` -/

/-- C28 (fails as stated): `NewBlockingStructure5052(107374182, 10, 1430, 1,
false)` returns `ASmall = floor(T / N) = floor(75087 / 7509) = 9`, not 10;
setting `MaxNumEs` to 12 afterwards does not touch `ASmall`. -/
theorem e3_aSmall_is_nine :
    ∃ bs, NewBlockingStructure5052 107374182 10 1430 1 false = .ok bs ∧
      ({ bs with MaxNumEs := 12 } : BlockingStructure).ASmall = 9 ∧
      ¬ (({ bs with MaxNumEs := 12 } : BlockingStructure).T = 75087 ∧
         ({ bs with MaxNumEs := 12 } : BlockingStructure).N = 7509 ∧
         ({ bs with MaxNumEs := 12 } : BlockingStructure).I = 7506 ∧
         ({ bs with MaxNumEs := 12 } : BlockingStructure).A = 10 ∧
         ({ bs with MaxNumEs := 12 } : BlockingStructure).ASmall = 10) :=
  ⟨⟨7509, 7506, 10, 9, 1430, 75087, 107374182, 10, 10, 1⟩, by decide, rfl, by decide⟩

/-- C28 (amended): `NewBlockingStructure5052(107374182, 10, 1430, 1, false)`,
with `MaxNumEs` then set to 12, yields `T = 75087`, `N = 7509`, `I = 7506`,
`A = 10` and `ASmall = 9`. -/
theorem e3_parameters :
    ∃ bs, NewBlockingStructure5052 107374182 10 1430 1 false = .ok bs ∧
      ({ bs with MaxNumEs := 12 } : BlockingStructure)
        = ⟨7509, 7506, 10, 9, 1430, 75087, 107374182, 10, 12, 1⟩ ∧
      ({ bs with MaxNumEs := 12 } : BlockingStructure).T = 75087 ∧
      ({ bs with MaxNumEs := 12 } : BlockingStructure).N = 7509 ∧
      ({ bs with MaxNumEs := 12 } : BlockingStructure).I = 7506 ∧
      ({ bs with MaxNumEs := 12 } : BlockingStructure).A = 10 ∧
      ({ bs with MaxNumEs := 12 } : BlockingStructure).ASmall = 9 :=
  ⟨⟨7509, 7506, 10, 9, 1430, 75087, 107374182, 10, 10, 1⟩, by decide, rfl, rfl, rfl, rfl,
    rfl, rfl⟩

/-- C29 (the code fails the claim): in the structure
`NewBlockingStructure5052(107374182, 10, 1430, 1, false)` block 0 has 10
symbols of 1430 bytes. For `a = 0`, `b = 9` (the whole block, bytes 0 to 14299)
the call returns the error "range list not sorted" and an empty list; for
`a = b = 1` (bytes 1430 to 2859) it returns `[(1,2)]`; for `a = 5`, `b = 9` it
returns `[(5,10)]`; for `a = 2`, `b = 6` it returns `[(2,9)]`. -/
theorem esRangeList_aligned_ranges :
    NewBlockingStructure5052 107374182 10 1430 1 false
      = .ok ⟨7509, 7506, 10, 9, 1430, 75087, 107374182, 10, 10, 1⟩ ∧
    NumSrcSym ⟨7509, 7506, 10, 9, 1430, 75087, 107374182, 10, 10, 1⟩ 0 = some 10 ∧
    SrcOffset ⟨7509, 7506, 10, 9, 1430, 75087, 107374182, 10, 10, 1⟩ 0 = 0 ∧
    SrcBlockSize ⟨7509, 7506, 10, 9, 1430, 75087, 107374182, 10, 10, 1⟩ 0 = 14300 ∧
    ESRangeListForSBNFromRangeList
        (some ⟨7509, 7506, 10, 9, 1430, 75087, 107374182, 10, 10, 1⟩) 0
        [⟨0 + 0 * 1430, 0 + (9 + 1) * 1430 - 1⟩] = some ([], some .notSorted) ∧
    ESRangeListForSBNFromRangeList
        (some ⟨7509, 7506, 10, 9, 1430, 75087, 107374182, 10, 10, 1⟩) 0
        [⟨0 + 1 * 1430, 0 + (1 + 1) * 1430 - 1⟩] = some ([⟨1, 2⟩], none) ∧
    ESRangeListForSBNFromRangeList
        (some ⟨7509, 7506, 10, 9, 1430, 75087, 107374182, 10, 10, 1⟩) 0
        [⟨0 + 5 * 1430, 0 + (9 + 1) * 1430 - 1⟩] = some ([⟨5, 10⟩], none) ∧
    ESRangeListForSBNFromRangeList
        (some ⟨7509, 7506, 10, 9, 1430, 75087, 107374182, 10, 10, 1⟩) 0
        [⟨0 + 2 * 1430, 0 + (6 + 1) * 1430 - 1⟩] = some ([⟨2, 9⟩], none) := by
  decide

/-- C30 (fails as stated): the structure `NewBlockingStructure5052(10, 2, 2, 1,
false)` has `MaxNumEs = MaxSbLen = 2`; the update with `maxSourceBlockLen = 4`
succeeds and leaves `MaxNumEs = 2` below `MaxSbLen = 4`. -/
theorem update_breaks_maxNumEs :
    NewBlockingStructure5052 10 2 2 1 false = .ok ⟨3, 2, 2, 1, 2, 5, 10, 2, 2, 1⟩ ∧
    (⟨3, 2, 2, 1, 2, 5, 10, 2, 2, 1⟩ : BlockingStructure).MaxNumEs
      ≥ (⟨3, 2, 2, 1, 2, 5, 10, 2, 2, 1⟩ : BlockingStructure).MaxSbLen ∧
    ∃ bs1, UpdateBlockingStructure5052 (some ⟨3, 2, 2, 1, 2, 5, 10, 2, 2, 1⟩) 10 4 2 1 false
        = .ok bs1 ∧ bs1.MaxNumEs = 2 ∧ bs1.MaxSbLen = 4 ∧ ¬ bs1.MaxNumEs ≥ bs1.MaxSbLen :=
  ⟨by decide, by decide, ⟨2, 1, 3, 2, 2, 5, 10, 4, 2, 1⟩, by decide, rfl, rfl, by decide⟩

/-- Whether `recompute` succeeds depends on the five fields the update has just
written, not on `MaxNumEs`. -/
theorem recompute_ok_of_fields (a b r : BlockingStructure)
    (h1 : a.MaxSbLen = b.MaxSbLen) (h2 : a.ESLen = b.ESLen)
    (h3 : a.NumEsPerGroup = b.NumEsPerGroup) (h4 : a.TransferLen = b.TransferLen)
    (h : recompute a = .ok r) : ∃ r2, recompute b = .ok r2 := by
  unfold recompute at h ⊢
  simp only [← h1, ← h2, ← h3, ← h4]
  simp only at h
  split_ifs at h ⊢
  all_goals exact ⟨_, rfl⟩

/-- A call of `UpdateBlockingStructure5052` that succeeds on one structure
succeeds, with the same arguments, on every other: the tests read the
arguments only. -/
theorem update_ok_of_args (bs bs2 r : BlockingStructure) (L B E G : Nat) (stream : Bool)
    (h : UpdateBlockingStructure5052 (some bs) L B E G stream = .ok r) :
    ∃ r2, UpdateBlockingStructure5052 (some bs2) L B E G stream = .ok r2 := by
  unfold UpdateBlockingStructure5052 at h ⊢
  simp only at h ⊢
  by_cases hL : L = 0
  · rw [if_pos hL] at h; cases h
  rw [if_neg hL] at h ⊢
  cases stream with
  | false =>
    simp only [Bool.not_false, if_true] at h ⊢
    refine recompute_ok_of_fields _ _ r ?_ ?_ ?_ ?_ h
    all_goals (split_ifs <;> rfl)
  | true =>
    simp only [Bool.not_true, Bool.false_eq_true, if_false] at h ⊢
    split_ifs at h ⊢
    all_goals exact ⟨_, rfl⟩

/-- C30 (amended): after a successful `UpdateBlockingStructure5052` call with
`maxSourceBlockLen = B`, `MaxSbLen` is `B`, and `MaxNumEs` is `B` when it was 0
before the call and unchanged otherwise; so `MaxNumEs >= MaxSbLen` holds after
the call exactly when `MaxNumEs` was 0 or at least `B` before it. No call fails
for breaking it: the same call succeeds on the structure with any other value
`m` of `MaxNumEs`, and leaves `MaxSbLen = B` and `MaxNumEs = m` (`B` for
`m = 0`), whether or not `m >= B`. -/
theorem update_maxNumEs (bs bs1 : BlockingStructure) (L B E G : Nat) (stream : Bool)
    (h : UpdateBlockingStructure5052 (some bs) L B E G stream = .ok bs1) :
    bs1.MaxSbLen = B ∧
    bs1.MaxNumEs = (if bs.MaxNumEs = 0 then B else bs.MaxNumEs) ∧
    (bs1.MaxNumEs ≥ bs1.MaxSbLen ↔ bs.MaxNumEs = 0 ∨ bs.MaxNumEs ≥ B) ∧
    ∀ m : Nat, ∃ bs2,
      UpdateBlockingStructure5052 (some { bs with MaxNumEs := m }) L B E G stream = .ok bs2 ∧
      bs2.MaxSbLen = B ∧ bs2.MaxNumEs = (if m = 0 then B else m) := by
  have key : ∀ (a a1 : BlockingStructure),
      UpdateBlockingStructure5052 (some a) L B E G stream = .ok a1 →
      a1.MaxSbLen = B ∧ a1.MaxNumEs = (if a.MaxNumEs = 0 then B else a.MaxNumEs) := by
    intro a a1 h
    unfold UpdateBlockingStructure5052 at h
    simp only at h
    split_ifs at h with h1 h2 h3 h4 h5
    all_goals first
      | (cases h; simp_all)
      | (unfold recompute at h
         simp only at h
         split_ifs at h <;> (cases h; simp_all))
  obtain ⟨k1, k2⟩ := key bs bs1 h
  refine ⟨k1, k2, ?_, fun m => ?_⟩
  · rw [k1, k2]
    by_cases h0 : bs.MaxNumEs = 0
    · simp [h0]
    · rw [if_neg h0]
      constructor
      · intro h; exact Or.inr h
      · rintro (h | h)
        · exact absurd h h0
        · exact h
  · obtain ⟨bs2, h2⟩ := update_ok_of_args bs { bs with MaxNumEs := m } bs1 L B E G stream h
    exact ⟨bs2, h2, key _ bs2 h2⟩

/-- C30 (amended), at the structure `NewBlockingStructure5052(10, 2, 2, 1,
false)`, whose `MaxNumEs` is 2: the update with `maxSourceBlockLen = 4` succeeds
and keeps `MaxNumEs = 2`, below `MaxSbLen = 4`; with `maxSourceBlockLen = 2` it
keeps `MaxNumEs = 2 >= MaxSbLen = 2`. And at the zero structure, where the
update with `maxSourceBlockLen = 2` sets `MaxNumEs = 2`. -/
theorem update_maxNumEs_witness :
    ((⟨2, 1, 3, 2, 2, 5, 10, 4, 2, 1⟩ : BlockingStructure).MaxSbLen = 4 ∧
      (⟨2, 1, 3, 2, 2, 5, 10, 4, 2, 1⟩ : BlockingStructure).MaxNumEs
        = (if (⟨3, 2, 2, 1, 2, 5, 10, 2, 2, 1⟩ : BlockingStructure).MaxNumEs = 0 then 4
            else (⟨3, 2, 2, 1, 2, 5, 10, 2, 2, 1⟩ : BlockingStructure).MaxNumEs) ∧
      ((⟨2, 1, 3, 2, 2, 5, 10, 4, 2, 1⟩ : BlockingStructure).MaxNumEs
          ≥ (⟨2, 1, 3, 2, 2, 5, 10, 4, 2, 1⟩ : BlockingStructure).MaxSbLen ↔
        (⟨3, 2, 2, 1, 2, 5, 10, 2, 2, 1⟩ : BlockingStructure).MaxNumEs = 0 ∨
          (⟨3, 2, 2, 1, 2, 5, 10, 2, 2, 1⟩ : BlockingStructure).MaxNumEs ≥ 4) ∧
      ∀ m : Nat, ∃ bs2,
        UpdateBlockingStructure5052
            (some { (⟨3, 2, 2, 1, 2, 5, 10, 2, 2, 1⟩ : BlockingStructure) with MaxNumEs := m })
            10 4 2 1 false = .ok bs2 ∧
          bs2.MaxSbLen = 4 ∧ bs2.MaxNumEs = (if m = 0 then 4 else m)) ∧
    ((⟨3, 2, 2, 1, 2, 5, 10, 2, 2, 1⟩ : BlockingStructure).MaxSbLen = 2 ∧
      (⟨3, 2, 2, 1, 2, 5, 10, 2, 2, 1⟩ : BlockingStructure).MaxNumEs
        = (if zero.MaxNumEs = 0 then 2 else zero.MaxNumEs) ∧
      ((⟨3, 2, 2, 1, 2, 5, 10, 2, 2, 1⟩ : BlockingStructure).MaxNumEs
          ≥ (⟨3, 2, 2, 1, 2, 5, 10, 2, 2, 1⟩ : BlockingStructure).MaxSbLen ↔
        zero.MaxNumEs = 0 ∨ zero.MaxNumEs ≥ 2) ∧
      ∀ m : Nat, ∃ bs2,
        UpdateBlockingStructure5052 (some { zero with MaxNumEs := m }) 10 2 2 1 false
            = .ok bs2 ∧
          bs2.MaxSbLen = 2 ∧ bs2.MaxNumEs = (if m = 0 then 2 else m)) :=
  ⟨update_maxNumEs ⟨3, 2, 2, 1, 2, 5, 10, 2, 2, 1⟩ ⟨2, 1, 3, 2, 2, 5, 10, 4, 2, 1⟩ 10 4 2 1
      false (by decide),
    update_maxNumEs zero ⟨3, 2, 2, 1, 2, 5, 10, 2, 2, 1⟩ 10 2 2 1 false (by decide)⟩

theorem get_of_perm {er er1 : ESIRange} (hp : er1.entries.Perm er.entries)
    (hnd : (er.entries.map Prod.fst).Nodup) (k : Nat) : er1.get k = er.get k := by
  have hnd1 : (er1.entries.map Prod.fst).Nodup := ((hp.map Prod.fst).nodup_iff).mpr hnd
  unfold ESIRange.get ESIRange.find
  cases h : er.entries.lookup k with
  | none =>
    cases h1 : er1.entries.lookup k with
    | none => rfl
    | some v =>
      have := lookup_of_mem_nodup _ k v hnd (hp.mem_iff.mp (mem_of_lookup _ k v h1))
      rw [h] at this
      cases this
  | some v =>
    rw [lookup_of_mem_nodup _ k v hnd1 (hp.mem_iff.mpr (mem_of_lookup _ k v h))]

theorem marshalLoop_congr {er er1 : ESIRange} (h : ∀ k, er1.get k = er.get k) :
    ∀ (keys : List Nat) (prev : Option Nat) (start : Nat) (s : List Char),
      marshalLoop er1 keys prev start s = marshalLoop er keys prev start s := by
  intro keys
  induction keys with
  | nil => intro prev start s; rfl
  | cons k rest ih =>
    intro prev start s
    simp only [marshalLoop, h, ih]

/-- `MarshalText` sorts the keys: two lists of entries that hold the same
entries, no key twice, give the same text. -/
theorem marshalText_of_perm {er er1 : ESIRange} (hp : er1.entries.Perm er.entries)
    (hnd : (er.entries.map Prod.fst).Nodup) : er1.MarshalText = er.MarshalText := by
  have hkeys : (er1.entries.map Prod.fst).insertionSort (fun a b => a ≤ b)
      = (er.entries.map Prod.fst).insertionSort (fun a b => a ≤ b) :=
    List.eq_of_perm_of_sorted
      (((List.perm_insertionSort _ _).trans (hp.map Prod.fst)).trans
        (List.perm_insertionSort _ _).symm)
      (List.sorted_insertionSort _ _) (List.sorted_insertionSort _ _)
  unfold ESIRange.MarshalText
  simp only [hp.length_eq, hkeys, marshalLoop_congr (get_of_perm hp hnd)]

theorem string_of_perm {er er1 : ESIRange} (hp : er1.entries.Perm er.entries)
    (hnd : (er.entries.map Prod.fst).Nodup) : er1.String = er.String :=
  marshalText_of_perm hp hnd

theorem toMBMSRawQuery_of_perm {er er1 : ESIRange} (hp : er1.entries.Perm er.entries)
    (hnd : (er.entries.map Prod.fst).Nodup) : er1.ToMBMSRawQuery = er.ToMBMSRawQuery := by
  unfold ESIRange.ToMBMSRawQuery
  rw [string_of_perm hp hnd]

/-! ## The scenarios E5 and E6, and the round trip of a map through its text -/

/-- C22 (the code fails the claim): the canonical map `{0: [], 1: [(3,3)]}` is
emitted as `1:3`, without its key 0, and that text parses to `{1: [(3,3)]}`;
the canonical map `{0: [], 1: [(3,3)], 2: [(1,1)]}` is emitted as `0-1;2:1`,
which parses to `{0: [], 1: [], 2: [(1,1)]}`; the empty map is emitted as the
empty text, on which `UnmarshalText` returns the error "sbn is not an unsigned
int". -/
theorem esiRange_text_loses_entries :
    ESIRange.MarshalText ⟨[(0, []), (1, [⟨3, 3⟩])]⟩ = "1:3".toList ∧
    ESIRange.UnmarshalText ⟨[]⟩ "1:3".toList = some (.ok ⟨[(1, [⟨3, 3⟩])]⟩) ∧
    ESIRange.find ⟨[(1, [⟨3, 3⟩])]⟩ 0 = none ∧
    ESIRange.MarshalText ⟨[(0, []), (1, [⟨3, 3⟩]), (2, [⟨1, 1⟩])]⟩ = "0-1;2:1".toList ∧
    ESIRange.UnmarshalText ⟨[]⟩ "0-1;2:1".toList
      = some (.ok ⟨[(0, []), (1, []), (2, [⟨1, 1⟩])]⟩) ∧
    ESIRange.MarshalText ⟨[]⟩ = [] ∧
    ESIRange.UnmarshalText ⟨[]⟩ [] = some (.error .sbnNotUnsigned) := by
  decide

/-- C24: `UnmarshalText` on `0;1:;2:3;4:5,6-9,11-11,12-14;5-6;7:0-1;8-10`, into
an empty map, returns without error and leaves the map `{0:[], 1:[], 2:[(3,3)],
4:[(5,9),(11,14)], 5:[], 6:[], 7:[(0,1)], 8:[], 9:[], 10:[]}`; `String()` of
that map, in whatever order its entries are held, is
`0-1;2:3;4:5-9,11-14;5-6;7:0-1;8-10`. -/
theorem e6_parse_and_emit :
    ESIRange.UnmarshalText ⟨[]⟩ "0;1:;2:3;4:5,6-9,11-11,12-14;5-6;7:0-1;8-10".toList
      = some (.ok e6Map) ∧
    ∀ er : ESIRange, er.entries.Perm e6Map.entries →
      er.String = "0-1;2:3;4:5-9,11-14;5-6;7:0-1;8-10".toList := by
  refine ⟨by decide, fun er hp => ?_⟩
  rw [string_of_perm hp (by decide)]
  decide

/-- C24, at the map of `TestESI` held in the order of its keys. -/
theorem e6_parse_and_emit_witness :
    e6Map.String = "0-1;2:3;4:5-9,11-14;5-6;7:0-1;8-10".toList :=
  e6_parse_and_emit.2 e6Map (List.Perm.refl _)

/-- C25: `NewESIRangeFromMBMSQuery` on
`&SourceSBN=12-19&SourceSBN=28%3BESI=23-59&SourceSBN=30;ESI=101` returns without
error a map whose `String()` is `12-19;28:23-59;30:101`, and whose
`ToMBMSRawQuery()`, unescaped and with `&` in front, is the unescaped query;
on `&SourceSBN=12%3bESI=120+10` it returns a map whose `String()` is
`12:120-130`. In whatever order the entries are held. -/
theorem e5_mbms_roundtrip :
    (NewESIRangeFromMBMSQuery
        "&SourceSBN=12-19&SourceSBN=28%3BESI=23-59&SourceSBN=30;ESI=101".toList
      = some (.ok e5Map) ∧
     ∀ er : ESIRange, er.entries.Perm e5Map.entries →
      er.String = "12-19;28:23-59;30:101".toList ∧
      ∃ q, QueryUnescape er.ToMBMSRawQuery = some q ∧
        QueryUnescape
          "&SourceSBN=12-19&SourceSBN=28%3BESI=23-59&SourceSBN=30;ESI=101".toList
          = some ('&' :: q) ∧
        QueryUnescape ('&' :: er.ToMBMSRawQuery) = some ('&' :: q)) ∧
    (NewESIRangeFromMBMSQuery "&SourceSBN=12%3bESI=120+10".toList
      = some (.ok ⟨[(12, [⟨120, 130⟩])]⟩) ∧
     ∀ er : ESIRange, er.entries.Perm [(12, [⟨120, 130⟩])] →
      er.String = "12:120-130".toList) := by
  refine ⟨⟨by decide, fun er hp => ?_⟩, by decide, fun er hp => ?_⟩
  · rw [string_of_perm hp (by decide), toMBMSRawQuery_of_perm hp (by decide)]
    exact ⟨by decide,
      "SourceSBN=12-19&SourceSBN=28;ESI=23-59&SourceSBN=30;ESI=101".toList,
      by decide, by decide, by decide⟩
  · rw [@string_of_perm ⟨[(12, [⟨120, 130⟩])]⟩ er hp (by decide)]
    decide

/-- C25, at the two maps held in the order of their keys. -/
theorem e5_mbms_roundtrip_witness :
    e5Map.String = "12-19;28:23-59;30:101".toList ∧
    ESIRange.String ⟨[(12, [⟨120, 130⟩])]⟩ = "12:120-130".toList :=
  ⟨(e5_mbms_roundtrip.1.2 e5Map (List.Perm.refl _)).1,
    e5_mbms_roundtrip.2.2 ⟨[(12, [⟨120, 130⟩])]⟩ (List.Perm.refl _)⟩

/-! ## The list ParseContentRange returns -/

theorem digitChar_isDigit (d : Nat) : (digitChar d).isDigit = true := by
  unfold digitChar
  split <;> rfl

theorem digitVal_digitChar {d : Nat} (h : d < 10) : digitVal (digitChar d) = d := by
  interval_cases d <;> rfl

theorem ne_of_isDigit {c x : Char} (hc : c.isDigit = true) (hx : x.isDigit = false) :
    c ≠ x := by
  intro h
  rw [h, hx] at hc
  cases hc

theorem digitsValue_nil (a : Nat) : digitsValue [] a = a := rfl

theorem digitsValue_cons (c : Char) (cs : List Char) (a : Nat) :
    digitsValue (c :: cs) a = digitsValue cs (a * 10 + digitVal c) := rfl

theorem digitsValue_append (xs ys : List Char) (a : Nat) :
    digitsValue (xs ++ ys) a = digitsValue ys (digitsValue xs a) := by
  unfold digitsValue
  rw [List.foldl_append]

theorem le_digitsValue (cs : List Char) : ∀ a, a ≤ digitsValue cs a := by
  induction cs with
  | nil => intro a; exact le_refl _
  | cons c cs ih =>
    intro a
    rw [digitsValue_cons]
    have := ih (a * 10 + digitVal c)
    omega

theorem decimalLoop_append (fuel : Nat) : ∀ (n : Nat) (acc : List Char),
    decimalLoop fuel n acc = decimalLoop fuel n [] ++ acc := by
  induction fuel with
  | zero => intro n acc; rfl
  | succ f ih =>
    intro n acc
    unfold decimalLoop
    split
    · rfl
    · rw [ih (n / 10) (digitChar (n % 10) :: acc), ih (n / 10) [digitChar (n % 10)],
        List.append_assoc]
      rfl

/-- The text `decimalLoop` writes for `n < 10 ^ fuel`: not empty, digits only,
of at most `fuel` digits, and standing for `n`. -/
theorem decimalLoop_spec (fuel : Nat) : ∀ n : Nat, n < 10 ^ fuel → 0 < fuel →
    decimalLoop fuel n [] ≠ [] ∧ AllDigits (decimalLoop fuel n []) ∧
    (decimalLoop fuel n []).length ≤ fuel ∧
    (∀ k, 0 < k → n < 10 ^ k → (decimalLoop fuel n []).length ≤ k) ∧
    ∀ a, digitsValue (decimalLoop fuel n []) a
      = a * 10 ^ (decimalLoop fuel n []).length + n := by
  induction fuel with
  | zero => intro n _ h; omega
  | succ f ih =>
    intro n hn _
    unfold decimalLoop
    by_cases h10 : n < 10
    · rw [if_pos h10]
      refine ⟨by simp, ?_, by simp, fun k hk _ => by simpa using hk, fun a => ?_⟩
      · intro c hc
        rw [List.mem_singleton] at hc
        rw [hc]
        exact digitChar_isDigit n
      · rw [digitsValue_cons, digitsValue_nil, digitVal_digitChar h10]
        simp
    · rw [if_neg h10, decimalLoop_append]
      have hf : 0 < f := by
        rcases Nat.eq_zero_or_pos f with h | h
        · subst h; simp at hn; omega
        · exact h
      have hdiv : n / 10 < 10 ^ f := by
        rw [Nat.div_lt_iff_lt_mul (by norm_num)]
        rw [pow_succ] at hn
        exact hn
      obtain ⟨h1, h2, h3, h4, h5⟩ := ih (n / 10) hdiv hf
      refine ⟨by simp, ?_, ?_, ?_, ?_⟩
      · intro c hc
        rcases List.mem_append.mp hc with hc | hc
        · exact h2 c hc
        · rw [List.mem_singleton] at hc
          rw [hc]
          exact digitChar_isDigit _
      · rw [List.length_append, List.length_singleton]
        omega
      · intro k hk hnk
        rw [List.length_append, List.length_singleton]
        obtain ⟨k1, rfl⟩ : ∃ k1, k = k1 + 1 := ⟨k - 1, by omega⟩
        have hk1 : 0 < k1 := by
          rcases Nat.eq_zero_or_pos k1 with h | h
          · subst h; simp at hnk; omega
          · exact h
        have : n / 10 < 10 ^ k1 := by
          rw [Nat.div_lt_iff_lt_mul (by norm_num)]
          rw [pow_succ] at hnk
          exact hnk
        have := h4 k1 hk1 this
        omega
      · intro a
        rw [digitsValue_append, h5 a, digitsValue_cons, digitsValue_nil,
          digitVal_digitChar (Nat.mod_lt _ (by norm_num)), List.length_append,
          List.length_singleton, pow_succ]
        have := Nat.div_add_mod n 10
        have e : (a * 10 ^ (decimalLoop f (n / 10) []).length + n / 10) * 10 + n % 10
            = a * (10 ^ (decimalLoop f (n / 10) []).length * 10) + (10 * (n / 10) + n % 10) := by
          ring
        rw [e, this]

theorem formatNat_spec (n : Nat) :
    formatNat n ≠ [] ∧ AllDigits (formatNat n) ∧
    (∀ k, 0 < k → n < 10 ^ k → (formatNat n).length ≤ k) ∧
    digitsValue (formatNat n) 0 = n := by
  have hn : n < 10 ^ (n + 1) :=
    lt_of_lt_of_le (Nat.lt_pow_self (by norm_num) n) (Nat.pow_le_pow_right (by norm_num) (by omega))
  obtain ⟨h1, h2, -, h4, h5⟩ := decimalLoop_spec (n + 1) n hn (by omega)
  refine ⟨h1, h2, h4, ?_⟩
  have := h5 0
  simpa using this

theorem parseUintLoop_digits (maxVal : Nat) (hmax : maxVal < 2 ^ 64) :
    ∀ (cs : List Char) (a : Nat), AllDigits cs → digitsValue cs a ≤ maxVal →
      parseUintLoop maxVal cs a = (digitsValue cs a, none) := by
  intro cs
  induction cs with
  | nil => intro a _ _; rfl
  | cons c cs ih =>
    intro a hd hv
    have hc : c.isDigit = true := hd c (List.mem_cons_self _ _)
    have hrest : AllDigits cs := fun x hx => hd x (List.mem_cons_of_mem _ hx)
    rw [digitsValue_cons] at hv ⊢
    have hle := le_digitsValue cs (a * 10 + digitVal c)
    have h10 : mul64 a 10 = a * 10 := by
      unfold mul64
      exact Nat.mod_eq_of_lt (by omega)
    have h1 : add64 (a * 10) (digitVal c) = a * 10 + digitVal c := by
      unfold add64
      exact Nat.mod_eq_of_lt (by omega)
    unfold parseUintLoop
    rw [if_pos hc, if_neg (by omega)]
    simp only [h10, h1]
    rw [if_neg (by omega)]
    exact ih _ hrest hv

theorem parseUint_digits {cs : List Char} {bitSize : Nat} (hb : bitSize ≤ 64)
    (hne : cs ≠ []) (hd : AllDigits cs) (hv : digitsValue cs 0 < 2 ^ bitSize) :
    ParseUint cs bitSize = (digitsValue cs 0, none) := by
  have hpow : 2 ^ bitSize ≤ 2 ^ 64 := Nat.pow_le_pow_right (by norm_num) hb
  have hpos : 0 < 2 ^ bitSize := Nat.two_pow_pos bitSize
  unfold ParseUint
  rw [if_neg hne]
  exact parseUintLoop_digits _ (by omega) cs 0 hd (by omega)

theorem parseUint_formatNat {n bitSize : Nat} (hb : bitSize ≤ 64) (hn : n < 2 ^ bitSize) :
    ParseUint (formatNat n) bitSize = (n, none) := by
  obtain ⟨h1, h2, -, h4⟩ := formatNat_spec n
  rw [parseUint_digits hb h1 h2 (by rw [h4]; exact hn), h4]

theorem parseInt_digits {cs : List Char} (hne : cs ≠ []) (hd : AllDigits cs)
    (hv : digitsValue cs 0 < 2 ^ 63) :
    ParseInt cs = (((digitsValue cs 0 : Nat) : Int), none) := by
  obtain ⟨c, rest, rfl⟩ := List.exists_cons_of_ne_nil hne
  have hc : c.isDigit = true := hd c (List.mem_cons_self _ _)
  have hplus : c ≠ '+' := ne_of_isDigit hc rfl
  have hminus : c ≠ '-' := ne_of_isDigit hc rfl
  unfold ParseInt
  simp only [hplus, hminus, or_self, if_false, decide_False]
  rw [parseUint_digits (by norm_num) hne hd (by omega)]
  simp only [Bool.not_false, true_and, Bool.false_eq_true, false_and, if_false]
  rw [if_neg (by omega), i64_of_lt hv]

theorem parseInt_formatNat {n : Nat} (hn : n < 2 ^ 63) :
    ParseInt (formatNat n) = ((n : Int), none) := by
  obtain ⟨h1, h2, -, h4⟩ := formatNat_spec n
  rw [parseInt_digits h1 h2 (by rw [h4]; exact hn), h4]

theorem formatInt_of_nonneg {x : Int} (h : 0 ≤ x) : formatInt x = formatNat x.toNat := by
  unfold formatInt
  rw [if_neg (by omega)]

theorem parseInt_formatInt {x : Int} (h0 : 0 ≤ x) (h : x < 2 ^ 63) :
    ParseInt (formatInt x) = (x, none) := by
  rw [formatInt_of_nonneg h0, parseInt_formatNat (by omega), Int.toNat_of_nonneg h0]

/-- The text of a number that is not negative: not empty, digits only, shorter
than 20 bytes when the number is an `int64`. -/
theorem formatInt_spec {x : Int} (h0 : 0 ≤ x) :
    formatInt x ≠ [] ∧ AllDigits (formatInt x) ∧
    (x < 2 ^ 63 → (formatInt x).length ≤ 19) := by
  rw [formatInt_of_nonneg h0]
  obtain ⟨h1, h2, h3, -⟩ := formatNat_spec x.toNat
  refine ⟨h1, h2, fun hx => h3 19 (by norm_num) ?_⟩
  have : (2 : Nat) ^ 63 < 10 ^ 19 := by norm_num
  omega

/-! ## Runs of digits and pieces between separators -/

theorem spanDigits_append {ds rest : List Char} (hd : AllDigits ds)
    (hr : ∀ c ∈ rest.head?, c.isDigit = false) : spanDigits (ds ++ rest) = (ds, rest) := by
  induction ds with
  | nil =>
    cases rest with
    | nil => rfl
    | cons c cs =>
      have := hr c (by simp)
      show spanDigits (c :: cs) = _
      unfold spanDigits
      rw [if_neg (by rw [this]; simp)]
  | cons d ds ih =>
    have hdd : d.isDigit = true := hd d (List.mem_cons_self _ _)
    have := ih (fun x hx => hd x (List.mem_cons_of_mem _ hx))
    show spanDigits (d :: (ds ++ rest)) = _
    unfold spanDigits
    rw [if_pos hdd, this]

theorem spanDigits_all {ds : List Char} (hd : AllDigits ds) : spanDigits ds = (ds, []) := by
  have := @spanDigits_append ds [] hd (by simp)
  rwa [List.append_nil] at this

theorem splitAll_of_not_mem {sep : Char} {p : List Char} (hp : sep ∉ p) :
    splitAll sep p = [p] := by
  induction p with
  | nil => rfl
  | cons c cs ih =>
    rw [List.mem_cons, not_or] at hp
    unfold splitAll
    rw [if_neg (fun h => hp.1 h.symm), ih hp.2]

theorem splitAll_append_sep {sep : Char} {p : List Char} (rest : List Char) (hp : sep ∉ p) :
    splitAll sep (p ++ sep :: rest) = p :: splitAll sep rest := by
  induction p with
  | nil =>
    show splitAll sep (sep :: rest) = _
    conv_lhs => unfold splitAll
    rw [if_pos rfl]
  | cons c cs ih =>
    rw [List.mem_cons, not_or] at hp
    show splitAll sep (c :: (cs ++ sep :: rest)) = _
    conv_lhs => unfold splitAll
    rw [if_neg (fun h => hp.1 h.symm), ih hp.2]

theorem joinWith_cons_cons (sep p q : List Char) (ps : List (List Char)) :
    joinWith sep (p :: q :: ps) = p ++ sep ++ joinWith sep (q :: ps) := rfl

theorem splitAll_joinWith {sep : Char} : ∀ (ps : List (List Char)), ps ≠ [] →
    (∀ p ∈ ps, sep ∉ p) → splitAll sep (joinWith [sep] ps) = ps := by
  intro ps
  induction ps with
  | nil => intro h; exact absurd rfl h
  | cons p rest ih =>
    intro _ hp
    cases rest with
    | nil => exact splitAll_of_not_mem (hp p (List.mem_cons_self _ _))
    | cons q qs =>
      rw [joinWith_cons_cons, List.append_assoc, List.singleton_append,
        splitAll_append_sep _ (hp p (List.mem_cons_self _ _)),
        ih (by simp) (fun x hx => hp x (List.mem_cons_of_mem _ hx))]

/-! ## The round trip of a range list through its text -/

theorem rQueryMatch_dash {ds : List Char} (r : List Char) (hne : ds ≠ [])
    (hd : AllDigits ds) :
    rQueryMatch (ds ++ '-' :: r) = some (ds, ['-'], (spanDigits r).1) := by
  obtain ⟨c, cs, rfl⟩ := List.exists_cons_of_ne_nil hne
  have hc : c.isDigit = true := hd c (List.mem_cons_self _ _)
  show rQueryMatch (c :: (cs ++ '-' :: r)) = _
  unfold rQueryMatch
  rw [if_pos hc]
  have hs : spanDigits (c :: (cs ++ '-' :: r)) = (c :: cs, '-' :: r) :=
    spanDigits_append hd (by intro x hx; simp at hx; subst hx; rfl)
  rw [hs]
  rfl

theorem rQueryMatch_all {ds : List Char} (hne : ds ≠ []) (hd : AllDigits ds) :
    rQueryMatch ds = some (ds, [], []) := by
  obtain ⟨c, cs, rfl⟩ := List.exists_cons_of_ne_nil hne
  have hc : c.isDigit = true := hd c (List.mem_cons_self _ _)
  unfold rQueryMatch
  rw [if_pos hc, spanDigits_all hd]
  rfl

theorem mem_formatInt {x : Int} (h0 : 0 ≤ x) {c : Char} (hc : c ∈ formatInt x) :
    c.isDigit = true :=
  (formatInt_spec h0).2.1 c hc

/-- The text of a non-empty range of numbers that are not negative parses back
to the range; it has no comma and is short. -/
theorem range_string_spec (r : Range) (h0 : 0 ≤ r.Start) (hse : r.Start ≤ r.End)
    (h63 : r.End < 2 ^ 63) :
    Range.UnmarshalText r.String = (r, none) ∧ ',' ∉ r.String ∧ r.String ≠ [] ∧
    r.String.length < 65536 := by
  obtain ⟨s1, s2, s3⟩ := formatInt_spec h0
  obtain ⟨e1, e2, e3⟩ := formatInt_spec (show 0 ≤ r.End by omega)
  have hs63 : r.Start < 2 ^ 63 := by omega
  by_cases heq : r.Start = r.End
  · have hS : r.String = formatInt r.Start := by
      unfold Range.String
      rw [if_pos heq]
    rw [hS]
    refine ⟨?_, fun h => ?_, s1, ?_⟩
    · unfold Range.UnmarshalText
      rw [rQueryMatch_all s1 s2]
      simp only
      unfold parseLimits
      rw [parseInt_formatInt h0 hs63]
      have e0 : (([] : List Char) = ['-']) = False := by simp
      simp only [e0, if_false, ne_eq, not_true_eq_false]
      have : (⟨r.Start, r.Start⟩ : Range) = r := by
        cases r
        simp only at heq
        subst heq
        rfl
      rw [this]
    · have := mem_formatInt h0 h
      cases this
    · have := s3 hs63
      omega
  · have hS : r.String = formatInt r.Start ++ '-' :: formatInt r.End := by
      unfold Range.String
      rw [if_neg heq, if_neg (by omega), List.append_assoc]
      rfl
    rw [hS]
    refine ⟨?_, fun h => ?_, by simp, ?_⟩
    · unfold Range.UnmarshalText
      rw [rQueryMatch_dash _ s1 s2]
      simp only
      rw [spanDigits_all e2]
      unfold parseLimits
      rw [parseInt_formatInt h0 hs63]
      simp only [if_true, ne_eq, e1, not_false_eq_true]
      rw [parseInt_formatInt (by omega) h63]
    · rcases List.mem_append.mp h with h | h
      · have := mem_formatInt h0 h
        cases this
      · rcases List.mem_cons.mp h with h | h
        · cases h
        · have := mem_formatInt (show 0 ≤ r.End by omega) h
          cases this
    · have := s3 hs63
      have := e3 h63
      rw [List.length_append, List.length_cons]
      omega

theorem appendTokens_strings : ∀ (xs acc : RangeList),
    (∀ r ∈ xs, 0 ≤ r.Start ∧ r.Start ≤ r.End ∧ r.End < 2 ^ 63) →
    appendTokens (xs.map Range.String) acc = .ok (acc ++ xs) := by
  intro xs
  induction xs with
  | nil => intro acc _; simp [appendTokens]
  | cons r rest ih =>
    intro acc h
    obtain ⟨h0, hse, h63⟩ := h r (List.mem_cons_self _ _)
    rw [List.map_cons]
    unfold appendTokens
    rw [(range_string_spec r h0 hse h63).1]
    simp only
    rw [ih (acc ++ [r]) (fun x hx => h x (List.mem_cons_of_mem _ hx)), List.append_assoc]
    rfl

theorem scanTokens_strings (xs : RangeList)
    (h : ∀ r ∈ xs, 0 ≤ r.Start ∧ r.Start ≤ r.End ∧ r.End < 2 ^ 63) :
    scanTokens (RangeList.String xs) = (xs.map Range.String, false) := by
  unfold scanTokens RangeList.String
  cases xs with
  | nil => decide
  | cons r rest =>
    have hsplit : splitAll ',' (joinWith [','] ((r :: rest).map Range.String))
        = (r :: rest).map Range.String := by
      refine splitAll_joinWith _ (by simp) ?_
      intro p hp
      rw [List.mem_map] at hp
      obtain ⟨x, hx, rfl⟩ := hp
      obtain ⟨h0, hse, h63⟩ := h x hx
      exact (range_string_spec x h0 hse h63).2.1
    have hlast : ((r :: rest).map Range.String).getLast? ≠ some [] := by
      intro hl
      have hm := List.mem_of_getLast?_eq_some hl
      rw [List.mem_map] at hm
      obtain ⟨x, hx, hxe⟩ := hm
      obtain ⟨h0, hse, h63⟩ := h x hx
      exact (range_string_spec x h0 hse h63).2.2.1 hxe
    have htw : ((r :: rest).map Range.String).takeWhile (fun p => decide (p.length < 65536))
        = (r :: rest).map Range.String := by
      rw [List.takeWhile_eq_self_iff]
      intro p hp
      rw [List.mem_map] at hp
      obtain ⟨x, hx, rfl⟩ := hp
      obtain ⟨h0, hse, h63⟩ := h x hx
      simpa using (range_string_spec x h0 hse h63).2.2.2
    simp only [hsplit, if_neg hlast, htw, lt_self_iff_false, decide_False]

/-- C23: for every canonical range list `x` whose bounds are not negative (and
are `int64` values), `RangeList.UnmarshalText`, on an empty list, of the text
`x.String()` returns without error and leaves the list `x`. -/
theorem rangeList_text_roundtrip (x : RangeList) (hc : Canonical x)
    (hb : ∀ r ∈ x, 0 ≤ r.Start ∧ r.End < 2 ^ 63) :
    RangeList.UnmarshalText [] (RangeList.String x) = .ok x := by
  have hcanon := (canonical_iff_canon x).mp hc
  have h : ∀ r ∈ x, 0 ≤ r.Start ∧ r.Start ≤ r.End ∧ r.End < 2 ^ 63 :=
    fun r hr => ⟨(hb r hr).1, hcanon.1 r hr, (hb r hr).2⟩
  unfold RangeList.UnmarshalText
  rw [scanTokens_strings x h]
  simp only
  rw [appendTokens_strings x [] h]
  simp only [List.nil_append, Bool.false_eq_true, if_false]
  rw [flatten_canon x hcanon (int64_of_bounds hcanon.1
    (fun r hr => ⟨by have := (hb r hr).1; omega, (hb r hr).2⟩))]

/-- C23, at the list `[(5,9),(11,11),(20,2^63-1)]`, whose text is
`5-9,11,20-9223372036854775807`. -/
theorem rangeList_text_roundtrip_witness :
    RangeList.String [⟨5, 9⟩, ⟨11, 11⟩, ⟨20, 2 ^ 63 - 1⟩]
      = "5-9,11,20-9223372036854775807".toList ∧
    RangeList.UnmarshalText [] (RangeList.String [⟨5, 9⟩, ⟨11, 11⟩, ⟨20, 2 ^ 63 - 1⟩])
      = .ok [⟨5, 9⟩, ⟨11, 11⟩, ⟨20, 2 ^ 63 - 1⟩] :=
  ⟨by decide, rangeList_text_roundtrip [⟨5, 9⟩, ⟨11, 11⟩, ⟨20, 2 ^ 63 - 1⟩] (by decide)
    (by decide)⟩

/-! ## ParseContentRange on the text of a list of ranges -/

theorem contentRangeMatch_skip (pre s : List Char)
    (hpre : ∀ c ∈ pre, c.isDigit = false ∧ c ≠ '*') :
    contentRangeMatch (pre ++ s) = contentRangeMatch s := by
  induction pre with
  | nil => rfl
  | cons c cs ih =>
    obtain ⟨h1, h2⟩ := hpre c (List.mem_cons_self _ _)
    show contentRangeMatch (c :: (cs ++ s)) = _
    conv_lhs => unfold contentRangeMatch
    rw [if_neg (by rw [h1]; simp [h2])]
    exact ih (fun x hx => hpre x (List.mem_cons_of_mem _ hx))

theorem contentRangeMatch_pair {d1 d2 : List Char} (suffix : List Char)
    (h1 : d1 ≠ []) (hd1 : AllDigits d1) (hd2 : AllDigits d2)
    (hs : ∀ c ∈ suffix.head?, c.isDigit = false) :
    contentRangeMatch (d1 ++ '-' :: (d2 ++ suffix))
      = some (d1, '-' :: d2, slashGroup suffix) := by
  obtain ⟨c, cs, rfl⟩ := List.exists_cons_of_ne_nil h1
  have hc : c.isDigit = true := hd1 c (List.mem_cons_self _ _)
  have hs1 : spanDigits (c :: (cs ++ '-' :: (d2 ++ suffix))) = (c :: cs, '-' :: (d2 ++ suffix)) :=
    spanDigits_append hd1 (by intro x hx; simp at hx; subst hx; rfl)
  have hs2 : spanDigits (d2 ++ suffix) = (d2, suffix) := spanDigits_append hd2 hs
  show contentRangeMatch (c :: (cs ++ '-' :: (d2 ++ suffix))) = _
  unfold contentRangeMatch
  rw [if_pos (Or.inl hc)]
  simp only [hc, if_true, hs1, hs2]
  rfl

/-- One pass of the loop on the text of the range `r`, after a text `pre`
without digit or `*` and before a text `suffix` that does not start with a
digit. -/
theorem contentRangeStep_pair (pre suffix : List Char) (r : Range) (ret : RangeList)
    (len : Int) (hpre : ∀ c ∈ pre, c.isDigit = false ∧ c ≠ '*')
    (h0 : 0 ≤ r.Start) (hse : r.Start ≤ r.End) (h63 : r.End < 2 ^ 63)
    (hs : ∀ c ∈ suffix.head?, c.isDigit = false)
    (hlen : lengthOf (slashGroup suffix) = (len, none))
    (hpos : 0 < r.Start ∨ 0 < r.End)
    (hret : ret = [] ∨ ∃ z, ret.getLast? = some z ∧ z.End < r.Start ∧ z.End ≠ -1) :
    contentRangeStep ret (-1) (pre ++ pairText r ++ suffix) = .ok (ret ++ [r], len) := by
  obtain ⟨s1, s2, -⟩ := formatInt_spec h0
  obtain ⟨e1, e2, -⟩ := formatInt_spec (show 0 ≤ r.End by omega)
  have hm : contentRangeMatch (pre ++ pairText r ++ suffix)
      = some (formatInt r.Start, '-' :: formatInt r.End, slashGroup suffix) := by
    unfold pairText
    rw [List.append_assoc, contentRangeMatch_skip _ _ hpre, List.append_assoc,
      List.cons_append]
    exact contentRangeMatch_pair suffix s1 s2 e2 hs
  have hstar : formatInt r.Start ≠ ['*'] := by
    intro h
    have := s2 '*' (by rw [h]; simp)
    cases this
  have hlen2 : ('-' :: formatInt r.End).length > 1 := by
    have := List.length_pos.mpr e1
    rw [List.length_cons]
    omega
  have hcond : (r.Start > 0 ∨ r.End > 0) ∧
      (ret.length = 0 ∨
        ((ret.getLast?.map Range.End).getD 0 < r.Start ∧
         ¬ (ret.getLast?.map Range.End).getD 0 = -1)) := by
    refine ⟨hpos, ?_⟩
    rcases hret with h | ⟨z, hz, h1, h2⟩
    · left; rw [h]; rfl
    · right; rw [hz]; exact ⟨h1, h2⟩
  unfold lengthOf at hlen
  unfold contentRangeStep
  rw [hm]
  simp only [ne_eq, hstar, not_false_eq_true, if_true, hlen2, List.drop_succ_cons,
    List.drop_zero, parseInt_formatInt h0 (show r.Start < 2 ^ 63 by omega),
    parseInt_formatInt (show 0 ≤ r.End by omega) h63] at hlen ⊢
  rw [hlen]
  simp only
  rw [if_pos hcond]

theorem not_mem_pairText (r : Range) (h0 : 0 ≤ r.Start) (hse : r.Start ≤ r.End) :
    ',' ∉ pairText r := by
  intro h
  unfold pairText at h
  rcases List.mem_append.mp h with h | h
  · have := mem_formatInt h0 h
    cases this
  · rcases List.mem_cons.mp h with h | h
    · cases h
    · have := mem_formatInt (show 0 ≤ r.End by omega) h
      cases this

/-- The loop of `ParseContentRange` on the pieces of `pre`, the texts of the
ranges of `rl` with commas between them, and `suffix`: every range is appended,
and the length is the one `suffix` gives. -/
theorem contentRangeLoop_pairs (suffix : List Char) (len : Int)
    (hs : ∀ c ∈ suffix.head?, c.isDigit = false) (hsc : ',' ∉ suffix)
    (hlen : lengthOf (slashGroup suffix) = (len, none)) :
    ∀ (rl : RangeList) (pre : List Char) (ret : RangeList), rl ≠ [] →
      (∀ c ∈ pre, (c.isDigit = false ∧ c ≠ '*') ∧ c ≠ ',') →
      (∀ r ∈ rl, 0 ≤ r.Start ∧ r.Start ≤ r.End ∧ r.End < 2 ^ 63) →
      rl.Chain' (fun a b => a.End < b.Start) →
      (∀ r ∈ rl.head?, (0 < r.Start ∨ 0 < r.End) ∧
        (ret = [] ∨ ∃ z, ret.getLast? = some z ∧ z.End < r.Start ∧ z.End ≠ -1)) →
      contentRangeLoop (splitAll ',' (pre ++ joinWith [','] (rl.map pairText) ++ suffix))
        ret (-1) = .ok (ret ++ rl, len) := by
  intro rl
  induction rl with
  | nil => intro pre ret h; exact absurd rfl h
  | cons r rest ih =>
    intro pre ret _ hpre hv hch hhead
    obtain ⟨h0, hse, h63⟩ := hv r (List.mem_cons_self _ _)
    obtain ⟨hpos, hret⟩ := hhead r (by simp)
    have hpre1 : ∀ c ∈ pre, c.isDigit = false ∧ c ≠ '*' := fun c hc => (hpre c hc).1
    have hprec : ',' ∉ pre := fun h => (hpre ',' h).2 rfl
    have hpc := not_mem_pairText r h0 hse
    cases rest with
    | nil =>
      have htext : pre ++ joinWith [','] ([r].map pairText) ++ suffix
          = pre ++ pairText r ++ suffix := rfl
      rw [htext, splitAll_of_not_mem (by
        intro h
        rcases List.mem_append.mp h with h | h
        · rcases List.mem_append.mp h with h | h
          · exact hprec h
          · exact hpc h
        · exact hsc h)]
      unfold contentRangeLoop
      rw [contentRangeStep_pair pre suffix r ret len hpre1 h0 hse h63 hs hlen hpos hret]
      rfl
    | cons q qs =>
      have htext : pre ++ joinWith [','] ((r :: q :: qs).map pairText) ++ suffix
          = (pre ++ pairText r) ++
            ',' :: ([] ++ joinWith [','] ((q :: qs).map pairText) ++ suffix) := by
        simp only [List.map_cons, joinWith_cons_cons, List.append_assoc, List.singleton_append,
          List.nil_append, List.cons_append]
      have hq := hv q (List.mem_cons_of_mem _ (List.mem_cons_self _ _))
      have hrq : r.End < q.Start := (List.chain'_cons.mp hch).1
      rw [htext, splitAll_append_sep _ (by
        intro h
        rcases List.mem_append.mp h with h | h
        · exact hprec h
        · exact hpc h)]
      unfold contentRangeLoop
      have hstep := contentRangeStep_pair pre [] r ret (-1) hpre1 h0 hse h63 (by simp)
        (by decide) hpos hret
      rw [List.append_nil] at hstep
      rw [hstep]
      simp only
      rw [ih [] (ret ++ [r]) (by simp) (by simp)
        (fun x hx => hv x (List.mem_cons_of_mem _ hx)) (List.chain'_cons.mp hch).2
        (by
          intro x hx
          simp only [List.head?_cons, Option.mem_def, Option.some.injEq] at hx
          subst hx
          exact ⟨Or.inl (by omega), Or.inr ⟨r, by simp, hrq, by omega⟩⟩),
        List.append_assoc]
      rfl

/-- C26 (the code fails the claim): `bytes=0-0/5` is the text of the one range
`(0,0)` with `0 <= s_1 <= e_1`, and `ParseContentRange` returns the empty list
with length 5: the guard `start > 0 || end > 0`, which tells a parsed range
from the defaults `(0,-1)` of a `*` entry, keeps the range `(0,0)` out. -/
theorem parseContentRange_drops_zero :
    contentRangeText [⟨0, 0⟩] ('/' :: formatInt 5) = "bytes=0-0/5".toList ∧
    ParseContentRange (contentRangeText [⟨0, 0⟩] ('/' :: formatInt 5)) = .ok ([], 5) ∧
    ParseContentRange (contentRangeText [⟨0, 0⟩] ('/' :: formatInt 5))
      ≠ .ok ([⟨0, 0⟩], 5) := by
  decide

/-- What `ParseContentRange` returns when the first range is not `(0,0)`: for
every non-empty sequence of ranges `(s_i, e_i)` with
`0 <= s_i <= e_i`, `e_i < s_(i+1)` and `e_1 > 0`, and every length `L >= 0`
(all `int64` values), `ParseContentRange` on `bytes=s_1-e_1,...,s_n-e_n/L`
returns no error, the list of the ranges in that order and the length `L`;
without the suffix `/L`, and with the suffix `/*`, it returns the same list and
the length -1. -/
theorem parseContentRange_ranges (rl : RangeList) (L : Int) (hne : rl ≠ [])
    (hv : ∀ r ∈ rl, 0 ≤ r.Start ∧ r.Start ≤ r.End ∧ r.End < 2 ^ 63)
    (hch : rl.Chain' (fun a b => a.End < b.Start))
    (hfirst : ∀ r ∈ rl.head?, 0 < r.End) (hL0 : 0 ≤ L) (hL63 : L < 2 ^ 63) :
    ParseContentRange (contentRangeText rl ('/' :: formatInt L)) = .ok (rl, L) ∧
    ParseContentRange (contentRangeText rl []) = .ok (rl, -1) ∧
    ParseContentRange (contentRangeText rl "/*".toList) = .ok (rl, -1) := by
  obtain ⟨l1, l2, -⟩ := formatInt_spec hL0
  have hpre : ∀ c ∈ "bytes=".toList, (c.isDigit = false ∧ c ≠ '*') ∧ c ≠ ',' := by decide
  have hhead : ∀ r ∈ rl.head?, (0 < r.Start ∨ 0 < r.End) ∧
      (([] : RangeList) = [] ∨
        ∃ z, ([] : RangeList).getLast? = some z ∧ z.End < r.Start ∧ z.End ≠ -1) :=
    fun r hr => ⟨Or.inr (hfirst r hr), Or.inl rfl⟩
  have hslash : slashGroup ('/' :: formatInt L) = '/' :: formatInt L := by
    unfold slashGroup
    simp only [spanDigits_all l2]
  have hlenL : lengthOf (slashGroup ('/' :: formatInt L)) = (L, none) := by
    have hlen2 : ('/' :: formatInt L).length > 1 := by
      have := List.length_pos.mpr l1
      rw [List.length_cons]
      omega
    have hstar : formatInt L ≠ ['*'] := by
      intro h
      have := l2 '*' (by rw [h]; simp)
      cases this
    rw [hslash]
    unfold lengthOf
    simp only [hlen2, List.drop_succ_cons, List.drop_zero, ne_eq, hstar, not_false_eq_true,
      and_self, if_true, parseInt_formatInt hL0 hL63]
  have hcommaL : ',' ∉ '/' :: formatInt L := by
    intro h
    rcases List.mem_cons.mp h with h | h
    · cases h
    · have := l2 ',' h
      cases this
  unfold ParseContentRange contentRangeText
  refine ⟨?_, ?_, ?_⟩
  · have := contentRangeLoop_pairs ('/' :: formatInt L) L (by intro c hc; simp at hc; subst hc; rfl)
      hcommaL hlenL rl "bytes=".toList [] hne hpre hv hch hhead
    rw [this]; rfl
  · have := contentRangeLoop_pairs [] (-1) (by simp) (by simp) (by decide) rl "bytes=".toList []
      hne hpre hv hch hhead
    rw [this]; rfl
  · have := contentRangeLoop_pairs "/*".toList (-1) (by decide) (by decide) (by decide) rl
      "bytes=".toList [] hne hpre hv hch hhead
    rw [this]; rfl

/-- The text of scenario E1, the ranges `(1,2), (3,4)` and the length 5,
whose text is `bytes=1-2,3-4/5`. -/
theorem parseContentRange_ranges_witness :
    contentRangeText [⟨1, 2⟩, ⟨3, 4⟩] ('/' :: formatInt 5) = "bytes=1-2,3-4/5".toList ∧
    ParseContentRange (contentRangeText [⟨1, 2⟩, ⟨3, 4⟩] ('/' :: formatInt 5))
      = .ok ([⟨1, 2⟩, ⟨3, 4⟩], 5) ∧
    ParseContentRange (contentRangeText [⟨1, 2⟩, ⟨3, 4⟩] []) = .ok ([⟨1, 2⟩, ⟨3, 4⟩], -1) ∧
    ParseContentRange (contentRangeText [⟨1, 2⟩, ⟨3, 4⟩] "/*".toList)
      = .ok ([⟨1, 2⟩, ⟨3, 4⟩], -1) :=
  ⟨by decide, parseContentRange_ranges [⟨1, 2⟩, ⟨3, 4⟩] 5 (by decide) (by decide) (by simp)
    (by decide) (by decide) (by decide)⟩

/-! ## The repair area, the block count and the block of a byte -/

theorem sub64_self (a : Nat) : sub64 a a = 0 := by
  unfold sub64
  have h1 := Nat.mod_lt a (show 0 < 2 ^ 64 by norm_num)
  have h2 := Nat.div_add_mod a (2 ^ 64)
  have h3 : a + (2 ^ 64 - a % 2 ^ 64) = 2 ^ 64 * (a / 2 ^ 64 + 1) := by
    rw [Nat.mul_add]; omega
  rw [h3, Nat.mul_mod_right]

/-- The configuration fields of a structure `NewBlockingStructure5052` returns:
`MaxNumEs` is `MaxSbLen`, the block length handed in. -/
theorem new_ok_fields {L B E G : Nat} {stream : Bool} {bs : BlockingStructure}
    (h : NewBlockingStructure5052 L B E G stream = .ok bs) :
    bs.MaxNumEs = B ∧ bs.MaxSbLen = B ∧ bs.ESLen = E ∧ bs.TransferLen = L ∧
    bs.T = sub64 (add64 L E) 1 / E ∧
    bs.N = u32 (sub64 (add64 (sub64 (add64 L E) 1 / E) B) 1 / B) ∧
    L ≠ 0 ∧ E ≠ 0 ∧ B ≠ 0 := by
  cases stream with
  | true =>
    obtain ⟨hL, hE, hB, rfl⟩ := new_stream_ok h
    exact ⟨rfl, rfl, rfl, rfl, rfl, rfl, hL, hE, hB⟩
  | false =>
    obtain ⟨hL, hE, hB, -, -, h1 | h1⟩ := new_nonstream_ok h
    · obtain ⟨-, rfl⟩ := h1
      exact ⟨rfl, rfl, rfl, rfl, rfl, rfl, hL, hE, hB⟩
    · obtain ⟨-, -, rfl⟩ := h1
      exact ⟨rfl, rfl, rfl, rfl, rfl, rfl, hL, hE, hB⟩

/-- Every structure `NewBlockingStructure5052` returns has an empty repair area,
and `RepairSBN` divides by zero on it. -/
theorem repairSBN_of_new {L B E G : Nat} {stream : Bool} {bs : BlockingStructure}
    (h : NewBlockingStructure5052 L B E G stream = .ok bs) (offset : Nat) :
    bs.RprBlockSize = 0 ∧ bs.RepairSBN offset = none := by
  obtain ⟨h1, h2, -⟩ := new_ok_fields h
  have h0 : bs.RprBlockSize = 0 := by
    unfold RprBlockSize
    rw [h1, h2, sub64_self]
    unfold mul64
    simp
  refine ⟨h0, ?_⟩
  unfold RepairSBN
  rw [if_pos h0]

/-- The structure `NewBlockingStructure5052` returns when neither `L + E - 1`
nor the block count overflows: `T` and `N` are the exact values. -/
theorem new_ok_exact {L B E G : Nat} {stream : Bool} {bs : BlockingStructure}
    (hL64 : L < 2 ^ 64) (hB32 : B < 2 ^ 32) (hE16 : E < 2 ^ 16)
    (h : NewBlockingStructure5052 L B E G stream = .ok bs)
    (hno : L + E ≤ 2 ^ 64) (hN : ceilDiv (ceilDiv L E) B < 2 ^ 32) :
    bs.T = ceilDiv L E ∧ bs.N = ceilDiv (ceilDiv L E) B ∧ 0 < bs.N ∧ Regular bs ∧
    bs.TransferLen = L ∧ bs.ESLen = E ∧ bs.MaxSbLen = B ∧
    (stream = false → bs.I < bs.N ∧
      bs.ESLen * (symOff bs (bs.N - 1) + blockSyms bs (bs.N - 1)) < 2 ^ 64) := by
  obtain ⟨-, -, -, -, hT, hNe, hL, hE, hB⟩ := new_ok_fields h
  have hT1 : bs.T = ceilDiv L E := by
    rcases wrapped_ceil L E (by omega) hL64 (by omega) with ⟨-, h1⟩ | ⟨h1, -⟩
    · rw [hT, h1]
    · omega
  have hN1 : ceilDiv bs.T B < 2 ^ 32 := by rw [hT1]; exact hN
  have hN2 : bs.N = ceilDiv (ceilDiv L E) B := by
    rw [hNe, ← hT, hT1]
    exact wrapped_count _ B (by omega) hB32 hN
  obtain ⟨hr, h1, h2, h3, h4, h5⟩ := new_ok_regular hL64 hB32 hE16 h hN1
  exact ⟨hT1, hN2, h4 (Or.inr hno), hr, h1, h2, h3, h5⟩

/-- C31 (fails as stated): the structure `NewBlockingStructure5052(107374182, 10,
1430, 1, false)` has `MaxNumEs = MaxSbLen = 10`, its `RprBlockSize()` is zero
and `RepairSBN(0)` divides by zero. With `MaxNumEs` set to 12 afterwards
`RprBlockSize()` is 2860 and `RepairSBN(2^50)` returns 2829272162, the quotient
393671296098 reduced modulo `2^32`. -/
theorem repairSBN_divides_by_zero :
    ∃ bs, NewBlockingStructure5052 107374182 10 1430 1 false = .ok bs ∧
      bs.MaxNumEs = bs.MaxSbLen ∧ bs.RprBlockSize = 0 ∧ bs.RepairSBN 0 = none ∧
      RprBlockSize { bs with MaxNumEs := 12 } = 2860 ∧
      RepairSBN { bs with MaxNumEs := 12 } (2 ^ 50) = some 2829272162 ∧
      2 ^ 50 / RprBlockSize { bs with MaxNumEs := 12 } = 393671296098 :=
  ⟨⟨7509, 7506, 10, 9, 1430, 75087, 107374182, 10, 10, 1⟩,
    by decide, by decide, by decide, by decide, by decide, by decide, by decide⟩

/-- C31 (amended): for every structure `NewBlockingStructure5052` returns, once
its `MaxNumEs` has been set to a value `M` above `MaxSbLen`, and every offset:
`RprBlockSize()` is `(M - MaxSbLen) * ESLen`, which is not zero, and
`RepairSBN(offset)` returns `floor(offset / RprBlockSize())` reduced modulo
`2^32`, which is the quotient itself when that is below `2^32`. -/
theorem repairSBN_defined (L B E G : Nat) (stream : Bool) (bs : BlockingStructure)
    (M offset : Nat) (hB32 : B < 2 ^ 32) (hE16 : E < 2 ^ 16)
    (hnew : NewBlockingStructure5052 L B E G stream = .ok bs)
    (hM : B < M) (hM32 : M < 2 ^ 32) :
    RprBlockSize { bs with MaxNumEs := M } = (M - B) * E ∧
    0 < RprBlockSize { bs with MaxNumEs := M } ∧
    RepairSBN { bs with MaxNumEs := M } offset
      = some (offset / RprBlockSize { bs with MaxNumEs := M } % 2 ^ 32) ∧
    (offset / RprBlockSize { bs with MaxNumEs := M } < 2 ^ 32 →
      RepairSBN { bs with MaxNumEs := M } offset
        = some (offset / RprBlockSize { bs with MaxNumEs := M })) := by
  obtain ⟨-, h2, h3, -, -, -, -, hE, -⟩ := new_ok_fields hnew
  have hsub : sub64 M B = M - B := by unfold sub64; omega
  have hprod : (M - B) * E < 2 ^ 64 := by
    calc (M - B) * E < 2 ^ 32 * 2 ^ 16 := Nat.mul_lt_mul'' (by omega) hE16
      _ < 2 ^ 64 := by norm_num
  have hsize : RprBlockSize { bs with MaxNumEs := M } = (M - B) * E := by
    unfold RprBlockSize
    simp only [h2, h3, hsub]
    exact Nat.mod_eq_of_lt hprod
  have hpos : 0 < (M - B) * E := Nat.mul_pos (by omega) (by omega)
  have hrep : RepairSBN { bs with MaxNumEs := M } offset
      = some (offset / RprBlockSize { bs with MaxNumEs := M } % 2 ^ 32) := by
    unfold RepairSBN
    rw [if_neg (by rw [hsize]; omega)]
    rfl
  refine ⟨hsize, by rw [hsize]; exact hpos, hrep, fun hlt => ?_⟩
  rw [hrep, Nat.mod_eq_of_lt hlt]

/-- C31 (amended), at the structure of the 107374182-byte object (`E = 1430`,
`B = 10`) with `MaxNumEs` set to 12, as the tests do, and the offset 5720 of
the third repair block. -/
theorem repairSBN_defined_witness :
    RepairSBN ⟨7509, 7506, 10, 9, 1430, 75087, 107374182, 10, 12, 1⟩ 5720 = some 2 :=
  ((repairSBN_defined 107374182 10 1430 1 false
    ⟨7509, 7506, 10, 9, 1430, 75087, 107374182, 10, 10, 1⟩ 12 5720
    (by decide) (by decide) (by decide) (by decide) (by decide)).2.2.2 (by decide)).trans
    (by decide)

/-- C37 (fails as stated): `L = 2^34`, `B = 1`, `E = 2`, `G = 1` are valid, the
block count `2^33` is stored as `N = 0` and the division `T / N` panics;
`L = 2^34 + 2` gives the block count `2^33 + 1`, stored as `N = 1`; and with
`L = 2^64 - 1`, `B = 2^32 - 1`, `E = 2` the sum `L + E - 1` wraps, `T` and `N`
are zero and the call panics although the block count `2^31 + 1` fits 32 bits. -/
theorem new_nonstream_count_wraps :
    NewBlockingStructure5052 (2 ^ 34) 1 2 1 false = .panic ∧
    ceilDiv (ceilDiv (2 ^ 34) 2) 1 = 2 ^ 33 ∧
    (∃ bs, NewBlockingStructure5052 (2 ^ 34 + 2) 1 2 1 false = .ok bs ∧ bs.N = 1) ∧
    ceilDiv (ceilDiv (2 ^ 34 + 2) 2) 1 = 2 ^ 33 + 1 ∧
    NewBlockingStructure5052 (2 ^ 64 - 1) (2 ^ 32 - 1) 2 1 false = .panic ∧
    ceilDiv (ceilDiv (2 ^ 64 - 1) 2) (2 ^ 32 - 1) = 2 ^ 31 + 1 :=
  ⟨by decide, by decide, ⟨⟨1, 0, 1, 1, 2, 2 ^ 33 + 1, 2 ^ 34 + 2, 1, 1, 1⟩, by decide, rfl⟩,
    by decide, by decide, by decide⟩

/-- C37 (amended): for every valid parameter set (`0 < L < 2^64`,
`0 < E < 2^16`, `0 < B < 2^32`, `0 < G <= B`) with `L + E <= 2^64` and
`ceil(ceil(L/E)/B) < 2^32`, `NewBlockingStructure5052(L, B, E, G, false)`
succeeds and the stored `N` is `ceil(ceil(L/E)/B)`, which is at least 1. -/
theorem new_nonstream_count (L B E G : Nat)
    (hL : 0 < L) (hL64 : L < 2 ^ 64) (hE : 0 < E) (hE16 : E < 2 ^ 16)
    (hB : 0 < B) (hB32 : B < 2 ^ 32) (hG : 0 < G) (hGB : G ≤ B)
    (hno : L + E ≤ 2 ^ 64) (hN : ceilDiv (ceilDiv L E) B < 2 ^ 32) :
    ∃ bs, NewBlockingStructure5052 L B E G false = .ok bs ∧
      bs.N = ceilDiv (ceilDiv L E) B ∧ 1 ≤ bs.N := by
  have hT : sub64 (add64 L E) 1 / E = ceilDiv L E := by
    rcases wrapped_ceil L E hL hL64 hE with ⟨-, h1⟩ | ⟨h1, -⟩
    · exact h1
    · omega
  have hcount : u32 (sub64 (add64 (sub64 (add64 L E) 1 / E) B) 1 / B)
      = ceilDiv (ceilDiv L E) B := by
    rw [hT]; exact wrapped_count _ B hB hB32 hN
  have hpos : 0 < ceilDiv (ceilDiv L E) B :=
    ceilDiv_pos _ _ (ceilDiv_pos _ _ hL hE) hB
  rcases (new_nonstream_outcome L B E G).2.2.2.2.2 (by omega) (by omega) (by omega)
    (by omega) hGB with ⟨-, -, h0⟩ | ⟨bs, hbs, -⟩
  · rw [hcount] at h0; omega
  · obtain ⟨-, hN1, hNpos, -⟩ := new_ok_exact hL64 hB32 hE16 hbs hno hN
    exact ⟨bs, hbs, hN1, hNpos⟩

/-- C37 (amended), at the 107374182-byte object with `E = 1430`, `B = 10`:
7509 blocks. -/
theorem new_nonstream_count_witness :
    ∃ bs, NewBlockingStructure5052 107374182 10 1430 1 false = .ok bs ∧
      bs.N = ceilDiv (ceilDiv 107374182 1430) 10 ∧ 1 ≤ bs.N :=
  new_nonstream_count 107374182 10 1430 1 (by decide) (by decide) (by decide) (by decide)
    (by decide) (by decide) (by decide) (by decide) (by decide) (by decide)

/-- C38 (fails as stated): in stream mode, with `L = 2^64 - 1`, `E = 2` and
`B = 2^32 - 1`, the sum `L + E - 1` wraps, the structure is returned with
`T = 0` and `N = 0`, and `SourceSBN(0)` is `N - 1 = 2^32 - 1`, which is not
below `N`. -/
theorem sourceSBN_beyond_count :
    ∃ bs, NewBlockingStructure5052 (2 ^ 64 - 1) (2 ^ 32 - 1) 2 1 true = .ok bs ∧
      ceilDiv bs.T (2 ^ 32 - 1) < 2 ^ 32 ∧
      ceilDiv (ceilDiv (2 ^ 64 - 1) 2) (2 ^ 32 - 1) < 2 ^ 32 ∧
      0 < bs.TransferLen ∧ bs.N = 0 ∧ bs.SourceSBN 0 = some (2 ^ 32 - 1) :=
  ⟨⟨0, 0, 2 ^ 32 - 1, 2 ^ 32 - 1, 2, 0, 2 ^ 64 - 1, 2 ^ 32 - 1, 2 ^ 32 - 1, 1⟩,
    by decide, by decide, by decide, by decide, rfl, by decide⟩

/-- C38 (amended): for every structure `NewBlockingStructure5052` returns, in
stream mode or not, with `L + E <= 2^64` (the sum `L + E - 1` does not wrap) and
`ceil(T/B) < 2^32`, and every byte offset `o < TransferLen`: `SourceSBN(o)`
returns a block `s < N` with
`SrcOffset(s) <= o < SrcOffset(s) + SrcBlockSize(s)`. -/
theorem sourceSBN_holds_byte (L B E G : Nat) (stream : Bool) (bs : BlockingStructure)
    (hL64 : L < 2 ^ 64) (hB32 : B < 2 ^ 32) (hE16 : E < 2 ^ 16)
    (hnew : NewBlockingStructure5052 L B E G stream = .ok bs)
    (hN : ceilDiv (ceilDiv L E) B < 2 ^ 32) (hno : L + E ≤ 2 ^ 64)
    (o : Nat) (ho : o < bs.TransferLen) :
    ∃ s, bs.SourceSBN o = some s ∧ s < bs.N ∧ bs.SrcOffset s ≤ o ∧
      o < bs.SrcOffset s + bs.SrcBlockSize s := by
  obtain ⟨-, -, hNpos, hr, -⟩ := new_ok_exact hL64 hB32 hE16 hnew hno hN
  obtain ⟨k, hk, hs, hlo, hhi⟩ := hr.sourceSBN_block hNpos ho
  refine ⟨k, hs, hk, hlo, ?_⟩
  by_cases hlast : k + 1 < bs.N
  · rw [hr.srcBlockSize_inner hlast, hr.srcOffset_eq hk]
    rw [hr.srcOffset_eq hlast, symOff_succ, Nat.mul_add] at hhi
    exact hhi
  · have hkN : k = bs.N - 1 := by omega
    have hlt := hr.srcOffset_lt_len hk
    rw [hkN] at hlt ⊢
    rw [hr.srcBlockSize_last hNpos, ← hr.srcOffset_eq (show bs.N - 1 < bs.N by omega)]
    omega

/-- C38 (amended), at the structure of the 107374182-byte object (`E = 1430`,
`B = 10`) and its last byte. -/
theorem sourceSBN_holds_byte_witness :
    ∃ s, SourceSBN ⟨7509, 7506, 10, 9, 1430, 75087, 107374182, 10, 10, 1⟩ 107374181
        = some s ∧ s < 7509 ∧
      SrcOffset ⟨7509, 7506, 10, 9, 1430, 75087, 107374182, 10, 10, 1⟩ s ≤ 107374181 ∧
      107374181 < SrcOffset ⟨7509, 7506, 10, 9, 1430, 75087, 107374182, 10, 10, 1⟩ s +
        SrcBlockSize ⟨7509, 7506, 10, 9, 1430, 75087, 107374182, 10, 10, 1⟩ s :=
  sourceSBN_holds_byte 107374182 10 1430 1 false
    ⟨7509, 7506, 10, 9, 1430, 75087, 107374182, 10, 10, 1⟩
    (by decide) (by decide) (by decide) (by decide) (by decide) (by decide)
    107374181 (by decide)

/-! ## The symbol counts of the blocks add up to `T` -/

theorem sum_blockSyms_plain (bs : BlockingStructure) (m : Nat) :
    ∑ k ∈ Finset.range m, blockSyms bs k = symOff bs m := by
  induction m with
  | zero => simp [symOff_zero]
  | succ m ih => rw [Finset.sum_range_succ, ih, symOff_succ]

theorem ceilDiv_between (x e k : Nat) (he : 0 < e) (hk : 0 < k)
    (hlo : e * (k - 1) < x) (hhi : x ≤ e * k) : ceilDiv x e = k := by
  unfold ceilDiv
  obtain ⟨j, rfl⟩ : ∃ j, k = j + 1 := ⟨k - 1, by omega⟩
  simp only [Nat.add_sub_cancel] at hlo
  rw [Nat.mul_add, Nat.mul_one] at hhi
  have e1 : (j + 1) * e = e * j + e := by ring
  have e2 : (j + 1 + 1) * e = e * j + e + e := by ring
  apply Nat.div_eq_of_lt_le
  · rw [e1]; omega
  · rw [e2]; omega

/-- The block lengths of a structure `NewBlockingStructure5052` returns do not
exceed `MaxSbLen`. -/
theorem new_ok_block_le {L B E G : Nat} {stream : Bool} {bs : BlockingStructure}
    (hL64 : L < 2 ^ 64) (hB32 : B < 2 ^ 32)
    (h : NewBlockingStructure5052 L B E G stream = .ok bs)
    (hno : L + E ≤ 2 ^ 64) (hN : ceilDiv (ceilDiv L E) B < 2 ^ 32) :
    bs.A ≤ B ∧ bs.ASmall ≤ B ∧ (stream = true → bs.I = bs.N ∧ bs.A = B) := by
  cases stream with
  | true =>
    obtain ⟨-, -, -, rfl⟩ := new_stream_ok h
    exact ⟨le_refl _, le_refl _, fun _ => ⟨rfl, rfl⟩⟩
  | false =>
    obtain ⟨hL, hE, hB, -, -, h1 | h1⟩ := new_nonstream_ok h
    · obtain ⟨-, rfl⟩ := h1
      exact ⟨le_refl _, le_refl _, fun h => by cases h⟩
    · obtain ⟨hE1, -, rfl⟩ := h1
      have hT : sub64 (add64 L E) 1 / E = ceilDiv L E := by
        rcases wrapped_ceil L E (by omega) hL64 (by omega) with ⟨-, h1⟩ | ⟨h1, -⟩
        · exact h1
        · omega
      have hNe := wrapped_count (ceilDiv L E) B (by omega) hB32 hN
      simp only [hT, hNe]
      have hTpos : 0 < ceilDiv L E := ceilDiv_pos _ _ (by omega) (by omega)
      obtain ⟨hNpos, -, hq, hq1, -⟩ := block_arith (ceilDiv L E) B hTpos (by omega)
      have hmod : ceilDiv L E % ceilDiv (ceilDiv L E) B < ceilDiv (ceilDiv L E) B :=
        Nat.mod_lt _ hNpos
      have e1 : u32 (ceilDiv L E / ceilDiv (ceilDiv L E) B)
          = ceilDiv L E / ceilDiv (ceilDiv L E) B := Nat.mod_eq_of_lt (by omega)
      have e2 : u32 (ceilDiv L E % ceilDiv (ceilDiv L E) B)
          = ceilDiv L E % ceilDiv (ceilDiv L E) B := Nat.mod_eq_of_lt (by omega)
      rw [e1, e2]
      refine ⟨?_, hq, fun h => by cases h⟩
      split
      · rename_i hp
        have := hq1 hp
        unfold add32
        rw [Nat.mod_eq_of_lt (by omega)]
        exact this
      · exact hq

/-- With `E * B < 2^32` and a block count below `2^32` the object is shorter
than `2^64 - 2^16`: the sum `L + E - 1` cannot wrap. -/
theorem length_bound (L B E : Nat) (hE : 0 < E) (hE16 : E < 2 ^ 16) (hB : 0 < B)
    (hEB : E * B < 2 ^ 32) (hN : ceilDiv (ceilDiv L E) B < 2 ^ 32) :
    L + E ≤ 2 ^ 64 ∧ E * (ceilDiv (ceilDiv L E) B * B) < 2 ^ 64 := by
  have h1 := ceilDiv_mul_ge L E hE
  have h2 := ceilDiv_mul_ge (ceilDiv L E) B hB
  have h3 : ceilDiv L E * E ≤ ceilDiv (ceilDiv L E) B * B * E := Nat.mul_le_mul_right _ h2
  have h4 : ceilDiv (ceilDiv L E) B * B * E = ceilDiv (ceilDiv L E) B * (E * B) := by ring
  have h5 : ceilDiv (ceilDiv L E) B * (E * B) ≤ (2 ^ 32 - 1) * (2 ^ 32 - 1) :=
    Nat.mul_le_mul (by omega) (by omega)
  have h6 : E * (ceilDiv (ceilDiv L E) B * B) = ceilDiv (ceilDiv L E) B * (E * B) := by ring
  have h7 : (2 ^ 32 - 1) * (2 ^ 32 - 1) + 2 ^ 16 ≤ 2 ^ 64 := by norm_num
  constructor
  · omega
  · rw [h6]
    have : (2 ^ 32 - 1) * (2 ^ 32 - 1) < 2 ^ 64 := by norm_num
    omega

/-- C39 (fails as stated): `L = 2^32 - 2`, `E = 65535`, `B = 65537` have
`E * B = 2^32 - 1` and one block of `T = 65537` symbols, in stream mode or not;
`NumSrcSym(0)` is 0, because the clipped count `uint32(L - offset) + E - 1`
wraps past `2^32`. -/
theorem numSrcSym_clip_wraps :
    (∃ bs, NewBlockingStructure5052 (2 ^ 32 - 2) 65537 65535 1 false = .ok bs ∧
      bs.ESLen * bs.MaxSbLen < 2 ^ 32 ∧ ceilDiv (ceilDiv (2 ^ 32 - 2) 65535) 65537 = 1 ∧
      bs.N = 1 ∧ bs.T = 65537 ∧ bs.NumSrcSym 0 = some 0) ∧
    (∃ bs, NewBlockingStructure5052 (2 ^ 32 - 2) 65537 65535 1 true = .ok bs ∧
      bs.ESLen * bs.MaxSbLen < 2 ^ 32 ∧
      bs.N = 1 ∧ bs.T = 65537 ∧ bs.NumSrcSym 0 = some 0) :=
  ⟨⟨⟨1, 0, 65537, 65537, 65535, 65537, 2 ^ 32 - 2, 65537, 65537, 1⟩,
      by decide, by decide, by decide, rfl, rfl, by decide⟩,
    ⟨⟨1, 1, 65537, 65537, 65535, 65537, 2 ^ 32 - 2, 65537, 65537, 1⟩,
      by decide, by decide, rfl, rfl, by decide⟩⟩

/-- C39 (amended): for every structure `NewBlockingStructure5052` returns, in
stream mode or not, with `ESLen * MaxSbLen < 2^32`, `ceil(T/B) < 2^32` for
`T = ceil(L/E)` and such that, whenever the final block is cut short
(`SrcOffset(N-1) + ESLen * ASmall > TransferLen`), its byte count plus
`ESLen - 1` is below `2^32`: every `NumSrcSym(sbn)` with `sbn < N` is between 1
and `MaxSbLen`, and their sum over `[0, N)` is `T = ceil(TransferLen / ESLen)`. -/
theorem numSrcSym_sum (L B E G : Nat) (stream : Bool) (bs : BlockingStructure)
    (hL64 : L < 2 ^ 64) (hB32 : B < 2 ^ 32) (hE16 : E < 2 ^ 16)
    (hnew : NewBlockingStructure5052 L B E G stream = .ok bs)
    (hEB : bs.ESLen * bs.MaxSbLen < 2 ^ 32)
    (hN : ceilDiv (ceilDiv L E) B < 2 ^ 32)
    (hclip : bs.SrcOffset (bs.N - 1) + bs.ESLen * bs.ASmall > bs.TransferLen →
      bs.SrcBlockSize (bs.N - 1) + bs.ESLen - 1 < 2 ^ 32) :
    ∃ f : Nat → Nat,
      (∀ sbn, sbn < bs.N →
        bs.NumSrcSym sbn = some (f sbn) ∧ 1 ≤ f sbn ∧ f sbn ≤ bs.MaxSbLen) ∧
      ∑ sbn ∈ Finset.range bs.N, f sbn = bs.T ∧
      bs.T = ceilDiv bs.TransferLen bs.ESLen := by
  obtain ⟨-, hMB, hES, hTL, -, -, hL, hE, hB⟩ := new_ok_fields hnew
  rw [hES, hMB] at hEB
  obtain ⟨hno, hprod⟩ := length_bound L B E (by omega) hE16 (by omega) hEB hN
  obtain ⟨hT, hNe, hNpos, hr, -, -, -, hns⟩ := new_ok_exact hL64 hB32 hE16 hnew hno hN
  obtain ⟨hA, hAS, hst⟩ := new_ok_block_le hL64 hB32 hnew hno hN
  have hblk : ∀ j, blockSyms bs j ≤ B := by
    intro j; unfold blockSyms; split
    · exact hA
    · exact hAS
  have hlastblk : blockSyms bs (bs.N - 1) = bs.ASmall := by
    cases stream with
    | false =>
      have := (hns rfl).1
      unfold blockSyms
      rw [if_neg (by omega)]
    | true =>
      obtain ⟨-, -, -, rfl⟩ := new_stream_ok hnew
      unfold blockSyms
      simp
  have hend : bs.ESLen * (symOff bs (bs.N - 1) + blockSyms bs (bs.N - 1)) < 2 ^ 64 := by
    cases stream with
    | false => exact (hns rfl).2
    | true =>
      obtain ⟨hI, hAB⟩ := hst rfl
      have h1 : symOff bs (bs.N - 1) = bs.A * (bs.N - 1) := by
        unfold symOff; rw [if_pos (by omega)]
      have h2 : blockSyms bs (bs.N - 1) = bs.A := by
        unfold blockSyms; rw [if_pos (by omega)]
      have h3 : bs.A * (bs.N - 1) + bs.A = bs.N * B := by
        rw [hAB]
        obtain ⟨k, hk⟩ : ∃ k, bs.N = k + 1 := ⟨bs.N - 1, by omega⟩
        rw [hk]; simp only [Nat.add_sub_cancel]; ring
      rw [h1, h2, h3, hES, hNe]
      exact hprod
  have hlast := hr.numSrcSym_last hNpos hend (by rw [hlastblk]; exact hclip)
  have hsz := hr.srcBlockSize_last hNpos
  have hlt := hr.mul_symOff_lt (show bs.N - 1 < bs.N by omega)
  have h1 := hr.last_lt hNpos
  have h2 := hr.last_ge hNpos
  have h3 := hr.len_gt hNpos
  have h4 := hr.len_le hNpos
  have hEpos := hr.es_pos
  have hcount : ceilDiv (bs.SrcBlockSize (bs.N - 1)) bs.ESLen
      = bs.T - symOff bs (bs.N - 1) := by
    apply ceilDiv_between _ _ _ hEpos (by omega)
    · rw [hsz]
      have e1 : bs.ESLen * (bs.T - symOff bs (bs.N - 1) - 1) + bs.ESLen * symOff bs (bs.N - 1)
          = bs.ESLen * (bs.T - 1) := by
        rw [← Nat.mul_add]; congr 1; omega
      omega
    · rw [hsz]
      have e1 : bs.ESLen * (bs.T - symOff bs (bs.N - 1)) + bs.ESLen * symOff bs (bs.N - 1)
          = bs.ESLen * bs.T := by
        rw [← Nat.mul_add]; congr 1; omega
      omega
  refine ⟨fun sbn => if sbn + 1 < bs.N then blockSyms bs sbn else bs.T - symOff bs (bs.N - 1),
    fun sbn hs => ?_, ?_, ?_⟩
  · by_cases hin : sbn + 1 < bs.N
    · simp only [if_pos hin]
      refine ⟨hr.numSrcSym_inner hin, hr.blockSyms_pos sbn, ?_⟩
      rw [hMB]; exact hblk sbn
    · simp only [if_neg hin]
      have hsN : sbn = bs.N - 1 := by omega
      rw [hsN, hlast, hcount, hMB]
      have := hblk (bs.N - 1)
      exact ⟨rfl, by omega, by omega⟩
  · obtain ⟨k, hk⟩ : ∃ k, bs.N = k + 1 := ⟨bs.N - 1, by omega⟩
    rw [hk, Finset.sum_range_succ]
    have hsum : ∑ x ∈ Finset.range k,
        (if x + 1 < k + 1 then blockSyms bs x else bs.T - symOff bs (k + 1 - 1))
        = ∑ x ∈ Finset.range k, blockSyms bs x := by
      apply Finset.sum_congr rfl
      intro x hx
      rw [if_pos (by have := Finset.mem_range.mp hx; omega)]
    rw [hsum, if_neg (by omega), sum_blockSyms_plain]
    simp only [Nat.add_sub_cancel]
    rw [hk] at h1
    simp only [Nat.add_sub_cancel] at h1
    omega
  · rw [hT, hTL, hES]

/-- C39 (amended), at the structure of the 107374182-byte object (`E = 1430`,
`B = 10`): 7506 blocks of 10 symbols and 3 of 9 make 75087. -/
theorem numSrcSym_sum_witness :
    ∃ f : Nat → Nat,
      (∀ sbn, sbn < 7509 →
        NumSrcSym ⟨7509, 7506, 10, 9, 1430, 75087, 107374182, 10, 10, 1⟩ sbn = some (f sbn) ∧
        1 ≤ f sbn ∧ f sbn ≤ 10) ∧
      ∑ sbn ∈ Finset.range 7509, f sbn = 75087 ∧
      75087 = ceilDiv 107374182 1430 :=
  numSrcSym_sum 107374182 10 1430 1 false
    ⟨7509, 7506, 10, 9, 1430, 75087, 107374182, 10, 10, 1⟩
    (by decide) (by decide) (by decide) (by decide) (by decide) (by decide)
    (fun _ => by decide)

/-! ## The whole-block entry and the explicit list of all symbols -/

/-- Without stream mode and with `E > 1` the last block ends with the last
symbol of the object. -/
theorem new_nonstream_last_exact {L B E G : Nat} {bs : BlockingStructure}
    (hL64 : L < 2 ^ 64) (hB32 : B < 2 ^ 32) (hE16 : E < 2 ^ 16)
    (h : NewBlockingStructure5052 L B E G false = .ok bs) (hE1 : 1 < E)
    (hno : L + E ≤ 2 ^ 64) (hN : ceilDiv (ceilDiv L E) B < 2 ^ 32) :
    symOff bs (bs.N - 1) + blockSyms bs (bs.N - 1) = bs.T := by
  obtain ⟨hL, hE, hB, -, -, h1 | h1⟩ := new_nonstream_ok h
  · omega
  · obtain ⟨-, -, rfl⟩ := h1
    have hT : sub64 (add64 L E) 1 / E = ceilDiv L E := by
      rcases wrapped_ceil L E (by omega) hL64 (by omega) with ⟨-, h1⟩ | ⟨h1, -⟩
      · exact h1
      · omega
    have hNe := wrapped_count (ceilDiv L E) B (by omega) hB32 hN
    simp only [hT, hNe]
    have hTpos : 0 < ceilDiv L E := ceilDiv_pos _ _ (by omega) (by omega)
    obtain ⟨hNpos, -, hq, hq1, -⟩ := block_arith (ceilDiv L E) B hTpos (by omega)
    have hmod : ceilDiv L E % ceilDiv (ceilDiv L E) B < ceilDiv (ceilDiv L E) B :=
      Nat.mod_lt _ hNpos
    have e1 : u32 (ceilDiv L E / ceilDiv (ceilDiv L E) B)
        = ceilDiv L E / ceilDiv (ceilDiv L E) B := Nat.mod_eq_of_lt (by omega)
    have e2 : u32 (ceilDiv L E % ceilDiv (ceilDiv L E) B)
        = ceilDiv L E % ceilDiv (ceilDiv L E) B := Nat.mod_eq_of_lt (by omega)
    have e3 : (if 0 < ceilDiv L E % ceilDiv (ceilDiv L E) B
          then add32 (ceilDiv L E / ceilDiv (ceilDiv L E) B) 1
          else ceilDiv L E / ceilDiv (ceilDiv L E) B)
        = (if 0 < ceilDiv L E % ceilDiv (ceilDiv L E) B
          then ceilDiv L E / ceilDiv (ceilDiv L E) B + 1
          else ceilDiv L E / ceilDiv (ceilDiv L E) B) := by
      split
      · rename_i hp
        have := hq1 hp
        unfold add32
        exact Nat.mod_eq_of_lt (by omega)
      · rfl
    rw [e1, e2, e3]
    exact (regular_of_asymmetric (ceilDiv (ceilDiv L E) B) E (ceilDiv L E)
      L B G B hE1 hE16 (by omega) hL64 (by omega) hB32 rfl rfl hN).2

/-- The byte range `ToRangeList` gives the whole-block entry `{sbn: []}`. -/
theorem toRangeList_whole_block (bs : BlockingStructure) (sbn : Nat)
    (hpos : 0 < bs.SrcBlockSize sbn) (hsz : bs.SrcBlockSize sbn < 2 ^ 63)
    (h63 : bs.SrcOffset sbn + bs.SrcBlockSize sbn ≤ 2 ^ 63) :
    ESIRange.ToRangeList ⟨[(sbn, [])]⟩ bs true
      = some [⟨(bs.SrcOffset sbn : Int), (bs.SrcOffset sbn : Int) + bs.SrcBlockSize sbn - 1⟩] := by
  obtain ⟨n, hn⟩ := numSrcSym_total bs sbn
  have e1 : i64 (bs.SrcOffset sbn) = (bs.SrcOffset sbn : Int) := i64_of_lt (by omega)
  have e2 : i64 (bs.SrcBlockSize sbn) = (bs.SrcBlockSize sbn : Int) := i64_of_lt (by omega)
  have e3 : wrap64 ((bs.SrcOffset sbn : Int) + bs.SrcBlockSize sbn - 1)
      = (bs.SrcOffset sbn : Int) + bs.SrcBlockSize sbn - 1 :=
    wrap64_of_bounds (by omega) (by omega)
  rw [toRangeList_eq]
  simp only [List.flatMap_cons, List.flatMap_nil, List.append_nil, blockBytes, appendBlock,
    hn, List.length_nil, gt_iff_lt, lt_self_iff_false, if_false, if_true, Option.getD_some,
    List.nil_append, e1, e2, e3]
  rfl

/-- The byte range `ToRangeList` gives the list of the first `k` symbols of a
block, `{sbn: [(0, k-1)]}`. -/
theorem toRangeList_first_symbols (bs : BlockingStructure) (sbn k : Nat) (hk : 0 < k)
    (hk63 : k < 2 ^ 63) (h63 : bs.SrcOffset sbn + k * bs.ESLen ≤ 2 ^ 63) (hE : 0 < bs.ESLen) :
    ESIRange.ToRangeList ⟨[(sbn, [⟨0, (k : Int) - 1⟩])]⟩ bs true
      = some [⟨(bs.SrcOffset sbn : Int), (bs.SrcOffset sbn : Int) + k * bs.ESLen - 1⟩] := by
  have hkE : k ≤ k * bs.ESLen := Nat.le_mul_of_pos_right _ hE
  have hkE1 : 0 < k * bs.ESLen := Nat.mul_pos hk hE
  have c1 : ((k * bs.ESLen : Nat) : Int) = (k : Int) * bs.ESLen := by push_cast; rfl
  have e1 : i64 (bs.SrcOffset sbn) = (bs.SrcOffset sbn : Int) := i64_of_lt (by omega)
  have e2 : wrap64 ((k : Int) - 1 + 1) = k := by
    rw [show (k : Int) - 1 + 1 = k by ring]
    exact wrap64_of_bounds (by omega) (by omega)
  have e3 : wrap64 ((bs.SrcOffset sbn : Int) + 0 * bs.ESLen) = bs.SrcOffset sbn := by
    rw [Int.zero_mul, Int.add_zero]
    exact wrap64_of_bounds (by omega) (by omega)
  have e4 : wrap64 ((bs.SrcOffset sbn : Int) + (k : Int) * bs.ESLen - 1)
      = (bs.SrcOffset sbn : Int) + k * bs.ESLen - 1 :=
    wrap64_of_bounds (by omega) (by omega)
  rw [toRangeList_eq]
  simp only [List.flatMap_cons, List.flatMap_nil, List.append_nil]
  rw [blockBytes_source bs sbn _ (by simp)]
  simp only [List.map_cons, List.map_nil, byteImage, e1, e2, e3, e4]
  rfl

/-- C33 (fails as stated): three structures returned with `stream = false`.
For `L = 5`, `B = 2`, `E = 2` the last block, `sbn = 1`, holds the byte 4: the
whole-block entry gives `[(4,4)]`, the explicit list `[(0,0)]` of its one
symbol gives `[(4,5)]`, past `TransferLen - 1 = 4`. For `L = 2^34 + 2`, `B = 1`,
`E = 2` the block count `2^33 + 1` is stored as `N = 1`, and block 0 gives
`[(0, 2^34 + 1)]` against `[(0,1)]`. For `L = 2^63 + 2`, `B = 2^32 - 1`, `E = 2`
the last byte of the last block is negative as an `int64`, in both lists. -/
theorem whole_block_differs :
    (∃ bs, NewBlockingStructure5052 5 2 2 1 false = .ok bs ∧ bs.N = 2 ∧
      bs.NumSrcSym 1 = some 1 ∧
      ESIRange.ToRangeList ⟨[(1, [])]⟩ bs true = some [⟨4, 4⟩] ∧
      ESIRange.ToRangeList ⟨[(1, [⟨0, 1 - 1⟩])]⟩ bs true = some [⟨4, 5⟩]) ∧
    (∃ bs, NewBlockingStructure5052 (2 ^ 34 + 2) 1 2 1 false = .ok bs ∧ bs.N = 1 ∧
      bs.NumSrcSym 0 = some 1 ∧
      ESIRange.ToRangeList ⟨[(0, [])]⟩ bs true = some [⟨0, 2 ^ 34 + 1⟩] ∧
      ESIRange.ToRangeList ⟨[(0, [⟨0, 1 - 1⟩])]⟩ bs true = some [⟨0, 1⟩]) ∧
    (∃ bs, NewBlockingStructure5052 (2 ^ 63 + 2) (2 ^ 32 - 1) 2 1 false = .ok bs ∧
      bs.N = 1073741825 ∧ ceilDiv (ceilDiv (2 ^ 63 + 2) 2) (2 ^ 32 - 1) = 1073741825 ∧
      bs.NumSrcSym 1073741824 = some 4294967292 ∧
      ESIRange.ToRangeList ⟨[(1073741824, [])]⟩ bs true
        = some [⟨9223372028264841226, -9223372036854775807⟩] ∧
      ESIRange.ToRangeList ⟨[(1073741824, [⟨0, 4294967292 - 1⟩])]⟩ bs true
        = some [⟨9223372028264841226, -9223372036854775807⟩]) :=
  ⟨⟨⟨2, 1, 2, 1, 2, 3, 5, 2, 2, 1⟩, by decide, rfl, by decide, by decide, by decide⟩,
    ⟨⟨1, 0, 1, 1, 2, 2 ^ 33 + 1, 2 ^ 34 + 2, 1, 1, 1⟩,
      by decide, rfl, by decide, by decide, by decide⟩,
    ⟨⟨1073741825, 5, 4294967293, 4294967292, 2, 4611686018427387905, 2 ^ 63 + 2,
        2 ^ 32 - 1, 2 ^ 32 - 1, 1⟩,
      by decide, rfl, by decide, by decide, by decide, by decide⟩⟩

/-- C33 (amended): for every structure `NewBlockingStructure5052` returns with
`stream = false`, `ceil(T/B) < 2^32` and `TransferLen <= 2^63`, and every
`sbn < N`: the whole-block entry `{sbn: []}` projects to
`[(SrcOffset(sbn), SrcOffset(sbn) + SrcBlockSize(sbn) - 1)]`, which lies within
`[0, TransferLen - 1]`; and when `sbn < N - 1`, or `TransferLen` is a multiple
of `ESLen`, the explicit list `{sbn: [(0, NumSrcSym(sbn) - 1)]}` projects to the
same list. -/
theorem whole_block_bytes (L B E G : Nat) (bs : BlockingStructure)
    (hL64 : L < 2 ^ 64) (hB32 : B < 2 ^ 32) (hE16 : E < 2 ^ 16)
    (hnew : NewBlockingStructure5052 L B E G false = .ok bs)
    (hN : ceilDiv (ceilDiv L E) B < 2 ^ 32) (hL63 : L ≤ 2 ^ 63)
    (sbn : Nat) (hs : sbn < bs.N) :
    ESIRange.ToRangeList ⟨[(sbn, [])]⟩ bs true
      = some [⟨(bs.SrcOffset sbn : Int),
              (bs.SrcOffset sbn : Int) + bs.SrcBlockSize sbn - 1⟩] ∧
    (bs.SrcOffset sbn : Int) ≤ (bs.SrcOffset sbn : Int) + bs.SrcBlockSize sbn - 1 ∧
    (bs.SrcOffset sbn : Int) + bs.SrcBlockSize sbn - 1 ≤ (bs.TransferLen : Int) - 1 ∧
    ((sbn + 1 < bs.N ∨ bs.ESLen ∣ bs.TransferLen) →
      ∃ k, bs.NumSrcSym sbn = some k ∧
        ESIRange.ToRangeList ⟨[(sbn, [⟨0, (k : Int) - 1⟩])]⟩ bs true
          = ESIRange.ToRangeList ⟨[(sbn, [])]⟩ bs true) := by
  have hno : L + E ≤ 2 ^ 64 := by omega
  obtain ⟨hT, hNe, hNpos, hr, hTL, hES, hMB, hns⟩ :=
    new_ok_exact hL64 hB32 hE16 hnew hno hN
  obtain ⟨hA, hAS, -⟩ := new_ok_block_le hL64 hB32 hnew hno hN
  obtain ⟨hIN, hend⟩ := hns rfl
  have hEpos := hr.es_pos
  have hoff := hr.srcOffset_eq hs
  have hlt := hr.mul_symOff_lt hs
  -- the size of the block and the end of its span
  have hsize : 0 < bs.SrcBlockSize sbn ∧ bs.SrcOffset sbn + bs.SrcBlockSize sbn ≤ bs.TransferLen ∧
      (sbn + 1 < bs.N → bs.SrcBlockSize sbn = bs.ESLen * blockSyms bs sbn) ∧
      (sbn = bs.N - 1 → bs.SrcBlockSize sbn = bs.TransferLen - bs.ESLen * symOff bs sbn) := by
    by_cases hin : sbn + 1 < bs.N
    · have h1 := hr.srcBlockSize_inner hin
      have h2 := hr.mul_symOff_lt hin
      rw [symOff_succ, Nat.mul_add] at h2
      have h3 : 0 < bs.ESLen * blockSyms bs sbn := Nat.mul_pos hEpos (hr.blockSyms_pos sbn)
      exact ⟨by omega, by omega, fun _ => h1, fun h => by omega⟩
    · have hsN : sbn = bs.N - 1 := by omega
      have h1 := hr.srcBlockSize_last hNpos
      rw [← hsN] at h1
      exact ⟨by omega, by omega, fun h => absurd h hin, fun _ => h1⟩
  obtain ⟨hszpos, hszle, hinner, hlast⟩ := hsize
  have hszlt : bs.SrcBlockSize sbn < 2 ^ 63 := by
    have hb : bs.ESLen * blockSyms bs sbn < 2 ^ 16 * 2 ^ 32 :=
      Nat.mul_lt_mul'' hr.es_lt (hr.blockSyms_lt sbn)
    by_cases hin : sbn + 1 < bs.N
    · rw [hinner hin]; omega
    · have hsN : sbn = bs.N - 1 := by omega
      have h2 := hr.last_ge hNpos
      have h4 := hr.len_le hNpos
      rw [← hsN] at h2
      have h5 : bs.ESLen * bs.T ≤ bs.ESLen * (symOff bs sbn + blockSyms bs sbn) :=
        Nat.mul_le_mul_left _ h2
      rw [Nat.mul_add] at h5
      rw [hlast hsN]
      omega
  have hwhole := toRangeList_whole_block bs sbn hszpos hszlt (by omega)
  refine ⟨hwhole, by omega, by omega, fun hcase => ?_⟩
  rw [hwhole]
  -- the symbol count of the block times `ESLen` is its size
  have hk : ∃ k, bs.NumSrcSym sbn = some k ∧ 0 < k ∧ k * bs.ESLen = bs.SrcBlockSize sbn := by
    by_cases hin : sbn + 1 < bs.N
    · exact ⟨blockSyms bs sbn, hr.numSrcSym_inner hin, hr.blockSyms_pos sbn, by
        rw [hinner hin, Nat.mul_comm]⟩
    · have hsN : sbn = bs.N - 1 := by omega
      have hdvd : bs.ESLen ∣ bs.TransferLen := by
        rcases hcase with h | h
        · exact absurd h hin
        · exact h
      have h1 := hr.last_lt hNpos
      have h2 := hr.last_ge hNpos
      have h3 := hr.len_gt hNpos
      have h4 := hr.len_le hNpos
      -- the object is exactly `T` symbols long
      have hLT : bs.TransferLen = bs.ESLen * bs.T := by
        obtain ⟨c, hc⟩ := hdvd
        rw [hc] at h3 h4 ⊢
        have hc1 : c ≤ bs.T := Nat.le_of_mul_le_mul_left h4 hEpos
        have hc2 : bs.T - 1 < c := Nat.lt_of_mul_lt_mul_left h3
        have : c = bs.T := by omega
        rw [this]
      have hsz := hlast hsN
      rw [← hsN] at h1 h2 hend
      have hszE : bs.SrcBlockSize sbn = bs.ESLen * (bs.T - symOff bs sbn) := by
        rw [hsz, hLT, Nat.mul_sub]
      have hle : bs.T - symOff bs sbn ≤ blockSyms bs sbn := by omega
      have hblk : blockSyms bs sbn < 2 ^ 32 := hr.blockSyms_lt sbn
      have hclip : bs.SrcOffset (bs.N - 1) + bs.ESLen * blockSyms bs (bs.N - 1)
          > bs.TransferLen → bs.SrcBlockSize (bs.N - 1) + bs.ESLen - 1 < 2 ^ 32 := by
        rw [← hsN]
        intro hc
        by_cases hE1 : 1 < bs.ESLen
        · have hex := new_nonstream_last_exact hL64 hB32 hE16 hnew (by omega) hno hN
          rw [← hsN] at hex
          rw [hoff, ← Nat.mul_add, hex, ← hLT] at hc
          omega
        · have hEone : bs.ESLen = 1 := by omega
          rw [hszE, hEone]
          omega
      have hnum := hr.numSrcSym_last hNpos (by rw [← hsN]; exact hend) hclip
      rw [← hsN] at hnum
      refine ⟨_, hnum, ?_, ?_⟩
      · exact ceilDiv_pos _ _ hszpos hEpos
      · rw [hszE, ceilDiv_mul_left _ _ hEpos, Nat.mul_comm]
  obtain ⟨k, hk1, hkpos, hk2⟩ := hk
  refine ⟨k, hk1, ?_⟩
  have hkE : k ≤ k * bs.ESLen := Nat.le_mul_of_pos_right _ hEpos
  rw [toRangeList_first_symbols bs sbn k hkpos (by omega) (by omega) hEpos]
  have c1 : ((k * bs.ESLen : Nat) : Int) = (k : Int) * bs.ESLen := by push_cast; rfl
  rw [← c1, hk2]

/-- C33 (amended), at `NewBlockingStructure5052(107374182, 10, 1430, 1, false)`
and its block 3: both lists give the bytes 42900 to 57199. -/
theorem whole_block_bytes_witness :
    ESIRange.ToRangeList ⟨[(3, [])]⟩
        ⟨7509, 7506, 10, 9, 1430, 75087, 107374182, 10, 10, 1⟩ true
      = some [⟨42900, 57199⟩] ∧
    ESIRange.ToRangeList ⟨[(3, [⟨0, 9⟩])]⟩
        ⟨7509, 7506, 10, 9, 1430, 75087, 107374182, 10, 10, 1⟩ true
      = some [⟨42900, 57199⟩] := by
  have h := whole_block_bytes 107374182 10 1430 1
    ⟨7509, 7506, 10, 9, 1430, 75087, 107374182, 10, 10, 1⟩
    (by decide) (by decide) (by decide) (by decide) (by decide) (by decide) 3 (by decide)
  refine ⟨h.1.trans (by decide), ?_⟩
  obtain ⟨k, hk, he⟩ := h.2.2.2 (Or.inl (by decide))
  have hk10 : k = 10 := by
    have : NumSrcSym ⟨7509, 7506, 10, 9, 1430, 75087, 107374182, 10, 10, 1⟩ 3 = some 10 := by
      decide
    rw [this] at hk
    exact (Option.some.inj hk).symm
  subst hk10
  exact he.trans (h.1.trans (by decide))

/-! ## Malformed entries, nested ranges and the first repair symbol -/

/-- C32 (the code fails the claim): `UnmarshalText` returns no error on `3-x`,
whose run end is not a number (the map stays empty), on `5-` (no run end), on
`1:abc`, whose range list holds a token without digits (key 1 gets `[(0,0)]`),
on `2:7x` (key 2 gets `[(7,7)]`) and on `1:2-99999999999999999999`, whose range
end does not fit 64 bits (key 1 gets `[(2, 2^63 - 1)]`); in `1:2;3-x;4:abc` the
entry `3-x` is skipped. Only a key that is not a number is refused: `x`. -/
theorem esiRange_accepts_malformed :
    ESIRange.UnmarshalText ⟨[]⟩ "3-x".toList = some (.ok ⟨[]⟩) ∧
    ESIRange.UnmarshalText ⟨[]⟩ "5-".toList = some (.ok ⟨[]⟩) ∧
    ESIRange.UnmarshalText ⟨[]⟩ "1:abc".toList = some (.ok ⟨[(1, [⟨0, 0⟩])]⟩) ∧
    ESIRange.UnmarshalText ⟨[]⟩ "2:7x".toList = some (.ok ⟨[(2, [⟨7, 7⟩])]⟩) ∧
    ESIRange.UnmarshalText ⟨[]⟩ "1:2-99999999999999999999".toList
      = some (.ok ⟨[(1, [⟨2, 2 ^ 63 - 1⟩])]⟩) ∧
    ESIRange.UnmarshalText ⟨[]⟩ "1:2;3-x;4:abc".toList
      = some (.ok ⟨[(1, [⟨2, 2⟩]), (4, [⟨0, 0⟩])]⟩) ∧
    ESIRange.UnmarshalText ⟨[]⟩ "x".toList = some (.error .sbnNotUnsigned) := by
  decide

/-- C34 (the code fails the claim): `flatten` on `[(0,10), (1,2), (5,20)]`, three
ranges with `Start <= End`, returns `[(0,10), (5,20)]`, in which the second
range starts inside the first; so does `RangeList.UnmarshalText` on
`0-10,1-2,5-20`. The canonical list of the same integers is `[(0,20)]`. -/
theorem flatten_leaves_overlap :
    flatten [⟨0, 10⟩, ⟨1, 2⟩, ⟨5, 20⟩] = [⟨0, 10⟩, ⟨5, 20⟩] ∧
    ¬ Canonical [⟨0, 10⟩, ⟨5, 20⟩] ∧
    RangeList.UnmarshalText [] "0-10,1-2,5-20".toList = .ok [⟨0, 10⟩, ⟨5, 20⟩] ∧
    Canonical [⟨0, 20⟩] ∧
    ∀ x, Covers [⟨0, 20⟩] x ↔ Covers [⟨0, 10⟩, ⟨1, 2⟩, ⟨5, 20⟩] x := by
  refine ⟨by decide, by decide, by decide, by decide, fun x => ?_⟩
  simp only [Covers, List.mem_cons, List.mem_singleton, List.not_mem_nil, or_false,
    exists_eq_or_imp, exists_eq_left]
  omega

/-- C35 (the code fails the claim): in the structure of
`TestESIRangeFromRangeList` (`MaxNumEs = 12 > MaxSbLen = 10`, ten source
symbols in block 0) the ESI span `[0, 9]`, all of it source symbols, is not
dropped: `ToRangeList(bs, false)` of `{0: [(0,9)]}` is `[(0,-1)]`, a range with
`Start > End`; likewise `{1: [(3,9)]}` gives `[(2860, 2859)]`. A span that ends
one symbol earlier, `[0, 8]`, is dropped. -/
theorem toRangeList_keeps_empty_range :
    (e4Structure 9 75087).MaxNumEs > (e4Structure 9 75087).MaxSbLen ∧
    (e4Structure 9 75087).NumSrcSym 0 = some 10 ∧
    (e4Structure 9 75087).NumSrcSym 1 = some 10 ∧
    ESIRange.ToRangeList ⟨[(0, [⟨0, 9⟩])]⟩ (e4Structure 9 75087) false = some [⟨0, -1⟩] ∧
    ESIRange.ToRangeList ⟨[(1, [⟨3, 9⟩])]⟩ (e4Structure 9 75087) false
      = some [⟨2860, 2859⟩] ∧
    ESIRange.ToRangeList ⟨[(0, [⟨0, 8⟩])]⟩ (e4Structure 9 75087) false = some [] := by
  decide

/-! ## InplaceUnion over the integers -/

/-! ### The list around the index `i` -/

theorem get_mid (P : RangeList) (c : Range) (S : RangeList) :
    (P ++ c :: S).get? P.length = some c := by
  induction P with
  | nil => rfl
  | cons a P ih => exact ih

theorem set_mid (P : RangeList) (c x : Range) (S : RangeList) :
    (P ++ c :: S).set P.length x = P ++ x :: S := by
  induction P with
  | nil => rfl
  | cons a P ih => exact congrArg (List.cons a) ih

theorem take_mid (P : RangeList) (c : Range) (S : RangeList) :
    (P ++ c :: S).take (P.length + 1) = P ++ [c] := by
  have h : P ++ c :: S = (P ++ [c]) ++ S := by simp
  rw [h]
  exact List.take_left' (by simp)

theorem drop_mid (P : RangeList) (c : Range) (S : RangeList) :
    (P ++ c :: S).drop P.length = c :: S :=
  List.drop_left' rfl

/-- The first half of a pass, on the list split at `i`. -/
theorem inplaceStepZ_cons (P : RangeList) (r : Range) (S : RangeList) (l : Range)
    (ls : RangeList) (n : Nat) :
    inplaceStepZ (P ++ r :: S) P.length (l :: ls) n =
      if r.Contains l then some (P ++ r :: S, P.length, ls, n)
      else if r.OverlapsFrontZ l then some (P ++ ⟨r.Start, l.End⟩ :: S, P.length, ls, n)
      else if l.Contains r then some (P ++ l :: S, P.length + 1, l :: ls, n)
      else if l.OverlapsFrontZ r then some (P ++ ⟨l.Start, r.End⟩ :: S, P.length, ls, n)
      else if r.End ≤ l.Start then some (P ++ r :: S, P.length + 1, l :: ls, n)
      else if l.End ≤ r.Start then some (P ++ l :: r :: S, P.length + 1, ls, n + 1)
      else some (P ++ r :: S, P.length, l :: ls, n) := by
  unfold inplaceStepZ
  simp only [get_mid, set_mid, take_mid, drop_mid]
  have h6 : (P ++ [r] ++ r :: S).set P.length l = P ++ l :: r :: S := by
    rw [List.append_assoc]
    exact set_mid P r l (r :: S)
  rw [h6]

/-- The second half of a pass leaves the list alone when the range at `i`
starts clear of its predecessor. -/
theorem inplaceMergeZ_stay (P : RangeList) (c : Range) (S : RangeList)
    (h : ∀ p ∈ P.getLast?, p.End + 1 < c.Start) :
    inplaceMergeZ (P ++ c :: S) P.length = (P ++ c :: S, P.length) := by
  unfold inplaceMergeZ
  rcases List.eq_nil_or_concat P with rfl | ⟨Q, p, hQ⟩
  · simp
  · rw [List.concat_eq_append] at hQ
    subst hQ
    have hp := h p (by simp)
    have hi : (Q ++ [p]).length - 1 = Q.length := by simp
    have g1 : (Q ++ [p] ++ c :: S).get? (Q ++ [p]).length = some c := get_mid _ _ _
    have g2 : (Q ++ [p] ++ c :: S).get? Q.length = some p := by
      rw [List.append_assoc]; exact get_mid _ _ _
    have hcond : (Q ++ [p] ++ c :: S).length > 1 ∧ (Q ++ [p]).length > 0 ∧
        (Q ++ [p]).length < (Q ++ [p] ++ c :: S).length := by
      simp only [List.length_append, List.length_cons, List.length_nil]; omega
    rw [if_pos hcond, hi, g1, g2]
    simp only
    rw [if_neg (show ¬ c.Start ≤ p.End + 1 by omega)]

/-- The second half of a pass when `i` has run off the end of the list. -/
theorem inplaceMergeZ_end (rl : RangeList) :
    inplaceMergeZ rl rl.length = (rl, rl.length) := by
  unfold inplaceMergeZ
  rw [if_neg (by omega)]

/-- The second half of a pass after `i++`: the range `s` at `i` is merged into
its predecessor `c` when it starts within reach of it. -/
theorem inplaceMergeZ_next (P : RangeList) (c s : Range) (S : RangeList) :
    inplaceMergeZ (P ++ c :: s :: S) (P.length + 1) =
      if s.Start ≤ c.End + 1 then
        (P ++ ⟨c.Start, if s.End > c.End then s.End else c.End⟩ :: S, P.length)
      else (P ++ c :: s :: S, P.length + 1) := by
  unfold inplaceMergeZ
  have hlen : (P ++ c :: s :: S).length > 1 ∧ P.length + 1 > 0 ∧
      P.length + 1 < (P ++ c :: s :: S).length := by
    simp only [List.length_append, List.length_cons]; omega
  have g1 : (P ++ c :: s :: S).get? (P.length + 1) = some s := by
    have := get_mid (P ++ [c]) s S
    simpa using this
  have g2 : (P ++ c :: s :: S).get? (P.length + 1 - 1) = some c := by
    rw [Nat.add_sub_cancel]; exact get_mid _ _ _
  rw [if_pos hlen, g1, g2]
  simp only
  by_cases hm : s.Start ≤ c.End + 1
  · rw [if_pos hm, if_pos hm]
    have t1 : ∀ x : Range, (P ++ x :: s :: S).take (P.length + 1) = P ++ [x] :=
      fun x => take_mid P x (s :: S)
    have t2 : ∀ x : Range, (P ++ x :: s :: S).drop (P.length + 1 + 1) = S := by
      intro x
      have h : P ++ x :: s :: S = (P ++ [x, s]) ++ S := by simp
      rw [h]
      exact List.drop_left' (by simp)
    by_cases he : s.End > c.End
    · simp only [if_pos he, Nat.add_sub_cancel, set_mid, t1, t2, List.append_assoc,
        List.singleton_append]
    · simp only [if_neg he, Nat.add_sub_cancel, t1, t2, List.append_assoc,
        List.singleton_append]
  · rw [if_neg hm, if_neg hm]

theorem split_at_index (rl : RangeList) (i : Nat) (hi : i < rl.length) :
    ∃ P c S, rl = P ++ c :: S ∧ P.length = i :=
  ⟨rl.take i, rl.get ⟨i, hi⟩, rl.drop (i + 1), by
    rw [List.get_eq_getElem, ← List.drop_eq_getElem_cons hi, List.take_append_drop], by
    rw [List.length_take]; omega⟩

theorem searchLoop_le (f : Nat → Bool) :
    ∀ fuel i j, i ≤ j → searchLoop f fuel i j ≤ j := by
  intro fuel
  induction fuel with
  | zero => intro i j h; exact h
  | succ m ih =>
    intro i j h
    unfold searchLoop
    split
    · simp only
      split
      · exact ih _ _ (by omega)
      · exact le_trans (ih _ _ (by omega)) (by omega)
    · exact h

theorem dup_nil : Dup [] := ⟨by simp, List.Pairwise.nil⟩

theorem dup_append {xs ys : RangeList} :
    Dup (xs ++ ys) ↔ Dup xs ∧ Dup ys ∧ ∀ x ∈ xs, ∀ y ∈ ys, x = y ∨ x.End + 1 < y.Start := by
  unfold Dup
  simp only [List.mem_append, List.pairwise_append]
  constructor
  · rintro ⟨h1, h2, h3, h4⟩
    exact ⟨⟨fun r hr => h1 r (Or.inl hr), h2⟩, ⟨fun r hr => h1 r (Or.inr hr), h3⟩, h4⟩
  · rintro ⟨⟨h1, h2⟩, ⟨h3, h4⟩, h5⟩
    exact ⟨fun r hr => hr.elim (h1 r) (h3 r), h2, h4, h5⟩

theorem dup_singleton {a : Range} : Dup [a] ↔ a.Start ≤ a.End := by
  unfold Dup
  simp

theorem Canon.dup {rl : RangeList} (h : Canon rl) : Dup rl :=
  ⟨h.1, h.2.imp (fun h => Or.inr h)⟩

theorem dup_snoc {P : RangeList} {c : Range} (hP : Dup P) (hc : c.Start ≤ c.End)
    (h : ∀ p ∈ P, p = c ∨ p.End + 1 < c.Start) : Dup (P ++ [c]) := by
  rw [dup_append, dup_singleton]
  refine ⟨hP, hc, fun x hx y hy => ?_⟩
  rw [List.mem_singleton] at hy
  subst hy
  exact h x hx

theorem Dup.wmono {rl : RangeList} (h : Dup rl) : WMono rl := by
  refine ⟨h.1, ?_⟩
  have h1 := h.1
  have h2 := h.2
  clear h
  induction rl with
  | nil => exact List.Pairwise.nil
  | cons x xs ih =>
    rw [List.pairwise_cons] at h2 ⊢
    refine ⟨fun y hy => ?_, ih (fun r hr => h1 r (List.mem_cons_of_mem _ hr)) h2.2⟩
    have hx := h1 x (List.mem_cons_self _ _)
    have hy1 := h1 y (List.mem_cons_of_mem _ hy)
    rcases h2.1 y hy with rfl | hgap
    · exact ⟨le_refl _, le_refl _⟩
    · omega

theorem wmono_cons {a : Range} {rl : RangeList} :
    WMono (a :: rl) ↔ a.Start ≤ a.End ∧
      (∀ x ∈ rl, a.Start ≤ x.Start ∧ a.End ≤ x.End) ∧ WMono rl := by
  unfold WMono
  simp only [List.mem_cons, forall_eq_or_imp, List.pairwise_cons]
  tauto

/-- The right-to-left merge of `flattenZ` on a list whose bounds do not decrease:
the result is canonical and covers the same integers. -/
theorem mergeRightZ_wmono (rl : RangeList) (h : WMono rl) :
    Canon (mergeRightZ rl) ∧ (∀ t, Covers (mergeRightZ rl) t ↔ Covers rl t) ∧
    (∀ x rest, rl = x :: rest →
      ∃ y ys, mergeRightZ rl = y :: ys ∧ y.Start = x.Start ∧ x.End ≤ y.End) := by
  induction rl with
  | nil =>
    exact ⟨canon_nil, fun t => Iff.rfl, fun x rest h => by cases h⟩
  | cons x rest ih =>
    obtain ⟨hx, hle, hrest⟩ := wmono_cons.mp h
    obtain ⟨hc, hcov, hhead⟩ := ih hrest
    cases rest with
    | nil =>
      refine ⟨canon_singleton.mpr hx, fun t => Iff.rfl, fun x' rest' h' => ?_⟩
      cases h'
      exact ⟨x, [], rfl, rfl, le_refl _⟩
    | cons z zs =>
      obtain ⟨y, ys, hy, hys, hye⟩ := hhead z zs rfl
      have hz := hle z (List.mem_cons_self _ _)
      rw [hy] at hc hcov
      obtain ⟨hyne, hygap, hysc⟩ := canon_cons.mp hc
      unfold mergeRightZ
      rw [hy]
      simp only
      by_cases hm : y.Start ≤ x.End + 1
      · rw [if_pos hm]
        refine ⟨?_, fun t => ?_, fun x' rest' h' => ?_⟩
        · refine canon_cons.mpr ⟨by simp only; omega, fun w hw => ?_, hysc⟩
          have := hygap w hw
          simp only
          omega
        · rw [@covers_cons _ ys t, @covers_cons x (z :: zs) t, ← hcov t, @covers_cons y ys t]
          simp only
          by_cases hcy : Covers ys t
          · simp only [hcy, or_true]
          · simp only [hcy, or_false]; omega
        · cases h'
          exact ⟨_, ys, rfl, rfl, by simp only; omega⟩
      · rw [if_neg hm]
        refine ⟨?_, fun t => ?_, fun x' rest' h' => ?_⟩
        · refine canon_cons.mpr ⟨hx, fun w hw => ?_, hc⟩
          rcases List.mem_cons.mp hw with rfl | hw
          · omega
          · have := hygap w hw; omega
        · rw [@covers_cons x (y :: ys) t, @covers_cons x (z :: zs) t, hcov t]
        · cases h'
          exact ⟨x, y :: ys, rfl, rfl, le_refl _⟩

/-- `flattenZ` on a canonical list in which ranges may stand more than once: the
list is sorted already, and the merge removes the repetitions. -/
theorem flattenZ_dup (rl : RangeList) (h : Dup rl) :
    Canon (flattenZ rl) ∧ ∀ t, Covers (flattenZ rl) t ↔ Covers rl t := by
  have hw := h.wmono
  unfold flattenZ
  rw [sortByStart_of_sorted rl (hw.2.imp (fun h => h.1))]
  exact ⟨(mergeRightZ_wmono rl hw).1, (mergeRightZ_wmono rl hw).2.1⟩

/-- In a list of this kind two ranges with the same `Start` are the same range:
whichever order a sort by `Start` leaves them in, the list is the same. -/
theorem dup_same_start {rl : RangeList} (h : Dup rl) :
    rl.Pairwise (fun a b => a.Start = b.Start → a = b) := by
  have h1 := h.1
  have h2 := h.2
  clear h
  induction rl with
  | nil => exact List.Pairwise.nil
  | cons x xs ih =>
    rw [List.pairwise_cons] at h2 ⊢
    refine ⟨fun y hy he => ?_, ih (fun r hr => h1 r (List.mem_cons_of_mem _ hr)) h2.2⟩
    have hx := h1 x (List.mem_cons_self _ _)
    rcases h2.1 y hy with rfl | hgap
    · rfl
    · omega

/-! ### One pass of the loop -/

theorem inplaceUnionLoopZ_succ {fuel : Nat} {rl : RangeList} {i : Nat} {ls : RangeList}
    {n : Nat} {rl1 : RangeList} {i1 : Nat} {ls1 : RangeList} {n1 : Nat} {rl2 : RangeList}
    {i2 : Nat} (hs : inplaceStepZ rl i ls n = some (rl1, i1, ls1, n1))
    (hm : inplaceMergeZ rl1 i1 = (rl2, i2)) :
    inplaceUnionLoopZ (fuel + 1) rl i ls n =
      if i2 = rl2.length then inplaceFinishZ rl2 ls1 n1
      else inplaceUnionLoopZ fuel rl2 i2 ls1 n1 := by
  conv_lhs => unfold inplaceUnionLoopZ
  rw [hs]
  simp only
  rw [hm]

/-- A pass that leaves `i` where it is, at a range that starts clear of its
predecessor. -/
theorem loop_stay {fuel : Nat} {rl : RangeList} {i : Nat} {ls : RangeList} {n : Nat}
    {P : RangeList} {c : Range} {S ls1 : RangeList} {n1 : Nat}
    (hs : inplaceStepZ rl i ls n = some (P ++ c :: S, P.length, ls1, n1))
    (hgap : ∀ p ∈ P, p.End + 1 < c.Start) :
    inplaceUnionLoopZ (fuel + 1) rl i ls n = inplaceUnionLoopZ fuel (P ++ c :: S) P.length ls1 n1 := by
  rw [inplaceUnionLoopZ_succ hs (inplaceMergeZ_stay P c S
    (fun p hp => hgap p (List.mem_of_getLast?_eq_some hp)))]
  rw [if_neg (by simp only [List.length_append, List.length_cons]; omega)]

/-- A pass that puts `l` in front of the range at `i`. -/
theorem loop_insert {fuel : Nat} {rl : RangeList} {i : Nat} {ls : RangeList} {n : Nat}
    {P : RangeList} {l r : Range} {S ls1 : RangeList} {n1 : Nat}
    (hs : inplaceStepZ rl i ls n = some (P ++ l :: r :: S, P.length + 1, ls1, n1))
    (hgap : l.End + 1 < r.Start) :
    inplaceUnionLoopZ (fuel + 1) rl i ls n =
      inplaceUnionLoopZ fuel (P ++ l :: r :: S) (P.length + 1) ls1 n1 := by
  have hm : inplaceMergeZ (P ++ l :: r :: S) (P.length + 1)
      = (P ++ l :: r :: S, P.length + 1) := by
    rw [inplaceMergeZ_next, if_neg (by omega)]
  rw [inplaceUnionLoopZ_succ hs hm,
    if_neg (by simp only [List.length_append, List.length_cons]; omega)]

/-- A pass that steps `i` past the last range. -/
theorem loop_advance_end {fuel : Nat} {rl : RangeList} {i : Nat} {ls : RangeList} {n : Nat}
    {P : RangeList} {c : Range} {ls1 : RangeList} {n1 : Nat}
    (hs : inplaceStepZ rl i ls n = some (P ++ [c], P.length + 1, ls1, n1)) :
    inplaceUnionLoopZ (fuel + 1) rl i ls n = inplaceFinishZ (P ++ [c]) ls1 n1 := by
  have hlen : P.length + 1 = (P ++ [c]).length := by simp
  rw [hlen] at hs
  rw [inplaceUnionLoopZ_succ hs (inplaceMergeZ_end (P ++ [c])), if_pos rfl]

/-- A pass that steps `i` to the next range `s`. -/
theorem loop_advance {fuel : Nat} {rl : RangeList} {i : Nat} {ls : RangeList} {n : Nat}
    {P : RangeList} {c s : Range} {S ls1 : RangeList} {n1 : Nat}
    (hs : inplaceStepZ rl i ls n = some (P ++ c :: s :: S, P.length + 1, ls1, n1)) :
    inplaceUnionLoopZ (fuel + 1) rl i ls n =
      if s.Start ≤ c.End + 1 then
        inplaceUnionLoopZ fuel (P ++ ⟨c.Start, if s.End > c.End then s.End else c.End⟩ :: S)
          P.length ls1 n1
      else inplaceUnionLoopZ fuel (P ++ c :: s :: S) (P.length + 1) ls1 n1 := by
  by_cases hm : s.Start ≤ c.End + 1
  · have hm1 : inplaceMergeZ (P ++ c :: s :: S) (P.length + 1)
        = (P ++ ⟨c.Start, if s.End > c.End then s.End else c.End⟩ :: S, P.length) := by
      rw [inplaceMergeZ_next, if_pos hm]
    rw [inplaceUnionLoopZ_succ hs hm1, if_pos hm,
      if_neg (by simp only [List.length_append, List.length_cons]; omega)]
  · have hm1 : inplaceMergeZ (P ++ c :: s :: S) (P.length + 1)
        = (P ++ c :: s :: S, P.length + 1) := by
      rw [inplaceMergeZ_next, if_neg hm]
    rw [inplaceUnionLoopZ_succ hs hm1, if_neg hm,
      if_neg (by simp only [List.length_append, List.length_cons]; omega)]

/-! ### The passes keep the state -/

theorem getLast_snoc (P : RangeList) (c : Range) : (P ++ [c]).getLast? = some c := by
  exact List.getLast?_concat P

theorem dropLast_snoc (P : RangeList) (c : Range) : (P ++ [c]).dropLast = P := by
  exact List.dropLast_concat

/-- A pass that steps `i` past the range `c`: the loop goes on from the next
range of `*rl`, merged into `c` when within reach, or ends with the rest of
`ll` appended. -/
theorem advance_spec {m : Nat} (ih : InplaceLoopOk m) {rl : RangeList} {i : Nat}
    {ls : RangeList} {n : Nat} {P : RangeList} {c : Range} {S ls1 : RangeList} {n1 : Nat}
    (hs : inplaceStepZ rl i ls n = some (P ++ c :: S, P.length + 1, ls1, n1))
    (hP : Dup P) (hc : c.Start ≤ c.End) (hS : Canon S) (hls : Canon ls1)
    (hPc : ∀ p ∈ P, p.End + 1 < c.Start)
    (hcS : ∀ s ∈ S, c.Start < s.Start)
    (hPl : ∀ p ∈ P, ∀ l ∈ ls1, p = l ∨ p.End + 1 < l.Start)
    (hcl : ∀ l ∈ ls1, c = l ∨ c.End + 1 < l.Start)
    (hfuel : 2 * ls1.length + S.length ≤ m) :
    ∃ res k, inplaceUnionLoopZ (m + 1) rl i ls n = some (res, k) ∧ Dup res ∧
      ∀ x, Covers res x ↔ Covers (P ++ c :: S) x ∨ Covers ls1 x := by
  have hPc' : Dup (P ++ [c]) := dup_snoc hP hc (fun p hp => Or.inr (hPc p hp))
  cases S with
  | nil =>
    rw [loop_advance_end hs]
    cases ls1 with
    | nil =>
      exact ⟨P ++ [c], n1, rfl, hPc', fun x => by simp only [covers_nil, or_false]⟩
    | cons l ls' =>
      obtain ⟨hl, hlgap, hls'⟩ := canon_cons.mp hls
      unfold inplaceFinishZ
      rw [getLast_snoc]
      simp only
      rcases hcl l (List.mem_cons_self _ _) with rfl | hgap
      · rw [if_pos (le_refl _), if_pos (by omega), dropLast_snoc]
        refine ⟨_, _, rfl, ?_, fun x => ?_⟩
        · rw [dup_append]
          refine ⟨hPc', hls'.dup, fun p hp y hy => ?_⟩
          rcases List.mem_append.mp hp with hp | hp
          · exact hPl p hp y (List.mem_cons_of_mem _ hy)
          · rw [List.mem_singleton] at hp
            subst hp
            exact Or.inr (hlgap y hy)
        · simp only [covers_append, covers_cons, covers_nil, or_false]
          tauto
      · rw [if_pos (by omega), if_neg (by omega)]
        refine ⟨_, _, rfl, ?_, fun x => ?_⟩
        · rw [dup_append]
          refine ⟨hPc', hls.dup, fun p hp y hy => ?_⟩
          rcases List.mem_append.mp hp with hp | hp
          · exact hPl p hp y hy
          · rw [List.mem_singleton] at hp
            subst hp
            exact hcl y hy
        · simp only [covers_append]
  | cons s S' =>
    obtain ⟨hs1, hsgap, hS'⟩ := canon_cons.mp hS
    have hcs := hcS s (List.mem_cons_self _ _)
    rw [loop_advance hs]
    simp only [List.length_cons] at hfuel
    by_cases hm : s.Start ≤ c.End + 1
    · rw [if_pos hm]
      obtain ⟨res, k, hres, hdup, hcov⟩ :=
        ih P ⟨c.Start, if s.End > c.End then s.End else c.End⟩ S' ls1 n1
          { done_dup := hP
            cur_ne := by simp only; split <;> omega
            rest_canon := hS'
            other_canon := hls
            done_lt := hPc
            rest_gt := fun y hy => hcS y (List.mem_cons_of_mem _ hy)
            done_other := hPl } (by omega)
      refine ⟨res, k, hres, hdup, fun x => ?_⟩
      rw [hcov x]
      simp only [covers_append, covers_cons]
      by_cases he : s.End > c.End
      · simp only [if_pos he]
        by_cases a1 : Covers P x <;> by_cases a2 : Covers S' x <;>
          by_cases a3 : Covers ls1 x <;>
          simp only [a1, a2, a3, true_or, or_true, false_or, or_false]
        omega
      · simp only [if_neg he]
        by_cases a1 : Covers P x <;> by_cases a2 : Covers S' x <;>
          by_cases a3 : Covers ls1 x <;>
          simp only [a1, a2, a3, true_or, or_true, false_or, or_false]
        omega
    · rw [if_neg hm]
      have e1 : P ++ c :: s :: S' = (P ++ [c]) ++ s :: S' := by simp
      have e2 : P.length + 1 = (P ++ [c]).length := by simp
      rw [e1, e2]
      exact ih (P ++ [c]) s S' ls1 n1
        { done_dup := hPc'
          cur_ne := hs1
          rest_canon := hS'
          other_canon := hls
          done_lt := fun p hp => by
            rcases List.mem_append.mp hp with hp | hp
            · have := hPc p hp; omega
            · rw [List.mem_singleton] at hp; subst hp; omega
          rest_gt := fun y hy => by have := hsgap y hy; omega
          done_other := fun p hp y hy => by
            rcases List.mem_append.mp hp with hp | hp
            · exact hPl p hp y hy
            · rw [List.mem_singleton] at hp; subst hp; exact hcl y hy } (by omega)

/-- The loop of `InplaceUnion`, from a state of the kind `InplaceInv` describes
and with a pass for every unit of `2 * (len(ll) - j) + (len(rl) - i)`, ends
with a list that is canonical up to repeated ranges and covers what the state
covered. -/
theorem inplaceLoop_ok : ∀ fuel, InplaceLoopOk fuel := by
  intro fuel
  induction fuel with
  | zero => intro P r S ls n _ h; omega
  | succ m ih =>
    intro P r S ls n inv hfuel
    cases ls with
    | nil =>
      have hs : inplaceStepZ (P ++ r :: S) P.length [] n
          = some (P ++ r :: S, P.length + 1, [], n) := rfl
      exact advance_spec ih hs inv.done_dup inv.cur_ne inv.rest_canon canon_nil inv.done_lt
        inv.rest_gt (fun p _ l hl => by cases hl) (fun l hl => by cases hl)
        (by simp only [List.length_nil] at hfuel ⊢; omega)
    | cons l ls' =>
      obtain ⟨hl, hlgap, hls'⟩ := canon_cons.mp inv.other_canon
      have hr := inv.cur_ne
      have hPl' : ∀ p ∈ P, ∀ y ∈ ls', p = y ∨ p.End + 1 < y.Start :=
        fun p hp y hy => inv.done_other p hp y (List.mem_cons_of_mem _ hy)
      simp only [List.length_cons] at hfuel
      have hstep := inplaceStepZ_cons P r S l ls' n
      by_cases h1 : r.Contains l = true
      · -- the range at `i` holds `l`
        rw [if_pos h1] at hstep
        rw [contains_iff] at h1
        rw [loop_stay hstep inv.done_lt]
        obtain ⟨res, k, hres, hdup, hcov⟩ := ih P r S ls' n
          { inv with other_canon := hls', done_other := hPl' } (by omega)
        refine ⟨res, k, hres, hdup, fun x => ?_⟩
        rw [hcov x]
        simp only [covers_append, covers_cons]
        by_cases a1 : Covers P x <;> by_cases a2 : Covers S x <;>
          by_cases a3 : Covers ls' x <;>
          simp only [a1, a2, a3, true_or, or_true, false_or, or_false]
        omega
      rw [if_neg h1] at hstep
      rw [contains_iff] at h1
      by_cases h2 : r.OverlapsFrontZ l = true
      · -- `l` starts within reach of the range at `i` and ends after it
        rw [if_pos h2] at hstep
        rw [overlapsFrontZ_iff] at h2
        rw [loop_stay hstep inv.done_lt]
        obtain ⟨res, k, hres, hdup, hcov⟩ := ih P ⟨r.Start, l.End⟩ S ls' n
          { done_dup := inv.done_dup
            cur_ne := by simp only; omega
            rest_canon := inv.rest_canon
            other_canon := hls'
            done_lt := inv.done_lt
            rest_gt := inv.rest_gt
            done_other := hPl' } (by omega)
        refine ⟨res, k, hres, hdup, fun x => ?_⟩
        rw [hcov x]
        simp only [covers_append, covers_cons]
        by_cases a1 : Covers P x <;> by_cases a2 : Covers S x <;>
          by_cases a3 : Covers ls' x <;>
          simp only [a1, a2, a3, true_or, or_true, false_or, or_false]
        omega
      rw [if_neg h2] at hstep
      rw [overlapsFrontZ_iff] at h2
      -- a range of `done` is clear of `l` unless the range at `i` lies after `l`
      have hPlgap : r.Start ≤ l.End + 1 → ∀ p ∈ P, p.End + 1 < l.Start := by
        intro hreach p hp
        rcases inv.done_other p hp l (List.mem_cons_self _ _) with rfl | h
        · have := inv.done_lt p hp; omega
        · exact h
      by_cases h3 : l.Contains r = true
      · -- `l` holds the range at `i`
        rw [if_pos h3] at hstep
        rw [contains_iff] at h3
        obtain ⟨res, k, hres, hdup, hcov⟩ := advance_spec ih hstep inv.done_dup hl
          inv.rest_canon inv.other_canon (hPlgap (by omega))
          (fun s hs => by have := inv.rest_gt s hs; omega) inv.done_other
          (fun y hy => by
            rcases List.mem_cons.mp hy with rfl | hy
            · exact Or.inl rfl
            · exact Or.inr (hlgap y hy))
          (by simp only [List.length_cons]; omega)
        refine ⟨res, k, hres, hdup, fun x => ?_⟩
        rw [hcov x]
        simp only [covers_append, covers_cons]
        by_cases a1 : Covers P x <;> by_cases a2 : Covers S x <;>
          by_cases a3 : Covers ls' x <;>
          simp only [a1, a2, a3, true_or, or_true, false_or, or_false]
        omega
      rw [if_neg h3] at hstep
      rw [contains_iff] at h3
      by_cases h4 : l.OverlapsFrontZ r = true
      · -- the range at `i` starts within reach of `l` and ends after it
        rw [if_pos h4] at hstep
        rw [overlapsFrontZ_iff] at h4
        have hgap := hPlgap (by omega)
        rw [loop_stay hstep hgap]
        obtain ⟨res, k, hres, hdup, hcov⟩ := ih P ⟨l.Start, r.End⟩ S ls' n
          { done_dup := inv.done_dup
            cur_ne := by simp only; omega
            rest_canon := inv.rest_canon
            other_canon := hls'
            done_lt := hgap
            rest_gt := fun s hs => by have := inv.rest_gt s hs; simp only; omega
            done_other := hPl' } (by omega)
        refine ⟨res, k, hres, hdup, fun x => ?_⟩
        rw [hcov x]
        simp only [covers_append, covers_cons]
        by_cases a1 : Covers P x <;> by_cases a2 : Covers S x <;>
          by_cases a3 : Covers ls' x <;>
          simp only [a1, a2, a3, true_or, or_true, false_or, or_false]
        omega
      rw [if_neg h4] at hstep
      rw [overlapsFrontZ_iff] at h4
      by_cases h5 : r.End ≤ l.Start
      · -- the range at `i` ends before `l`
        rw [if_pos h5] at hstep
        exact advance_spec ih hstep inv.done_dup hr inv.rest_canon inv.other_canon
          inv.done_lt inv.rest_gt inv.done_other
          (fun y hy => by
            rcases List.mem_cons.mp hy with rfl | hy
            · exact Or.inr (by omega)
            · have := hlgap y hy
              exact Or.inr (by omega))
          (by simp only [List.length_cons]; omega)
      rw [if_neg h5] at hstep
      by_cases h6 : l.End ≤ r.Start
      · -- `l` ends before the range at `i`
        rw [if_pos h6] at hstep
        have hgap : l.End + 1 < r.Start := by omega
        rw [loop_insert hstep hgap]
        have e1 : P ++ l :: r :: S = (P ++ [l]) ++ r :: S := by simp
        have e2 : P.length + 1 = (P ++ [l]).length := by simp
        rw [e1, e2]
        obtain ⟨res, k, hres, hdup, hcov⟩ := ih (P ++ [l]) r S ls' (n + 1)
          { done_dup := dup_snoc inv.done_dup hl
              (fun p hp => inv.done_other p hp l (List.mem_cons_self _ _))
            cur_ne := hr
            rest_canon := inv.rest_canon
            other_canon := hls'
            done_lt := fun p hp => by
              rcases List.mem_append.mp hp with hp | hp
              · exact inv.done_lt p hp
              · rw [List.mem_singleton] at hp; subst hp; exact hgap
            rest_gt := inv.rest_gt
            done_other := fun p hp y hy => by
              rcases List.mem_append.mp hp with hp | hp
              · exact hPl' p hp y hy
              · rw [List.mem_singleton] at hp; subst hp; exact Or.inr (hlgap y hy) }
          (by omega)
        refine ⟨res, k, hres, hdup, fun x => ?_⟩
        rw [hcov x]
        simp only [covers_append, covers_cons, covers_nil, or_false]
        by_cases a1 : Covers P x <;> by_cases a2 : Covers S x <;>
          by_cases a3 : Covers ls' x <;>
          simp only [a1, a2, a3, true_or, or_true, false_or, or_false]
        exact or_comm
      · -- no other case
        exfalso
        clear hstep
        omega

/-- `InplaceUnion` on canonical lists: the list it leaves is canonical and covers
the integers of both. -/
theorem inplaceUnionZ_spec (rl ll : RangeList) (hrl : Canon rl) (hll : Canon ll) :
    ∃ res n, InplaceUnionZ rl ll = some (res, n) ∧ Canon res ∧
      ∀ x, Covers res x ↔ Covers rl x ∨ Covers ll x := by
  cases ll with
  | nil =>
    exact ⟨rl, 0, rfl, hrl, fun x => by simp only [covers_nil, or_false]⟩
  | cons l0 ls =>
    cases rl with
    | nil =>
      exact ⟨l0 :: ls, (l0 :: ls).length, rfl, hll, fun x => by
        simp only [covers_nil, false_or]⟩
    | cons r0 rs =>
      obtain ⟨hl0, hlgap, -⟩ := canon_cons.mp hll
      have hsle : sortSearch (r0 :: rs).length (endReachesZ (r0 :: rs) l0.Start)
          ≤ (r0 :: rs).length := searchLoop_le _ _ _ _ (Nat.zero_le _)
      have hskip : ∀ k, k < sortSearch (r0 :: rs).length (endReachesZ (r0 :: rs) l0.Start) →
          endReachesZ (r0 :: rs) l0.Start k = false :=
        searchLoop_false (endReachesZ (r0 :: rs) l0.Start) (r0 :: rs).length
          (endReachesZ_mono (r0 :: rs) l0.Start hrl) (r0 :: rs).length 0 (r0 :: rs).length
          (le_refl _) (fun k hk => by omega)
      have hi : (if sortSearch (r0 :: rs).length (endReachesZ (r0 :: rs) l0.Start) > 0
          then sortSearch (r0 :: rs).length (endReachesZ (r0 :: rs) l0.Start) - 1
          else sortSearch (r0 :: rs).length (endReachesZ (r0 :: rs) l0.Start))
          < (r0 :: rs).length := by
        simp only [List.length_cons] at hsle ⊢; split <;> omega
      obtain ⟨P, c, S, hsplit, hlen⟩ := split_at_index (r0 :: rs) _ hi
      have hP : P = (r0 :: rs).take P.length := by
        rw [hsplit]; exact (List.take_left' rfl).symm
      rw [hsplit] at hrl
      obtain ⟨hPc, hcS, hcross⟩ := canon_append.mp hrl
      obtain ⟨hc, hcgap, hSc⟩ := canon_cons.mp hcS
      have hPl : ∀ p ∈ P, p.End + 1 < l0.Start := by
        intro p hp
        rw [hP] at hp
        refine take_end_lt (r0 :: rs) l0.Start P.length (fun k hk => hskip k ?_) p hp
        rw [hlen] at hk
        split at hk <;> omega
      obtain ⟨res, n, hres, hdup, hcov⟩ := inplaceLoop_ok
        (2 * ((r0 :: rs).length + (l0 :: ls).length) + 2) P c S (l0 :: ls) 0
        { done_dup := hPc.dup
          cur_ne := hc
          rest_canon := hSc
          other_canon := hll
          done_lt := fun p hp => hcross p hp c (List.mem_cons_self _ _)
          rest_gt := fun s hs => by have := hcgap s hs; omega
          done_other := fun p hp y hy => by
            have := hPl p hp
            rcases List.mem_cons.mp hy with rfl | hy
            · exact Or.inr this
            · have := hlgap y hy
              exact Or.inr (by omega) }
        (by
          have : (r0 :: rs).length = P.length + (S.length + 1) := by
            rw [hsplit]; simp
          omega)
      obtain ⟨hfc, hfcov⟩ := flattenZ_dup res hdup
      refine ⟨flattenZ res, n, ?_, hfc, fun x => ?_⟩
      · unfold InplaceUnionZ
        simp only [List.isEmpty_cons, Bool.false_eq_true, if_false]
        rw [hlen, ← hsplit] at hres
        rw [hres]
      · rw [hfcov x, hcov x, hsplit]

/-! ## The range operations on `int64` bounds -/

/-! ### The tests on two ranges -/

/-- `OverlapsFront` is exact when `End + 1` does not wrap. -/
theorem overlapsFront_exact_of_end {r : Range} (l : Range) (h1 : -2 ^ 63 ≤ r.End + 1)
    (h2 : r.End + 1 < 2 ^ 63) : r.OverlapsFront l = r.OverlapsFrontZ l := by
  unfold Range.OverlapsFront Range.OverlapsFrontZ
  rw [wrap64_of_bounds h1 h2]

/-- `OverlapsFront` is exact on `int64` ranges once `r.Contains(l)` has failed,
as in every loop of the source: a range that ends at `2^63 - 1` and starts at or
before `l` contains `l`. -/
theorem overlapsFront_exact {r l : Range} (h1 : -2 ^ 63 ≤ r.End) (h2 : r.End < 2 ^ 63)
    (h3 : l.End < 2 ^ 63) (hc : ¬ r.Contains l = true) :
    r.OverlapsFront l = r.OverlapsFrontZ l := by
  by_cases hmax : r.End + 1 < 2 ^ 63
  · exact overlapsFront_exact_of_end l (by omega) hmax
  · rw [contains_iff] at hc
    have hs : ¬ r.Start ≤ l.Start := fun h => hc ⟨h, by omega⟩
    unfold Range.OverlapsFront Range.OverlapsFrontZ
    simp [hs]

/-- The predicate of the binary searches is exact on a list in which no range
ends at `2^63 - 1`. -/
theorem endReaches_exact (rl : RangeList) (s : Int)
    (h : ∀ r ∈ rl, -2 ^ 63 ≤ r.End + 1 ∧ r.End + 1 < 2 ^ 63) :
    endReaches rl s = endReachesZ rl s := by
  funext i
  unfold endReaches endReachesZ
  cases hg : rl.get? i with
  | none => rfl
  | some r =>
    have hr := h r (List.get?_mem hg)
    simp only
    rw [wrap64_of_bounds hr.1 hr.2]

theorem ends_of_int64 {rl : RangeList} (h64 : Int64 rl) (hmax : ∀ r ∈ rl, r.End ≠ 2 ^ 63 - 1) :
    ∀ r ∈ rl, -2 ^ 63 ≤ r.End + 1 ∧ r.End + 1 < 2 ^ 63 := by
  intro r hr
  have := h64 r hr
  have := hmax r hr
  omega

/-! ### Contains -/

theorem contains_exact (rl ol : RangeList)
    (h : ∀ r ∈ rl, -2 ^ 63 ≤ r.End + 1 ∧ r.End + 1 < 2 ^ 63) :
    RangeList.Contains rl ol = RangeList.ContainsZ rl ol := by
  unfold RangeList.Contains RangeList.ContainsZ
  cases ol with
  | nil => rfl
  | cons o0 os =>
    simp only
    rw [endReaches_exact rl o0.Start h]

/-! ### Missing -/

theorem missingStep_exact (h : Range) (cur : Int) (ret : RangeList)
    (hcur : -2 ^ 63 ≤ cur) (hle : cur ≤ h.End) (hs : h.Start < 2 ^ 63)
    (he : h.End < 2 ^ 63 - 1) :
    missingStep h cur ret = missingStepZ h cur ret := by
  unfold missingStep missingStepZ
  have h1 : wrap64 (h.End + 1) = h.End + 1 := wrap64_of_bounds (by omega) (by omega)
  rw [h1]
  by_cases hc : cur < h.Start
  · rw [if_pos hc, if_pos hc, wrap64_of_bounds (by omega) (by omega)]
  · rw [if_neg hc, if_neg hc]

theorem missingLoop_exact (stop : Int) (hstop : stop < 2 ^ 63) :
    ∀ (hs : RangeList) (cur : Int) (ret : RangeList), -2 ^ 63 ≤ cur →
      (∀ h ∈ hs, h.Start ≤ stop → h.End < 2 ^ 63 - 1) →
      missingLoop stop hs cur ret = missingLoopZ stop hs cur ret := by
  intro hs
  induction hs with
  | nil => intro cur ret _ _; rfl
  | cons h hs ih =>
    intro cur ret hcur hmax
    unfold missingLoop missingLoopZ
    by_cases h1 : h.Start > stop
    · rw [if_pos h1, if_pos h1]
    · rw [if_neg h1, if_neg h1]
      have hrest : ∀ x ∈ hs, x.Start ≤ stop → x.End < 2 ^ 63 - 1 :=
        fun x hx => hmax x (List.mem_cons_of_mem _ hx)
      by_cases h2 : cur > h.End
      · rw [if_pos h2, if_pos h2]
        exact ih cur ret hcur hrest
      · rw [if_neg h2, if_neg h2]
        have he := hmax h (List.mem_cons_self _ _) (by omega)
        rw [missingStep_exact h cur ret hcur (by omega) (by omega) he]
        split
        · rfl
        · refine ih _ _ ?_ hrest
          unfold missingStepZ
          split
          · simp only; omega
          · split <;> simp only <;> omega

theorem missing_exact (has : RangeList) (start stop : Int) (h0 : -2 ^ 63 ≤ start)
    (hstop : stop < 2 ^ 63) (hmax : ∀ h ∈ has, h.Start ≤ stop → h.End < 2 ^ 63 - 1) :
    Missing has start stop = MissingZ has start stop := by
  unfold Missing MissingZ
  rw [missingLoop_exact stop hstop has start [] h0 hmax]

/-! ### flatten keeps the bounds of a list -/

/-- Every range `flattenZ` returns starts where a range of the list starts and
ends where one ends. -/
theorem mergeRightZ_mem (l : RangeList) :
    ∀ o ∈ mergeRightZ l, (∃ a ∈ l, o.Start = a.Start) ∧ (∃ b ∈ l, o.End = b.End) := by
  induction l with
  | nil => intro o ho; simp [mergeRightZ] at ho
  | cons x rest ih =>
    intro o ho
    unfold mergeRightZ at ho
    cases hm : mergeRightZ rest with
    | nil =>
      rw [hm] at ho
      simp only [List.mem_singleton] at ho
      subst ho
      exact ⟨⟨_, List.mem_cons_self _ _, rfl⟩, ⟨_, List.mem_cons_self _ _, rfl⟩⟩
    | cons y ys =>
      rw [hm] at ho
      simp only at ho
      have lift : ∀ p ∈ mergeRightZ rest,
          (∃ a ∈ x :: rest, p.Start = a.Start) ∧ (∃ b ∈ x :: rest, p.End = b.End) := by
        intro p hp
        obtain ⟨⟨a, ha, h1⟩, ⟨b, hb, h2⟩⟩ := ih p hp
        exact ⟨⟨a, List.mem_cons_of_mem _ ha, h1⟩, ⟨b, List.mem_cons_of_mem _ hb, h2⟩⟩
      split at ho
      · rcases List.mem_cons.mp ho with rfl | ho
        · refine ⟨⟨x, List.mem_cons_self _ _, rfl⟩, ?_⟩
          rcases le_total y.End x.End with h | h
          · exact ⟨x, List.mem_cons_self _ _, max_eq_right h⟩
          · obtain ⟨-, ⟨b, hb, h2⟩⟩ := lift y (by rw [hm]; exact List.mem_cons_self _ _)
            exact ⟨b, hb, (max_eq_left h).trans h2⟩
        · exact lift o (by rw [hm]; exact List.mem_cons_of_mem _ ho)
      · rcases List.mem_cons.mp ho with rfl | ho
        · exact ⟨⟨_, List.mem_cons_self _ _, rfl⟩, ⟨_, List.mem_cons_self _ _, rfl⟩⟩
        · exact lift o (by rw [hm]; exact ho)

theorem flattenZ_mem (l : RangeList) :
    ∀ o ∈ flattenZ l, (∃ a ∈ l, o.Start = a.Start) ∧ (∃ b ∈ l, o.End = b.End) := by
  intro o ho
  obtain ⟨⟨a, ha, h1⟩, ⟨b, hb, h2⟩⟩ := mergeRightZ_mem _ o ho
  exact ⟨⟨a, (sortByStart_perm l).mem_iff.mp ha, h1⟩,
    ⟨b, (sortByStart_perm l).mem_iff.mp hb, h2⟩⟩

theorem flattenZ_int64 {l : RangeList} (h : Int64 l) : Int64 (flattenZ l) := by
  intro o ho
  obtain ⟨⟨a, ha, h1⟩, ⟨b, hb, h2⟩⟩ := flattenZ_mem l o ho
  have := h a ha
  have := h b hb
  omega

theorem flattenZ_below {l : RangeList} {c : Int} (h : ∀ r ∈ l, r.End < c) :
    ∀ r ∈ flattenZ l, r.End < c := by
  intro o ho
  obtain ⟨-, ⟨b, hb, h2⟩⟩ := flattenZ_mem l o ho
  have := h b hb
  omega

/-- `flatten` is exact on a list of `int64` ranges none of which ends at
`2^63 - 1`. -/
theorem flatten_exact_of_ends (l : RangeList) (h64 : Int64 l)
    (h : ∀ r ∈ l, r.End < 2 ^ 63 - 1) : flatten l = flattenZ l := by
  refine flatten_exact l (noWrap_of_ends _ (fun r hr => ?_))
  have hr' := (sortByStart_perm l).mem_iff.mp hr
  have := h64 r hr'
  have := h r hr'
  omega

theorem int64_snoc {out : RangeList} {x : Range} (ho : Int64 out)
    (hx : (-2 ^ 63 ≤ x.Start ∧ x.Start < 2 ^ 63) ∧ (-2 ^ 63 ≤ x.End ∧ x.End < 2 ^ 63)) :
    Int64 (out ++ [x]) := by
  rw [int64_append]
  exact ⟨ho, fun r hr => by rw [List.mem_singleton] at hr; subst hr; exact hx⟩

theorem below_snoc {out : RangeList} {x : Range} {c : Int} (ho : ∀ o ∈ out, o.End < c)
    (hx : x.End < c) : ∀ o ∈ out ++ [x], o.End < c := by
  intro o h
  rcases List.mem_append.mp h with h | h
  · exact ho o h
  · rw [List.mem_singleton] at h; subst h; exact hx

/-! ### Intersection -/

/-- The loop of `Intersection` is exact on `int64` ranges when one of the two
lists has no range that ends at `2^63 - 1`: then no entry of `out` ends
there. -/
theorem intersectionLoop_exact (fuel : Nat) :
    ∀ (rs ls out : RangeList), Int64 rs → Int64 ls → Int64 out →
      ((∀ r ∈ rs, r.End < 2 ^ 63 - 1) ∨ (∀ l ∈ ls, l.End < 2 ^ 63 - 1)) →
      (∀ o ∈ out, o.End < 2 ^ 63 - 1) →
      intersectionLoop fuel rs ls out = intersectionLoopZ fuel rs ls out := by
  induction fuel with
  | zero => intro rs ls out _ _ _ _ _; rfl
  | succ n ih =>
    intro rs ls out hrs hls hout hmax hbelow
    cases rs with
    | nil => rfl
    | cons r rs =>
      cases ls with
      | nil => rfl
      | cons l ls =>
        obtain ⟨hr, hrs'⟩ := int64_cons.mp hrs
        obtain ⟨hl, hls'⟩ := int64_cons.mp hls
        have hmaxR : (∀ x ∈ rs, x.End < 2 ^ 63 - 1) ∨ (∀ x ∈ l :: ls, x.End < 2 ^ 63 - 1) :=
          hmax.imp (fun h x hx => h x (List.mem_cons_of_mem _ hx)) (fun h => h)
        have hmaxL : (∀ x ∈ r :: rs, x.End < 2 ^ 63 - 1) ∨ (∀ x ∈ ls, x.End < 2 ^ 63 - 1) :=
          hmax.imp (fun h => h) (fun h x hx => h x (List.mem_cons_of_mem _ hx))
        have hfo : flatten out = flattenZ out := flatten_exact_of_ends out hout hbelow
        have hfo64 := flattenZ_int64 hout
        have hfob := flattenZ_below hbelow
        -- a piece that ends at or before one of the two heads
        have piece : ∀ x : Range, (-2 ^ 63 ≤ x.Start ∧ x.Start < 2 ^ 63) →
            -2 ^ 63 ≤ x.End → (x.End ≤ r.End ∧ x.End ≤ l.End) →
            flatten (out ++ [x]) = flattenZ (out ++ [x]) ∧ Int64 (flattenZ (out ++ [x])) ∧
              ∀ o ∈ flattenZ (out ++ [x]), o.End < 2 ^ 63 - 1 := by
          intro x hxs hxe hle
          have hxb : x.End < 2 ^ 63 - 1 := by
            rcases hmax with h | h
            · have := h r (List.mem_cons_self _ _); omega
            · have := h l (List.mem_cons_self _ _); omega
          have h64 : Int64 (out ++ [x]) := int64_snoc hout ⟨hxs, hxe, by omega⟩
          have hb : ∀ o ∈ out ++ [x], o.End < 2 ^ 63 - 1 := below_snoc hbelow hxb
          exact ⟨flatten_exact_of_ends _ h64 hb, flattenZ_int64 h64, flattenZ_below hb⟩
        unfold intersectionLoop intersectionLoopZ
        by_cases h1 : r.Contains l = true
        · obtain ⟨e1, e2, e3⟩ := piece l hl.1 hl.2.1 (by
            rw [contains_iff] at h1; omega)
          rw [if_pos h1, if_pos h1, e1]
          exact ih _ _ _ hrs hls' e2 hmaxL e3
        rw [if_neg h1, if_neg h1]
        by_cases h2 : l.Contains r = true
        · obtain ⟨e1, e2, e3⟩ := piece r hr.1 hr.2.1 (by
            rw [contains_iff] at h2; omega)
          rw [if_pos h2, if_pos h2, e1]
          exact ih _ _ _ hrs' hls e2 hmaxR e3
        rw [if_neg h2, if_neg h2,
          overlapsFront_exact hr.2.1 hr.2.2 hl.2.2 h1,
          overlapsFront_exact hl.2.1 hl.2.2 hr.2.2 h2]
        have inter : ∀ x, r.Intersection l = some x →
            flatten (out ++ [x]) = flattenZ (out ++ [x]) ∧ Int64 (flattenZ (out ++ [x])) ∧
              ∀ o ∈ flattenZ (out ++ [x]), o.End < 2 ^ 63 - 1 := by
          intro x hx
          obtain ⟨hs, he, -⟩ := range_inter_some hx
          refine piece x ?_ ?_ ?_
          · rw [hs]
            exact ⟨le_trans hr.1.1 (le_max_left _ _), max_lt hr.1.2 hl.1.2⟩
          · rw [he]
            exact le_min hl.2.1 hr.2.1
          · rw [he]
            exact ⟨min_le_right _ _, min_le_left _ _⟩
        by_cases h3 : r.OverlapsFrontZ l = true
        · rw [if_pos h3, if_pos h3]
          cases hx : r.Intersection l with
          | none =>
            simp only
            rw [hfo]
            exact ih _ _ _ hrs' hls hfo64 hmaxR hfob
          | some x =>
            obtain ⟨e1, e2, e3⟩ := inter x hx
            simp only
            rw [e1]
            exact ih _ _ _ hrs' hls e2 hmaxR e3
        rw [if_neg h3, if_neg h3]
        by_cases h4 : l.OverlapsFrontZ r = true
        · rw [if_pos h4, if_pos h4]
          cases hx : r.Intersection l with
          | none =>
            simp only
            rw [hfo]
            exact ih _ _ _ hrs hls' hfo64 hmaxL hfob
          | some x =>
            obtain ⟨e1, e2, e3⟩ := inter x hx
            simp only
            rw [e1]
            exact ih _ _ _ hrs hls' e2 hmaxL e3
        rw [if_neg h4, if_neg h4, hfo]
        split
        · exact ih _ _ _ hrs' hls hfo64 hmaxR hfob
        · exact ih _ _ _ hrs hls' hfo64 hmaxL hfob

theorem int64_drop {rl : RangeList} (h : Int64 rl) (i : Nat) : Int64 (rl.drop i) :=
  fun r hr => h r (List.mem_of_mem_drop hr)

/-- `Intersection` is the sweep over the integers from the index the search of
the source finds, when one of the two lists has no range ending at
`2^63 - 1`. -/
theorem intersection_sweep (rl ll : RangeList) (l0 : Range) (ls : RangeList)
    (hll : ll = l0 :: ls) (hne : rl ≠ []) (h1 : Int64 rl) (h2 : Int64 ll)
    (hmax : (∀ r ∈ rl, r.End < 2 ^ 63 - 1) ∨ (∀ l ∈ ll, l.End < 2 ^ 63 - 1)) :
    RangeList.Intersection rl ll =
      intersectionLoopZ (rl.length + ll.length + 1)
        (rl.drop (intersectionStart rl l0.Start)) ll [] := by
  subst hll
  unfold RangeList.Intersection
  cases rl with
  | nil => exact absurd rfl hne
  | cons r0 rs =>
    simp only [List.isEmpty_cons, Bool.false_eq_true, if_false]
    exact intersectionLoop_exact _ _ _ _ (int64_drop h1 _) h2 (fun _ h => by cases h)
      (hmax.imp (fun h r hr => h r (List.mem_of_mem_drop hr)) (fun h => h))
      (fun _ h => by cases h)

/-- `Intersection` is exact when no range of the first list ends at
`2^63 - 1`. -/
theorem intersection_exact (rl ll : RangeList) (h1 : Int64 rl) (h2 : Int64 ll)
    (hmax : ∀ r ∈ rl, r.End ≠ 2 ^ 63 - 1) :
    RangeList.Intersection rl ll = RangeList.IntersectionZ rl ll := by
  cases ll with
  | nil => rfl
  | cons l0 ls =>
    cases rl with
    | nil => rfl
    | cons r0 rs =>
      have hb : ∀ r ∈ r0 :: rs, r.End < 2 ^ 63 - 1 := fun r hr => by
        have := h1 r hr
        have := hmax r hr
        omega
      rw [intersection_sweep (r0 :: rs) (l0 :: ls) l0 ls rfl (by simp) h1 h2 (Or.inl hb)]
      unfold RangeList.IntersectionZ intersectionStart intersectionStartZ
      simp only [List.isEmpty_cons, Bool.false_eq_true, if_false]
      rw [endReaches_exact (r0 :: rs) l0.Start (ends_of_int64 h1 hmax)]

/-! ### Subtract -/

/-- None of the six tests of a pass of `Subtract` failing is impossible. -/
theorem subtract_branches (r l : Range) (h1 : ¬ r.OverlapsFrontZ l = true)
    (h2 : ¬ l.OverlapsFrontZ r = true) (h3 : ¬ r.End < l.Start) (h4 : ¬ r.Start > l.End) :
    False := by
  rw [overlapsFrontZ_iff] at h1 h2
  omega

/-- `Subtract` and its loop are exact on canonical lists of `int64` ranges when
no range of the subtracted list starts at `-2^63` and one of the two lists has
no range that ends at `2^63 - 1`. -/
theorem subtract_exact_ok : ∀ fuel : Nat,
    (∀ rl ll : RangeList, Canon rl → Canon ll → Int64 rl → Int64 ll →
      (∀ x ∈ ll, -2 ^ 63 < x.Start) →
      ((∀ x ∈ rl, x.End < 2 ^ 63 - 1) ∨ (∀ x ∈ ll, x.End < 2 ^ 63 - 1)) →
      2 * (rl.length + ll.length) + 2 ≤ fuel →
      SubtractFuel fuel rl ll = SubtractFuelZ fuel rl ll) ∧
    (∀ rs ls out : RangeList, Canon rs → Canon ls → Int64 rs → Int64 ls →
      (∀ x ∈ ls, -2 ^ 63 < x.Start) →
      ((∀ x ∈ rs, x.End < 2 ^ 63 - 1) ∨ (∀ x ∈ ls, x.End < 2 ^ 63 - 1)) →
      2 * (rs.length + ls.length) + 1 ≤ fuel →
      subtractLoop fuel rs ls out = subtractLoopZ fuel rs ls out) := by
  intro fuel
  induction fuel with
  | zero =>
    exact ⟨fun rl ll _ _ _ _ _ _ h => by omega, fun rs ls out _ _ _ _ _ _ h => by omega⟩
  | succ n ih =>
    obtain ⟨ihP, ihQ⟩ := ih
    constructor
    · intro rl ll hrl hll b1 b2 hmin hmax hfuel
      unfold SubtractFuel SubtractFuelZ
      by_cases he : ll.isEmpty = true
      · rw [if_pos he, if_pos he]
      · rw [if_neg he, if_neg he, ihQ rl ll [] hrl hll b1 b2 hmin hmax (by omega)]
        obtain ⟨res, hres, hcan, hin, -⟩ := (subtractZ_ok n).2 rl ll [] hrl hll canon_nil
          (fun o ho => by cases ho) (by omega)
        have h64 : Int64 res := by
          intro o ho
          rcases hin o ho with h | ⟨r, hr, h1, h2⟩
          · cases h
          · have := b1 r hr
            have := hcan.1 o ho
            omega
        rw [hres, Option.map_some', Option.map_some', flatten_canon res hcan h64,
          flattenZ_canon res hcan]
    · intro rs ls out hrs hls b1 b2 hmin hmax hfuel
      cases rs with
      | nil => unfold subtractLoop subtractLoopZ; rfl
      | cons r rs =>
        obtain ⟨hr, hrgap, hrs'⟩ := canon_cons.mp hrs
        obtain ⟨br, brs⟩ := int64_cons.mp b1
        cases ls with
        | nil =>
          unfold subtractLoop subtractLoopZ
          exact ihQ rs [] _ hrs' canon_nil brs b2 hmin
            (Or.inr (fun x hx => by cases hx)) (by
              simp only [List.length_cons, List.length_nil] at hfuel ⊢; omega)
        | cons l ls =>
          obtain ⟨hl, hlgap, hls'⟩ := canon_cons.mp hls
          obtain ⟨bl, bls⟩ := int64_cons.mp b2
          have hminL : ∀ x ∈ ls, -2 ^ 63 < x.Start :=
            fun x hx => hmin x (List.mem_cons_of_mem _ hx)
          have hl0 := hmin l (List.mem_cons_self _ _)
          have hmaxR : (∀ x ∈ rs, x.End < 2 ^ 63 - 1) ∨ (∀ x ∈ l :: ls, x.End < 2 ^ 63 - 1) :=
            hmax.imp (fun h x hx => h x (List.mem_cons_of_mem _ hx)) (fun h => h)
          have hmaxL : (∀ x ∈ r :: rs, x.End < 2 ^ 63 - 1) ∨ (∀ x ∈ ls, x.End < 2 ^ 63 - 1) :=
            hmax.imp (fun h => h) (fun h x hx => h x (List.mem_cons_of_mem _ hx))
          have hmaxB : (∀ x ∈ rs, x.End < 2 ^ 63 - 1) ∨ (∀ x ∈ ls, x.End < 2 ^ 63 - 1) :=
            hmax.imp (fun h x hx => h x (List.mem_cons_of_mem _ hx))
              (fun h x hx => h x (List.mem_cons_of_mem _ hx))
          simp only [List.length_cons] at hfuel
          have fR : 2 * (rs.length + (l :: ls).length) + 1 ≤ n := by
            simp only [List.length_cons]; omega
          have fL : 2 * ((r :: rs).length + ls.length) + 1 ≤ n := by
            simp only [List.length_cons]; omega
          have fB : 2 * (rs.length + ls.length) + 1 ≤ n := by omega
          have hA : wrap64 (l.Start - 1) = l.Start - 1 :=
            wrap64_of_bounds (by omega) (by omega)
          unfold subtractLoop subtractLoopZ
          rw [hA]
          by_cases h1 : r.Contains l = true
          · rw [if_pos h1, if_pos h1]
            have hle : l.End ≤ r.End := ((contains_iff r l).mp h1).2
            have hlb : l.End < 2 ^ 63 - 1 := by
              rcases hmax with h | h
              · have := h r (List.mem_cons_self _ _); omega
              · exact h l (List.mem_cons_self _ _)
            have hB : wrap64 (l.End + 1) = l.End + 1 :=
              wrap64_of_bounds (by omega) (by omega)
            rw [hB]
            simp only
            by_cases hc : r.End ≥ l.End + 1
            · rw [if_pos hc, if_pos hc,
                ihP [⟨l.End + 1, r.End⟩] ls (canon_singleton.mpr hc) hls'
                  (fun x hx => by
                    rw [List.mem_singleton] at hx; subst hx
                    exact ⟨⟨by simp only; omega, by simp only; omega⟩, br.2⟩)
                  bls hminL
                  (hmax.imp (fun h x hx => by
                      rw [List.mem_singleton] at hx; subst hx
                      exact h r (List.mem_cons_self _ _))
                    (fun h x hx => h x (List.mem_cons_of_mem _ hx)))
                  (by simp only [List.length_cons, List.length_nil]; omega)]
              cases SubtractFuelZ n [⟨l.End + 1, r.End⟩] ls with
              | none => rfl
              | some sub => exact ihQ rs ls _ hrs' hls' brs bls hminL hmaxB fB
            · rw [if_neg hc, if_neg hc]
              exact ihQ rs ls _ hrs' hls' brs bls hminL hmaxB fB
          rw [if_neg h1, if_neg h1]
          by_cases h2 : l.Contains r = true
          · rw [if_pos h2, if_pos h2]
            exact ihQ rs (l :: ls) _ hrs' hls brs b2 hmin hmaxR fR
          rw [if_neg h2, if_neg h2,
            overlapsFront_exact br.2.1 br.2.2 bl.2.2 h1,
            overlapsFront_exact bl.2.1 bl.2.2 br.2.2 h2]
          by_cases h3 : r.OverlapsFrontZ l = true
          · rw [if_pos h3, if_pos h3]
            exact ihQ rs (l :: ls) _ hrs' hls brs b2 hmin hmaxR fR
          rw [if_neg h3, if_neg h3]
          by_cases h4 : l.OverlapsFrontZ r = true
          · rw [if_pos h4, if_pos h4]
            have hlb : l.End < 2 ^ 63 - 1 := by
              rw [contains_iff] at h2
              rw [overlapsFrontZ_iff] at h4
              omega
            rw [wrap64_of_bounds (by omega) (by omega)]
            exact ihQ rs (l :: ls) _ hrs' hls brs b2 hmin hmaxR fR
          rw [if_neg h4, if_neg h4]
          by_cases h5 : r.End < l.Start
          · rw [if_pos h5, if_pos h5]
            exact ihQ rs (l :: ls) _ hrs' hls brs b2 hmin hmaxR fR
          rw [if_neg h5, if_neg h5]
          by_cases h6 : r.Start > l.End
          · rw [if_pos h6, if_pos h6]
            exact ihQ (r :: rs) ls _ hrs hls' b1 bls hminL hmaxL fL
          exact absurd (subtract_branches r l h3 h4 h5 h6) id

/-- `Subtract` is exact on canonical lists of `int64` ranges when no range of
the subtracted list starts at `-2^63` and one of the two lists has no range
that ends at `2^63 - 1`. -/
theorem subtract_exact (rl ll : RangeList) (hrl : Canon rl) (hll : Canon ll)
    (b1 : Int64 rl) (b2 : Int64 ll) (hmin : ∀ x ∈ ll, x.Start ≠ -2 ^ 63)
    (hmax : (∀ x ∈ rl, x.End ≠ 2 ^ 63 - 1) ∨ (∀ x ∈ ll, x.End ≠ 2 ^ 63 - 1)) :
    RangeList.Subtract rl ll = RangeList.SubtractZ rl ll := by
  unfold RangeList.Subtract RangeList.SubtractZ
  refine (subtract_exact_ok _).1 rl ll hrl hll b1 b2 (fun x hx => ?_) ?_ (le_refl _)
  · have := b2 x hx
    have := hmin x hx
    omega
  · refine hmax.imp (fun h x hx => ?_) (fun h x hx => ?_)
    · have := b1 x hx
      have := h x hx
      omega
    · have := b2 x hx
      have := h x hx
      omega

/-! ### Lists with bounded `End`s -/

theorem bounded_of_int64 {rl : RangeList} (h64 : Int64 rl)
    (hmax : ∀ r ∈ rl, r.End ≠ 2 ^ 63 - 1) : Bounded (2 ^ 63 - 1) rl := by
  intro r hr
  have := h64 r hr
  have := hmax r hr
  omega

theorem Bounded.int64 {rl : RangeList} (h : Bounded (2 ^ 63 - 1) rl) : Int64 rl := by
  intro r hr
  have := h r hr
  omega

theorem Bounded.below {rl : RangeList} {c : Int} (h : Bounded c rl) : ∀ r ∈ rl, r.End < c :=
  fun r hr => (h r hr).2.2

theorem Bounded.ends {rl : RangeList} (h : Bounded (2 ^ 63 - 1) rl) :
    ∀ r ∈ rl, -2 ^ 63 ≤ r.End + 1 ∧ r.End + 1 < 2 ^ 63 := by
  intro r hr
  have := h r hr
  omega

theorem bounded_cons {c : Int} {a : Range} {rl : RangeList} :
    Bounded c (a :: rl) ↔
      ((-2 ^ 63 ≤ a.Start ∧ a.Start < 2 ^ 63) ∧ (-2 ^ 63 ≤ a.End ∧ a.End < c)) ∧
        Bounded c rl := by
  unfold Bounded
  simp only [List.mem_cons, forall_eq_or_imp]

theorem bounded_append {c : Int} {xs ys : RangeList} :
    Bounded c (xs ++ ys) ↔ Bounded c xs ∧ Bounded c ys := by
  unfold Bounded
  simp only [List.mem_append]
  constructor
  · intro h
    exact ⟨fun r hr => h r (Or.inl hr), fun r hr => h r (Or.inr hr)⟩
  · rintro ⟨h1, h2⟩ r (hr | hr)
    · exact h1 r hr
    · exact h2 r hr

theorem Bounded.subset {c : Int} {xs ys : RangeList} (h : Bounded c ys)
    (hsub : ∀ x ∈ xs, x ∈ ys) : Bounded c xs :=
  fun r hr => h r (hsub r hr)

theorem Bounded.set {c : Int} {rl : RangeList} (h : Bounded c rl) (i : Nat) {x : Range}
    (hx : (-2 ^ 63 ≤ x.Start ∧ x.Start < 2 ^ 63) ∧ (-2 ^ 63 ≤ x.End ∧ x.End < c)) :
    Bounded c (rl.set i x) := by
  intro r hr
  rcases List.mem_or_eq_of_mem_set hr with h1 | h1
  · exact h r h1
  · rw [h1]; exact hx

/-! ### InplaceUnion keeps the bounds of its lists -/

/-- The first half of a pass writes bounds of the two lists only. -/
theorem inplaceStep_bounded {c : Int} (rl : RangeList) (i : Nat) (ls : RangeList) (n : Nat)
    (hrl : Bounded c rl) (hls : Bounded c ls) :
    ∀ rl1 i1 ls1 n1, inplaceStep rl i ls n = some (rl1, i1, ls1, n1) →
      Bounded c rl1 ∧ Bounded c ls1 := by
  unfold inplaceStep
  cases ls with
  | nil =>
    intro rl1 i1 ls1 n1 h
    simp only [Option.some.injEq, Prod.mk.injEq] at h
    obtain ⟨rfl, -, rfl, -⟩ := h
    exact ⟨hrl, hls⟩
  | cons l ls' =>
    obtain ⟨bl, hls'⟩ := bounded_cons.mp hls
    simp only
    cases hg : rl.get? i with
    | none => exact fun _ _ _ _ h => by cases h
    | some r =>
      have br := hrl r (List.get?_mem hg)
      simp only
      intro rl1 i1 ls1 n1 h
      split at h
      · simp only [Option.some.injEq, Prod.mk.injEq] at h
        obtain ⟨rfl, -, rfl, -⟩ := h
        exact ⟨hrl, hls'⟩
      · split at h
        · simp only [Option.some.injEq, Prod.mk.injEq] at h
          obtain ⟨rfl, -, rfl, -⟩ := h
          exact ⟨hrl.set i ⟨br.1, bl.2⟩, hls'⟩
        · split at h
          · simp only [Option.some.injEq, Prod.mk.injEq] at h
            obtain ⟨rfl, -, rfl, -⟩ := h
            exact ⟨hrl.set i bl, hls⟩
          · split at h
            · simp only [Option.some.injEq, Prod.mk.injEq] at h
              obtain ⟨rfl, -, rfl, -⟩ := h
              exact ⟨hrl.set i ⟨bl.1, br.2⟩, hls'⟩
            · split at h
              · simp only [Option.some.injEq, Prod.mk.injEq] at h
                obtain ⟨rfl, -, rfl, -⟩ := h
                exact ⟨hrl, hls⟩
              · split at h
                · simp only [Option.some.injEq, Prod.mk.injEq] at h
                  obtain ⟨rfl, -, rfl, -⟩ := h
                  refine ⟨Bounded.set ?_ i bl, hls'⟩
                  rw [bounded_append]
                  exact ⟨hrl.subset (fun x hx => List.mem_of_mem_take hx),
                    hrl.subset (fun x hx => List.mem_of_mem_drop hx)⟩
                · simp only [Option.some.injEq, Prod.mk.injEq] at h
                  obtain ⟨rfl, -, rfl, -⟩ := h
                  exact ⟨hrl, hls⟩

/-- The second half of a pass writes bounds of the list only. -/
theorem inplaceMerge_bounded {c : Int} (rl : RangeList) (i : Nat) (hrl : Bounded c rl) :
    Bounded c (inplaceMerge rl i).1 := by
  unfold inplaceMerge
  by_cases hc : rl.length > 1 ∧ i > 0 ∧ i < rl.length
  · rw [if_pos hc]
    cases hg : rl.get? i with
    | none => exact hrl
    | some cur =>
      cases hp : rl.get? (i - 1) with
      | none => exact hrl
      | some prev =>
        have bc := hrl cur (List.get?_mem hg)
        have bp := hrl prev (List.get?_mem hp)
        simp only
        split
        · simp only
          have h1 : Bounded c (if cur.End > prev.End then rl.set (i - 1) ⟨prev.Start, cur.End⟩
              else rl) := by
            split
            · exact hrl.set _ ⟨bp.1, bc.2⟩
            · exact hrl
          rw [bounded_append]
          exact ⟨h1.subset (fun x hx => List.mem_of_mem_take hx),
            h1.subset (fun x hx => List.mem_of_mem_drop hx)⟩
        · exact hrl
  · rw [if_neg hc]
    exact hrl

/-- The block that ends the loop writes bounds of the two lists only. -/
theorem inplaceFinish_bounded {c : Int} (rl ls : RangeList) (n : Nat) (hrl : Bounded c rl)
    (hls : Bounded c ls) :
    ∀ res m, inplaceFinish rl ls n = some (res, m) → Bounded c res := by
  unfold inplaceFinish
  cases ls with
  | nil =>
    intro res m h
    simp only [Option.some.injEq, Prod.mk.injEq] at h
    obtain ⟨rfl, -⟩ := h
    exact hrl
  | cons l ls' =>
    obtain ⟨bl, hls'⟩ := bounded_cons.mp hls
    simp only
    cases hg : rl.getLast? with
    | none => exact fun _ _ h => by cases h
    | some last =>
      have blast := hrl last (List.mem_of_getLast?_eq_some hg)
      simp only
      intro res m h
      split at h
      · split at h
        · simp only [Option.some.injEq, Prod.mk.injEq] at h
          obtain ⟨rfl, -⟩ := h
          rw [bounded_append, bounded_append]
          refine ⟨⟨hrl.subset (fun x hx => List.mem_of_mem_dropLast hx), ?_⟩, hls'⟩
          intro x hx
          rw [List.mem_singleton] at hx
          subst hx
          exact ⟨blast.1, bl.2⟩
        · simp only [Option.some.injEq, Prod.mk.injEq] at h
          obtain ⟨rfl, -⟩ := h
          rw [bounded_append]
          exact ⟨hrl, hls⟩
      · simp only [Option.some.injEq, Prod.mk.injEq] at h
        obtain ⟨rfl, -⟩ := h
        exact hrl

theorem inplaceUnionLoop_bounded {c : Int} (fuel : Nat) :
    ∀ (rl : RangeList) (i : Nat) (ls : RangeList) (n : Nat), Bounded c rl → Bounded c ls →
      ∀ res m, inplaceUnionLoop fuel rl i ls n = some (res, m) → Bounded c res := by
  induction fuel with
  | zero =>
    intro rl i ls n _ _ _ _ h
    cases h
  | succ k ih =>
    intro rl i ls n hrl hls res m h
    unfold inplaceUnionLoop at h
    cases hs : inplaceStep rl i ls n with
    | none => rw [hs] at h; cases h
    | some st =>
      obtain ⟨rl1, i1, ls1, n1⟩ := st
      obtain ⟨q1, q2⟩ := inplaceStep_bounded rl i ls n hrl hls rl1 i1 ls1 n1 hs
      have p2 := inplaceMerge_bounded rl1 i1 q1
      rw [hs] at h
      simp only at h
      rcases hm : inplaceMerge rl1 i1 with ⟨rl2, i2⟩
      rw [hm] at p2 h
      simp only at p2 h
      by_cases hend : i2 = rl2.length
      · rw [if_pos hend] at h
        exact inplaceFinish_bounded rl2 ls1 n1 p2 q2 res m h
      · rw [if_neg hend] at h
        exact ih rl2 i2 ls1 n1 p2 q2 res m h

/-! ### InplaceUnion on lists without a range that ends at `2^63 - 1` -/

theorem inplaceStep_exact (rl : RangeList) (i : Nat) (ls : RangeList) (n : Nat)
    (hrl : Bounded (2 ^ 63 - 1) rl) (hls : Bounded (2 ^ 63 - 1) ls) :
    inplaceStep rl i ls n = inplaceStepZ rl i ls n := by
  unfold inplaceStep inplaceStepZ
  cases ls with
  | nil => rfl
  | cons l ls' =>
    obtain ⟨bl, -⟩ := bounded_cons.mp hls
    simp only
    cases hg : rl.get? i with
    | none => rfl
    | some r =>
      have br := hrl r (List.get?_mem hg)
      simp only
      rw [overlapsFront_exact_of_end l (by omega) (by omega),
        overlapsFront_exact_of_end r (by omega) (by omega)]

theorem inplaceMerge_exact (rl : RangeList) (i : Nat) (hrl : Bounded (2 ^ 63 - 1) rl) :
    inplaceMerge rl i = inplaceMergeZ rl i := by
  unfold inplaceMerge inplaceMergeZ
  by_cases hc : rl.length > 1 ∧ i > 0 ∧ i < rl.length
  · rw [if_pos hc, if_pos hc]
    cases hg : rl.get? i with
    | none => rfl
    | some cur =>
      cases hp : rl.get? (i - 1) with
      | none => rfl
      | some prev =>
        have bp := hrl prev (List.get?_mem hp)
        simp only
        rw [wrap64_of_bounds (by omega) (by omega)]
  · rw [if_neg hc, if_neg hc]

theorem inplaceFinish_exact (rl ls : RangeList) (n : Nat) (hrl : Bounded (2 ^ 63 - 1) rl) :
    inplaceFinish rl ls n = inplaceFinishZ rl ls n := by
  unfold inplaceFinish inplaceFinishZ
  cases ls with
  | nil => rfl
  | cons l ls' =>
    simp only
    cases hg : rl.getLast? with
    | none => rfl
    | some last =>
      have blast := hrl last (List.mem_of_getLast?_eq_some hg)
      simp only
      rw [wrap64_of_bounds (by omega) (by omega)]

/-- The loop of `InplaceUnion` is exact on lists without a range that ends at
`2^63 - 1`. -/
theorem inplaceUnionLoop_exact (fuel : Nat) :
    ∀ (rl : RangeList) (i : Nat) (ls : RangeList) (n : Nat),
      Bounded (2 ^ 63 - 1) rl → Bounded (2 ^ 63 - 1) ls →
      inplaceUnionLoop fuel rl i ls n = inplaceUnionLoopZ fuel rl i ls n := by
  induction fuel with
  | zero => intro rl i ls n _ _; rfl
  | succ k ih =>
    intro rl i ls n hrl hls
    have e1 := inplaceStep_exact rl i ls n hrl hls
    unfold inplaceUnionLoop inplaceUnionLoopZ
    rw [← e1]
    cases hs : inplaceStep rl i ls n with
    | none => rfl
    | some st =>
      obtain ⟨rl1, i1, ls1, n1⟩ := st
      obtain ⟨q1, q2⟩ := inplaceStep_bounded rl i ls n hrl hls rl1 i1 ls1 n1 hs
      have e2 := inplaceMerge_exact rl1 i1 q1
      have p2 := inplaceMerge_bounded rl1 i1 q1
      simp only
      rw [← e2]
      rcases hm : inplaceMerge rl1 i1 with ⟨rl2, i2⟩
      rw [hm] at p2
      simp only at p2 ⊢
      by_cases hend : i2 = rl2.length
      · rw [if_pos hend, if_pos hend]
        exact inplaceFinish_exact rl2 ls1 n1 p2
      · rw [if_neg hend, if_neg hend]
        exact ih rl2 i2 ls1 n1 p2 q2

/-- `InplaceUnion` is exact on two lists of `int64` ranges none of which ends
at `2^63 - 1`. -/
theorem inplaceUnion_exact (rl ll : RangeList) (hrl : Bounded (2 ^ 63 - 1) rl)
    (hll : Bounded (2 ^ 63 - 1) ll) :
    RangeList.InplaceUnion rl ll = RangeList.InplaceUnionZ rl ll := by
  unfold RangeList.InplaceUnion RangeList.InplaceUnionZ
  cases ll with
  | nil => rfl
  | cons l0 ls =>
    simp only
    split
    · rfl
    · rw [← endReaches_exact rl l0.Start hrl.ends]
      have e := inplaceUnionLoop_exact (2 * (rl.length + (l0 :: ls).length) + 2) rl
        (if sortSearch rl.length (endReaches rl l0.Start) > 0
          then sortSearch rl.length (endReaches rl l0.Start) - 1
          else sortSearch rl.length (endReaches rl l0.Start)) (l0 :: ls) 0 hrl hll
      have p := inplaceUnionLoop_bounded (2 * (rl.length + (l0 :: ls).length) + 2) rl
        (if sortSearch rl.length (endReaches rl l0.Start) > 0
          then sortSearch rl.length (endReaches rl l0.Start) - 1
          else sortSearch rl.length (endReaches rl l0.Start)) (l0 :: ls) 0 hrl hll
      rw [← e]
      cases hres : inplaceUnionLoop (2 * (rl.length + (l0 :: ls).length) + 2) rl
        (if sortSearch rl.length (endReaches rl l0.Start) > 0
          then sortSearch rl.length (endReaches rl l0.Start) - 1
          else sortSearch rl.length (endReaches rl l0.Start)) (l0 :: ls) 0 with
      | none => rfl
      | some v =>
        obtain ⟨res, m⟩ := v
        have hin := p res m hres
        simp only
        rw [flatten_exact_of_ends res hin.int64 hin.below]

/-! ## The two orders of Union -/

theorem range_union_comm (r l : Range) : r.Union l = l.Union r := by
  unfold Range.Union
  rw [min_comm, max_comm]

theorem range_eq_of_contains {r l : Range} (h1 : r.Contains l = true)
    (h2 : l.Contains r = true) : r = l := by
  rw [contains_iff] at h1 h2
  cases r; cases l
  simp only at h1 h2
  congr 1 <;> omega

/-- C21 (fails as stated): the canonical lists `[(-3,-3)]` and
`[(-3,-3),(-1,-1)]` share the range `(-3,-3)`, whose `End` is negative; `Union`
drops it in one order (`toAdd.End >= 0` fails) and keeps it in the other (the
unread rest of the second list is appended as it is). -/
theorem union_order_matters :
    Canonical [⟨-3, -3⟩] ∧ Canonical [⟨-3, -3⟩, ⟨-1, -1⟩] ∧
    RangeList.Union [⟨-3, -3⟩] [⟨-3, -3⟩, ⟨-1, -1⟩] = some [⟨-1, -1⟩] ∧
    RangeList.Union [⟨-3, -3⟩, ⟨-1, -1⟩] [⟨-3, -3⟩] = some [⟨-3, -3⟩, ⟨-1, -1⟩] ∧
    RangeList.Union [⟨-3, -3⟩] [⟨-3, -3⟩, ⟨-1, -1⟩]
      ≠ RangeList.Union [⟨-3, -3⟩, ⟨-1, -1⟩] [⟨-3, -3⟩] := by
  decide

theorem Ahead.shrink {e : Int} {rs ls rs2 ls2 : RangeList} (h : Ahead e rs ls)
    (hsub1 : ∀ x ∈ rs2, x ∈ rs) (hsub2 : ∀ x ∈ ls2, x ∈ ls) : Ahead e rs2 ls2 :=
  ⟨h.1, h.2.imp (fun h1 r hr => h1 r (hsub1 r hr)) (fun h1 l hl => h1 l (hsub2 l hl))⟩

theorem absorb_nil (t : Range) :
    absorb [] t = if t.End ≥ 0 then [t] else [] := by
  simp [absorb]

theorem absorb_concat (init : RangeList) (last t : Range) :
    absorb (init ++ [last]) t =
      if last.OverlapsFront t then init ++ [last.Union t]
      else if t.End ≥ 0 then init ++ [last] ++ [t] else init ++ [last] := by
  simp [absorb]

/-- The `End` of an entry of `out` after the tail of a pass is the `End` of an
entry it had, or that of `toAdd`. -/
theorem absorb_ends (out : RangeList) (t : Range) :
    ∀ o ∈ absorb out t, o ∈ out ∨ o.End = t.End ∨ ∃ o1 ∈ out, o.End = o1.End := by
  intro o ho
  rcases List.eq_nil_or_concat out with rfl | ⟨init, last, hcat⟩
  · rw [absorb_nil] at ho
    split at ho
    · rw [List.mem_singleton] at ho
      right; left; rw [ho]
    · simp at ho
  · rw [List.concat_eq_append] at hcat
    subst hcat
    rw [absorb_concat] at ho
    split at ho
    · rcases List.mem_append.mp ho with h | h
      · left; exact List.mem_append_left _ h
      · rw [List.mem_singleton] at h
        have he : o.End = max last.End t.End := by rw [h]; rfl
        rcases le_total last.End t.End with hle | hle
        · right; left; rw [he, max_eq_right hle]
        · right; right
          exact ⟨last, by simp, by rw [he, max_eq_left hle]⟩
    · split at ho
      · rcases List.mem_append.mp ho with h | h
        · left; exact h
        · rw [List.mem_singleton] at h
          right; left; rw [h]
      · left; exact ho

theorem overlapsFront_of_start {r l : Range} (h : ¬ r.Start ≤ l.Start) :
    r.OverlapsFront l = false := by
  unfold Range.OverlapsFront
  simp [h]

/-- A range that lies more than one beyond `r` is not met by `r`, also on
`int64`. -/
theorem overlapsFront_of_gap {r l : Range} (h1 : -2 ^ 63 ≤ r.End) (h2 : l.Start < 2 ^ 63)
    (hgap : r.End + 1 < l.Start) : r.OverlapsFront l = false := by
  rw [overlapsFront_exact_of_end l (by omega) (by omega)]
  cases h : r.OverlapsFrontZ l with
  | false => rfl
  | true => rw [overlapsFrontZ_iff] at h; omega

/-- A range that starts more than one after the end of every entry of `out` is
appended as it is when its `End` is not negative. -/
theorem absorb_after {out : RangeList} {x : Range}
    (hgap : ∀ o ∈ out, -2 ^ 63 ≤ o.End ∧ o.End + 1 < x.Start) (hx : x.Start < 2 ^ 63)
    (h0 : 0 ≤ x.End) : absorb out x = out ++ [x] := by
  rcases List.eq_nil_or_concat out with rfl | ⟨init, last, hcat⟩
  · rw [absorb_nil, if_pos h0]; rfl
  · rw [List.concat_eq_append] at hcat
    subst hcat
    have := hgap last (by simp)
    rw [absorb_concat, overlapsFront_of_gap this.1 hx this.2]
    simp [h0]

/-- A pass of the loop on two non-empty ranges. -/
theorem unionLoop_step (aLast bLast : Range) (n : Nat) (r : Range) (rs : RangeList)
    (l : Range) (ls out : RangeList) (t : Range) (hr : r.Start ≤ r.End)
    (hl : l.Start ≤ l.End) :
    unionLoop aLast bLast (n + 1) (r :: rs) (l :: ls) out t =
      if r.Contains l then unionLoop aLast bLast n (r :: rs) ls (absorb out t) t
      else if l.Contains r then unionLoop aLast bLast n rs (l :: ls) (absorb out t) t
      else if r.OverlapsFront l || l.OverlapsFront r then
        unionLoop aLast bLast n rs ls (absorb out (r.Union l)) (r.Union l)
      else if r.End ≤ l.Start then unionLoop aLast bLast n rs (l :: ls) (absorb out r) r
      else unionLoop aLast bLast n (r :: rs) ls (absorb out l) l := by
  conv_lhs => unfold unionLoop
  rw [if_neg (by omega), if_neg (by omega)]

/-- The first pass on two ranges of which `x` ends more than one before `y`
starts, `x` being the head of the first list. -/
theorem unionLoop_first_before (aLast bLast : Range) (n : Nat) (x y : Range)
    (as bs out : RangeList) (t : Range) (hx : x.Start ≤ x.End) (hy : y.Start ≤ y.End)
    (hxy : x.End + 1 < y.Start) (h1 : -2 ^ 63 ≤ x.End) (h2 : y.Start < 2 ^ 63) :
    unionLoop aLast bLast (n + 1) (x :: as) (y :: bs) out t =
      unionLoop aLast bLast n as (y :: bs) (absorb out x) x := by
  conv_lhs => unfold unionLoop
  rw [if_neg (by omega), if_neg (by omega),
    if_neg (by rw [contains_iff]; omega), if_neg (by rw [contains_iff]; omega),
    overlapsFront_of_gap h1 h2 hxy, overlapsFront_of_start (by omega),
    if_neg (by simp), if_pos (by omega)]

/-- The first pass on two ranges of which `x` ends more than one before `y`
starts, `x` being the head of the second list. -/
theorem unionLoop_second_before (aLast bLast : Range) (n : Nat) (x y : Range)
    (as bs out : RangeList) (t : Range) (hx : x.Start ≤ x.End) (hy : y.Start ≤ y.End)
    (hxy : x.End + 1 < y.Start) (h1 : -2 ^ 63 ≤ x.End) (h2 : y.Start < 2 ^ 63) :
    unionLoop aLast bLast (n + 1) (y :: as) (x :: bs) out t =
      unionLoop aLast bLast n (y :: as) bs (absorb out x) x := by
  conv_lhs => unfold unionLoop
  rw [if_neg (by omega), if_neg (by omega),
    if_neg (by rw [contains_iff]; omega), if_neg (by rw [contains_iff]; omega),
    overlapsFront_of_gap h1 h2 hxy, overlapsFront_of_start (by omega),
    if_neg (by simp), if_neg (by omega)]

/-- A range `x` that heads both lists may be read from either: the loop ends
with the same list. -/
theorem unionLoop_move (aLast bLast x : Range) (as bs out : RangeList) (t : Range) (n : Nat)
    (hn : as.length + bs.length + 2 ≤ n)
    (ha : Canon (x :: as)) (hb : Canon (x :: bs))
    (ha64 : Int64 (x :: as)) (hb64 : Int64 (x :: bs))
    (hgap : ∀ o ∈ out, -2 ^ 63 ≤ o.End ∧ o.End + 1 < x.Start) (h0 : 0 ≤ x.End)
    (hal : aLast ∈ x :: as) (hbl : bLast ∈ x :: bs) :
    unionLoop aLast bLast n (x :: as) bs out t = unionLoop aLast bLast n as (x :: bs) out t := by
  obtain ⟨hx, hgapA, hcA⟩ := canon_cons.mp ha
  obtain ⟨-, hgapB, hcB⟩ := canon_cons.mp hb
  obtain ⟨hx64, hA64⟩ := int64_cons.mp ha64
  obtain ⟨-, hB64⟩ := int64_cons.mp hb64
  obtain ⟨m, rfl⟩ : ∃ m, n = m + 2 := ⟨n - 2, by omega⟩
  cases as with
  | nil =>
    have hax : aLast = x := by simpa using hal
    cases bs with
    | nil =>
      have hbx : bLast = x := by simpa using hbl
      unfold unionLoop
      rw [if_pos (Or.inl (by rw [hbx])), if_pos (Or.inl (by rw [hax]))]
    | cons b2 bs2 =>
      have h1 := hgapB b2 (List.mem_cons_self _ _)
      have h2 := hcB.1 b2 (List.mem_cons_self _ _)
      have h3 := (hB64 b2 (List.mem_cons_self _ _)).1.2
      rw [unionLoop_first_before aLast bLast (m + 1) x b2 [] bs2 out t hx h2 h1 hx64.2.1 h3,
        absorb_after hgap hx64.1.2 h0]
      unfold unionLoop
      rw [if_pos (Or.inl (by rw [hax]; omega)), if_pos (Or.inl (by rw [hax])),
        List.append_assoc]
      rfl
  | cons a2 as2 =>
    have h1 := hgapA a2 (List.mem_cons_self _ _)
    have h2 := hcA.1 a2 (List.mem_cons_self _ _)
    have h5 := (hA64 a2 (List.mem_cons_self _ _)).1.2
    cases bs with
    | nil =>
      have hbx : bLast = x := by simpa using hbl
      rw [unionLoop_second_before aLast bLast (m + 1) x a2 as2 [] out t hx h2 h1 hx64.2.1 h5,
        absorb_after hgap hx64.1.2 h0]
      unfold unionLoop
      rw [if_pos (Or.inl (by rw [hbx])), if_pos (Or.inl (by rw [hbx]; omega)),
        List.append_assoc]
      rfl
    | cons b2 bs2 =>
      have h3 := hgapB b2 (List.mem_cons_self _ _)
      have h4 := hcB.1 b2 (List.mem_cons_self _ _)
      have h6 := (hB64 b2 (List.mem_cons_self _ _)).1.2
      rw [unionLoop_first_before aLast bLast (m + 1) x b2 (a2 :: as2) bs2 out t hx h4 h3
          hx64.2.1 h6,
        unionLoop_second_before aLast bLast (m + 1) x a2 as2 (b2 :: bs2) out t hx h2 h1
          hx64.2.1 h5]

/-- The state after a pass that adds nothing new. -/
theorem UnionSwap.stale_pass {rlLast llLast : Range} {rs ls out rs2 ls2 : RangeList}
    {toAdd : Range} (h : UnionSwap rlLast llLast rs ls out toAdd)
    (hrs2 : Canon rs2) (hls2 : Canon ls2)
    (hsub1 : ∀ x ∈ rs2, x ∈ rs) (hsub2 : ∀ x ∈ ls2, x ∈ ls)
    (hr : rs2 ≠ [] → rlLast ∈ rs2) (hl : ls2 ≠ [] → llLast ∈ ls2) :
    UnionSwap rlLast llLast rs2 ls2 (absorb out toAdd) toAdd := {
  rs_canon := hrs2
  ls_canon := hls2
  rs64 := fun r hr => h.rs64 r (hsub1 r hr)
  ls64 := fun l hl => h.ls64 l (hsub2 l hl)
  rs_le := fun r hr => h.rs_le r (hsub1 r hr)
  ls_le := fun l hl => h.ls_le l (hsub2 l hl)
  rl_last := hr
  ll_last := hl
  shared := fun x hx hx2 => h.shared x (hsub1 x hx) (hsub2 x hx2)
  gap := fun o ho => by
    rcases h.add with ⟨he, hneg⟩ | hadd
    · subst he
      rw [absorb_nil, if_neg (by omega)] at ho
      simp at ho
    · rcases absorb_ends out toAdd o ho with hin | he | ⟨o1, ho1, he⟩
      · exact (h.gap o hin).shrink hsub1 hsub2
      · rw [he]; exact hadd.shrink hsub1 hsub2
      · rw [he]; exact (h.gap o1 ho1).shrink hsub1 hsub2
  add := by
    rcases h.add with ⟨he, hneg⟩ | hadd
    · left
      subst he
      rw [absorb_nil, if_neg (by omega)]
      exact ⟨rfl, hneg⟩
    · right; exact hadd.shrink hsub1 hsub2 }

/-- The state after a pass that adds the range `t`, which ends more than one
before the unread rest of one of the lists. -/
theorem UnionSwap.fresh_pass {rlLast llLast : Range} {rs ls out rs2 ls2 : RangeList}
    {toAdd t : Range} (h : UnionSwap rlLast llLast rs ls out toAdd)
    (hrs2 : Canon rs2) (hls2 : Canon ls2)
    (hsub1 : ∀ x ∈ rs2, x ∈ rs) (hsub2 : ∀ x ∈ ls2, x ∈ ls)
    (hr : rs2 ≠ [] → rlLast ∈ rs2) (hl : ls2 ≠ [] → llLast ∈ ls2)
    (hend : Ahead t.End rs2 ls2) :
    UnionSwap rlLast llLast rs2 ls2 (absorb out t) t := {
  rs_canon := hrs2
  ls_canon := hls2
  rs64 := fun r hr => h.rs64 r (hsub1 r hr)
  ls64 := fun l hl => h.ls64 l (hsub2 l hl)
  rs_le := fun r hr => h.rs_le r (hsub1 r hr)
  ls_le := fun l hl => h.ls_le l (hsub2 l hl)
  rl_last := hr
  ll_last := hl
  shared := fun x hx hx2 => h.shared x (hsub1 x hx) (hsub2 x hx2)
  gap := fun o ho => by
    rcases absorb_ends out t o ho with hin | he | ⟨o1, ho1, he⟩
    · exact (h.gap o hin).shrink hsub1 hsub2
    · rw [he]; exact hend
    · rw [he]; exact (h.gap o1 ho1).shrink hsub1 hsub2
  add := Or.inr hend }

/-- The loop of `Union` ends with the same list when the two lists change
places. -/
theorem unionLoop_comm (rlLast llLast : Range) (fuel : Nat) :
    ∀ (rs ls out : RangeList) (toAdd : Range), rs.length + ls.length < fuel →
      UnionSwap rlLast llLast rs ls out toAdd →
      unionLoop rlLast llLast fuel rs ls out toAdd =
        unionLoop llLast rlLast fuel ls rs out toAdd := by
  induction fuel with
  | zero => intro rs ls out toAdd h; omega
  | succ n ih =>
    intro rs ls out toAdd hfuel inv
    cases rs with
    | nil =>
      cases ls with
      | nil => rfl
      | cons l ls => unfold unionLoop; rfl
    | cons r rs =>
      cases ls with
      | nil => unfold unionLoop; rfl
      | cons l ls =>
        obtain ⟨hr, hrgap, hrs'⟩ := canon_cons.mp inv.rs_canon
        obtain ⟨hl, hlgap, hls'⟩ := canon_cons.mp inv.ls_canon
        obtain ⟨hr64, hrs64⟩ := int64_cons.mp inv.rs64
        obtain ⟨hl64, hls64⟩ := int64_cons.mp inv.ls64
        simp only [List.length_cons] at hfuel
        have subR : ∀ x ∈ rs, x ∈ r :: rs := fun x hx => List.mem_cons_of_mem _ hx
        have subL : ∀ x ∈ ls, x ∈ l :: ls := fun x hx => List.mem_cons_of_mem _ hx
        have idR : ∀ x ∈ r :: rs, x ∈ r :: rs := fun x hx => hx
        have idL : ∀ x ∈ l :: ls, x ∈ l :: ls := fun x hx => hx
        have lastR : rs ≠ [] → rlLast ∈ rs := fun hne =>
          last_mem_tail inv.rs_canon inv.rs_le (inv.rl_last (by simp)) hne
        have lastL : ls ≠ [] → llLast ∈ ls := fun hne =>
          last_mem_tail inv.ls_canon inv.ls_le (inv.ll_last (by simp)) hne
        rw [unionLoop_step rlLast llLast n r rs l ls out toAdd hr hl,
          unionLoop_step llLast rlLast n l ls r rs out toAdd hl hr]
        by_cases h3 : r.Contains l = true
        · by_cases h4 : l.Contains r = true
          · -- the same range heads both lists
            have hrl : r = l := range_eq_of_contains h3 h4
            subst hrl
            simp only [h3, if_true]
            have inv' := inv.stale_pass inv.rs_canon hls' idR subL inv.rl_last lastL
            rw [ih (r :: rs) ls _ toAdd (by simp only [List.length_cons]; omega) inv']
            have invL := inv.stale_pass inv.rs_canon inv.ls_canon idR idL inv.rl_last
              inv.ll_last
            refine (unionLoop_move llLast rlLast r ls rs _ toAdd n (by omega)
              inv.ls_canon inv.rs_canon inv.ls64 inv.rs64 (fun o ho => ?_)
              (inv.shared r (List.mem_cons_self _ _) (List.mem_cons_self _ _))
              (inv.ll_last (by simp)) (inv.rl_last (by simp))).symm
            have hg := invL.gap o ho
            refine ⟨hg.1, ?_⟩
            rcases hg.2 with h | h
            · exact h r (List.mem_cons_self _ _)
            · exact h r (List.mem_cons_self _ _)
          · simp only [h3, h4, if_true, if_false, Bool.false_eq_true]
            exact ih (r :: rs) ls _ toAdd (by simp only [List.length_cons]; omega)
              (inv.stale_pass inv.rs_canon hls' idR subL inv.rl_last lastL)
        by_cases h4 : l.Contains r = true
        · simp only [h3, h4, if_true, if_false, Bool.false_eq_true]
          exact ih rs (l :: ls) _ toAdd (by simp only [List.length_cons]; omega)
            (inv.stale_pass hrs' inv.ls_canon subR idL lastR inv.ll_last)
        simp only [h3, h4, if_false, Bool.false_eq_true]
        rw [overlapsFront_exact hr64.2.1 hr64.2.2 hl64.2.2 h3,
          overlapsFront_exact hl64.2.1 hl64.2.2 hr64.2.2 h4]
        rw [contains_iff] at h3 h4
        by_cases h5 : (r.OverlapsFrontZ l || l.OverlapsFrontZ r) = true
        · rw [if_pos h5,
            if_pos (show (l.OverlapsFrontZ r || r.OverlapsFrontZ l) = true by
              rw [Bool.or_comm]; exact h5), range_union_comm l r]
          rw [Bool.or_eq_true, overlapsFrontZ_iff, overlapsFrontZ_iff] at h5
          have hte : (r.Union l).End = max r.End l.End := rfl
          exact ih rs ls _ _ (by omega)
            (inv.fresh_pass hrs' hls' subR subL lastR lastL (by
              rw [hte]
              refine ⟨by omega, ?_⟩
              rcases le_total l.End r.End with h | h
              · left; intro r' hr'
                have := hrgap r' hr'
                rw [max_eq_left h]; exact this
              · right; intro l' hl'
                have := hlgap l' hl'
                rw [max_eq_right h]; exact this))
        rw [if_neg h5,
          if_neg (show ¬ (l.OverlapsFrontZ r || r.OverlapsFrontZ l) = true by
            rw [Bool.or_comm]; exact h5)]
        rw [Bool.or_eq_true, overlapsFrontZ_iff, overlapsFrontZ_iff] at h5
        by_cases h6 : r.End ≤ l.Start
        · rw [if_pos h6, if_neg (show ¬ l.End ≤ r.Start by omega)]
          exact ih rs (l :: ls) _ _ (by simp only [List.length_cons]; omega)
            (inv.fresh_pass hrs' inv.ls_canon subR idL lastR inv.ll_last
              ⟨hr64.2.1, Or.inl hrgap⟩)
        · rw [if_neg h6, if_pos (show l.End ≤ r.Start by omega)]
          exact ih (r :: rs) ls _ _ (by simp only [List.length_cons]; omega)
            (inv.fresh_pass inv.rs_canon hls' idR subL inv.rl_last lastL
              ⟨hl64.2.1, Or.inr hlgap⟩)

/-- The loop of `Union` returns within `len(rl) + len(ll) + 1` passes. -/
theorem unionLoop_returns (rlLast llLast : Range) (fuel : Nat) :
    ∀ (rs ls out : RangeList) (toAdd : Range), rs.length + ls.length < fuel →
      ∃ res, unionLoop rlLast llLast fuel rs ls out toAdd = some res := by
  induction fuel with
  | zero => intro rs ls out toAdd h; omega
  | succ n ih =>
    intro rs ls out toAdd hfuel
    cases rs with
    | nil =>
      cases ls with
      | nil => exact ⟨out, by simp [unionLoop]⟩
      | cons l ls =>
        unfold unionLoop
        split
        · exact ⟨_, rfl⟩
        · exact ⟨_, rfl⟩
    | cons r rs =>
      cases ls with
      | nil =>
        unfold unionLoop
        split
        · exact ⟨_, rfl⟩
        · exact ⟨_, rfl⟩
      | cons l ls =>
        simp only [List.length_cons] at hfuel
        unfold unionLoop
        have a1 := fun o t => ih rs (l :: ls) o t (by simp only [List.length_cons]; omega)
        have a2 := fun o t => ih (r :: rs) ls o t (by simp only [List.length_cons]; omega)
        have a3 := fun o t => ih rs ls o t (by omega)
        split_ifs
        all_goals first | exact a1 _ _ | exact a2 _ _ | exact a3 _ _

/-- `Union` returns a list on every pair of lists. -/
theorem union_returns (rl ll : RangeList) : ∃ res, RangeList.Union rl ll = some res := by
  unfold RangeList.Union
  cases hl : ll.getLast? with
  | none => exact ⟨rl, rfl⟩
  | some llLast =>
    cases hr : rl.getLast? with
    | none => exact ⟨ll, rfl⟩
    | some rlLast =>
      obtain ⟨res, hres⟩ := unionLoop_returns rlLast llLast (rl.length + ll.length + 1)
        rl ll [] ⟨0, -1⟩ (by omega)
      exact ⟨flatten res, by simp only [hres, Option.map_some']⟩

theorem union_swap (rl ll : RangeList) (hrl : Canon rl) (hll : Canon ll)
    (h1 : Int64 rl) (h2 : Int64 ll) (hneg : ∀ x ∈ rl, x ∈ ll → 0 ≤ x.End) :
    RangeList.Union rl ll = RangeList.Union ll rl := by
  rcases List.eq_nil_or_concat ll with rfl | ⟨li, llLast, hl⟩
  · rcases List.eq_nil_or_concat rl with rfl | ⟨ri, rlLast, hr⟩
    · rfl
    · rw [List.concat_eq_append] at hr
      subst hr
      simp [RangeList.Union]
  rw [List.concat_eq_append] at hl
  rcases List.eq_nil_or_concat rl with rfl | ⟨ri, rlLast, hr⟩
  · subst hl
    simp [RangeList.Union]
  rw [List.concat_eq_append] at hr
  have hgl : ll.getLast? = some llLast := by subst hl; simp
  have hgr : rl.getLast? = some rlLast := by subst hr; simp
  have hlast_l : llLast.Start ≤ llLast.End ∧ ∀ r ∈ ll, r.End ≤ llLast.End := by
    subst hl; exact canon_getLast_le hll
  have hlast_r : rlLast.Start ≤ rlLast.End ∧ ∀ r ∈ rl, r.End ≤ rlLast.End := by
    subst hr; exact canon_getLast_le hrl
  have hmem_l : llLast ∈ ll := by subst hl; simp
  have hmem_r : rlLast ∈ rl := by subst hr; simp
  have inv : UnionSwap rlLast llLast rl ll [] ⟨0, -1⟩ := {
    rs_canon := hrl
    ls_canon := hll
    rs64 := h1
    ls64 := h2
    rs_le := hlast_r.2
    ls_le := hlast_l.2
    rl_last := fun _ => hmem_r
    ll_last := fun _ => hmem_l
    shared := hneg
    gap := fun o ho => by simp at ho
    add := Or.inl ⟨rfl, by decide⟩ }
  unfold RangeList.Union
  rw [hgl, hgr]
  simp only
  rw [unionLoop_comm rlLast llLast (rl.length + ll.length + 1) rl ll [] ⟨0, -1⟩ (by omega)
    inv, Nat.add_comm rl.length ll.length]

/-- C21 (amended): for every pair of canonical lists of `int64` ranges such
that every range that occurs in both has `End >= 0` (so whenever no bound is
negative), `rl1.Union(rl2)` and `rl2.Union(rl1)` return the same list, entry for
entry. -/
theorem union_comm (rl1 rl2 : RangeList) (h1 : Canonical rl1) (h2 : Canonical rl2)
    (b1 : Int64 rl1) (b2 : Int64 rl2) (hneg : ∀ x ∈ rl1, x ∈ rl2 → 0 ≤ x.End) :
    ∃ res, RangeList.Union rl1 rl2 = some res ∧ RangeList.Union rl2 rl1 = some res := by
  have c1 := (canonical_iff_canon rl1).mp h1
  have c2 := (canonical_iff_canon rl2).mp h2
  obtain ⟨res, hres⟩ := union_returns rl1 rl2
  exact ⟨res, hres, by rw [← union_swap rl1 rl2 c1 c2 b1 b2 hneg]; exact hres⟩

/-- C21 (amended), at `[(0,0),(2,2),(4,2^63-1)]` and `[(1,3),(9,2^63-1)]`:
both orders return `[(0,2^63-1),(9,2^63-1)]`. -/
theorem union_comm_witness :
    ∃ res, RangeList.Union [⟨0, 0⟩, ⟨2, 2⟩, ⟨4, 2 ^ 63 - 1⟩] [⟨1, 3⟩, ⟨9, 2 ^ 63 - 1⟩]
        = some res ∧
      RangeList.Union [⟨1, 3⟩, ⟨9, 2 ^ 63 - 1⟩] [⟨0, 0⟩, ⟨2, 2⟩, ⟨4, 2 ^ 63 - 1⟩]
        = some res :=
  union_comm [⟨0, 0⟩, ⟨2, 2⟩, ⟨4, 2 ^ 63 - 1⟩] [⟨1, 3⟩, ⟨9, 2 ^ 63 - 1⟩] (by decide) (by decide)
    (by decide) (by decide) (by decide)

/-! ## The loop of Union and the loop over the integers -/

theorem absorb_exact {out : RangeList} (t : Range)
    (h : ∀ o ∈ out, -2 ^ 63 ≤ o.End + 1 ∧ o.End + 1 < 2 ^ 63) :
    absorb out t = absorbZ out t := by
  rcases List.eq_nil_or_concat out with rfl | ⟨init, last, hcat⟩
  · rw [absorb_nil, absorbZ_nil]
  · rw [List.concat_eq_append] at hcat
    subst hcat
    have := h last (by simp)
    rw [absorb_concat, absorbZ_concat, overlapsFront_exact_of_end t this.1 this.2]

theorem absorbZ_int64 {out : RangeList} {t : Range} (ho : Int64 out) (ht : Int64 [t]) :
    Int64 (absorbZ out t) := by
  have ht' := ht t (List.mem_singleton_self _)
  rcases List.eq_nil_or_concat out with rfl | ⟨init, last, hcat⟩
  · rw [absorbZ_nil]
    split
    · exact ht
    · exact ho
  · rw [List.concat_eq_append] at hcat
    subst hcat
    have hl := ho last (by simp)
    obtain ⟨hi, -⟩ := int64_append.mp ho
    rw [absorbZ_concat]
    split
    · refine int64_append.mpr ⟨hi, ?_⟩
      intro r hr
      rw [List.mem_singleton] at hr
      subst hr
      have hs : (last.Union t).Start = min last.Start t.Start := rfl
      have he : (last.Union t).End = max last.End t.End := rfl
      rw [hs, he]
      omega
    · split
      · exact int64_append.mpr ⟨ho, ht⟩
      · exact ho

/-- The count of a non-empty `int64` range is zero for `(-2^63, 2^63 - 1)`
only. -/
theorem count_ne_zero {r : Range} (h64 : Int64 [r]) (hne : r.Start ≤ r.End)
    (hfull : ¬ r.Full) : ¬ r.Count = 0 := by
  have := h64 r (List.mem_singleton_self _)
  unfold Range.Full at hfull
  unfold Range.Count wrap64
  omega

theorem noWrap_append {xs ys : RangeList}
    (hx : ∀ o ∈ xs, -2 ^ 63 ≤ o.End + 1 ∧ o.End + 1 < 2 ^ 63) (hy : NoWrap ys) :
    NoWrap (xs ++ ys) := by
  induction xs with
  | nil => exact hy
  | cons a xs ih =>
    exact noWrap_cons (fun _ => hx a (List.mem_cons_self _ _))
      (ih (fun o ho => hx o (List.mem_cons_of_mem _ ho)))

/-- A pass of the loop over the integers on two non-empty ranges. -/
theorem unionLoopZ_step (aLast bLast : Range) (n : Nat) (r : Range) (rs : RangeList)
    (l : Range) (ls out : RangeList) (t : Range) (hr : r.Start ≤ r.End)
    (hl : l.Start ≤ l.End) :
    unionLoopZ aLast bLast (n + 1) (r :: rs) (l :: ls) out t =
      if r.Contains l then unionLoopZ aLast bLast n (r :: rs) ls (absorbZ out t) t
      else if l.Contains r then unionLoopZ aLast bLast n rs (l :: ls) (absorbZ out t) t
      else if r.OverlapsFrontZ l || l.OverlapsFrontZ r then
        unionLoopZ aLast bLast n rs ls (absorbZ out (r.Union l)) (r.Union l)
      else if r.End ≤ l.Start then unionLoopZ aLast bLast n rs (l :: ls) (absorbZ out r) r
      else unionLoopZ aLast bLast n (r :: rs) ls (absorbZ out l) l := by
  conv_lhs => unfold unionLoopZ
  rw [if_neg (by omega), if_neg (by omega)]

/-- A canonical `int64` list whose head ends at `2^63 - 1` has no other
range. -/
theorem tail_nil_of_max {r : Range} {rs : RangeList} (hc : Canon (r :: rs))
    (h64 : Int64 (r :: rs)) (hmax : r.End = 2 ^ 63 - 1) : rs = [] := by
  rw [List.eq_nil_iff_forall_not_mem]
  intro x hx
  have := (canon_cons.mp hc).2.1 x hx
  have := h64 x (List.mem_cons_of_mem _ hx)
  omega

/-- The state after a pass that adds nothing new, both lists being non-empty
before it. -/
theorem UnionEdge.stale_edge {rlLast llLast : Range} {rs ls out rs2 ls2 : RangeList}
    (h : UnionEdge rlLast llLast rs ls out) (hrs : rs ≠ []) (hls : ls ≠ [])
    (hsub1 : ∀ x ∈ rs2, x ∈ rs) (hsub2 : ∀ x ∈ ls2, x ∈ ls)
    (hr : rlLast ∈ rs2 ∨ ¬ rlLast.Full) (hl : llLast ∈ ls2 ∨ ¬ llLast.Full) :
    UnionEdge rlLast llLast rs2 ls2 out := {
  rs64 := fun r hr => h.rs64 r (hsub1 r hr)
  ls64 := fun l hl => h.ls64 l (hsub2 l hl)
  out64 := h.out64
  rl64 := h.rl64
  ll64 := h.ll64
  one_max := h.one_max.imp (fun h1 r hr => h1 r (hsub1 r hr)) (fun h1 l hl => h1 l (hsub2 l hl))
  out_max := fun o ho he => by
    rcases h.out_max o ho he with h1 | h1
    · exact absurd h1.1 hrs
    · exact absurd h1.1 hls
  rl_full := hr
  ll_full := hl }

/-- The entries of `out` after the tail of a pass over the integers. -/
theorem absorbZ_ends (out : RangeList) (t : Range) :
    ∀ o ∈ absorbZ out t, o ∈ out ∨ o.End = t.End ∨ ∃ o1 ∈ out, o.End = o1.End := by
  intro o ho
  rcases List.eq_nil_or_concat out with rfl | ⟨init, last, hcat⟩
  · rw [absorbZ_nil] at ho
    split at ho
    · rw [List.mem_singleton] at ho
      right; left; rw [ho]
    · simp at ho
  · rw [List.concat_eq_append] at hcat
    subst hcat
    rw [absorbZ_concat] at ho
    split at ho
    · rcases List.mem_append.mp ho with h | h
      · left; exact List.mem_append_left _ h
      · rw [List.mem_singleton] at h
        have he : o.End = max last.End t.End := by rw [h]; rfl
        rcases le_total last.End t.End with hle | hle
        · right; left; rw [he, max_eq_right hle]
        · right; right
          exact ⟨last, by simp, by rw [he, max_eq_left hle]⟩
    · split at ho
      · rcases List.mem_append.mp ho with h | h
        · left; exact h
        · rw [List.mem_singleton] at h
          right; left; rw [h]
      · left; exact ho

/-- The state after a pass that adds the `int64` range `t`, both lists being
non-empty before it. -/
theorem UnionEdge.fresh_edge {rlLast llLast : Range} {rs ls out rs2 ls2 : RangeList}
    {t : Range} (h : UnionEdge rlLast llLast rs ls out) (hrs : rs ≠ []) (hls : ls ≠ [])
    (hsub1 : ∀ x ∈ rs2, x ∈ rs) (hsub2 : ∀ x ∈ ls2, x ∈ ls)
    (hr : rlLast ∈ rs2 ∨ ¬ rlLast.Full) (hl : llLast ∈ ls2 ∨ ¬ llLast.Full)
    (ht : Int64 [t])
    (hmax : t.End = 2 ^ 63 - 1 → ReadToMax rlLast rs2 ls2 ∨ ReadToMax llLast ls2 rs2) :
    UnionEdge rlLast llLast rs2 ls2 (absorbZ out t) := by
  have base := h.stale_edge hrs hls hsub1 hsub2 hr hl
  exact { base with
    out64 := absorbZ_int64 h.out64 ht
    out_max := fun o ho he => by
      rcases absorbZ_ends out t o ho with hin | he2 | ⟨o1, ho1, he2⟩
      · exact base.out_max o hin he
      · exact hmax (by rw [← he2]; exact he)
      · exact base.out_max o1 ho1 (by rw [← he2]; exact he) }

/-- While both lists have unread ranges, no entry of `out` ends at
`2^63 - 1`. -/
theorem UnionEdge.out_ends {rlLast llLast : Range} {rs ls out : RangeList}
    (h : UnionEdge rlLast llLast rs ls out) (hrs : rs ≠ []) (hls : ls ≠ []) :
    ∀ o ∈ out, -2 ^ 63 ≤ o.End + 1 ∧ o.End + 1 < 2 ^ 63 := by
  intro o ho
  have h64 := h.out64 o ho
  have : o.End ≠ 2 ^ 63 - 1 := fun he => by
    rcases h.out_max o ho he with h1 | h1
    · exact hrs h1.1
    · exact hls h1.1
  omega

/-- On canonical `int64` lists of which at most one has a range that ends at
`2^63 - 1`, the loop of `Union` is the loop over the integers, and no `End + 1`
wraps in the list it returns. -/
theorem unionLoop_exact (rlLast llLast : Range) (fuel : Nat) :
    ∀ (rs ls out : RangeList) (toAdd : Range), rs.length + ls.length < fuel →
      UnionInv rlLast llLast rs ls out toAdd → UnionEdge rlLast llLast rs ls out →
      ∃ res, unionLoop rlLast llLast fuel rs ls out toAdd = some res ∧
        unionLoopZ rlLast llLast fuel rs ls out toAdd = some res ∧ NoWrap res := by
  induction fuel with
  | zero => intro rs ls out toAdd h; omega
  | succ n ih =>
    intro rs ls out toAdd hfuel inv edge
    have hrl := edge.rl64 rlLast (List.mem_singleton_self _)
    have hll := edge.ll64 llLast (List.mem_singleton_self _)
    have hcr : ¬ rlLast.CountZ = 0 := by
      have := inv.rl_ne; unfold Range.CountZ; omega
    have hcl : ¬ llLast.CountZ = 0 := by
      have := inv.ll_ne; unfold Range.CountZ; omega
    cases rs with
    | nil =>
      have hcr2 : ¬ rlLast.Count = 0 := by
        rcases edge.rl_full with h | h
        · simp at h
        · exact count_ne_zero edge.rl64 inv.rl_ne h
      cases ls with
      | nil =>
        exact ⟨out, by simp [unionLoop], by simp [unionLoopZ],
          inv.out_canon.noWrap edge.out64⟩
      | cons l ls =>
        unfold unionLoop unionLoopZ
        by_cases hle : rlLast.End ≤ l.End
        · rw [if_pos (Or.inl hle), if_pos (Or.inl hle)]
          refine ⟨_, rfl, rfl, noWrap_append (fun o ho => ?_)
            (inv.ls_canon.noWrap edge.ls64)⟩
          have h64 := edge.out64 o ho
          have hl64 := edge.ls64 l (List.mem_cons_self _ _)
          have : o.End ≠ 2 ^ 63 - 1 := fun he => by
            rcases edge.out_max o ho he with h1 | h1
            · have := h1.2.2 l (List.mem_cons_self _ _)
              have := h1.2.1
              omega
            · exact absurd h1.1 (by simp)
          omega
        · rw [if_neg (by rintro (h | h); exact hle h; exact hcr2 h),
            if_neg (by rintro (h | h); exact hle h; exact hcr h)]
          exact ⟨_, rfl, rfl, inv.out_canon.noWrap edge.out64⟩
    | cons r rs =>
      obtain ⟨hr, hrgap, hrs'⟩ := canon_cons.mp inv.rs_canon
      cases ls with
      | nil =>
        have hcl2 : ¬ llLast.Count = 0 := by
          rcases edge.ll_full with h | h
          · simp at h
          · exact count_ne_zero edge.ll64 inv.ll_ne h
        unfold unionLoop unionLoopZ
        by_cases hle : llLast.End ≤ r.End
        · rw [if_pos (Or.inl hle), if_pos (Or.inl hle)]
          refine ⟨_, rfl, rfl, noWrap_append (fun o ho => ?_)
            (inv.rs_canon.noWrap edge.rs64)⟩
          have h64 := edge.out64 o ho
          have hr64 := edge.rs64 r (List.mem_cons_self _ _)
          have : o.End ≠ 2 ^ 63 - 1 := fun he => by
            rcases edge.out_max o ho he with h1 | h1
            · exact absurd h1.1 (by simp)
            · have := h1.2.2 r (List.mem_cons_self _ _)
              have := h1.2.1
              omega
          omega
        · rw [if_neg (by rintro (h | h); exact hle h; exact hcl2 h),
            if_neg (by rintro (h | h); exact hle h; exact hcl h)]
          exact ⟨_, rfl, rfl, inv.out_canon.noWrap edge.out64⟩
      | cons l ls =>
        obtain ⟨hl, hlgap, hls'⟩ := canon_cons.mp inv.ls_canon
        obtain ⟨hr64, hrs64⟩ := int64_cons.mp edge.rs64
        obtain ⟨hl64, hls64⟩ := int64_cons.mp edge.ls64
        simp only [List.length_cons] at hfuel
        have hor := fun o ho => inv.out_lt_rs o ho r (List.mem_cons_self _ _)
        have hol := fun o ho => inv.out_lt_ls o ho l (List.mem_cons_self _ _)
        have hrle := inv.rs_le r (List.mem_cons_self _ _)
        have hlle := inv.ls_le l (List.mem_cons_self _ _)
        have subR : ∀ x ∈ rs, x ∈ r :: rs := fun x hx => List.mem_cons_of_mem _ hx
        have subL : ∀ x ∈ ls, x ∈ l :: ls := fun x hx => List.mem_cons_of_mem _ hx
        have idR : ∀ x ∈ r :: rs, x ∈ r :: rs := fun x hx => hx
        have idL : ∀ x ∈ l :: ls, x ∈ l :: ls := fun x hx => hx
        have neR : r :: rs ≠ [] := by simp
        have neL : l :: ls ≠ [] := by simp
        have hone : r.End < 2 ^ 63 - 1 ∨ l.End < 2 ^ 63 - 1 :=
          edge.one_max.imp (fun h => h r (List.mem_cons_self _ _))
            (fun h => h l (List.mem_cons_self _ _))
        have hends := edge.out_ends neR neL
        -- `rlLast` stays unread, or is not the full range, when `r` is read
        have fullR : (¬ r.Full) → (rlLast ∈ rs ∨ ¬ rlLast.Full) := fun hnf => by
          rcases edge.rl_full with h | h
          · rcases List.mem_cons.mp h with h | h
            · right; rw [h]; exact hnf
            · left; exact h
          · right; exact h
        have fullL : (¬ l.Full) → (llLast ∈ ls ∨ ¬ llLast.Full) := fun hnf => by
          rcases edge.ll_full with h | h
          · rcases List.mem_cons.mp h with h | h
            · right; rw [h]; exact hnf
            · left; exact h
          · right; exact h
        rw [unionLoop_step rlLast llLast n r rs l ls out toAdd hr hl,
          unionLoopZ_step rlLast llLast n r rs l ls out toAdd hr hl]
        by_cases h3 : r.Contains l = true
        · rw [if_pos h3, if_pos h3, absorb_exact toAdd hends]
          rw [contains_iff] at h3
          have edge' : UnionEdge rlLast llLast (r :: rs) ls out :=
            edge.stale_edge neR neL idR subL edge.rl_full (fullL (by unfold Range.Full; omega))
          rw [← inv.stale] at edge'
          exact ih (r :: rs) ls _ toAdd (by simp only [List.length_cons]; omega)
            (inv.stale_step inv.rs_canon hls' idR subL) edge'
        rw [if_neg h3, if_neg h3]
        by_cases h4 : l.Contains r = true
        · rw [if_pos h4, if_pos h4, absorb_exact toAdd hends]
          rw [contains_iff] at h4
          have edge' : UnionEdge rlLast llLast rs (l :: ls) out :=
            edge.stale_edge neR neL subR idL (fullR (by unfold Range.Full; omega)) edge.ll_full
          rw [← inv.stale] at edge'
          exact ih rs (l :: ls) _ toAdd (by simp only [List.length_cons]; omega)
            (inv.stale_step hrs' inv.ls_canon subR idL) edge'
        rw [if_neg h4, if_neg h4,
          overlapsFront_exact hr64.2.1 hr64.2.2 hl64.2.2 h3,
          overlapsFront_exact hl64.2.1 hl64.2.2 hr64.2.2 h4]
        rw [contains_iff] at h3 h4
        have nfR : ¬ r.Full := by unfold Range.Full; omega
        have nfL : ¬ l.Full := by unfold Range.Full; omega
        by_cases h5 : (r.OverlapsFrontZ l || l.OverlapsFrontZ r) = true
        · rw [if_pos h5, if_pos h5, absorb_exact _ hends]
          rw [Bool.or_eq_true, overlapsFrontZ_iff, overlapsFrontZ_iff] at h5
          have hts : (r.Union l).Start = min r.Start l.Start := rfl
          have hte : (r.Union l).End = max r.End l.End := rfl
          have inv' := inv.fresh_step (t := r.Union l) hrs' hls' subR subL
            (by rw [hts, hte]; omega)
            (fun o ho => by have := hor o ho; have := hol o ho; rw [hts]; omega)
            (fun r' hr' => by have := hrgap r' hr'; rw [hts]; omega)
            (fun l' hl' => by have := hlgap l' hl'; rw [hts]; omega)
            (by
              rw [hte]
              rcases le_total l.End r.End with h | h
              · left; rw [max_eq_left h]; exact hrle
              · right; intro l' hl'
                have := head_end_le inv.ls_canon l' (subL l' hl')
                rw [max_eq_right h]; exact this)
            (by
              rw [hte]
              rcases le_total l.End r.End with h | h
              · right; intro r' hr'
                have := head_end_le inv.rs_canon r' (subR r' hr')
                rw [max_eq_left h]; exact this
              · left; rw [max_eq_right h]; exact hlle)
          have edge' : UnionEdge rlLast llLast rs ls (absorbZ out (r.Union l)) :=
            edge.fresh_edge neR neL subR subL (fullR nfR) (fullL nfL)
            (by
              intro x hx
              rw [List.mem_singleton] at hx
              subst hx
              rw [hts, hte]
              omega)
            (by
              rw [hte]
              intro he
              rcases edge.one_max with h | h
              · right
                have := h r (List.mem_cons_self _ _)
                exact ⟨tail_nil_of_max inv.ls_canon edge.ls64 (by omega), by omega,
                  fun x hx => h x (subR x hx)⟩
              · left
                have := h l (List.mem_cons_self _ _)
                exact ⟨tail_nil_of_max inv.rs_canon edge.rs64 (by omega), by omega,
                  fun x hx => h x (subL x hx)⟩)
          exact ih rs ls _ _ (by omega) inv' edge'
        rw [if_neg h5, if_neg h5]
        rw [Bool.or_eq_true, overlapsFrontZ_iff, overlapsFrontZ_iff] at h5
        by_cases h6 : r.End ≤ l.Start
        · rw [if_pos h6, if_pos h6, absorb_exact _ hends]
          have inv' := inv.fresh_step (t := r) hrs' inv.ls_canon subR idL hr
            (fun o ho => by have := hor o ho; omega)
            (fun r' hr' => by have := hrgap r' hr'; omega)
            (fun l' hl' => by
              rcases List.mem_cons.mp hl' with rfl | hl'
              · omega
              · have := hlgap l' hl'; omega)
            (Or.inl hrle)
            (Or.inr (fun r' hr' => head_end_le inv.rs_canon r' (subR r' hr')))
          have edge' : UnionEdge rlLast llLast rs (l :: ls) (absorbZ out r) :=
            edge.fresh_edge neR neL subR idL (fullR nfR) edge.ll_full
            (by
              intro x hx
              rw [List.mem_singleton] at hx
              subst hx
              exact hr64)
            (by
              intro he
              left
              rcases edge.one_max with h | h
              · have := h r (List.mem_cons_self _ _)
                omega
              · exact ⟨tail_nil_of_max inv.rs_canon edge.rs64 he, by omega, h⟩)
          exact ih rs (l :: ls) _ _ (by simp only [List.length_cons]; omega) inv' edge'
        · rw [if_neg h6, if_neg h6, absorb_exact _ hends]
          have inv' := inv.fresh_step (t := l) inv.rs_canon hls' idR subL hl
            (fun o ho => by have := hol o ho; omega)
            (fun r' hr' => by
              rcases List.mem_cons.mp hr' with rfl | hr'
              · omega
              · have := hrgap r' hr'; omega)
            (fun l' hl' => by have := hlgap l' hl'; omega)
            (Or.inr (fun l' hl' => head_end_le inv.ls_canon l' (subL l' hl')))
            (Or.inl hlle)
          have edge' : UnionEdge rlLast llLast (r :: rs) ls (absorbZ out l) :=
            edge.fresh_edge neR neL idR subL edge.rl_full (fullL nfL)
            (by
              intro x hx
              rw [List.mem_singleton] at hx
              subst hx
              exact hl64)
            (by
              intro he
              right
              rcases edge.one_max with h | h
              · exact ⟨tail_nil_of_max inv.ls_canon edge.ls64 he, by omega, h⟩
              · have := h l (List.mem_cons_self _ _)
                omega)
          exact ih (r :: rs) ls _ _ (by simp only [List.length_cons]; omega) inv' edge'

/-- On canonical `int64` lists of which at most one has a range that ends at
`2^63 - 1`, `Union` returns what it returns over the integers. -/
theorem union_exact (rl ll : RangeList) (hrl : Canon rl) (hll : Canon ll)
    (b1 : Int64 rl) (b2 : Int64 ll)
    (hmax : (∀ x ∈ rl, x.End ≠ 2 ^ 63 - 1) ∨ (∀ x ∈ ll, x.End ≠ 2 ^ 63 - 1)) :
    RangeList.Union rl ll = RangeList.UnionZ rl ll := by
  rcases List.eq_nil_or_concat ll with rfl | ⟨li, llLast, hl⟩
  · simp [RangeList.Union, RangeList.UnionZ]
  rw [List.concat_eq_append] at hl
  rcases List.eq_nil_or_concat rl with rfl | ⟨ri, rlLast, hr⟩
  · subst hl
    simp [RangeList.Union, RangeList.UnionZ]
  rw [List.concat_eq_append] at hr
  have hgl : ll.getLast? = some llLast := by subst hl; simp
  have hgr : rl.getLast? = some rlLast := by subst hr; simp
  have hlast_l : llLast.Start ≤ llLast.End ∧ ∀ r ∈ ll, r.End ≤ llLast.End := by
    subst hl; exact canon_getLast_le hll
  have hlast_r : rlLast.Start ≤ rlLast.End ∧ ∀ r ∈ rl, r.End ≤ rlLast.End := by
    subst hr; exact canon_getLast_le hrl
  have hmem_l : llLast ∈ ll := by subst hl; simp
  have hmem_r : rlLast ∈ rl := by subst hr; simp
  have inv : UnionInv rlLast llLast rl ll [] ⟨0, -1⟩ := {
    rs_canon := hrl
    ls_canon := hll
    out_canon := canon_nil
    out_lt_rs := fun o ho => by simp at ho
    out_lt_ls := fun o ho => by simp at ho
    stale := by rw [absorbZ_nil]; simp
    end_rl := fun o ho => by simp at ho
    end_ll := fun o ho => by simp at ho
    rs_le := hlast_r.2
    ls_le := hlast_l.2
    rl_ne := hlast_r.1
    ll_ne := hlast_l.1 }
  have edge : UnionEdge rlLast llLast rl ll [] := {
    rs64 := b1
    ls64 := b2
    out64 := fun o ho => by simp at ho
    rl64 := fun x hx => by rw [List.mem_singleton] at hx; rw [hx]; exact b1 _ hmem_r
    ll64 := fun x hx => by rw [List.mem_singleton] at hx; rw [hx]; exact b2 _ hmem_l
    one_max := hmax.imp
      (fun h r hr => by have := h r hr; have := b1 r hr; omega)
      (fun h l hl => by have := h l hl; have := b2 l hl; omega)
    out_max := fun o ho => by simp at ho
    rl_full := Or.inl hmem_r
    ll_full := Or.inl hmem_l }
  obtain ⟨res, h1, h2, hnw⟩ := unionLoop_exact rlLast llLast (rl.length + ll.length + 1)
    rl ll [] ⟨0, -1⟩ (by omega) inv edge
  obtain ⟨res2, h3, hmono, -⟩ := unionLoopZ_spec rlLast llLast (rl.length + ll.length + 1)
    rl ll [] ⟨0, -1⟩ (by omega) inv
  rw [h2] at h3
  cases h3
  unfold RangeList.Union RangeList.UnionZ
  rw [hgl, hgr]
  simp only
  rw [h1, h2, Option.map_some', Option.map_some', flatten_exact res (by
    rw [sortByStart_of_sorted res (hmono.2.imp (fun h => le_of_lt h.1))]
    exact hnw)]

/-! ## Contains, Missing and Intersection on `int64` lists -/

/-- C19 (fails as stated): `self = [(0, 2^63 - 1)]` contains the range `(1,2)` of
`other = [(1,2)]`, yet `self.Contains(other)` returns `false`: the predicate of
the binary search, `rl[i].End+1 >= ol[0].Start`, computes `End + 1 = -2^63` for
the range that ends at `2^63 - 1`, so the search skips it. -/
theorem rangeList_contains_at_max :
    Canonical [⟨0, 2 ^ 63 - 1⟩] ∧ Canonical [⟨1, 2⟩] ∧
    Int64 [⟨0, 2 ^ 63 - 1⟩] ∧ Int64 [⟨1, 2⟩] ∧
    RangeList.Contains [⟨0, 2 ^ 63 - 1⟩] [⟨1, 2⟩] = some false ∧
    (∀ o ∈ ([⟨1, 2⟩] : RangeList),
      ∃ r ∈ ([⟨0, 2 ^ 63 - 1⟩] : RangeList), r.Start ≤ o.Start ∧ o.End ≤ r.End) := by
  decide

/-- C19 (amended): for every pair of canonical range lists `self` and `other`
such that no range of `self` ends at `2^63 - 1` (the bounds of `self` being
`int64` values), `self.Contains(other)` returns, and it returns `true` if and
only if every range of `other` lies, `Start` and `End` included, inside one
range of `self`. -/
theorem rangeList_contains (self other : RangeList)
    (hs : Canonical self) (ho : Canonical other) (h64 : Int64 self)
    (hmax : ∀ r ∈ self, r.End ≠ 2 ^ 63 - 1) :
    ∃ b, RangeList.Contains self other = some b ∧
      (b = true ↔ ∀ o ∈ other, ∃ r ∈ self, r.Start ≤ o.Start ∧ o.End ≤ r.End) := by
  rw [contains_exact self other (ends_of_int64 h64 hmax)]
  exact containsZ_spec self other ((canonical_iff_canon _).mp hs)
    ((canonical_iff_canon _).mp ho)

/-- C19 (amended), at `self = [(0,4),(8,12)]` with `other = [(1,2),(4,4),(9,12)]`,
which it contains, and with `other = [(3,5)]`, which it does not. -/
theorem rangeList_contains_witness :
    RangeList.Contains [⟨0, 4⟩, ⟨8, 12⟩] [⟨1, 2⟩, ⟨4, 4⟩, ⟨9, 12⟩] = some true ∧
    RangeList.Contains [⟨0, 4⟩, ⟨8, 12⟩] [⟨3, 5⟩] = some false ∧
    ∃ b, RangeList.Contains [⟨0, 4⟩, ⟨8, 12⟩] [⟨1, 2⟩, ⟨4, 4⟩, ⟨9, 12⟩] = some b ∧
      (b = true ↔ ∀ o ∈ ([⟨1, 2⟩, ⟨4, 4⟩, ⟨9, 12⟩] : RangeList),
        ∃ r ∈ ([⟨0, 4⟩, ⟨8, 12⟩] : RangeList), r.Start ≤ o.Start ∧ o.End ≤ r.End) :=
  ⟨by decide, by decide,
    rangeList_contains [⟨0, 4⟩, ⟨8, 12⟩] [⟨1, 2⟩, ⟨4, 4⟩, ⟨9, 12⟩] (by decide) (by decide)
      (by decide) (by decide)⟩

/-- C18 (fails as stated): for `has = [(5, 2^63 - 1)]`, `start = 0`, `end = 10` the
step `cur = has[i].End + 1` wraps to `-2^63`, which is not above `end`, so the
final `if cur <= end` appends `(-2^63, 10)`: the result `[(0,4), (-2^63,10)]` is
not canonical and covers -1 and 5, which lies in `has`. -/
theorem missing_wraps_at_max :
    Canonical [⟨5, 2 ^ 63 - 1⟩] ∧ Int64 [⟨5, 2 ^ 63 - 1⟩] ∧
    Missing [⟨5, 2 ^ 63 - 1⟩] 0 10 = [⟨0, 4⟩, ⟨-2 ^ 63, 10⟩] ∧
    ¬ Canonical (Missing [⟨5, 2 ^ 63 - 1⟩] 0 10) ∧
    Covers (Missing [⟨5, 2 ^ 63 - 1⟩] 0 10) (-1) ∧
    Covers (Missing [⟨5, 2 ^ 63 - 1⟩] 0 10) 5 ∧ Covers [⟨5, 2 ^ 63 - 1⟩] 5 := by
  decide

/-- C18 (amended): for every canonical range list `has` and all integers
`0 <= start <= end` such that no range of `has` that starts at or before `end`
ends at `2^63 - 1` (all of them `int64` values), `Missing(has, start, end)` is a
canonical range list that covers exactly the integers `x` with
`start <= x <= end` lying in no range of `has`. -/
theorem missing_covers (has : RangeList) (start stop : Int) (hc : Canonical has)
    (h0 : 0 ≤ start) (hse : start ≤ stop) (h63 : stop < 2 ^ 63) (h64 : Int64 has)
    (hmax : ∀ h ∈ has, h.Start ≤ stop → h.End ≠ 2 ^ 63 - 1) :
    Canonical (Missing has start stop) ∧
      ∀ x, Covers (Missing has start stop) x ↔
        (start ≤ x ∧ x ≤ stop) ∧ ¬ Covers has x := by
  rw [missing_exact has start stop (by omega) h63 (fun h hh hle => by
    have := h64 h hh
    have := hmax h hh hle
    omega)]
  obtain ⟨h1, h2⟩ := missingZ_spec has start stop ((canonical_iff_canon _).mp hc) hse
    (by omega)
  refine ⟨(canonical_iff_canon _).mpr h1, fun x => ?_⟩
  rw [h2 x, and_assoc]

/-- C18 (amended), at `has = [(0,3),(6,7),(20, 2^63 - 1)]`, `start = 2`, `end = 9`,
where the result is `[(4,5),(8,9)]`: the range that ends at `2^63 - 1` starts
after `end`. -/
theorem missing_covers_witness :
    Missing [⟨0, 3⟩, ⟨6, 7⟩, ⟨20, 2 ^ 63 - 1⟩] 2 9 = [⟨4, 5⟩, ⟨8, 9⟩] ∧
    Canonical (Missing [⟨0, 3⟩, ⟨6, 7⟩, ⟨20, 2 ^ 63 - 1⟩] 2 9) ∧
      ∀ x, Covers (Missing [⟨0, 3⟩, ⟨6, 7⟩, ⟨20, 2 ^ 63 - 1⟩] 2 9) x ↔
        (2 ≤ x ∧ x ≤ 9) ∧ ¬ Covers [⟨0, 3⟩, ⟨6, 7⟩, ⟨20, 2 ^ 63 - 1⟩] x :=
  ⟨by decide, missing_covers [⟨0, 3⟩, ⟨6, 7⟩, ⟨20, 2 ^ 63 - 1⟩] 2 9 (by decide) (by decide)
    (by decide) (by decide) (by decide) (by decide)⟩

/-- C3 (fails as stated): for `self = [(1,6), (8, 2^63 - 1)]` and `other = [(4,5)]`
the binary search `sort.Search(len(rl), rl[i].End+1 >= ll[0].Start)` looks at
index 1 first, where `End + 1` wraps to `-2^63`, and returns `len(rl)`; the sweep
starts at the last range and `self.Intersection(other)` is empty, although 4
lies in both lists. -/
theorem intersection_misses_at_max :
    Canonical [⟨1, 6⟩, ⟨8, 2 ^ 63 - 1⟩] ∧ Canonical [⟨4, 5⟩] ∧
    Int64 [⟨1, 6⟩, ⟨8, 2 ^ 63 - 1⟩] ∧ Int64 [⟨4, 5⟩] ∧
    RangeList.Intersection [⟨1, 6⟩, ⟨8, 2 ^ 63 - 1⟩] [⟨4, 5⟩] = some [] ∧
    Covers [⟨1, 6⟩, ⟨8, 2 ^ 63 - 1⟩] 4 ∧ Covers [⟨4, 5⟩] 4 ∧ ¬ Covers [] 4 := by
  decide

/-- C3 (amended): for every pair of canonical range lists `self` and `other`
such that no range of `self` ends at `2^63 - 1` (all bounds being `int64`
values), `self.Intersection(other)` returns a list that covers exactly the
integers lying both in some range of `self` and in some range of `other`. -/
theorem intersection_covers (self other : RangeList)
    (hs : Canonical self) (ho : Canonical other) (h1 : Int64 self) (h2 : Int64 other)
    (hmax : ∀ r ∈ self, r.End ≠ 2 ^ 63 - 1) :
    ∃ res, RangeList.Intersection self other = some res ∧
      ∀ x, Covers res x ↔ Covers self x ∧ Covers other x := by
  rw [intersection_exact self other h1 h2 hmax]
  obtain ⟨res, hres, -, hcov⟩ := intersectionZ_spec self other
    ((canonical_iff_canon _).mp hs) ((canonical_iff_canon _).mp ho)
  exact ⟨res, hres, hcov⟩

/-- C3 (amended), at `self = [(2,3),(5,9)]` and `other = [(0,0),(2,6),(8, 2^63 - 1)]`. -/
theorem intersection_covers_witness :
    RangeList.Intersection [⟨2, 3⟩, ⟨5, 9⟩] [⟨0, 0⟩, ⟨2, 6⟩, ⟨8, 2 ^ 63 - 1⟩]
      = some [⟨2, 3⟩, ⟨5, 6⟩, ⟨8, 9⟩] ∧
    ∃ res, RangeList.Intersection [⟨2, 3⟩, ⟨5, 9⟩] [⟨0, 0⟩, ⟨2, 6⟩, ⟨8, 2 ^ 63 - 1⟩]
        = some res ∧
      ∀ x, Covers res x ↔
        Covers [⟨2, 3⟩, ⟨5, 9⟩] x ∧ Covers [⟨0, 0⟩, ⟨2, 6⟩, ⟨8, 2 ^ 63 - 1⟩] x :=
  ⟨by decide,
    intersection_covers [⟨2, 3⟩, ⟨5, 9⟩] [⟨0, 0⟩, ⟨2, 6⟩, ⟨8, 2 ^ 63 - 1⟩] (by decide)
      (by decide) (by decide) (by decide) (by decide)⟩

/-- C20 (fails as stated): `[(1,6), (8, 2^63 - 1)].Intersection([(4,5)])` is empty
(the binary search over the first list meets `End + 1 = -2^63` and runs past
every range), while `[(4,5)].Intersection([(1,6), (8, 2^63 - 1)])` is `[(4,5)]`. -/
theorem intersection_order_matters :
    Canonical [⟨1, 6⟩, ⟨8, 2 ^ 63 - 1⟩] ∧ Canonical [⟨4, 5⟩] ∧
    Int64 [⟨1, 6⟩, ⟨8, 2 ^ 63 - 1⟩] ∧ Int64 [⟨4, 5⟩] ∧
    RangeList.Intersection [⟨1, 6⟩, ⟨8, 2 ^ 63 - 1⟩] [⟨4, 5⟩] = some [] ∧
    RangeList.Intersection [⟨4, 5⟩] [⟨1, 6⟩, ⟨8, 2 ^ 63 - 1⟩] = some [⟨4, 5⟩] ∧
    RangeList.Intersection [⟨1, 6⟩, ⟨8, 2 ^ 63 - 1⟩] [⟨4, 5⟩]
      ≠ RangeList.Intersection [⟨4, 5⟩] [⟨1, 6⟩, ⟨8, 2 ^ 63 - 1⟩] := by
  decide

/-- C20 (amended): for every pair of canonical range lists `rl1` and `rl2` in
which no range ends at `2^63 - 1` (all bounds being `int64` values), both
`rl1.Intersection(rl2)` and `rl2.Intersection(rl1)` return, and they return the
same list, entry for entry. -/
theorem intersection_comm (rl1 rl2 : RangeList)
    (h1 : Canonical rl1) (h2 : Canonical rl2) (b1 : Int64 rl1) (b2 : Int64 rl2)
    (m1 : ∀ r ∈ rl1, r.End ≠ 2 ^ 63 - 1) (m2 : ∀ r ∈ rl2, r.End ≠ 2 ^ 63 - 1) :
    ∃ res, RangeList.Intersection rl1 rl2 = some res ∧
      RangeList.Intersection rl2 rl1 = some res := by
  have c1 := (canonical_iff_canon _).mp h1
  have c2 := (canonical_iff_canon _).mp h2
  rw [intersection_exact rl1 rl2 b1 b2 m1, intersection_exact rl2 rl1 b2 b1 m2]
  obtain ⟨a, ha, hac, hacov⟩ := intersectionZ_spec rl1 rl2 c1 c2
  obtain ⟨b, hb, hbc, hbcov⟩ := intersectionZ_spec rl2 rl1 c2 c1
  refine ⟨a, ha, ?_⟩
  rw [hb, canon_ext b a hbc hac (fun x => by rw [hacov, hbcov, and_comm])]

/-- C20 (amended), at `rl1 = [(0,5),(8,9)]` and `rl2 = [(2,3),(5,8)]`, where both
orders give `[(2,3),(5,5),(8,8)]`. -/
theorem intersection_comm_witness :
    RangeList.Intersection [⟨0, 5⟩, ⟨8, 9⟩] [⟨2, 3⟩, ⟨5, 8⟩]
      = some [⟨2, 3⟩, ⟨5, 5⟩, ⟨8, 8⟩] ∧
    ∃ res, RangeList.Intersection [⟨0, 5⟩, ⟨8, 9⟩] [⟨2, 3⟩, ⟨5, 8⟩] = some res ∧
      RangeList.Intersection [⟨2, 3⟩, ⟨5, 8⟩] [⟨0, 5⟩, ⟨8, 9⟩] = some res :=
  ⟨by decide, intersection_comm [⟨0, 5⟩, ⟨8, 9⟩] [⟨2, 3⟩, ⟨5, 8⟩] (by decide) (by decide)
    (by decide) (by decide) (by decide) (by decide)⟩

/-! ## InplaceUnion on `int64` lists -/

/-! ### InplaceUnion ends -/

theorem int64_iff_bounded (rl : RangeList) : Int64 rl ↔ Bounded (2 ^ 63) rl := Iff.rfl

/-- The first half of a pass, on the list split at `i`. -/
theorem inplaceStep_cons (P : RangeList) (r : Range) (S : RangeList) (l : Range)
    (ls : RangeList) (n : Nat) :
    inplaceStep (P ++ r :: S) P.length (l :: ls) n =
      if r.Contains l then some (P ++ r :: S, P.length, ls, n)
      else if r.OverlapsFront l then some (P ++ ⟨r.Start, l.End⟩ :: S, P.length, ls, n)
      else if l.Contains r then some (P ++ l :: S, P.length + 1, l :: ls, n)
      else if l.OverlapsFront r then some (P ++ ⟨l.Start, r.End⟩ :: S, P.length, ls, n)
      else if r.End ≤ l.Start then some (P ++ r :: S, P.length + 1, l :: ls, n)
      else if l.End ≤ r.Start then some (P ++ l :: r :: S, P.length + 1, ls, n + 1)
      else some (P ++ r :: S, P.length, l :: ls, n) := by
  unfold inplaceStep
  simp only [get_mid, set_mid, take_mid, drop_mid]
  have h6 : (P ++ [r] ++ r :: S).set P.length l = P ++ l :: r :: S := by
    rw [List.append_assoc]
    exact set_mid P r l (r :: S)
  rw [h6]

/-- The second half of a pass at `i = 0`. -/
theorem inplaceMerge_zero (rl : RangeList) : inplaceMerge rl 0 = (rl, 0) := by
  unfold inplaceMerge
  rw [if_neg (by omega)]

/-- The second half of a pass when `i` has run off the end of the list. -/
theorem inplaceMerge_end (rl : RangeList) :
    inplaceMerge rl rl.length = (rl, rl.length) := by
  unfold inplaceMerge
  rw [if_neg (by omega)]

/-- The second half of a pass at a range `s` that has the predecessor `c`. -/
theorem inplaceMerge_next (P : RangeList) (c s : Range) (S : RangeList) :
    inplaceMerge (P ++ c :: s :: S) (P.length + 1) =
      if s.Start ≤ wrap64 (c.End + 1) then
        (P ++ ⟨c.Start, if s.End > c.End then s.End else c.End⟩ :: S, P.length)
      else (P ++ c :: s :: S, P.length + 1) := by
  unfold inplaceMerge
  have hlen : (P ++ c :: s :: S).length > 1 ∧ P.length + 1 > 0 ∧
      P.length + 1 < (P ++ c :: s :: S).length := by
    simp only [List.length_append, List.length_cons]; omega
  have g1 : (P ++ c :: s :: S).get? (P.length + 1) = some s := by
    have := get_mid (P ++ [c]) s S
    simpa using this
  have g2 : (P ++ c :: s :: S).get? (P.length + 1 - 1) = some c := by
    rw [Nat.add_sub_cancel]; exact get_mid _ _ _
  rw [if_pos hlen, g1, g2]
  simp only
  by_cases hm : s.Start ≤ wrap64 (c.End + 1)
  · rw [if_pos hm, if_pos hm]
    have t1 : ∀ x : Range, (P ++ x :: s :: S).take (P.length + 1) = P ++ [x] :=
      fun x => take_mid P x (s :: S)
    have t2 : ∀ x : Range, (P ++ x :: s :: S).drop (P.length + 1 + 1) = S := by
      intro x
      have h : P ++ x :: s :: S = (P ++ [x, s]) ++ S := by simp
      rw [h]
      exact List.drop_left' (by simp)
    by_cases he : s.End > c.End
    · simp only [if_pos he, Nat.add_sub_cancel, set_mid, t1, t2, List.append_assoc,
        List.singleton_append]
    · simp only [if_neg he, Nat.add_sub_cancel, t1, t2, List.append_assoc,
        List.singleton_append]
  · rw [if_neg hm, if_neg hm]

/-- One of the six tests of a pass holds for any two `int64` ranges: a range
that ends at `2^63 - 1`, where `End + 1` wraps, contains the other range when it
starts at or before it. -/
theorem inplace_tests (r l : Range) (hr : -2 ^ 63 ≤ r.End ∧ r.End < 2 ^ 63)
    (hl : -2 ^ 63 ≤ l.End ∧ l.End < 2 ^ 63)
    (h1 : ¬ r.Contains l = true) (h2 : ¬ r.OverlapsFront l = true)
    (h3 : ¬ l.Contains r = true) (h4 : ¬ l.OverlapsFront r = true)
    (h5 : ¬ r.End ≤ l.Start) (h6 : ¬ l.End ≤ r.Start) : False := by
  rw [overlapsFront_exact hr.1 hr.2 hl.2 h1, overlapsFrontZ_iff] at h2
  rw [overlapsFront_exact hl.1 hl.2 hr.2 h3, overlapsFrontZ_iff] at h4
  omega

/-- The first half of a pass on `int64` ranges reads inside the list and,
counted with the second half still to come, lowers
`2 * (len(ll) - j) + (len(rl) - i)`. -/
theorem inplaceStep_measure (rl : RangeList) (i : Nat) (ls : RangeList) (n : Nat)
    (hi : i < rl.length) (b1 : Int64 rl) (b2 : Int64 ls) :
    ∃ rl1 i1 ls1 n1, inplaceStep rl i ls n = some (rl1, i1, ls1, n1) ∧
      i1 ≤ rl1.length ∧ 0 < rl1.length ∧
      2 * ls1.length + (rl1.length - i1) < 2 * ls.length + (rl.length - i) := by
  obtain ⟨P, r, S, rfl, rfl⟩ := split_at_index rl i hi
  cases ls with
  | nil =>
    refine ⟨_, _, _, _, rfl, ?_, ?_, ?_⟩ <;>
      simp only [List.length_append, List.length_cons, List.length_nil] <;> omega
  | cons l ls =>
    have hr := (b1 r (by simp)).2
    have hl := (b2 l (by simp)).2
    rw [inplaceStep_cons]
    by_cases h1 : r.Contains l = true
    · rw [if_pos h1]
      refine ⟨_, _, _, _, rfl, ?_, ?_, ?_⟩ <;>
        simp only [List.length_append, List.length_cons, List.length_nil] <;> omega
    rw [if_neg h1]
    by_cases h2 : r.OverlapsFront l = true
    · rw [if_pos h2]
      refine ⟨_, _, _, _, rfl, ?_, ?_, ?_⟩ <;>
        simp only [List.length_append, List.length_cons, List.length_nil] <;> omega
    rw [if_neg h2]
    by_cases h3 : l.Contains r = true
    · rw [if_pos h3]
      refine ⟨_, _, _, _, rfl, ?_, ?_, ?_⟩ <;>
        simp only [List.length_append, List.length_cons, List.length_nil] <;> omega
    rw [if_neg h3]
    by_cases h4 : l.OverlapsFront r = true
    · rw [if_pos h4]
      refine ⟨_, _, _, _, rfl, ?_, ?_, ?_⟩ <;>
        simp only [List.length_append, List.length_cons, List.length_nil] <;> omega
    rw [if_neg h4]
    by_cases h5 : r.End ≤ l.Start
    · rw [if_pos h5]
      refine ⟨_, _, _, _, rfl, ?_, ?_, ?_⟩ <;>
        simp only [List.length_append, List.length_cons, List.length_nil] <;> omega
    rw [if_neg h5]
    by_cases h6 : l.End ≤ r.Start
    · rw [if_pos h6]
      refine ⟨_, _, _, _, rfl, ?_, ?_, ?_⟩ <;>
        simp only [List.length_append, List.length_cons, List.length_nil] <;> omega
    exact absurd (inplace_tests r l hr hl h1 h2 h3 h4 h5 h6) id

/-- The second half of a pass keeps `i` inside the list and `len(rl) - i` as it
is. -/
theorem inplaceMerge_measure (rl : RangeList) (i : Nat) (hi : i ≤ rl.length)
    (hne : 0 < rl.length) :
    (inplaceMerge rl i).2 ≤ (inplaceMerge rl i).1.length ∧
    0 < (inplaceMerge rl i).1.length ∧
    (inplaceMerge rl i).1.length - (inplaceMerge rl i).2 = rl.length - i := by
  by_cases hlt : i < rl.length
  · obtain ⟨P, s, S, rfl, rfl⟩ := split_at_index rl i hlt
    rcases List.eq_nil_or_concat P with rfl | ⟨Q, c, hQ⟩
    · have : inplaceMerge ([] ++ s :: S) ([] : RangeList).length
          = ([] ++ s :: S, ([] : RangeList).length) := inplaceMerge_zero _
      rw [this]
      simp
    · rw [List.concat_eq_append] at hQ
      subst hQ
      have e1 : Q ++ [c] ++ s :: S = Q ++ c :: s :: S := by simp
      have e2 : (Q ++ [c]).length = Q.length + 1 := by simp
      rw [e1, e2, inplaceMerge_next]
      split <;> refine ⟨?_, ?_, ?_⟩ <;> dsimp only <;>
        simp only [List.length_append, List.length_cons, List.length_nil] <;> omega
  · have : i = rl.length := by omega
    subst this
    rw [inplaceMerge_end]
    simp only [Nat.sub_self, le_refl, and_true, true_and]
    exact hne

theorem inplaceFinish_some (rl ls : RangeList) (n : Nat) (hne : 0 < rl.length) :
    ∃ res, inplaceFinish rl ls n = some res := by
  unfold inplaceFinish
  cases ls with
  | nil => exact ⟨_, rfl⟩
  | cons l ls =>
    rcases List.eq_nil_or_concat rl with rfl | ⟨Q, c, hQ⟩
    · simp at hne
    · rw [List.concat_eq_append] at hQ
      subst hQ
      rw [List.getLast?_concat]
      simp only
      split
      · split <;> exact ⟨_, rfl⟩
      · exact ⟨_, rfl⟩

/-- The loop of `InplaceUnion` ends within `2 * (len(ll) - j) + (len(rl) - i)`
passes on lists of `int64` ranges, canonical or not. -/
theorem inplaceUnionLoop_returns :
    ∀ (fuel : Nat) (rl : RangeList) (i : Nat) (ls : RangeList) (n : Nat),
      Int64 rl → Int64 ls → i < rl.length → 2 * ls.length + (rl.length - i) ≤ fuel →
      ∃ res, inplaceUnionLoop fuel rl i ls n = some res := by
  intro fuel
  induction fuel with
  | zero => intro rl i ls n _ _ hi h; omega
  | succ m ih =>
    intro rl i ls n b1 b2 hi h
    obtain ⟨rl1, i1, ls1, n1, hstep, h1, h2, h3⟩ := inplaceStep_measure rl i ls n hi b1 b2
    obtain ⟨q1, q2⟩ := inplaceStep_bounded rl i ls n ((int64_iff_bounded _).mp b1)
      ((int64_iff_bounded _).mp b2) rl1 i1 ls1 n1 hstep
    have p2 := inplaceMerge_bounded rl1 i1 q1
    obtain ⟨g1, g2, g3⟩ := inplaceMerge_measure rl1 i1 h1 h2
    unfold inplaceUnionLoop
    rw [hstep]
    rcases hm : inplaceMerge rl1 i1 with ⟨rl2, i2⟩
    rw [hm] at g1 g2 g3 p2
    simp only at g1 g2 g3 p2 ⊢
    rw [hm]
    simp only
    by_cases hend : i2 = rl2.length
    · rw [if_pos hend]
      exact inplaceFinish_some rl2 ls1 n1 g2
    · rw [if_neg hend]
      exact ih rl2 i2 ls1 n1 ((int64_iff_bounded _).mpr p2) ((int64_iff_bounded _).mpr q2)
        (by omega) (by omega)

/-- `InplaceUnion` returns on lists of `int64` ranges, canonical or not. -/
theorem inplaceUnion_returns (rl ll : RangeList) (b1 : Int64 rl) (b2 : Int64 ll) :
    ∃ res, InplaceUnion rl ll = some res := by
  unfold InplaceUnion
  cases ll with
  | nil => exact ⟨_, rfl⟩
  | cons l0 ls =>
    simp only
    cases rl with
    | nil => exact ⟨_, rfl⟩
    | cons r0 rs =>
      simp only [List.isEmpty_cons, Bool.false_eq_true, if_false]
      have hs : sortSearch (r0 :: rs).length (endReaches (r0 :: rs) l0.Start)
          ≤ (r0 :: rs).length := searchLoop_le _ _ _ _ (Nat.zero_le _)
      obtain ⟨res, hres⟩ := inplaceUnionLoop_returns
        (2 * ((r0 :: rs).length + (l0 :: ls).length) + 2) (r0 :: rs)
        (if sortSearch (r0 :: rs).length (endReaches (r0 :: rs) l0.Start) > 0
          then sortSearch (r0 :: rs).length (endReaches (r0 :: rs) l0.Start) - 1
          else sortSearch (r0 :: rs).length (endReaches (r0 :: rs) l0.Start))
        (l0 :: ls) 0 b1 b2
        (by simp only [List.length_cons] at hs ⊢; split <;> omega)
        (by simp only [List.length_cons]; omega)
      rw [hres]
      exact ⟨_, rfl⟩

/-- C36: `self.InplaceUnion(other)` returns for every pair of range lists with
`int64` bounds, canonical or not; and in every state of its loop with
`i < len(*rl)`, as at the start of each pass, the pass reads `(*rl)[i]` inside
the list, leaves `i <= len(*rl)` and lists of `int64` ranges, and lowers
`2 * (len(ll) - j) + (len(*rl) - i)`. The loop ends when it leaves
`i = len(*rl)`. -/
theorem inplaceUnion_terminates (self other : RangeList) (h1 : Int64 self)
    (h2 : Int64 other) :
    (∃ res, InplaceUnion self other = some res) ∧
    ∀ (rl : RangeList) (i : Nat) (ls : RangeList) (n : Nat), Int64 rl → Int64 ls →
      i < rl.length →
      ∃ rl1 i1 ls1 n1, inplaceStep rl i ls n = some (rl1, i1, ls1, n1) ∧
        (inplaceMerge rl1 i1).2 ≤ (inplaceMerge rl1 i1).1.length ∧
        Int64 (inplaceMerge rl1 i1).1 ∧ Int64 ls1 ∧
        2 * ls1.length + ((inplaceMerge rl1 i1).1.length - (inplaceMerge rl1 i1).2)
          < 2 * ls.length + (rl.length - i) := by
  refine ⟨inplaceUnion_returns self other h1 h2, fun rl i ls n b1 b2 hi => ?_⟩
  obtain ⟨rl1, i1, ls1, n1, hstep, k1, k2, k3⟩ := inplaceStep_measure rl i ls n hi b1 b2
  obtain ⟨q1, q2⟩ := inplaceStep_bounded rl i ls n ((int64_iff_bounded _).mp b1)
    ((int64_iff_bounded _).mp b2) rl1 i1 ls1 n1 hstep
  obtain ⟨g1, g2, g3⟩ := inplaceMerge_measure rl1 i1 k1 k2
  exact ⟨rl1, i1, ls1, n1, hstep, g1, (int64_iff_bounded _).mpr (inplaceMerge_bounded rl1 i1 q1),
    (int64_iff_bounded _).mpr q2, by omega⟩

/-- C36, at `self = [(0,1), (5, 2^63 - 1)]` and `other = [(4,7)]`, whose last range
ends inside the last range of `self`: the call returns `[(0,1), (4, 2^63 - 1)]`,
and the pass from the state `i = 1`, `j = 0` lowers the measure from 3 to 1. -/
theorem inplaceUnion_terminates_witness :
    InplaceUnion [⟨0, 1⟩, ⟨5, 2 ^ 63 - 1⟩] [⟨4, 7⟩] = some ([⟨0, 1⟩, ⟨4, 2 ^ 63 - 1⟩], 0) ∧
    ∃ rl1 i1 ls1 n1,
      inplaceStep [⟨0, 1⟩, ⟨5, 2 ^ 63 - 1⟩] 1 [⟨4, 7⟩] 0 = some (rl1, i1, ls1, n1) ∧
      (inplaceMerge rl1 i1).2 ≤ (inplaceMerge rl1 i1).1.length ∧
      Int64 (inplaceMerge rl1 i1).1 ∧ Int64 ls1 ∧
      2 * ls1.length + ((inplaceMerge rl1 i1).1.length - (inplaceMerge rl1 i1).2)
        < 2 * [(⟨4, 7⟩ : Range)].length + ([(⟨0, 1⟩ : Range), ⟨5, 2 ^ 63 - 1⟩].length - 1) :=
  ⟨by decide,
    (inplaceUnion_terminates [⟨0, 1⟩, ⟨5, 2 ^ 63 - 1⟩] [⟨4, 7⟩] (by decide) (by decide)).2
      [⟨0, 1⟩, ⟨5, 2 ^ 63 - 1⟩] 1 [⟨4, 7⟩] 0 (by decide) (by decide) (by decide)⟩

/-! ### The list InplaceUnion leaves -/

/-- C40 (fails as stated), in two ways. (1) `a = [(1,1)]`, `b = [(0, 2^63 - 1)]`:
the loop writes `b[0]` over `a[0]` and, at the end, appends the rest of `b`
again, because `ll[j].Start <= (*rl)[i-1].End+1` compares with `-2^63`; the two
equal ranges survive `flatten`, whose test wraps in the same way, and `a` is
left as `[(0, 2^63 - 1), (0, 2^63 - 1)]`, not canonical. (2) `a = [(1,1), (3, 2^63 - 1)]`,
`b = [(0,2)]`: the binary search over `a` runs past both ranges, the loop
starts at the last one, and `a` is left as `[(1, 2^63 - 1)]`, which does not cover
0. -/
theorem inplaceUnion_wraps_at_max :
    (Canonical [⟨1, 1⟩] ∧ Canonical [⟨0, 2 ^ 63 - 1⟩] ∧
      Int64 [⟨1, 1⟩] ∧ Int64 [⟨0, 2 ^ 63 - 1⟩] ∧
      InplaceUnion [⟨1, 1⟩] [⟨0, 2 ^ 63 - 1⟩]
        = some ([⟨0, 2 ^ 63 - 1⟩, ⟨0, 2 ^ 63 - 1⟩], 1) ∧
      ¬ Canonical [⟨0, 2 ^ 63 - 1⟩, ⟨0, 2 ^ 63 - 1⟩]) ∧
    (Canonical [⟨1, 1⟩, ⟨3, 2 ^ 63 - 1⟩] ∧ Canonical [⟨0, 2⟩] ∧
      Int64 [⟨1, 1⟩, ⟨3, 2 ^ 63 - 1⟩] ∧ Int64 [⟨0, 2⟩] ∧
      InplaceUnion [⟨1, 1⟩, ⟨3, 2 ^ 63 - 1⟩] [⟨0, 2⟩] = some ([⟨1, 2 ^ 63 - 1⟩], 0) ∧
      Covers [⟨0, 2⟩] 0 ∧ ¬ Covers [⟨1, 2 ^ 63 - 1⟩] 0) := by
  decide

/-- C40 (amended): for every pair of canonical range lists `a` and `b` in which
no range ends at `2^63 - 1` (all bounds being `int64` values),
`a.InplaceUnion(b)` returns, and the list it leaves in `a` is canonical and
covers exactly the integers that were in `a` before the call or are in `b`. -/
theorem inplaceUnion_canonical_cover (a b : RangeList) (ha : Canonical a)
    (hb : Canonical b) (ba : Int64 a) (bb : Int64 b)
    (ma : ∀ r ∈ a, r.End ≠ 2 ^ 63 - 1) (mb : ∀ r ∈ b, r.End ≠ 2 ^ 63 - 1) :
    ∃ res n, InplaceUnion a b = some (res, n) ∧ Canonical res ∧
      ∀ x, Covers res x ↔ Covers a x ∨ Covers b x := by
  rw [inplaceUnion_exact a b (bounded_of_int64 ba ma) (bounded_of_int64 bb mb)]
  obtain ⟨res, n, h1, h2, h3⟩ :=
    inplaceUnionZ_spec a b ((canonical_iff_canon a).mp ha) ((canonical_iff_canon b).mp hb)
  exact ⟨res, n, h1, (canonical_iff_canon res).mpr h2, h3⟩

/-- C40 (amended), at `a = [(0,0), (2,2), (5,5), (7,7)]` and
`b = [(0,0), (2,2), (4,5)]`, where the loop leaves `(4,5)` twice in `a` before
`flatten`: the result is `[(0,0), (2,2), (4,5), (7,7)]`, with one range added. -/
theorem inplaceUnion_canonical_cover_witness :
    InplaceUnion [⟨0, 0⟩, ⟨2, 2⟩, ⟨5, 5⟩, ⟨7, 7⟩] [⟨0, 0⟩, ⟨2, 2⟩, ⟨4, 5⟩]
      = some ([⟨0, 0⟩, ⟨2, 2⟩, ⟨4, 5⟩, ⟨7, 7⟩], 1) ∧
    ∃ res n, InplaceUnion [⟨0, 0⟩, ⟨2, 2⟩, ⟨5, 5⟩, ⟨7, 7⟩] [⟨0, 0⟩, ⟨2, 2⟩, ⟨4, 5⟩]
        = some (res, n) ∧ Canonical res ∧
      ∀ x, Covers res x ↔ Covers [⟨0, 0⟩, ⟨2, 2⟩, ⟨5, 5⟩, ⟨7, 7⟩] x ∨
        Covers [⟨0, 0⟩, ⟨2, 2⟩, ⟨4, 5⟩] x :=
  ⟨by decide,
    inplaceUnion_canonical_cover [⟨0, 0⟩, ⟨2, 2⟩, ⟨5, 5⟩, ⟨7, 7⟩] [⟨0, 0⟩, ⟨2, 2⟩, ⟨4, 5⟩]
      (by decide) (by decide) (by decide) (by decide) (by decide) (by decide)⟩

/-! ## Canonical results on `int64` lists -/

/-- On canonical `int64` lists the loop of `Intersection` is the loop over the
integers: an entry of `out` that ends at `2^63 - 1` is its last, and the loop
ends with the pass that added it. -/
theorem intersectionLoop_canon (fuel : Nat) :
    ∀ (rs ls out : RangeList), Canon rs → Canon ls → Canon out →
      Int64 rs → Int64 ls → Int64 out →
      (∀ o ∈ out, ∀ r ∈ rs, ∀ l ∈ ls, o.End + 1 < r.Start ∨ o.End + 1 < l.Start) →
      intersectionLoop fuel rs ls out = intersectionLoopZ fuel rs ls out := by
  induction fuel with
  | zero => intro rs ls out _ _ _ _ _ _ _; rfl
  | succ n ih =>
    intro rs ls out hrs hls hout brs bls bout hinv
    cases rs with
    | nil => rfl
    | cons r rs =>
      cases ls with
      | nil => rfl
      | cons l ls =>
        obtain ⟨hr, hrgap, hrs'⟩ := canon_cons.mp hrs
        obtain ⟨hl, hlgap, hls'⟩ := canon_cons.mp hls
        obtain ⟨hr64, brs'⟩ := int64_cons.mp brs
        obtain ⟨hl64, bls'⟩ := int64_cons.mp bls
        have hhead := fun o ho => hinv o ho r (List.mem_cons_self _ _) l (List.mem_cons_self _ _)
        -- appending a piece `p` that starts after the heads keeps `out` canonical
        have happ : ∀ p : Range, p.Start ≤ p.End → r.Start ≤ p.Start → l.Start ≤ p.Start →
            Canon (out ++ [p]) := by
          intro p hp h1 h2
          rw [canon_append, canon_singleton]
          refine ⟨hout, hp, fun o ho y hy => ?_⟩
          rw [List.mem_singleton] at hy; subst hy
          have := hhead o ho; omega
        have happ64 : ∀ p : Range, p.Start ≤ p.End → r.Start ≤ p.Start → p.End ≤ r.End →
            Int64 (out ++ [p]) := by
          intro p hp h1 h2
          refine int64_append.mpr ⟨bout, fun x hx => ?_⟩
          rw [List.mem_singleton] at hx; subst hx
          omega
        -- the invariant after `i++`
        have hinvR : ∀ out' : RangeList, (∀ o ∈ out', o ∈ out ∨ o.End ≤ r.End) →
            ∀ o ∈ out', ∀ r' ∈ rs, ∀ l' ∈ l :: ls,
              o.End + 1 < r'.Start ∨ o.End + 1 < l'.Start := by
          intro out' h o ho r' hr' l' hl'
          rcases h o ho with h | h
          · exact hinv o h r' (List.mem_cons_of_mem _ hr') l' hl'
          · have := hrgap r' hr'; left; omega
        -- the invariant after `j++`
        have hinvL : ∀ out' : RangeList, (∀ o ∈ out', o ∈ out ∨ o.End ≤ l.End) →
            ∀ o ∈ out', ∀ r' ∈ r :: rs, ∀ l' ∈ ls,
              o.End + 1 < r'.Start ∨ o.End + 1 < l'.Start := by
          intro out' h o ho r' hr' l' hl'
          rcases h o ho with h | h
          · exact hinv o h r' hr' l' (List.mem_cons_of_mem _ hl')
          · have := hlgap l' hl'; right; omega
        have hsnoc : ∀ (p : Range) (b : Int), p.End ≤ b →
            ∀ o ∈ out ++ [p], o ∈ out ∨ o.End ≤ b := by
          intro p b hp o ho
          rcases List.mem_append.mp ho with ho | ho
          · exact Or.inl ho
          · rw [List.mem_singleton] at ho; subst ho; exact Or.inr hp
        have hself : ∀ (b : Int), ∀ o ∈ out, o ∈ out ∨ o.End ≤ b := fun _ _ ho => Or.inl ho
        unfold intersectionLoop intersectionLoopZ
        by_cases h1 : r.Contains l = true
        · rw [if_pos h1, if_pos h1]
          rw [contains_iff] at h1
          have hc := happ l hl h1.1 (le_refl _)
          have h64 := happ64 l hl h1.1 h1.2
          rw [flattenZ_canon _ hc, flatten_canon _ hc h64]
          exact ih (r :: rs) ls _ hrs hls' hc brs bls' h64 (hinvL _ (hsnoc l l.End (le_refl _)))
        rw [if_neg h1, if_neg h1]
        by_cases h2 : l.Contains r = true
        · rw [if_pos h2, if_pos h2]
          rw [contains_iff] at h2
          have hc := happ r hr (le_refl _) h2.1
          have h64 := happ64 r hr (le_refl _) (le_refl _)
          rw [flattenZ_canon _ hc, flatten_canon _ hc h64]
          exact ih rs (l :: ls) _ hrs' hls hc brs' bls h64 (hinvR _ (hsnoc r r.End (le_refl _)))
        rw [if_neg h2, if_neg h2,
          overlapsFront_exact hr64.2.1 hr64.2.2 hl64.2.2 h1,
          overlapsFront_exact hl64.2.1 hl64.2.2 hr64.2.2 h2]
        rw [contains_iff] at h1 h2
        by_cases h3 : r.OverlapsFrontZ l = true
        · rw [if_pos h3, if_pos h3]
          rw [overlapsFrontZ_iff] at h3
          cases hI : r.Intersection l with
          | some p =>
            obtain ⟨hp1, hp2, hp3⟩ := range_inter_some hI
            simp only
            have hc := happ p (by omega) (by omega) (by omega)
            have h64 := happ64 p (by omega) (by omega) (by omega)
            rw [flattenZ_canon _ hc, flatten_canon _ hc h64]
            exact ih rs (l :: ls) _ hrs' hls hc brs' bls h64
              (hinvR _ (hsnoc p r.End (by omega)))
          | none =>
            simp only
            rw [flattenZ_canon _ hout, flatten_canon _ hout bout]
            exact ih rs (l :: ls) _ hrs' hls hout brs' bls bout (hinvR _ (hself r.End))
        rw [if_neg h3, if_neg h3]
        rw [overlapsFrontZ_iff] at h3
        by_cases h4 : l.OverlapsFrontZ r = true
        · rw [if_pos h4, if_pos h4]
          rw [overlapsFrontZ_iff] at h4
          cases hI : r.Intersection l with
          | some p =>
            obtain ⟨hp1, hp2, hp3⟩ := range_inter_some hI
            simp only
            have hc := happ p (by omega) (by omega) (by omega)
            have h64 := happ64 p (by omega) (by omega) (by omega)
            rw [flattenZ_canon _ hc, flatten_canon _ hc h64]
            exact ih (r :: rs) ls _ hrs hls' hc brs bls' h64
              (hinvL _ (hsnoc p l.End (by omega)))
          | none =>
            simp only
            rw [flattenZ_canon _ hout, flatten_canon _ hout bout]
            exact ih (r :: rs) ls _ hrs hls' hout brs bls' bout (hinvL _ (hself l.End))
        rw [if_neg h4, if_neg h4]
        rw [flattenZ_canon _ hout, flatten_canon _ hout bout]
        by_cases h5 : r.End < l.Start
        · rw [if_pos h5, if_pos h5]
          exact ih rs (l :: ls) _ hrs' hls hout brs' bls bout (hinvR _ (hself r.End))
        · rw [if_neg h5, if_neg h5]
          exact ih (r :: rs) ls _ hrs hls' hout brs bls' bout (hinvL _ (hself l.End))

/-- A canonical list that covers only integers of an `int64` list is an `int64`
list. -/
theorem int64_of_covers {sub rl : RangeList} (hsub : Canon sub) (h64 : Int64 rl)
    (h : ∀ x, Covers sub x → Covers rl x) : Int64 sub := by
  intro s hs
  have hne := hsub.1 s hs
  obtain ⟨r1, hr1, a1, a2⟩ := h s.Start ⟨s, hs, le_refl _, hne⟩
  obtain ⟨r2, hr2, a3, a4⟩ := h s.End ⟨s, hs, hne, le_refl _⟩
  have := h64 r1 hr1
  have := h64 r2 hr2
  omega

/-- `Intersection` on canonical `int64` lists returns a canonical `int64` list
that covers common integers only. -/
theorem intersection_canon (rl ll : RangeList) (hrl : Canon rl) (hll : Canon ll)
    (b1 : Int64 rl) (b2 : Int64 ll) :
    ∃ res, RangeList.Intersection rl ll = some res ∧ Canon res ∧ Int64 res ∧
      ∀ x, Covers res x → Covers rl x ∧ Covers ll x := by
  cases ll with
  | nil =>
    exact ⟨[], rfl, canon_nil, fun r hr => by simp at hr, fun x hx => absurd hx (covers_nil x)⟩
  | cons l0 ls =>
    cases rl with
    | nil =>
      exact ⟨[], rfl, canon_nil, fun r hr => by simp at hr,
        fun x hx => absurd hx (covers_nil x)⟩
    | cons r0 rs =>
      unfold RangeList.Intersection
      simp only [List.isEmpty_cons, Bool.false_eq_true, if_false]
      have hcd := canon_drop (r0 :: rs) (intersectionStart (r0 :: rs) l0.Start) hrl
      have hbd : Int64 ((r0 :: rs).drop (intersectionStart (r0 :: rs) l0.Start)) :=
        fun r hr => b1 r (List.mem_of_mem_drop hr)
      rw [intersectionLoop_canon _ _ _ _ hcd hll canon_nil hbd b2 (fun r hr => by simp at hr)
        (by simp)]
      obtain ⟨res, hres, hcan, hcov⟩ := intersectionLoopZ_spec
        ((r0 :: rs).length + (l0 :: ls).length + 1)
        ((r0 :: rs).drop (intersectionStart (r0 :: rs) l0.Start)) (l0 :: ls) []
        (by have := List.length_drop (intersectionStart (r0 :: rs) l0.Start) (r0 :: rs); omega)
        hcd hll canon_nil (by simp)
      have hsub : ∀ x, Covers res x → Covers (r0 :: rs) x ∧ Covers (l0 :: ls) x := by
        intro x hx
        rcases (hcov x).mp hx with h | h
        · exact absurd h (covers_nil x)
        · refine ⟨?_, h.2⟩
          obtain ⟨r, hr, hb⟩ := h.1
          exact ⟨r, List.mem_of_mem_drop hr, hb⟩
      exact ⟨res, hres, hcan, int64_of_covers hcan b1 (fun x hx => (hsub x hx).1), hsub⟩

/-- A list inside an `int64` list is an `int64` list, when its ranges are not
empty. -/
theorem int64_of_within {sub rl : RangeList} (hsub : Canon sub) (h64 : Int64 rl)
    (h : Within sub rl) : Int64 sub := by
  intro s hs
  have hne := hsub.1 s hs
  obtain ⟨r, hr, a1, a2⟩ := h s hs
  have := h64 r hr
  omega

/-- C6 (fails as stated): on `int64` bounds `Union` and `Subtract` return lists
that are not canonical. `[(1,1),(2^63-7,2^63-1)].Union([(2,2^63-1)])` returns
`[(1,2^63-1),(2^63-7,2^63-1)]`: both lists end at `2^63 - 1`, and the `End + 1`
of `flatten` wraps. `[(0,2^63-1)].Subtract([(5,2^63-1)])` returns
`[(-2^63,2^63-1),(0,4)]`: the `l.End + 1` of the cut wraps. And
`[(0,0),(2,2)].Subtract([(-2^63,0)])` returns `[(0,2^63-1),(2,2)]`: the
`l.Start - 1` of the cut wraps. -/
theorem operations_break_canonical :
    (Canonical [⟨1, 1⟩, ⟨2 ^ 63 - 7, 2 ^ 63 - 1⟩] ∧ Canonical [⟨2, 2 ^ 63 - 1⟩] ∧
      Int64 [⟨1, 1⟩, ⟨2 ^ 63 - 7, 2 ^ 63 - 1⟩] ∧ Int64 [⟨2, 2 ^ 63 - 1⟩] ∧
      RangeList.Union [⟨1, 1⟩, ⟨2 ^ 63 - 7, 2 ^ 63 - 1⟩] [⟨2, 2 ^ 63 - 1⟩]
        = some [⟨1, 2 ^ 63 - 1⟩, ⟨2 ^ 63 - 7, 2 ^ 63 - 1⟩] ∧
      ¬ Canonical [⟨1, 2 ^ 63 - 1⟩, ⟨2 ^ 63 - 7, 2 ^ 63 - 1⟩]) ∧
    (Canonical [⟨0, 2 ^ 63 - 1⟩] ∧ Canonical [⟨5, 2 ^ 63 - 1⟩] ∧
      Int64 [⟨0, 2 ^ 63 - 1⟩] ∧ Int64 [⟨5, 2 ^ 63 - 1⟩] ∧
      RangeList.Subtract [⟨0, 2 ^ 63 - 1⟩] [⟨5, 2 ^ 63 - 1⟩]
        = some [⟨-2 ^ 63, 2 ^ 63 - 1⟩, ⟨0, 4⟩] ∧
      ¬ Canonical [⟨-2 ^ 63, 2 ^ 63 - 1⟩, ⟨0, 4⟩]) ∧
    (Canonical [⟨0, 0⟩, ⟨2, 2⟩] ∧ Canonical [⟨-2 ^ 63, 0⟩] ∧
      Int64 [⟨0, 0⟩, ⟨2, 2⟩] ∧ Int64 [⟨-2 ^ 63, 0⟩] ∧
      RangeList.Subtract [⟨0, 0⟩, ⟨2, 2⟩] [⟨-2 ^ 63, 0⟩] = some [⟨0, 2 ^ 63 - 1⟩, ⟨2, 2⟩] ∧
      ¬ Canonical [⟨0, 2 ^ 63 - 1⟩, ⟨2, 2⟩]) := by
  decide

/-- C6 (amended): for every pair of canonical lists `rl` and `ll` of `int64`
ranges, `rl.Intersection(ll)` returns a canonical list; when the two lists do
not both have a range that ends at `2^63 - 1`, `rl.Union(ll)` returns a
canonical list, and so does `rl.Subtract(ll)` when in addition no range of `ll`
starts at `-2^63`. Canonical: sorted ascending by `Start`, no two consecutive
entries `a`, `b` with `b.Start <= a.End + 1` (and every entry with
`Start <= End`). -/
theorem operations_preserve_canonical (rl ll : RangeList)
    (h1 : Canonical rl) (h2 : Canonical ll) (b1 : Int64 rl) (b2 : Int64 ll) :
    (∃ i, RangeList.Intersection rl ll = some i ∧ Canonical i) ∧
    (((∀ x ∈ rl, x.End ≠ 2 ^ 63 - 1) ∨ (∀ x ∈ ll, x.End ≠ 2 ^ 63 - 1)) →
      (∃ u, RangeList.Union rl ll = some u ∧ Canonical u) ∧
      ((∀ x ∈ ll, x.Start ≠ -2 ^ 63) →
        ∃ s, RangeList.Subtract rl ll = some s ∧ Canonical s)) := by
  have hc1 := (canonical_iff_canon _).mp h1
  have hc2 := (canonical_iff_canon _).mp h2
  obtain ⟨i, hi, hic, -, -⟩ := intersection_canon rl ll hc1 hc2 b1 b2
  refine ⟨⟨i, hi, (canonical_iff_canon _).mpr hic⟩, fun hmax => ⟨?_, fun hmin => ?_⟩⟩
  · obtain ⟨u, hu, huc, -⟩ := unionZ_spec rl ll hc1 hc2
    exact ⟨u, by rw [union_exact rl ll hc1 hc2 b1 b2 hmax]; exact hu,
      (canonical_iff_canon _).mpr huc⟩
  · obtain ⟨s, hs, hsc, -⟩ := subtractZ_spec rl ll hc1 hc2
    exact ⟨s, by rw [subtract_exact rl ll hc1 hc2 b1 b2 hmin hmax]; exact hs,
      (canonical_iff_canon _).mpr hsc⟩

/-- C6 (amended), at `rl = [(0,0),(2,2),(4,2^63-1)]` and `ll = [(1,3)]`: `ll`
has no range that ends at `2^63 - 1` and none that starts at `-2^63`, and all
three results are canonical. -/
theorem operations_preserve_canonical_witness :
    (∃ i, RangeList.Intersection [⟨0, 0⟩, ⟨2, 2⟩, ⟨4, 2 ^ 63 - 1⟩] [⟨1, 3⟩] = some i ∧
      Canonical i) ∧
    (∃ u, RangeList.Union [⟨0, 0⟩, ⟨2, 2⟩, ⟨4, 2 ^ 63 - 1⟩] [⟨1, 3⟩] = some u ∧
      Canonical u) ∧
    (∃ s, RangeList.Subtract [⟨0, 0⟩, ⟨2, 2⟩, ⟨4, 2 ^ 63 - 1⟩] [⟨1, 3⟩] = some s ∧
      Canonical s) :=
  ⟨(operations_preserve_canonical [⟨0, 0⟩, ⟨2, 2⟩, ⟨4, 2 ^ 63 - 1⟩] [⟨1, 3⟩] (by decide)
      (by decide) (by decide) (by decide)).1,
    ((operations_preserve_canonical [⟨0, 0⟩, ⟨2, 2⟩, ⟨4, 2 ^ 63 - 1⟩] [⟨1, 3⟩] (by decide)
      (by decide) (by decide) (by decide)).2 (by decide)).1,
    ((operations_preserve_canonical [⟨0, 0⟩, ⟨2, 2⟩, ⟨4, 2 ^ 63 - 1⟩] [⟨1, 3⟩] (by decide)
      (by decide) (by decide) (by decide)).2 (by decide)).2 (by decide)⟩

/-! ## The round trip of Subtract, Intersection and Union -/

/-- C4 (fails as stated): `Union` drops what ends below zero, and `Subtract`
wraps at `2^63 - 1`. For `rl1 = [(-3,-1)]`, `rl2 = [(-3,-2)]`: `I = [(-3,-2)]`,
`rl1.Subtract(I) = [(-1,-1)]` and their `Union` is `[]`. For
`rl1 = [(0,2^63-1)]`, `rl2 = [(5,2^63-1)]`: `I = [(5,2^63-1)]`,
`rl1.Subtract(I) = [(-2^63,2^63-1),(0,4)]` and their `Union` is that list
again. -/
theorem subtract_union_fails :
    (Canonical [⟨-3, -1⟩] ∧ Canonical [⟨-3, -2⟩] ∧
      RangeList.Intersection [⟨-3, -1⟩] [⟨-3, -2⟩] = some [⟨-3, -2⟩] ∧
      RangeList.Subtract [⟨-3, -1⟩] [⟨-3, -2⟩] = some [⟨-1, -1⟩] ∧
      RangeList.Union [⟨-1, -1⟩] [⟨-3, -2⟩] = some [] ∧
      ([] : RangeList) ≠ [⟨-3, -1⟩]) ∧
    (Canonical [⟨0, 2 ^ 63 - 1⟩] ∧ Canonical [⟨5, 2 ^ 63 - 1⟩] ∧
      Int64 [⟨0, 2 ^ 63 - 1⟩] ∧ Int64 [⟨5, 2 ^ 63 - 1⟩] ∧
      RangeList.Intersection [⟨0, 2 ^ 63 - 1⟩] [⟨5, 2 ^ 63 - 1⟩] = some [⟨5, 2 ^ 63 - 1⟩] ∧
      RangeList.Subtract [⟨0, 2 ^ 63 - 1⟩] [⟨5, 2 ^ 63 - 1⟩]
        = some [⟨-2 ^ 63, 2 ^ 63 - 1⟩, ⟨0, 4⟩] ∧
      RangeList.Union [⟨-2 ^ 63, 2 ^ 63 - 1⟩, ⟨0, 4⟩] [⟨5, 2 ^ 63 - 1⟩]
        = some [⟨-2 ^ 63, 2 ^ 63 - 1⟩, ⟨0, 4⟩] ∧
      ([⟨-2 ^ 63, 2 ^ 63 - 1⟩, ⟨0, 4⟩] : RangeList) ≠ [⟨0, 2 ^ 63 - 1⟩]) := by
  decide

/-- C4 (amended): for any two canonical lists `rl1` and `rl2` of `int64` ranges
such that no range of `rl1` has a negative `Start` and the two lists do not
both have a range that ends at `2^63 - 1`, with `I = rl1.Intersection(rl2)`:
`rl1.Subtract(I).Union(I)` is equal, entry for entry, to `rl1`. -/
theorem subtract_union_intersection (rl1 rl2 : RangeList)
    (h1 : Canonical rl1) (h2 : Canonical rl2) (b1 : Int64 rl1) (b2 : Int64 rl2)
    (hnn : ∀ r ∈ rl1, 0 ≤ r.Start)
    (hmax : (∀ x ∈ rl1, x.End ≠ 2 ^ 63 - 1) ∨ (∀ x ∈ rl2, x.End ≠ 2 ^ 63 - 1)) :
    ∃ I D, RangeList.Intersection rl1 rl2 = some I ∧
      RangeList.Subtract rl1 I = some D ∧ RangeList.Union D I = some rl1 := by
  have hc1 := (canonical_iff_canon _).mp h1
  have hc2 := (canonical_iff_canon _).mp h2
  obtain ⟨I, hI, hIc, hI64, hIcov⟩ := intersection_canon rl1 rl2 hc1 hc2 b1 b2
  have hsep : Sep rl1 I := sep_of_covers hc1 hIc (fun x hx => (hIcov x hx).1)
  have hInn : ∀ i ∈ I, 0 ≤ i.Start := by
    intro i hi
    obtain ⟨r, hr, h, -⟩ := (hIcov i.Start ⟨i, hi, le_refl _, hIc.1 i hi⟩).1
    have := hnn r hr
    omega
  have hImax : ∀ i ∈ I, i.End ≠ 2 ^ 63 - 1 := by
    intro i hi he
    obtain ⟨⟨r1, hr1, -, a2⟩, ⟨r2, hr2, -, a4⟩⟩ := hIcov i.End ⟨i, hi, hIc.1 i hi, le_refl _⟩
    have := b1 r1 hr1
    have := b2 r2 hr2
    rcases hmax with h | h
    · have := h r1 hr1; omega
    · have := h r2 hr2; omega
  obtain ⟨D, hD, hDc, hDin, hDcov⟩ := subtractZ_spec rl1 I hc1 hIc
  have hDcov := hDcov hsep
  have hD2 : RangeList.Subtract rl1 I = some D := by
    rw [subtract_exact rl1 I hc1 hIc b1 hI64 (fun x hx => by have := hInn x hx; omega)
      (Or.inr hImax)]
    exact hD
  have hD64 : Int64 D := int64_of_within hDc b1 hDin
  obtain ⟨U, hU, hUc, hUcov⟩ := unionZ_spec D I hDc hIc
  have hU2 : RangeList.Union D I = some U := by
    rw [union_exact D I hDc hIc hD64 hI64 (Or.inr hImax)]
    exact hU
  have hdisj : ∀ d ∈ D, ∀ i ∈ I, d.End < i.Start ∨ i.End < d.Start := by
    intro d hd i hi
    by_contra hcon
    have hdne := hDc.1 d hd
    have hine := hIc.1 i hi
    have hx1 : Covers D (max d.Start i.Start) := ⟨d, hd, by omega, by omega⟩
    have hx2 : Covers I (max d.Start i.Start) := ⟨i, hi, by omega, by omega⟩
    exact ((hDcov _).mp hx1).2 hx2
  have hDnn : ∀ d ∈ D, 0 ≤ d.Start := by
    intro d hd
    obtain ⟨r, hr, h, -⟩ := hDin d hd
    have := hnn r hr
    omega
  have hUcov := hUcov hdisj hDnn hInn
  have hUeq : U = rl1 := by
    apply canon_ext U rl1 hUc hc1
    intro x
    rw [hUcov x, hDcov x]
    have := hIcov x
    by_cases hx1 : Covers rl1 x <;> by_cases hx2 : Covers I x <;> simp [hx1, hx2] at this ⊢
  exact ⟨I, D, hI, hD2, by rw [hU2, hUeq]⟩

/-- C4 (amended), at `rl1 = [(0,5),(8,2^63-1)]`, `rl2 = [(2,3),(5,8)]`. -/
theorem subtract_union_intersection_witness :
    ∃ I D, RangeList.Intersection [⟨0, 5⟩, ⟨8, 2 ^ 63 - 1⟩] [⟨2, 3⟩, ⟨5, 8⟩] = some I ∧
      RangeList.Subtract [⟨0, 5⟩, ⟨8, 2 ^ 63 - 1⟩] I = some D ∧
      RangeList.Union D I = some [⟨0, 5⟩, ⟨8, 2 ^ 63 - 1⟩] :=
  subtract_union_intersection [⟨0, 5⟩, ⟨8, 2 ^ 63 - 1⟩] [⟨2, 3⟩, ⟨5, 8⟩] (by decide)
    (by decide) (by decide) (by decide) (by decide) (by decide)

end Fec
